import Mathlib

/-!
# Simulation state serialization of 0 A.D.

A shallow embedding of

* `source/simulation2/serialization/BinarySerializer.cpp` (class `CBinarySerializer`), and
* `source/simulation2/system/ComponentManagerSerialization.cpp`
  (the `CComponentManager` entry points `DumpDebugState`, `ComputeStateHash`,
  `SerializeState`, `DeserializeState`),

followed by theorems about them.

Conventions of the embedding.

* Machine integers are `Nat` / `Int`; every C++ conversion to a fixed width is an explicit
  reduction (`toU32`, `toI32`, ...).
* A byte is a `Nat` below 256; a byte string is a `List Nat`.
* `Put(name, data, len)` is the pure virtual sink of `CBinarySerializer`.  The serializer state
  records the bytes handed to `Put`, in order, in the field `out`.  The `name` argument of every
  `Put*` method is a label for debugging sinks only and carries no data; it is left out.
* C++ exceptions are explicit outcomes (`Outcome.throw`).
-/

namespace ZeroAD

/-! ## Machine words and their memory image -/

/-- Byte order of the host the serializer runs on. -/
inductive ByteOrder where
  | little
  | big
  deriving DecidableEq, Repr

/-- The `k`-th least significant byte of `v`. -/
def byteAt (v k : Nat) : Nat := (v / 2 ^ (8 * k)) % 256

/-- The little-endian byte string of the low `width` bytes of `v`. -/
def leBytes (width v : Nat) : List Nat := (List.range width).map (byteAt v)

/-- The bytes found at `(const u8*)&x` when `x` is a `width`-byte machine word holding the
unsigned value `v`: least significant byte first on a little-endian host, most significant byte
first on a big-endian host. -/
def memBytes (host : ByteOrder) (width v : Nat) : List Nat :=
  match host with
  | .little => leBytes width v
  | .big => (leBytes width v).reverse

/-- Conversion to `uint8_t`. -/
def toU8 (n : Nat) : Nat := n % 2 ^ 8

/-- Conversion to `uint32_t`. -/
def toU32 (n : Nat) : Nat := n % 2 ^ 32

/-- Conversion `(u32)value` of a signed value: its two's-complement bit pattern. -/
def i32ToU32 (i : Int) : Nat := (i % 2 ^ 32).toNat

/-- Conversion `(i32)value` of a `u32` bit pattern. -/
def u32ToI32 (n : Nat) : Int :=
  if n % 2 ^ 32 < 2 ^ 31 then ((n % 2 ^ 32 : Nat) : Int) else ((n % 2 ^ 32 : Nat) : Int) - 2 ^ 32

/-- Reversal of the four bytes of a 32-bit word. -/
def swap32 (v : Nat) : Nat :=
  byteAt v 0 * 2 ^ 24 + byteAt v 1 * 2 ^ 16 + byteAt v 2 * 2 ^ 8 + byteAt v 3

/-- Modelled from the spec: `to_le32` of `lib/byte_order.h`, which is not part of the analysed
sources.  The spec asks for "a single canonical byte order regardless of host hardware" and the
comment in `BinarySerializer.cpp` says numbers "are converted to little-endian byte strings":
`to_le32` turns a host-order word into the word whose memory image is the little-endian byte
string of the argument, i.e. it is the identity on a little-endian host and a byte swap on a
big-endian host. -/
def to_le32 (host : ByteOrder) (v : Nat) : Nat :=
  match host with
  | .little => toU32 v
  | .big => swap32 v

/-! ## Errors and outcomes -/

/-- The exceptions raised in the serialization code (`PSERROR_Serialize_*`,
`PSERROR_Deserialize_*`). -/
inductive PSERROR where
  | Serialize_ScriptError
  | Serialize_InvalidScriptValue
  | Serialize_InvalidCharInString
  | Serialize_OutOfBounds
  | Deserialize_ReadFailed
  | Deserialize_OutOfBounds
  | Deserialize_InvalidCharInString
  | Deserialize_ScriptError
  deriving DecidableEq, Repr

/-- How a call ends: it returns `a`, it throws, or the recursion budget of the model is used
up (the modelled call has not finished). -/
inductive Outcome (α : Type) where
  | ok (a : α)
  | throw (e : PSERROR)
  | outOfFuel
  deriving DecidableEq, Repr

/-! ## The scripting engine, as far as the serializer uses it -/

/-- Result type of `JS_TypeOfValue` (`JSType` of the engine's public headers). -/
inductive JSType where
  | JSTYPE_VOID
  | JSTYPE_OBJECT
  | JSTYPE_FUNCTION
  | JSTYPE_STRING
  | JSTYPE_NUMBER
  | JSTYPE_BOOLEAN
  | JSTYPE_NULL
  | JSTYPE_XML
  | JSTYPE_LIMIT
  deriving DecidableEq, Repr

/-- Modelled from the spec: the engine's value representation `jsval` (`js/jsapi.h` is not part
of the analysed sources).  The spec's Value is "a tagged union over {void, null, boolean, 32-bit
integer, double, string, array, object, backreference}"; arrays, objects, functions and
XML-like natives are all heap objects, referred to by their address.  A string is its sequence of
UTF-16 code units, a double its 64-bit IEEE bit pattern; `int i` is a number with the integer
value `i`, which the engine holds as a small integer when `i` fits the small-integer range
(see `JSVAL_IS_INT`). -/
inductive jsval where
  | void
  | null
  | object (obj : Nat)
  | string (chars : List Nat)
  | int (i : Int)
  | double (bits : Nat)
  | boolean (b : Bool)
  deriving DecidableEq, Repr

/-- Kind of a heap object, as seen through `JS_TypeOfValue` and `JS_IsArrayObject`. -/
inductive JSObjectKind where
  | plain
  | array
  | function
  | xml
  deriving DecidableEq, Repr

/-- A location registered with `JS_AddRoot`.  The serializer roots three kinds of location:
the slots `ida->vector[i]` of the id array enumerated for object `obj`, the local `idstr`
holding the name of property `i` of `obj`, and the key of a backref table entry. -/
inductive Root where
  | idSlot (obj i : Nat)
  | idstr (obj i : Nat)
  | backref (obj : Nat)
  deriving DecidableEq, Repr

/-- Everything outside `BinarySerializer.cpp` that the binary serializer depends on, taken as
parameters: the host byte order, the tag values of `SerializedScriptTypes.h`, the UTF-8
conversion of `lib/wchar.h` and the scripting engine API of `js/jsapi.h`.  Each API entry that
can fail in the source returns `none` (or `false`) for failure. -/
structure Env where
  /-- Byte order of the host. -/
  host : ByteOrder
  SCRIPT_TYPE_VOID : Nat
  SCRIPT_TYPE_NULL : Nat
  SCRIPT_TYPE_ARRAY : Nat
  SCRIPT_TYPE_OBJECT : Nat
  SCRIPT_TYPE_STRING : Nat
  SCRIPT_TYPE_INT : Nat
  SCRIPT_TYPE_DOUBLE : Nat
  SCRIPT_TYPE_BOOLEAN : Nat
  SCRIPT_TYPE_BACKREF : Nat
  /-- Lower bound `JSVAL_INT_MIN` of the engine's small integers. -/
  JSVAL_INT_MIN : Int
  /-- Upper bound `JSVAL_INT_MAX` of the engine's small integers. -/
  JSVAL_INT_MAX : Int
  /-- Conversion `utf8_from_wstring`; `none` when it reports an error. -/
  utf8_from_wstring : List Nat → Option (List Nat)
  /-- Kind of the heap object at an address. -/
  kindOf : Nat → JSObjectKind
  /-- Result of `JS_Enumerate`: the ids of the enumerable properties, in the engine's order. -/
  JS_Enumerate : Nat → Option (List Nat)
  /-- Result of `JS_IdToValue`. -/
  JS_IdToValue : Nat → Option jsval
  /-- Result of `JS_ValueToString`: the characters of the string, `none` for `NULL`. -/
  JS_ValueToString : jsval → Option (List Nat)
  /-- Result of `JS_GetUCPropertyAttributes`: `none` on failure, else `(attrs, found)`. -/
  JS_GetUCPropertyAttributes : Nat → List Nat → Option (Nat × Bool)
  /-- Result of `JS_GetUCProperty`. -/
  JS_GetUCProperty : Nat → List Nat → Option jsval
  /-- Whether `JS_AddRoot` succeeds for a location. -/
  JS_AddRoot : Root → Bool
  /-- Attribute bit `JSPROP_GETTER` of the engine. -/
  JSPROP_GETTER : Nat

/-- Modelled from the spec: `JS_TypeOfValue` of `js/jsapi.h`.  Functions and XML-like natives
are heap objects of their own kind; `null` is an object-typed value (the source notes that
`JSTYPE_NULL` "is never actually returned"). -/
def JS_TypeOfValue (env : Env) : jsval → JSType
  | .void => .JSTYPE_VOID
  | .null => .JSTYPE_OBJECT
  | .object obj =>
    match env.kindOf obj with
    | .function => .JSTYPE_FUNCTION
    | .xml => .JSTYPE_XML
    | _ => .JSTYPE_OBJECT
  | .string _ => .JSTYPE_STRING
  | .int _ => .JSTYPE_NUMBER
  | .double _ => .JSTYPE_NUMBER
  | .boolean _ => .JSTYPE_BOOLEAN

/-- Modelled from the spec: `JS_IsArrayObject` of `js/jsapi.h`. -/
def JS_IsArrayObject (env : Env) (obj : Nat) : Bool :=
  match env.kindOf obj with
  | .array => true
  | _ => false

/-! ## Serializer state -/

/-- State of one `CBinarySerializer` together with the engine's root set:
`out` are the bytes handed to `Put` so far, `backrefs` is `m_ScriptBackrefs`
(a `std::map<JSObject*, u32>`, kept as an association list in ascending key order) and `roots`
are the locations currently registered with `JS_AddRoot`. -/
structure Ser where
  out : List Nat
  backrefs : List (Nat × Nat)
  roots : List Root
  deriving DecidableEq, Repr

/-- A freshly constructed serializer: nothing written, empty backref table, no roots. -/
def Ser.fresh : Ser := ⟨[], [], []⟩

/-- The method `Put(name, data, len)`: hands `data` to the sink. -/
def Put (data : List Nat) (s : Ser) : Ser := { s with out := s.out ++ data }

namespace CBinarySerializer

/-- The method `PutNumber(const char*, uint8_t)`. -/
def PutNumber_u8 (_env : Env) (value : Nat) (s : Ser) : Ser :=
  Put (memBytes _env.host 1 (toU8 value)) s

/-- The method `PutNumber(const char*, int32_t)`. -/
def PutNumber_i32 (env : Env) (value : Int) (s : Ser) : Ser :=
  let v : Int := u32ToI32 (to_le32 env.host (i32ToU32 value))
  Put (memBytes env.host 4 (i32ToU32 v)) s

/-- The method `PutNumber(const char*, uint32_t)`. -/
def PutNumber_u32 (env : Env) (value : Nat) (s : Ser) : Ser :=
  let v : Nat := to_le32 env.host (toU32 value)
  Put (memBytes env.host 4 v) s

/-- The method `PutNumber(const char*, float)`; the argument is the 32-bit IEEE bit pattern. -/
def PutNumber_float (env : Env) (value : Nat) (s : Ser) : Ser :=
  Put (memBytes env.host 4 value) s

/-- The method `PutNumber(const char*, double)`; the argument is the 64-bit IEEE bit pattern. -/
def PutNumber_double (env : Env) (value : Nat) (s : Ser) : Ser :=
  Put (memBytes env.host 8 value) s

/-- The method `PutString`: the length as `uint32_t`, then the bytes of the string. -/
def PutString (env : Env) (value : List Nat) (s : Ser) : Ser :=
  Put value (PutNumber_u32 env (toU32 value.length) s)

end CBinarySerializer

/-! ## Ordered maps (`std::map`) -/

/-- Lookup in a `std::map` kept as an association list (`find`). -/
def StdMap.find {K V : Type} [DecidableEq K] (k : K) : List (K × V) → Option V
  | [] => none
  | (k1, v1) :: rest => if k = k1 then some v1 else StdMap.find k rest

/-- Insertion into a `std::map` kept in ascending key order (`insert`): an existing entry for the
key is left as it is. -/
def StdMap.insert {K V : Type} [LT K] [DecidableRel (fun a b : K => a < b)] [DecidableEq K]
    (k : K) (v : V) : List (K × V) → List (K × V)
  | [] => [(k, v)]
  | (k1, v1) :: rest =>
    if k < k1 then (k, v) :: (k1, v1) :: rest
    else if k = k1 then (k1, v1) :: rest
    else (k1, v1) :: StdMap.insert k v rest

/-! ## Value macros of the engine -/

/-- Modelled from the spec: `JSVAL_IS_NULL` of `js/jsapi.h`. -/
def JSVAL_IS_NULL : jsval → Bool
  | .null => true
  | _ => false

/-- Modelled from the spec: `JSVAL_TO_OBJECT` of `js/jsapi.h` (only meaningful on object
values). -/
def JSVAL_TO_OBJECT : jsval → Nat
  | .object obj => obj
  | _ => 0

/-- Modelled from the spec: `JSVAL_IS_INT` of `js/jsapi.h`: the value is one of the engine's
small integers.  The spec: "an integer value must fit the host runtime's native small-integer
range, else it is encoded as Double"; so a number with an integer value is a small integer
when the value lies in `[JSVAL_INT_MIN, JSVAL_INT_MAX]`, and is a double otherwise. -/
def JSVAL_IS_INT (env : Env) : jsval → Bool
  | .int i => decide (env.JSVAL_INT_MIN ≤ i ∧ i ≤ env.JSVAL_INT_MAX)
  | _ => false

/-- Modelled from the spec: `JSVAL_TO_INT` of `js/jsapi.h`. -/
def JSVAL_TO_INT : jsval → Int
  | .int i => i
  | _ => 0

/-- Modelled from the spec: `*JSVAL_TO_DOUBLE(val)` of `js/jsapi.h`, as a bit pattern.  The bit
pattern of a number given by its integer value is not modelled (floating point). -/
def JSVAL_TO_DOUBLE : jsval → Nat
  | .double bits => bits
  | _ => 0

/-- Modelled from the spec: `JSVAL_TO_STRING` of `js/jsapi.h`, as the string's characters. -/
def JSVAL_TO_STRING : jsval → List Nat
  | .string chars => chars
  | _ => []

/-- Modelled from the spec: `JSVAL_TO_BOOLEAN` of `js/jsapi.h`. -/
def JSVAL_TO_BOOLEAN : jsval → Bool
  | .boolean b => b
  | _ => false

/-- Conversion `(int32_t)value`. -/
def toI32 (i : Int) : Int := u32ToI32 (i32ToU32 i)

/-- The bounds `JSVAL_INT_MIN` and `JSVAL_INT_MAX` are `int32_t` values (the source notes
that "jsvals are limited to JSVAL_INT_BITS == 31 bits, even on 64-bit platforms"). -/
def SmallIntRangeIsInt32 (env : Env) : Prop :=
  -(2 ^ 31) ≤ env.JSVAL_INT_MIN ∧ env.JSVAL_INT_MAX < 2 ^ 31

/-! ## The `ISerializer` front end -/

namespace ISerializer

/-- Modelled from the spec: `ISerializer::NumberU8_Unbounded` (`ISerializer.cpp` is not part of
the analysed sources): "unbounded, which always uses the type's natural full width". -/
def NumberU8_Unbounded (env : Env) (value : Nat) (s : Ser) : Ser :=
  CBinarySerializer.PutNumber_u8 env value s

/-- Modelled from the spec: `ISerializer::NumberU32_Unbounded`. -/
def NumberU32_Unbounded (env : Env) (value : Nat) (s : Ser) : Ser :=
  CBinarySerializer.PutNumber_u32 env value s

/-- Modelled from the spec: `ISerializer::NumberI32_Unbounded`. -/
def NumberI32_Unbounded (env : Env) (value : Int) (s : Ser) : Ser :=
  CBinarySerializer.PutNumber_i32 env value s

/-- Modelled from the spec: `ISerializer::NumberDouble_Unbounded`. -/
def NumberDouble_Unbounded (env : Env) (value : Nat) (s : Ser) : Ser :=
  CBinarySerializer.PutNumber_double env value s

/-- Modelled from the spec: `ISerializer::NumberI32`, the bounded encoder: "the caller supplies
an inclusive [min,max] range"; a value outside the range is rejected
(`PSERROR_Serialize_OutOfBounds`), a value inside is written at full width. -/
def NumberI32 (env : Env) (value lower upper : Int) (s : Ser) : Outcome Unit × Ser :=
  if lower ≤ value ∧ value ≤ upper then (.ok (), CBinarySerializer.PutNumber_i32 env value s)
  else (.throw .Serialize_OutOfBounds, s)

/-- Modelled from the spec: `ISerializer::NumberU8`, the bounded encoder for `uint8_t`. -/
def NumberU8 (env : Env) (value lower upper : Nat) (s : Ser) : Outcome Unit × Ser :=
  if lower ≤ value ∧ value ≤ upper then (.ok (), CBinarySerializer.PutNumber_u8 env value s)
  else (.throw .Serialize_OutOfBounds, s)

/-- Modelled from the spec: `ISerializer::StringASCII`: a "bounded ASCII string"; the length
must lie in `[minlength, maxlength]` and every byte must be a non-zero 7-bit character. -/
def StringASCII (env : Env) (value : List Nat) (minlength maxlength : Nat) (s : Ser) :
    Outcome Unit × Ser :=
  if minlength ≤ value.length ∧ value.length ≤ maxlength then
    if value.all (fun c => decide (c ≠ 0 ∧ c < 128)) then
      (.ok (), CBinarySerializer.PutString env value s)
    else (.throw .Serialize_InvalidCharInString, s)
  else (.throw .Serialize_OutOfBounds, s)

end ISerializer

namespace CBinarySerializer

/-- The method `PutBool`. -/
def PutBool (env : Env) (value : Bool) (s : Ser) : Outcome Unit × Ser :=
  ISerializer.NumberU8 env (if value then 1 else 0) 0 1 s

/-- The method `ScriptString`: the string converted to UTF-8 and written with `PutString`. -/
def ScriptString (env : Env) (string : List Nat) (s : Ser) : Outcome Unit × Ser :=
  match env.utf8_from_wstring string with
  | none => (.throw .Serialize_InvalidCharInString, s)
  | some str8 => (.ok (), PutString env str8 s)

/-- The method `GetScriptBackrefTag`: the tag of an object already in `m_ScriptBackrefs`, or
`0` after entering it with the next tag and rooting the new entry. -/
def GetScriptBackrefTag (env : Env) (obj : Nat) (s : Ser) : Outcome Nat × Ser :=
  match StdMap.find obj s.backrefs with
  | some tag => (.ok tag, s)
  | none =>
    let s1 : Ser :=
      { s with backrefs := StdMap.insert obj (toU32 (toU32 s.backrefs.length + 1)) s.backrefs }
    if env.JS_AddRoot (.backref obj) then
      (.ok 0, { s1 with roots := Root.backref obj :: s1.roots })
    else (.throw .Serialize_ScriptError, s1)

/-- The method `FreeScriptBackrefs`: unroots every entry and clears the table.  Releasing a
root is taken not to fail (the spec: "the pin is guaranteed released"). -/
def FreeScriptBackrefs (s : Ser) : Ser :=
  { s with
    roots := s.backrefs.foldl (fun r e => r.erase (Root.backref e.1)) s.roots
    backrefs := [] }

/-- Constructor of `IdArrayWrapper`: roots `n` slots of the id array of `obj` one by one,
starting with slot `i`.  A failing `JS_AddRoot` throws out of the constructor, so the destructor never runs
and the slots rooted so far stay rooted. -/
def IdArrayWrapper_ctor (env : Env) (obj : Nat) : Nat → Nat → Ser → Outcome Unit × Ser
  | _, 0, s => (.ok (), s)
  | i, n + 1, s =>
    if env.JS_AddRoot (.idSlot obj i) then
      IdArrayWrapper_ctor env obj (i + 1) n { s with roots := Root.idSlot obj i :: s.roots }
    else (.throw .Serialize_ScriptError, s)

/-- Destructor of `IdArrayWrapper`: unroots the `length` slots of the id array of `obj`. -/
def IdArrayWrapper_dtor (obj length : Nat) (s : Ser) : Ser :=
  { s with roots := (List.range length).foldl (fun r i => r.erase (Root.idSlot obj i)) s.roots }

/-- The statements of one iteration of the property loop of `HandleScriptVal` that run while
the `RootWrapper` of `idstr` is alive; `handle` is the recursive call. -/
def propBody (env : Env) (handle : jsval → Ser → Outcome Unit × Ser) (obj : Nat)
    (idstr : List Nat) (s : Ser) : Outcome Unit × Ser :=
  match env.JS_GetUCPropertyAttributes obj idstr with
  | none => (.throw .Serialize_ScriptError, s)
  | some (attrs, found) =>
    if !found then (.throw .Serialize_ScriptError, s)
    else if attrs &&& env.JSPROP_GETTER ≠ 0 then (.throw .Serialize_ScriptError, s)
    else
      match ScriptString env idstr s with
      | (.ok (), s1) =>
        match env.JS_GetUCProperty obj idstr with
        | none => (.throw .Serialize_ScriptError, s1)
        | some propval => handle propval s1
      | r => r

/-- One iteration of the property loop of `HandleScriptVal`, for the id at index `i`. -/
def propStep (env : Env) (handle : jsval → Ser → Outcome Unit × Ser) (obj i id : Nat)
    (s : Ser) : Outcome Unit × Ser :=
  match env.JS_IdToValue id with
  | none => (.throw .Serialize_ScriptError, s)
  | some idval =>
    match env.JS_ValueToString idval with
    | none => (.throw .Serialize_ScriptError, s)
    | some idstr =>
      if env.JS_AddRoot (.idstr obj i) then
        let r := propBody env handle obj idstr { s with roots := Root.idstr obj i :: s.roots }
        (r.1, { r.2 with roots := r.2.roots.erase (Root.idstr obj i) })
      else (.throw .Serialize_ScriptError, s)

/-- The property loop `for (jsint i = 0; i < ida->length; ++i)` of `HandleScriptVal`, from
index `i` over the remaining ids. -/
def propLoop (env : Env) (handle : jsval → Ser → Outcome Unit × Ser) (obj : Nat) :
    Nat → List Nat → Ser → Outcome Unit × Ser
  | _, [], s => (.ok (), s)
  | i, id :: ids, s =>
    match propStep env handle obj i id s with
    | (.ok (), s1) => propLoop env handle obj (i + 1) ids s1
    | r => r

/-- The method `HandleScriptVal`.  The first argument bounds the depth of the recursion
through property values. -/
def HandleScriptVal (env : Env) : Nat → jsval → Ser → Outcome Unit × Ser
  | 0, _, s => (.outOfFuel, s)
  | fuel + 1, val, s =>
    match JS_TypeOfValue env val with
    | .JSTYPE_VOID => (.ok (), ISerializer.NumberU8_Unbounded env env.SCRIPT_TYPE_VOID s)
    | .JSTYPE_NULL => (.ok (), ISerializer.NumberU8_Unbounded env env.SCRIPT_TYPE_NULL s)
    | .JSTYPE_OBJECT =>
      if JSVAL_IS_NULL val then
        (.ok (), ISerializer.NumberU8_Unbounded env env.SCRIPT_TYPE_NULL s)
      else
        let obj := JSVAL_TO_OBJECT val
        match GetScriptBackrefTag env obj s with
        | (.ok tag, s1) =>
          if tag ≠ 0 then
            (.ok (), ISerializer.NumberU32_Unbounded env tag
              (ISerializer.NumberU8_Unbounded env env.SCRIPT_TYPE_BACKREF s1))
          else
            let s2 :=
              if JS_IsArrayObject env obj then
                ISerializer.NumberU8_Unbounded env env.SCRIPT_TYPE_ARRAY s1
              else ISerializer.NumberU8_Unbounded env env.SCRIPT_TYPE_OBJECT s1
            match env.JS_Enumerate obj with
            | none => (.throw .Serialize_ScriptError, s2)
            | some ida =>
              match IdArrayWrapper_ctor env obj 0 ida.length s2 with
              | (.ok (), s3) =>
                let r := propLoop env (HandleScriptVal env fuel) obj 0 ida
                  (ISerializer.NumberU32_Unbounded env (toU32 ida.length) s3)
                (r.1, IdArrayWrapper_dtor obj ida.length r.2)
              | (.throw e, s3) => (.throw e, s3)
              | (.outOfFuel, s3) => (.outOfFuel, s3)
        | (.throw e, s1) => (.throw e, s1)
        | (.outOfFuel, s1) => (.outOfFuel, s1)
    | .JSTYPE_FUNCTION => (.throw .Serialize_InvalidScriptValue, s)
    | .JSTYPE_STRING =>
      ScriptString env (JSVAL_TO_STRING val)
        (ISerializer.NumberU8_Unbounded env env.SCRIPT_TYPE_STRING s)
    | .JSTYPE_NUMBER =>
      if JSVAL_IS_INT env val then
        ISerializer.NumberI32 env (toI32 (JSVAL_TO_INT val)) (toI32 env.JSVAL_INT_MIN)
          (toI32 env.JSVAL_INT_MAX) (ISerializer.NumberU8_Unbounded env env.SCRIPT_TYPE_INT s)
      else
        (.ok (), ISerializer.NumberDouble_Unbounded env (JSVAL_TO_DOUBLE val)
          (ISerializer.NumberU8_Unbounded env env.SCRIPT_TYPE_DOUBLE s))
    | .JSTYPE_BOOLEAN =>
      (.ok (), ISerializer.NumberU8_Unbounded env (if JSVAL_TO_BOOLEAN val then 1 else 0)
        (ISerializer.NumberU8_Unbounded env env.SCRIPT_TYPE_BOOLEAN s))
    | .JSTYPE_XML => (.throw .Serialize_InvalidScriptValue, s)
    | .JSTYPE_LIMIT => (.throw .Serialize_InvalidScriptValue, s)

/-- The method `PutScriptVal`. -/
def PutScriptVal (env : Env) (fuel : Nat) (value : jsval) (s : Ser) : Outcome Unit × Ser :=
  HandleScriptVal env fuel value s

/-- The tag `HandleScriptVal` writes for a heap object it serializes in full:
`SCRIPT_TYPE_ARRAY` for an array, `SCRIPT_TYPE_OBJECT` otherwise. -/
def objectTag (env : Env) (obj : Nat) : Nat :=
  if JS_IsArrayObject env obj then env.SCRIPT_TYPE_ARRAY else env.SCRIPT_TYPE_OBJECT

/-- The traversal relation of `HandleScriptVal`: `Reaches env fuel val s v t` holds when the
call `HandleScriptVal(val)` made in state `s` leads to a call `HandleScriptVal(v)` in state
`t`, either because it is that call (`self`) or because `val` is an object seen for the first
time whose property loop, having dealt with the properties `pre`, gets as far as the recursive
call for the next property and the traversal of that property value reaches `v`
(`property`). -/
inductive Reaches (env : Env) : Nat → jsval → Ser → jsval → Ser → Prop
  | self (fuel : Nat) (val : jsval) (s : Ser) : Reaches env (fuel + 1) val s val s
  | property (fuel obj : Nat) (s s1 s3 : Ser) (ida pre : List Nat) (id : Nat) (post : List Nat)
      (sk : Ser) (idval : jsval) (idstr : List Nat) (attrs : Nat) (t : Ser) (propval v : jsval)
      (t1 : Ser) :
      JS_TypeOfValue env (.object obj) = .JSTYPE_OBJECT →
      GetScriptBackrefTag env obj s = (.ok 0, s1) →
      env.JS_Enumerate obj = some ida →
      IdArrayWrapper_ctor env obj 0 ida.length
        (ISerializer.NumberU8_Unbounded env (objectTag env obj) s1) = (.ok (), s3) →
      ida = pre ++ id :: post →
      propLoop env (HandleScriptVal env fuel) obj 0 pre
        (ISerializer.NumberU32_Unbounded env (toU32 ida.length) s3) = (.ok (), sk) →
      env.JS_IdToValue id = some idval →
      env.JS_ValueToString idval = some idstr →
      env.JS_AddRoot (.idstr obj pre.length) = true →
      env.JS_GetUCPropertyAttributes obj idstr = some (attrs, true) →
      attrs &&& env.JSPROP_GETTER = 0 →
      ScriptString env idstr { sk with roots := Root.idstr obj pre.length :: sk.roots }
        = (.ok (), t) →
      env.JS_GetUCProperty obj idstr = some propval →
      Reaches env fuel propval t v t1 →
      Reaches env (fuel + 1) (.object obj) s v t1

/-- The encoding of a run of properties: `PropsEncoded env fuel obj i ids s body s2` holds when,
starting in state `s` with the property at index `i`, the properties `ids` of `obj` are written
as `body`, leaving state `s2`: for each property in order, its name as a codec string (the
`u32` length and the UTF-8 bytes of `PutString`) followed by the bytes that the recursive
`HandleScriptVal` writes for its value. -/
inductive PropsEncoded (env : Env) (fuel obj : Nat) :
    Nat → List Nat → Ser → List Nat → Ser → Prop
  | nil (i : Nat) (s : Ser) : PropsEncoded env fuel obj i [] s [] s
  | cons (i id : Nat) (ids : List Nat) (s : Ser) (idval : jsval) (idstr str8 : List Nat)
      (propval : jsval) (t1 : Ser) (valueBytes rest : List Nat) (s2 : Ser) :
      env.JS_IdToValue id = some idval →
      env.JS_ValueToString idval = some idstr →
      env.utf8_from_wstring idstr = some str8 →
      env.JS_GetUCProperty obj idstr = some propval →
      HandleScriptVal env fuel propval
        (PutString env str8 { s with roots := Root.idstr obj i :: s.roots }) = (.ok (), t1) →
      t1.out = s.out ++ (leBytes 4 str8.length ++ str8) ++ valueBytes →
      PropsEncoded env fuel obj (i + 1) ids
        { t1 with roots := t1.roots.erase (Root.idstr obj i) } rest s2 →
      PropsEncoded env fuel obj i (id :: ids) s
        (leBytes 4 str8.length ++ str8 ++ valueBytes ++ rest) s2

end CBinarySerializer

/-- The state `s1` continues the state `s`: the output of `s` is an initial segment of the
output of `s1` and every backref table entry of `s` is an entry of `s1`. -/
def Ser.Extends (s s1 : Ser) : Prop :=
  (∃ b, s1.out = s.out ++ b) ∧
  ∀ k t, StdMap.find k s.backrefs = some t → StdMap.find k s1.backrefs = some t

/-! ## The component manager -/

/-- Little-endian value of a byte string. -/
def leValue : List Nat → Nat
  | [] => 0
  | b :: bs => b + 256 * leValue bs

namespace IDeserializer

/-- Modelled from the spec: `IDeserializer::NumberU32_Unbounded` on a `CStdDeserializer`
(neither is part of the analysed sources): "decoding side mirrors the above"; four bytes are
taken from the input and read in the canonical (little-endian) order; an input that ends early
is a failure. -/
def NumberU32_Unbounded (input : List Nat) : Outcome Nat × List Nat :=
  if 4 ≤ input.length then (.ok (leValue (input.take 4)), input.drop 4)
  else (.throw .Deserialize_ReadFailed, input)

/-- Modelled from the spec: `IDeserializer::StringASCII` on a `CStdDeserializer`: the mirror of
`ISerializer::StringASCII`, a 32-bit length within `[minlength, maxlength]` followed by that
many non-zero 7-bit characters. -/
def StringASCII (minlength maxlength : Nat) (input : List Nat) : Outcome (List Nat) × List Nat :=
  match NumberU32_Unbounded input with
  | (.ok len, rest) =>
    if minlength ≤ len ∧ len ≤ maxlength then
      if len ≤ rest.length then
        if (rest.take len).all (fun c => decide (c ≠ 0 ∧ c < 128)) then
          (.ok (rest.take len), rest.drop len)
        else (.throw .Deserialize_InvalidCharInString, rest)
      else (.throw .Deserialize_ReadFailed, rest)
    else (.throw .Deserialize_OutOfBounds, rest)
  | (.throw e, rest) => (.throw e, rest)
  | (.outOfFuel, rest) => (.outOfFuel, rest)

end IDeserializer

/-- The type `ComponentType`, as far as serialization uses it: the registered name. -/
structure ComponentType where
  name : List Nat
  deriving DecidableEq, Repr

/-- The collaborators of `CComponentManager` that lie outside the analysed sources, taken as
parameters.  `C` is the state of a component instance, `P` a `CParamNode`.

* `Serialize c` stands for `IComponent::Serialize` on a binary sink: the bytes the component
  hands to the sink and the exception it ends with, if any.
* `Deserialize c params input` stands for `IComponent::Deserialize`: the outcome, the new state
  of the instance and the input left over.
* `alloc cid ent` is the component factory (`none` when it fails).
* `LookupCID` is the name→id registry (`CID__Invalid` for an unknown name).
* `LoadLatestTemplate` and `GetChild` are the template resolver and `CParamNode::GetChild`
  (`none` for `NULL`).
* `ComputeHash` is the digest the hash sink computes from the bytes fed to it. -/
structure Sim (C P : Type) where
  env : Env
  CID__Invalid : Int
  CID_TemplateManager : Int
  SYSTEM_ENTITY : Nat
  LookupCID : List Nat → Int
  alloc : Int → Nat → Option C
  Serialize : C → List Nat × Option PSERROR
  Deserialize : C → P → List Nat → Outcome Unit × C × List Nat
  LoadLatestTemplate : C → Nat → Option P
  GetChild : P → List Nat → Option P
  noParam : P
  ComputeHash : List Nat → List Nat

/-- The type `std::map<ComponentTypeId, std::map<entity_id_t, IComponent*> >` of
`m_ComponentsByTypeId`, both maps as association lists in iteration order. -/
abbrev ComponentTable (C : Type) := List (Int × List (Nat × C))

/-- The members of `CComponentManager` used by the serialization entry points. -/
structure CComponentManager (C : Type) where
  m_ComponentTypesById : List (Int × ComponentType)
  m_ComponentsByTypeId : ComponentTable C

/-- The keys of a `std::map` are strictly ascending in iteration order. -/
def StdMap.Ordered {K V : Type} [LT K] (m : List (K × V)) : Prop :=
  (m.map Prod.fst).Pairwise (fun a b => a < b)

/-- Well-formedness of a `ComponentTable`: both levels are `std::map`s (strictly ascending
keys), a `ComponentTypeId` is an `int` and an `entity_id_t` a `u32`. -/
def ComponentTable.WF {C : Type} (t : ComponentTable C) : Prop :=
  StdMap.Ordered t ∧
  ∀ p ∈ t, (-(2 ^ 31) ≤ p.1 ∧ p.1 < 2 ^ 31) ∧ StdMap.Ordered p.2 ∧ ∀ q ∈ p.2, q.1 < 2 ^ 32

namespace CComponentManager

variable {C P : Type}

/-- The call `eit->second->Serialize(serializer)` on a binary sink. -/
def componentSerialize (w : Sim C P) (c : C) (s : Ser) : Outcome Unit × Ser :=
  match (w.Serialize c).2 with
  | none => (.ok (), Put (w.Serialize c).1 s)
  | some e => (.throw e, Put (w.Serialize c).1 s)

/-- The inner loop of `ComputeStateHash` and `SerializeState`: for each entity, its id and the
component's own output. -/
def serializeEntities (w : Sim C P) : List (Nat × C) → Ser → Outcome Unit × Ser
  | [], s => (.ok (), s)
  | (ent, c) :: rest, s =>
    match componentSerialize w c (ISerializer.NumberU32_Unbounded w.env ent s) with
    | (.ok (), s1) => serializeEntities w rest s1
    | r => r

/-- The loop of `ComputeStateHash` over `m_ComponentsByTypeId`. -/
def hashTypes (w : Sim C P) : ComponentTable C → Ser → Outcome Unit × Ser
  | [], s => (.ok (), s)
  | (cid, ents) :: rest, s =>
    if ents.isEmpty then hashTypes w rest s
    else
      match serializeEntities w ents (ISerializer.NumberI32_Unbounded w.env cid s) with
      | (.ok (), s1) => hashTypes w rest s1
      | r => r

/-- The method `ComputeStateHash`: the outcome (the returned `bool`, or the exception that escapes) and
the value of `outHash` afterwards.  The hash sink is a binary serializer whose `Put` feeds the
hash; `outHash` is assigned the digest of everything fed. -/
def ComputeStateHash (w : Sim C P) (m : CComponentManager C) (outHash : List Nat) :
    Outcome Bool × List Nat :=
  match hashTypes w m.m_ComponentsByTypeId Ser.fresh with
  | (.ok (), s) => (.ok true, w.ComputeHash s.out)
  | (.throw e, _) => (.throw e, outHash)
  | (.outOfFuel, _) => (.outOfFuel, outHash)

/-- The bytes `ComputeStateHash` feeds to the hash sink. -/
def hashFeed (w : Sim C P) (m : CComponentManager C) : List Nat :=
  (hashTypes w m.m_ComponentsByTypeId Ser.fresh).2.out

/-- The first loop of `SerializeState`: `numComponentTypes++` for every non-empty type. -/
def countComponentTypes : ComponentTable C → Nat → Nat
  | [], numComponentTypes => numComponentTypes
  | (_, ents) :: rest, numComponentTypes =>
    if ents.isEmpty then countComponentTypes rest numComponentTypes
    else countComponentTypes rest (toU32 (numComponentTypes + 1))

/-- The second loop of `SerializeState`.  `.ok false` is the early `return false`, `.ok true`
the end of the loop. -/
def serializeTypes (w : Sim C P) (types : List (Int × ComponentType)) :
    ComponentTable C → Ser → Outcome Bool × Ser
  | [], s => (.ok true, s)
  | (cid, ents) :: rest, s =>
    if ents.isEmpty then serializeTypes w types rest s
    else
      match StdMap.find cid types with
      | none => (.ok false, s)
      | some ct =>
        match ISerializer.StringASCII w.env ct.name 0 255 s with
        | (.ok (), s1) =>
          match serializeEntities w ents
              (ISerializer.NumberU32_Unbounded w.env (toU32 ents.length) s1) with
          | (.ok (), s2) => serializeTypes w types rest s2
          | (.throw e, s2) => (.throw e, s2)
          | (.outOfFuel, s2) => (.outOfFuel, s2)
        | (.throw e, s1) => (.throw e, s1)
        | (.outOfFuel, s1) => (.outOfFuel, s1)

/-- The method `SerializeState`, writing to the stream behind serializer state `s`. -/
def SerializeState (w : Sim C P) (m : CComponentManager C) (s : Ser) : Outcome Bool × Ser :=
  let numComponentTypes := countComponentTypes m.m_ComponentsByTypeId 0
  serializeTypes w m.m_ComponentTypesById m.m_ComponentsByTypeId
    (ISerializer.NumberU32_Unbounded w.env numComponentTypes s)

/-- The bytes `SerializeState` writes to an empty stream. -/
def serializedBytes (w : Sim C P) (m : CComponentManager C) : List Nat :=
  (SerializeState w m Ser.fresh).2.out

/-- Lookup of the component of type `cid` for entity `ent`. -/
def tableFind (cid : Int) (ent : Nat) (t : ComponentTable C) : Option C :=
  match StdMap.find cid t with
  | some ents => StdMap.find ent ents
  | none => none

/-- The statement `m_ComponentsByTypeId[cid].insert(std::make_pair(ent, component))`. -/
def tableInsert (cid : Int) (ent : Nat) (c : C) : ComponentTable C → ComponentTable C
  | [] => [(cid, [(ent, c)])]
  | (k, ents) :: rest =>
    if cid < k then (cid, [(ent, c)]) :: (k, ents) :: rest
    else if cid = k then (k, StdMap.insert ent c ents) :: rest
    else (k, ents) :: tableInsert cid ent c rest

/-- A change of state of the instance stored for `(cid, ent)` (the table holds pointers, so a
component that changes is seen changed through the table). -/
def tableAssign (cid : Int) (ent : Nat) (c : C) (t : ComponentTable C) : ComponentTable C :=
  t.map fun p =>
    if p.1 = cid then (p.1, p.2.map fun q => if q.1 = ent then (q.1, c) else q) else p

/-- Modelled from the spec: `CComponentManager::ConstructComponent` (`ComponentManager.cpp` is
not part of the analysed sources): "constructs a fresh component instance of that type for that
entity via a factory".  The table being a map, there is one instance per type and entity: the
call fails (`NULL`) when the factory fails or an instance exists already, else the new instance
is entered into the table. -/
def ConstructComponent (w : Sim C P) (t : ComponentTable C) (ent : Nat) (cid : Int) :
    Option C × ComponentTable C :=
  match tableFind cid ent t with
  | some _ => (none, t)
  | none =>
    match w.alloc cid ent with
    | none => (none, t)
    | some c => (some c, tableInsert cid ent c t)

/-- Modelled from the spec: `CComponentManager::DestroyAllComponents` (`ComponentManager.cpp` is
not part of the analysed sources): "destroys all existing components first (clean-slate
reconstruction)". -/
def DestroyAllComponents (m : CComponentManager C) : CComponentManager C :=
  { m with m_ComponentsByTypeId := [] }

/-- What `DeserializeState` works on: the component table, the unread input of the stream and
the local `templateManager`. -/
structure DeserState (C : Type) where
  table : ComponentTable C
  input : List Nat
  templateManager : Option C

/-- The parameter node handed to a component of type name `ctname` of entity `ent`. -/
def paramNodeFor (w : Sim C P) (templateManager : Option C) (ent : Nat) (ctname : List Nat) :
    P :=
  let cmpTemplate : Option P :=
    match templateManager with
    | some tm =>
      if ent ≠ w.SYSTEM_ENTITY then
        match w.LoadLatestTemplate tm ent with
        | some entTemplate => w.GetChild entTemplate ctname
        | none => none
      else none
    | none => none
  match cmpTemplate with
  | some cmpTemplate => cmpTemplate
  | none => w.noParam

/-- The loop `for (size_t j = 0; j < numComponents; ++j)` of `DeserializeState`, with the
number of iterations left.  `.ok false` is an early `return false`. -/
def deserializeEntities (w : Sim C P) (ctname : List Nat) (ctid : Int) :
    Nat → DeserState C → Outcome Bool × DeserState C
  | 0, d => (.ok true, d)
  | n + 1, d =>
    match IDeserializer.NumberU32_Unbounded d.input with
    | (.ok ent, rest) =>
      match ConstructComponent w d.table ent ctid with
      | (none, table1) => (.ok false, { d with table := table1, input := rest })
      | (some component, table1) =>
        let paramNode := paramNodeFor w d.templateManager ent ctname
        match w.Deserialize component paramNode rest with
        | (.ok (), component1, rest1) =>
          deserializeEntities w ctname ctid n
            { table := tableAssign ctid ent component1 table1
              input := rest1
              templateManager :=
                if ent = w.SYSTEM_ENTITY ∧ ctid = w.CID_TemplateManager then some component1
                else d.templateManager }
        | (.throw e, component1, rest1) =>
          (.throw e, { d with table := tableAssign ctid ent component1 table1, input := rest1 })
        | (.outOfFuel, component1, rest1) =>
          (.outOfFuel, { d with table := tableAssign ctid ent component1 table1, input := rest1 })
    | (.throw e, rest) => (.throw e, { d with input := rest })
    | (.outOfFuel, rest) => (.outOfFuel, { d with input := rest })

/-- The loop `for (size_t i = 0; i < numComponentTypes; ++i)` of `DeserializeState`, with the
number of iterations left.  `.ok false` is an early `return false`. -/
def deserializeTypes (w : Sim C P) : Nat → DeserState C → Outcome Bool × DeserState C
  | 0, d => (.ok true, d)
  | n + 1, d =>
    match IDeserializer.StringASCII 0 255 d.input with
    | (.ok ctname, rest) =>
      let ctid := w.LookupCID ctname
      if ctid = w.CID__Invalid then (.ok false, { d with input := rest })
      else
        match IDeserializer.NumberU32_Unbounded rest with
        | (.ok numComponents, rest1) =>
          match deserializeEntities w ctname ctid numComponents { d with input := rest1 } with
          | (.ok true, d1) => deserializeTypes w n d1
          | r => r
        | (.throw e, rest1) => (.throw e, { d with input := rest1 })
        | (.outOfFuel, rest1) => (.outOfFuel, { d with input := rest1 })
    | (.throw e, rest) => (.throw e, { d with input := rest })
    | (.outOfFuel, rest) => (.outOfFuel, { d with input := rest })

/-- The method `DeserializeState` on the bytes `stream`: the outcome and the manager afterwards. -/
def DeserializeState (w : Sim C P) (m : CComponentManager C) (stream : List Nat) :
    Outcome Bool × CComponentManager C :=
  let m0 := DestroyAllComponents m
  match IDeserializer.NumberU32_Unbounded stream with
  | (.ok numComponentTypes, rest) =>
    match deserializeTypes w numComponentTypes
        { table := m0.m_ComponentsByTypeId, input := rest, templateManager := none } with
    | (.ok true, d) =>
      if d.input ≠ [] then (.ok false, { m0 with m_ComponentsByTypeId := d.table })
      else (.ok true, { m0 with m_ComponentsByTypeId := d.table })
    | (r, d) => (r, { m0 with m_ComponentsByTypeId := d.table })
  | (.throw e, _) => (.throw e, m0)
  | (.outOfFuel, _) => (.outOfFuel, m0)

end CComponentManager

/-! ## The wire format, as the specification words it -/

/-- The groups recorded for a table: "only component types with at least one live instance are
recorded". -/
def liveComponents {C : Type} (t : ComponentTable C) : ComponentTable C :=
  t.filter fun p => !p.2.isEmpty

/-- A persisted component type name: a "bounded ASCII string, ≤255 bytes" (non-zero 7-bit
characters). -/
def ValidTypeName (name : List Nat) : Prop :=
  name.length ≤ 255 ∧ ∀ c ∈ name, c ≠ 0 ∧ c < 128

/-- The `EntityRecord`s of one type: for each entity, `EntityId:u32` and the component's own
output. -/
def entityRecords {C P : Type} (w : Sim C P) (ents : List (Nat × C)) : List Nat :=
  ents.flatMap fun q => leBytes 4 q.1 ++ (w.Serialize q.2).1

/-- The `WireRecord` of the specification: `NumComponentTypes:u32`, then for each recorded type
the length-prefixed name, `NumComponents:u32` and the entity records. -/
def wireRecord {C P : Type} (w : Sim C P) (m : CComponentManager C) : List Nat :=
  leBytes 4 (liveComponents m.m_ComponentsByTypeId).length ++
    (liveComponents m.m_ComponentsByTypeId).flatMap fun p =>
      (match StdMap.find p.1 m.m_ComponentTypesById with
        | some ct => leBytes 4 ct.name.length ++ ct.name
        | none => []) ++
      leBytes 4 p.2.length ++ entityRecords w p.2

/-- The sequence the specification has `ComputeStateHash` feed to the hash sink: for each
recorded type its id (`i32`), then for each entity its id (`u32`) and the component's own
output. -/
def hashRecord {C P : Type} (w : Sim C P) (t : ComponentTable C) : List Nat :=
  (liveComponents t).flatMap fun p => leBytes 4 (i32ToU32 p.1) ++ entityRecords w p.2

/-! ## A concrete engine for evaluating the definitions -/

/-- A property of a heap object: its name (UTF-16 code units), its attribute bits and its
value. -/
structure JSProperty where
  name : List Nat
  attrs : Nat
  value : jsval
  deriving DecidableEq, Repr

/-- A heap object: its kind and its enumerable properties in insertion order. -/
structure JSObject where
  kind : JSObjectKind
  props : List JSProperty
  deriving DecidableEq, Repr

/-- The property with a given name. -/
def JSObject.lookup (o : JSObject) (name : List Nat) : Option JSProperty :=
  o.props.find? (fun p => p.name = name)

/-- An engine over a finite heap (`heap[a]` is the object at address `a`) in which no API call
fails.  The id of property `i` of the object at address `a` is `1000 * a + i`; the tag values
are `0 .. 8`; the UTF-8 conversion accepts 7-bit characters only; small integers have 31
bits. -/
def Env.ofHeap (host : ByteOrder) (heap : List JSObject) : Env where
  host := host
  SCRIPT_TYPE_VOID := 0
  SCRIPT_TYPE_NULL := 1
  SCRIPT_TYPE_ARRAY := 2
  SCRIPT_TYPE_OBJECT := 3
  SCRIPT_TYPE_STRING := 4
  SCRIPT_TYPE_INT := 5
  SCRIPT_TYPE_DOUBLE := 6
  SCRIPT_TYPE_BOOLEAN := 7
  SCRIPT_TYPE_BACKREF := 8
  JSVAL_INT_MIN := 1 - 2 ^ 30
  JSVAL_INT_MAX := 2 ^ 30 - 1
  utf8_from_wstring := fun chars =>
    if chars.all (fun c => decide (c < 128)) then some chars else none
  kindOf := fun a =>
    match heap.get? a with
    | some o => o.kind
    | none => .plain
  JS_Enumerate := fun a =>
    match heap.get? a with
    | some o => some ((List.range o.props.length).map (fun i => 1000 * a + i))
    | none => none
  JS_IdToValue := fun id =>
    match heap.get? (id / 1000) with
    | some o =>
      match o.props.get? (id % 1000) with
      | some p => some (.string p.name)
      | none => none
    | none => none
  JS_ValueToString := fun v =>
    match v with
    | .string chars => some chars
    | _ => none
  JS_GetUCPropertyAttributes := fun a name =>
    match heap.get? a with
    | some o =>
      match o.lookup name with
      | some p => some (p.attrs, true)
      | none => some (0, false)
    | none => none
  JS_GetUCProperty := fun a name =>
    match heap.get? a with
    | some o =>
      match o.lookup name with
      | some p => some p.value
      | none => some .void
    | none => none
  JS_AddRoot := fun _ => true
  JSPROP_GETTER := 16

/-- The engine with an empty heap on a little-endian host. -/
def Env.littleEndian : Env := Env.ofHeap .little []

/-- The engine with an empty heap on a big-endian host. -/
def Env.bigEndian : Env := Env.ofHeap .big []

/-- The engine for the script `var x = []; var y = [x, x];` on a little-endian host: `y` is
the array at address `0`, `x` the array at address `1`. -/
def Env.sharedArray : Env :=
  Env.ofHeap .little
    [ { kind := .array
        props := [ { name := [48], attrs := 1, value := .object 1 },
                   { name := [49], attrs := 1, value := .object 1 } ] },
      { kind := .array, props := [] } ]

/-- The engine for the script `var o = { a: 1, f: function () {} };` on a little-endian host:
`o` is the object at address `0`, the function is at address `1`. -/
def Env.objectWithFunction : Env :=
  Env.ofHeap .little
    [ { kind := .plain
        props := [ { name := [97], attrs := 1, value := .int 1 },
                   { name := [102], attrs := 1, value := .object 1 } ] },
      { kind := .function, props := [] } ]

/-- A world of components whose state is the byte string they serialize to: `Serialize`
writes the state, `Deserialize` reads back `n` bytes for a component allocated with an `n`-byte
state.  Type `7` is registered as "Position" (see `Sim.positionManager`). -/
def Sim.blobs : Sim (List Nat) Unit where
  env := Env.littleEndian
  CID__Invalid := 0
  CID_TemplateManager := 1
  SYSTEM_ENTITY := 1
  LookupCID := fun name => if name = [80, 111, 115, 105, 116, 105, 111, 110] then 7 else 0
  alloc := fun _ _ => some (List.replicate 16 0)
  Serialize := fun c => (c, none)
  Deserialize := fun c _ input =>
    if c.length ≤ input.length then (.ok (), input.take c.length, input.drop c.length)
    else (.throw .Deserialize_ReadFailed, c, input)
  LoadLatestTemplate := fun _ _ => none
  GetChild := fun _ _ => none
  noParam := ()
  ComputeHash := fun fed => [fed.sum % 256]

/-- The manager of the scenario of the specification: entity `2` with one component of type
"Position" holding `x = 3.5` (a double) and `label = "east"`, serialized as the eight bytes of
the double and the length-prefixed string.  Type `9` is registered but has no instance. -/
def Sim.positionManager : CComponentManager (List Nat) where
  m_ComponentTypesById :=
    [(7, ⟨[80, 111, 115, 105, 116, 105, 111, 110]⟩), (9, ⟨[86, 105, 115, 105, 111, 110]⟩)]
  m_ComponentsByTypeId :=
    [(7, [(2, [0, 0, 0, 0, 0, 0, 12, 64, 4, 0, 0, 0, 101, 97, 115, 116])]), (9, [])]

/-- A manager in which the type "Position" has a component, of sixteen zero bytes, for every
one of the `2^32` entity ids. -/
def Sim.fullManager : CComponentManager (List Nat) where
  m_ComponentTypesById := [(7, ⟨[80, 111, 115, 105, 116, 105, 111, 110]⟩)]
  m_ComponentsByTypeId :=
    [(7, (List.range 4294967296).map fun ent => (ent, List.replicate 16 0))]

/-! ## Tables that differ in a single place -/

/-- Two component tables that differ in exactly one place of the nested map: the state of one
component, the key of one entry of a type's entity map (one entity id), or the key of one
non-empty entry of the table (one component type id).  An entry whose key differs stands where
its key puts it in the iteration order; all other entries are the same, in the same order. -/
inductive SingleDifference {C : Type} : ComponentTable C → ComponentTable C → Prop
  | state (pre post : ComponentTable C) (cid : Int) (a b : List (Nat × C)) (ent : Nat)
      (c c1 : C) (h : c ≠ c1) :
      SingleDifference (pre ++ (cid, a ++ (ent, c) :: b) :: post)
        (pre ++ (cid, a ++ (ent, c1) :: b) :: post)
  | entityId (pre post : ComponentTable C) (cid : Int) (a b u v : List (Nat × C))
      (ent ent1 : Nat) (c : C) (h : ent ≠ ent1) (hrest : a ++ b = u ++ v) :
      SingleDifference (pre ++ (cid, a ++ (ent, c) :: b) :: post)
        (pre ++ (cid, u ++ (ent1, c) :: v) :: post)
  | typeId (pre post u v : ComponentTable C) (cid cid1 : Int) (ents : List (Nat × C))
      (h : cid ≠ cid1) (hents : ents ≠ []) (hrest : pre ++ post = u ++ v) :
      SingleDifference (pre ++ (cid, ents) :: post) (u ++ (cid1, ents) :: v)

/-- A manager in which entity `9` has its four-byte component under type `1`; entity `5` has a
component of type `1` and entity `2` a component of type `9` that serializes to nothing. -/
def Sim.entityNineOfTypeOne : CComponentManager (List Nat) where
  m_ComponentTypesById := []
  m_ComponentsByTypeId := [(1, [(5, [7]), (9, [2, 0, 0, 0])]), (9, [(2, [])])]

/-- The manager `Sim.entityNineOfTypeOne` with the component of entity `9` under type `9`
instead of type `1`. -/
def Sim.entityNineOfTypeNine : CComponentManager (List Nat) where
  m_ComponentTypesById := []
  m_ComponentsByTypeId := [(1, [(5, [7])]), (9, [(2, []), (9, [2, 0, 0, 0])])]

/-! ## Renumbering of the component types -/

/-- The manager `m` with every `ComponentTypeId` `cid` replaced by `f cid`, in the registry and
in the component table; the names, the entities and the components are kept. -/
def CComponentManager.renumberTypes {C : Type} (f : Int → Int) (m : CComponentManager C) :
    CComponentManager C where
  m_ComponentTypesById := m.m_ComponentTypesById.map fun p => (f p.1, p.2)
  m_ComponentsByTypeId := m.m_ComponentsByTypeId.map fun p => (f p.1, p.2)

/-- The `ComponentTypeId`s that occur in a manager: the keys of the registry and of the
component table. -/
def CComponentManager.typeIds {C : Type} (m : CComponentManager C) : List Int :=
  m.m_ComponentTypesById.map Prod.fst ++ m.m_ComponentsByTypeId.map Prod.fst

/-! ## Streams for evaluating `DeserializeState` -/

/-- The type record of the "Position" scenario: the name, the count `1`, entity `2` and the
sixteen bytes of its component. -/
def Sim.positionRecord : List Nat :=
  [8, 0, 0, 0, 80, 111, 115, 105, 116, 105, 111, 110, 1, 0, 0, 0,
    2, 0, 0, 0, 0, 0, 0, 0, 0, 0, 12, 64, 4, 0, 0, 0, 101, 97, 115, 116]

/-- A type record under the name "Vision", which `Sim.blobs` does not register: the name, the
count `1`, entity `3` and two bytes. -/
def Sim.visionRecord : List Nat :=
  [6, 0, 0, 0, 86, 105, 115, 105, 111, 110, 1, 0, 0, 0, 3, 0, 0, 0, 1, 2]

/-- The components of `Sim.blobs`, except that a component with an empty state holds a script
value that cannot be serialized: its `Serialize` raises `PSERROR_Serialize_InvalidScriptValue`
before it has written anything. -/
def Sim.raising : Sim (List Nat) Unit :=
  { Sim.blobs with
    Serialize := fun c => if c = [] then ([], some .Serialize_InvalidScriptValue) else (c, none) }

/-- A manager with the "Position" components of entity `2`, which serializes, and of entity
`3`, whose state is empty. -/
def Sim.raisingManager : CComponentManager (List Nat) where
  m_ComponentTypesById := [(7, ⟨[80, 111, 115, 105, 116, 105, 111, 110]⟩)]
  m_ComponentsByTypeId := [(7, [(2, [1, 2]), (3, [])])]

/-! ## Elementary steps of the serializer -/

/-- What a call does to the serializer state, as a sequence of elementary steps: bytes are
put to the output, a property-id slot or property-name string is rooted or unrooted, or
`GetScriptBackrefTag` is called for an object. -/
inductive Ser.Steps (env : Env) : Ser → Ser → Prop
  | refl (s : Ser) : Ser.Steps env s s
  | trans {s s1 s2 : Ser} : Ser.Steps env s s1 → Ser.Steps env s1 s2 → Ser.Steps env s s2
  | put (a : List Nat) (s : Ser) : Ser.Steps env s (Put a s)
  | addRoot (r : Root) (s : Ser) : (∀ obj, r ≠ Root.backref obj) →
      Ser.Steps env s { s with roots := r :: s.roots }
  | removeRoot (r : Root) (s : Ser) : (∀ obj, r ≠ Root.backref obj) →
      Ser.Steps env s { s with roots := s.roots.erase r }
  | backrefTag (obj : Nat) (s : Ser) :
      Ser.Steps env s (CBinarySerializer.GetScriptBackrefTag env obj s).2

/-- The roots of backref table entries are in step with the table: an object is rooted as a
backref entry at most once, and only while it is in the table. -/
def Ser.BackrefRootsMatch (s : Ser) : Prop :=
  ∀ obj : Nat,
    s.roots.count (Root.backref obj) ≤ if (StdMap.find obj s.backrefs).isSome then 1 else 0

/-- The engine of `Env.sharedArray` in which `JS_AddRoot` fails for the second slot of the id
array of `y` and succeeds everywhere else. -/
def Env.rootFailure : Env :=
  { Env.sharedArray with JS_AddRoot := fun r => decide (r ≠ Root.idSlot 0 1) }

/-- The scoped roots (property-id slots and property-name strings) are the same in `s1` as in
`s`: every root that is not the root of a backref entry occurs as often in the one as in the
other. -/
def Ser.SameScopedRoots (s s1 : Ser) : Prop :=
  ∀ r : Root, (∀ obj, r ≠ Root.backref obj) → s1.roots.count r = s.roots.count r

/-! ## Template parameters -/

/-- The parameter set a component is to be given, in the words of the amended claim: the empty
parameter set before the template manager has been deserialized and for the system entity;
otherwise the child, named by the component type name, of the entity's latest template, or the
empty parameter set when the entity has no template or the template no such child. -/
def templateParams {C P : Type} (w : Sim C P) (templateManager : Option C) (ent : Nat)
    (ctname : List Nat) : P :=
  match templateManager with
  | none => w.noParam
  | some tm =>
    if ent = w.SYSTEM_ENTITY then w.noParam
    else
      match w.LoadLatestTemplate tm ent with
      | none => w.noParam
      | some entTemplate => (w.GetChild entTemplate ctname).getD w.noParam

/-- A world for observing template parameters: a component's state is the parameter set its
`Deserialize` was given, the empty parameter set is the empty byte string, the template of
entity `e` is `[e]` and its child named `n` is `[e] ++ n`.  The type "P" has id `7`, the
template manager "T" has id `9`, the system entity is `1`. -/
def Sim.templated : Sim (List Nat) (List Nat) where
  env := Env.littleEndian
  CID__Invalid := 0
  CID_TemplateManager := 9
  SYSTEM_ENTITY := 1
  LookupCID := fun name => if name = [80] then 7 else if name = [84] then 9 else 0
  alloc := fun _ _ => some []
  Serialize := fun c => (c, none)
  Deserialize := fun _ params input => (.ok (), params, input)
  LoadLatestTemplate := fun _ ent => some [ent]
  GetChild := fun entTemplate name => some (entTemplate ++ name)
  noParam := []
  ComputeHash := fun fed => fed

/-- The type record of "P" with the single entity `2`. -/
def Sim.recordP : List Nat := [1, 0, 0, 0, 80, 1, 0, 0, 0, 2, 0, 0, 0]

/-- The type record of the template manager "T" with the system entity `1`. -/
def Sim.recordT : List Nat := [1, 0, 0, 0, 84, 1, 0, 0, 0, 1, 0, 0, 0]

/-! ## The debug dump -/

/-- Modelled from the spec: the debug sink `CDebugSerializer` (`DebugSerializer.cpp` is not part
of the analysed sources), which "accumulates indentable human-readable text lines; exposes
`TextLine`, `Indent(n)`, `Dedent(n)`".  The sink is kept as the sequence of the calls made on
it; `Serialize c` is the call `c->Serialize(serializer)`, in which component `c` writes its own
dump to the sink. -/
inductive DebugCall (C : Type) where
  | TextLine (text : String)
  | Indent (spaces : Nat)
  | Dedent (spaces : Nat)
  | Serialize (c : C)
  deriving DecidableEq, Repr

/-- The characters of a `std::string` as text. -/
def textOf (bytes : List Nat) : String := String.mk (bytes.map Char.ofNat)

/-- The statement `m[k] = v` on a `std::map`: `operator[]` enters the key if it is not there,
then the value is assigned. -/
def StdMap.assign {K V : Type} [LT K] [DecidableRel (fun a b : K => a < b)] [DecidableEq K]
    (k : K) (v : V) : List (K × V) → List (K × V)
  | [] => [(k, v)]
  | (k1, v1) :: rest =>
    if k < k1 then (k, v) :: (k1, v1) :: rest
    else if k = k1 then (k1, v) :: rest
    else (k1, v1) :: StdMap.assign k v rest

namespace CComponentManager

variable {C : Type}

/-- The entity-major map `components` of `DumpDebugState`:
`std::map<entity_id_t, std::map<ComponentTypeId, IComponent*> >`. -/
abbrev EntityTable (C : Type) := List (Nat × List (Int × C))

/-- The statement `components[ent][cid] = c`: the outer `operator[]` enters an empty inner map
for an entity that is not there yet. -/
def invertAssign (ent : Nat) (cid : Int) (c : C) : EntityTable C → EntityTable C
  | [] => [(ent, StdMap.assign cid c [])]
  | (e1, m1) :: rest =>
    if ent < e1 then (ent, StdMap.assign cid c []) :: (e1, m1) :: rest
    else if ent = e1 then (e1, StdMap.assign cid c m1) :: rest
    else (e1, m1) :: invertAssign ent cid c rest

/-- The inner loop of the inversion in `DumpDebugState`, over the entities of one type. -/
def invertEntities (cid : Int) : List (Nat × C) → EntityTable C → EntityTable C
  | [], components => components
  | (ent, c) :: rest, components => invertEntities cid rest (invertAssign ent cid c components)

/-- The outer loop of the inversion in `DumpDebugState`, over `m_ComponentsByTypeId`. -/
def invertTypes : ComponentTable C → EntityTable C → EntityTable C
  | [], components => components
  | (cid, ents) :: rest, components => invertTypes rest (invertEntities cid ents components)

/-- Modelled from the spec: `CComponentManager::LookupComponentTypeName` (`ComponentManager.cpp`
is not part of the analysed sources), the name side of the "id↔name registry": the registered
name of the type, the empty name for a type that is not registered. -/
def LookupComponentTypeName (m : CComponentManager C) (cid : Int) : List Nat :=
  match StdMap.find cid m.m_ComponentTypesById with
  | some ct => ct.name
  | none => []

/-- The loop of `DumpDebugState` over the components of one entity.  `debugSerialize c` tells
whether the `Serialize` of component `c` on the debug sink raises. -/
def dumpComponents (debugSerialize : C → Option PSERROR) (m : CComponentManager C) :
    List (Int × C) → List (DebugCall C) → Outcome Unit × List (DebugCall C)
  | [], stream => (.ok (), stream)
  | (cid, c) :: rest, stream =>
    let stream1 := stream ++
      [.TextLine ("  " ++ textOf (LookupComponentTypeName m cid) ++ ":"), .Indent 4, .Serialize c]
    match debugSerialize c with
    | some e => (.throw e, stream1)
    | none => dumpComponents debugSerialize m rest (stream1 ++ [.Dedent 4])

/-- The loop of `DumpDebugState` over the entities of the inverted map. -/
def dumpEntities (debugSerialize : C → Option PSERROR) (m : CComponentManager C) :
    EntityTable C → List (DebugCall C) → Outcome Unit × List (DebugCall C)
  | [], stream => (.ok (), stream)
  | (ent, comps) :: rest, stream =>
    match dumpComponents debugSerialize m comps
        (stream ++ [.TextLine ("- id: " ++ toString ent)]) with
    | (.ok (), stream1) => dumpEntities debugSerialize m rest (stream1 ++ [.TextLine ""])
    | r => r

/-- The method `DumpDebugState`: the outcome and the calls made on the debug sink, after those
in `stream`. -/
def DumpDebugState (debugSerialize : C → Option PSERROR) (m : CComponentManager C)
    (stream : List (DebugCall C)) : Outcome Bool × List (DebugCall C) :=
  let components := invertTypes m.m_ComponentsByTypeId []
  match dumpEntities debugSerialize m components stream with
  | (.ok (), stream1) => (.ok true, stream1)
  | (.throw e, stream1) => (.throw e, stream1)
  | (.outOfFuel, stream1) => (.outOfFuel, stream1)

/-- Well-formedness of the entity-major map: a `std::map` (strictly ascending entity ids) of
non-empty `std::map`s (strictly ascending component type ids). -/
def EntityTable.WF (components : EntityTable C) : Prop :=
  StdMap.Ordered components ∧ ∀ p ∈ components, p.2 ≠ [] ∧ StdMap.Ordered p.2

/-- Lookup in the entity-major map: the component of type `cid` of entity `ent`. -/
def entityFind (ent : Nat) (cid : Int) (components : EntityTable C) : Option C :=
  match StdMap.find ent components with
  | some comps => StdMap.find cid comps
  | none => none

/-- The dump of the specification for one entity-major map: for each entity the line
"- id: <e>", then for each of its components the line with the type name, `Indent(4)`, the
component's own dump, `Dedent(4)`; an empty line ends the entity. -/
def debugRecord (m : CComponentManager C) (components : EntityTable C) : List (DebugCall C) :=
  components.flatMap fun e =>
    DebugCall.TextLine ("- id: " ++ toString e.1) ::
      (e.2.flatMap fun p =>
        [.TextLine ("  " ++ textOf (LookupComponentTypeName m p.1) ++ ":"), .Indent 4,
          .Serialize p.2, .Dedent 4]) ++ [.TextLine ""]

end CComponentManager

/-- A manager with the types "Position" (`7`; entities `2` and `5`) and "Vision" (`9`; entity
`2`). -/
def Sim.twoTypesManager : CComponentManager (List Nat) where
  m_ComponentTypesById :=
    [(7, ⟨[80, 111, 115, 105, 116, 105, 111, 110]⟩), (9, ⟨[86, 105, 115, 105, 111, 110]⟩)]
  m_ComponentsByTypeId := [(7, [(2, [1]), (5, [2])]), (9, [(2, [3])])]

/-- The engine for the script `var o = { a: 1, get g() { return 2; } };` on a little-endian
host: `o` is the object at address `0`; its property `g` carries the attribute bit
`JSPROP_GETTER`. -/
def Env.objectWithGetter : Env :=
  Env.ofHeap .little
    [ { kind := .plain
        props := [ { name := [97], attrs := 1, value := .int 1 },
                   { name := [103], attrs := 17, value := .void } ] } ]

/-! ## Objects presented to the backref table -/

/-- One more object seen: it is appended to the objects seen so far unless it is among them. -/
def addSighting (seen : List Nat) (obj : Nat) : List Nat :=
  if obj ∈ seen then seen else seen ++ [obj]

/-- The distinct objects of a sequence, in the order of their first occurrence. -/
def firstSightings (objs : List Nat) : List Nat := objs.foldl addSighting []

/-- The state of the serializer after the calls `GetScriptBackrefTag(obj)` for the objects of
`objs`, in this order, whatever the calls return. -/
def CBinarySerializer.presentObjects (env : Env) (objs : List Nat) (s : Ser) : Ser :=
  objs.foldl (fun s obj => (CBinarySerializer.GetScriptBackrefTag env obj s).2) s

/-- The backref table of `s` holds exactly the objects of `seen`, each under the tag that is
its position in `seen`, counted from one. -/
def Ser.TaggedInOrder (seen : List Nat) (s : Ser) : Prop :=
  seen.Nodup ∧ s.backrefs.length = seen.length ∧
  ∀ obj : Nat, StdMap.find obj s.backrefs
    = if obj ∈ seen then some (seen.indexOf obj + 1) else none

/-- The engine for the script `var o = {}; o.self = o;` on a little-endian host: `o` is the
object at address `0` and its only property holds `o` itself. -/
def Env.selfReference : Env :=
  Env.ofHeap .little
    [ { kind := .plain
        props := [ { name := [115, 101, 108, 102], attrs := 1, value := .object 0 } ] } ]

/-- The engine for the script `var a = {}; var b = { back: a }; a.next = b;` on a
little-endian host: `a` is the object at address `0`, `b` the object at address `1`, and each
contains the other. -/
def Env.mutualReference : Env :=
  Env.ofHeap .little
    [ { kind := .plain
        props := [ { name := [110, 101, 120, 116], attrs := 1, value := .object 1 } ] },
      { kind := .plain
        props := [ { name := [98, 97, 99, 107], attrs := 1, value := .object 0 } ] } ]

/-- The members of the list `objects` that are not yet in the backref table. -/
def Ser.unseen (objects : List Nat) (s : Ser) : List Nat :=
  objects.filter fun o => (StdMap.find o s.backrefs).isNone

/-- Every tag of the backref table is non-zero and the table has room for the members
of `objects` not yet in it: entering them does not take the 32-bit tag counter past
`2^32 - 1`. -/
def Ser.TagsUsable (objects : List Nat) (s : Ser) : Prop :=
  (∀ k t, StdMap.find k s.backrefs = some t → t ≠ 0) ∧
  s.backrefs.length + (s.unseen objects).length ≤ 2 ^ 32 - 1

/-- The value graph of the engine lies within the list `objects`: every object that a
property can hold is listed. -/
def Env.ValuesWithin (env : Env) (objects : List Nat) : Prop :=
  ∀ a name b, env.JS_GetUCProperty a name = some (.object b) → b ∈ objects

/-- The result `r` of a traversal step started in state `s` is an answer (the recursion was
deep enough), and the step kept the table usable and entered objects only. -/
def Ser.Settles (objects : List Nat) (s : Ser) (r : Outcome Unit × Ser) : Prop :=
  r.1 ≠ .outOfFuel ∧ r.2.TagsUsable objects ∧
  (r.2.unseen objects).length ≤ (s.unseen objects).length

/-! ## The template resolver -/

/-- Modelled from the spec: a template definition as the template resolver
`CCmpTemplateManager` finds it in its store (the component is not among the sources; the spec
has it "producing an entity's effective initial parameters by merging inherited template
definitions"): the name of the template it inherits from, if any, and its own parameters. -/
structure TemplateFile (P : Type) where
  parent : Option (List Nat)
  own : P
  deriving DecidableEq, Repr

/-- Modelled from the spec: the state of the template resolver `CCmpTemplateManager`, which is
not among the sources: the store of template definitions by name, which the resolver only
reads, and for each entity the name of its "currently-loaded template". -/
structure CCmpTemplateManager (P : Type) where
  files : List (List Nat × TemplateFile P)
  m_LatestTemplates : List (Nat × List Nat)
  deriving DecidableEq, Repr

namespace CCmpTemplateManager

variable {P : Type}

/-- Modelled from the spec: the name of the template that `name` inherits from, in the store of
the template resolver. -/
def templateParent (files : List (List Nat × TemplateFile P)) (name : List Nat) :
    Option (List Nat) :=
  match StdMap.find name files with
  | some file => file.parent
  | none => none

/-- Modelled from the spec: the `k`-th template on the inheritance chain of `name` (`name`
itself for `k = 0`). -/
def ancestor (files : List (List Nat × TemplateFile P)) : Nat → List Nat → Option (List Nat)
  | 0, name => some name
  | k + 1, name =>
    match templateParent files name with
    | some parent => ancestor files k parent
    | none => none

/-- Modelled from the spec: "cyclic inheritance": the inheritance chain of `name` reaches a
template that is its own ancestor. -/
def InheritanceCyclic (files : List (List Nat × TemplateFile P)) (name : List Nat) : Prop :=
  ∃ (k : Nat) (a : List Nat) (j : Nat),
    ancestor files k name = some a ∧ 0 < j ∧ ancestor files j a = some a

/-- Modelled from the spec: "broken inheritance": a template on the inheritance chain of `name`
(for `k = 0`, `name` itself) names a parent that is not in the store. -/
def ParentMissing (files : List (List Nat × TemplateFile P)) (name : List Nat) : Prop :=
  ∃ (k : Nat) (a : List Nat) (file : TemplateFile P) (parent : List Nat),
    ancestor files k name = some a ∧ StdMap.find a files = some file ∧
    file.parent = some parent ∧ StdMap.find parent files = none

/-- Modelled from the spec: the resolution of a template "by merging inherited template
definitions", "with cycle/breakage detection", of the template resolver `CCmpTemplateManager`
(not among the sources).  `visited` holds the templates whose parents are being resolved;
`none` is the failure result; `merge base own` lays a template's own parameters over the
resolved parameters of its parent (the spec leaves the inheritance algorithm open).  The first
argument bounds the length of the inheritance chain. -/
def resolveTemplate (merge : P → P → P) (files : List (List Nat × TemplateFile P)) :
    Nat → List (List Nat) → List Nat → Outcome (Option P)
  | 0, _, _ => .outOfFuel
  | fuel + 1, visited, name =>
    if name ∈ visited then .ok none
    else
      match StdMap.find name files with
      | none => .ok none
      | some file =>
        match file.parent with
        | none => .ok (some file.own)
        | some parent =>
          match resolveTemplate merge files fuel (name :: visited) parent with
          | .ok (some base) => .ok (some (merge base file.own))
          | r => r

/-- Modelled from the spec: `LoadTemplate(entityId, templateName) -> ParamTree | failure` of
the template resolver `CCmpTemplateManager` (not among the sources; its test passes a player
id as a third argument, which the spec's interface leaves out): `templateName` becomes the
entity's currently-loaded template, and the result is its resolved parameter tree, or `none`
for the failure result (`NULL`).  An inheritance chain without a cycle is no longer than the
store has templates, which bounds the resolution. -/
def LoadTemplate (merge : P → P → P) (m : CCmpTemplateManager P) (ent : Nat)
    (templateName : List Nat) : Outcome (Option P) × CCmpTemplateManager P :=
  (resolveTemplate merge m.files (m.files.length + 1) [] templateName,
    { m with m_LatestTemplates := StdMap.assign ent templateName m.m_LatestTemplates })

/-- The template store of the resolver's test (`mods/_test.sim`), with characters and
parameter values as numbers: `basic`, `inherit1`, `inherit2` (which inherits from
`inherit1`), `inherit-loop` (which inherits from itself) and `inherit-broken` (which inherits
from a template that does not exist).  A parameter tree is a list of keys and values. -/
def testStore : List (List Nat × TemplateFile (List (Nat × Nat))) :=
  [ ([98, 97, 115, 105, 99], { parent := none, own := [(120, 12345)] }),
    ([105, 110, 104, 101, 114, 105, 116, 49],
      { parent := none, own := [(97, 1), (98, 1), (99, 1), (100, 1), (101, 1), (102, 1)] }),
    ([105, 110, 104, 101, 114, 105, 116, 50],
      { parent := some [105, 110, 104, 101, 114, 105, 116, 49],
        own := [(97, 2), (100, 2), (103, 2)] }),
    ([105, 110, 104, 101, 114, 105, 116, 45, 108, 111, 111, 112],
      { parent := some [105, 110, 104, 101, 114, 105, 116, 45, 108, 111, 111, 112],
        own := [] }),
    ([105, 110, 104, 101, 114, 105, 116, 45, 98, 114, 111, 107, 101, 110],
      { parent := some [110, 111, 110, 101, 120, 105, 115, 116, 101, 110, 116],
        own := [] }) ]

/-- A merge of parameter trees for the test store: the template's own values replace those
of its parent, and its new keys are added behind. -/
def overlay (base own : List (Nat × Nat)) : List (Nat × Nat) :=
  base.map (fun p => match StdMap.find p.1 own with
    | some v => (p.1, v)
    | none => p)
  ++ own.filter (fun p => (StdMap.find p.1 base).isNone)

/-- The resolver of the test: the test store, no entity with a template yet. -/
def testManager : CCmpTemplateManager (List (Nat × Nat)) :=
  { files := testStore, m_LatestTemplates := [] }

end CCmpTemplateManager

/-! ## Value graphs that differ in the addresses of their objects only -/

/-- A script value with the address of the object it refers to replaced through `f`. -/
def jsval.rename (f : Nat → Nat) : jsval → jsval
  | .object obj => .object (f obj)
  | v => v

/-- A rooted location with the address of its object replaced through `f`. -/
def Root.rename (f : Nat → Nat) : Root → Root
  | .idSlot obj i => .idSlot (f obj) i
  | .idstr obj i => .idstr (f obj) i
  | .backref obj => .backref (f obj)

/-- The name of the property with a given id, as the property loop of `HandleScriptVal`
obtains it: `JS_IdToValue`, then `JS_ValueToString`. -/
def Env.idName (env : Env) (id : Nat) : Option (List Nat) :=
  match env.JS_IdToValue id with
  | some idval => env.JS_ValueToString idval
  | none => none

/-- The value graph of `env2` is the value graph of `env1` with the object at address `a`
moved to address `f a`: kinds, enumeration order, property names, attributes and primitive
values are the same, property values that are objects are moved along, and the engine answers
the API calls for an object of `env1` and for its image alike.  The constants of the codec
and the host are the same. -/
structure Env.Renamed (f : Nat → Nat) (env1 env2 : Env) : Prop where
  host : env1.host = env2.host
  tagVoid : env1.SCRIPT_TYPE_VOID = env2.SCRIPT_TYPE_VOID
  tagNull : env1.SCRIPT_TYPE_NULL = env2.SCRIPT_TYPE_NULL
  tagArray : env1.SCRIPT_TYPE_ARRAY = env2.SCRIPT_TYPE_ARRAY
  tagObject : env1.SCRIPT_TYPE_OBJECT = env2.SCRIPT_TYPE_OBJECT
  tagString : env1.SCRIPT_TYPE_STRING = env2.SCRIPT_TYPE_STRING
  tagInt : env1.SCRIPT_TYPE_INT = env2.SCRIPT_TYPE_INT
  tagDouble : env1.SCRIPT_TYPE_DOUBLE = env2.SCRIPT_TYPE_DOUBLE
  tagBoolean : env1.SCRIPT_TYPE_BOOLEAN = env2.SCRIPT_TYPE_BOOLEAN
  tagBackref : env1.SCRIPT_TYPE_BACKREF = env2.SCRIPT_TYPE_BACKREF
  intMin : env1.JSVAL_INT_MIN = env2.JSVAL_INT_MIN
  intMax : env1.JSVAL_INT_MAX = env2.JSVAL_INT_MAX
  getter : env1.JSPROP_GETTER = env2.JSPROP_GETTER
  utf8 : ∀ chars, env1.utf8_from_wstring chars = env2.utf8_from_wstring chars
  kind : ∀ a, env1.kindOf a = env2.kindOf (f a)
  enumerate : ∀ a,
    Option.Rel (List.Forall₂ fun id1 id2 => env1.idName id1 = env2.idName id2)
      (env1.JS_Enumerate a) (env2.JS_Enumerate (f a))
  attributes : ∀ a name,
    env1.JS_GetUCPropertyAttributes a name = env2.JS_GetUCPropertyAttributes (f a) name
  property : ∀ a name,
    (env1.JS_GetUCProperty a name).map (jsval.rename f) = env2.JS_GetUCProperty (f a) name
  addRoot : ∀ r, env1.JS_AddRoot r = env2.JS_AddRoot (r.rename f)

/-- Two serializer states that agree up to the addresses of the objects: the same bytes
written, backref tables of the same size, and the object at address `a` has in the first
table the tag that the object at `f a` has in the second. -/
def Ser.Renamed (f : Nat → Nat) (s1 s2 : Ser) : Prop :=
  s1.out = s2.out ∧ s1.backrefs.length = s2.backrefs.length ∧
  ∀ a, StdMap.find a s1.backrefs = StdMap.find (f a) s2.backrefs

/-- Two results of a serializer call that agree up to the addresses of the objects: the same
outcome, and states that agree. -/
def Ser.RenamedResult {α : Type} (f : Nat → Nat) (r1 r2 : Outcome α × Ser) : Prop :=
  r1.1 = r2.1 ∧ Ser.Renamed f r1.2 r2.2

/-- The exchange of the addresses `0` and `1`. -/
def swapAddress (a : Nat) : Nat :=
  if a = 0 then 1 else if a = 1 then 0 else a

/-- The engine for the script `var x = []; var y = [x, x];` with the two arrays at the
addresses exchanged with respect to `Env.sharedArray`: `x` is the array at address `0`, `y`
the array at address `1`. -/
def Env.sharedArraySwapped : Env :=
  Env.ofHeap .little
    [ { kind := .array, props := [] },
      { kind := .array
        props := [ { name := [48], attrs := 1, value := .object 0 },
                   { name := [49], attrs := 1, value := .object 0 } ] } ]

/-! ## The definitions and backrefs of the stream -/

/-- What `HandleScriptVal` emits for a heap object: the type tag `SCRIPT_TYPE_ARRAY` or
`SCRIPT_TYPE_OBJECT` that opens the definition of the object `obj`, or the pair
`{SCRIPT_TYPE_BACKREF, tag}`. -/
inductive Emitted where
  | definition (obj : Nat)
  | backRef (tag : Nat)
  deriving DecidableEq, Repr

/-- The objects whose definition a stream holds, in stream order. -/
def Emitted.definitions : List Emitted → List Nat
  | [] => []
  | .definition obj :: rest => obj :: Emitted.definitions rest
  | .backRef _ :: rest => Emitted.definitions rest

/-- A decoder that numbers the definitions in stream order, having seen `n` of them, meets in
the rest of the stream only backrefs to a definition it has seen: `1 ≤ tag ≤` the number of
definitions before the backref. -/
def Emitted.defined : Nat → List Emitted → Bool
  | _, [] => true
  | n, .definition _ :: rest => Emitted.defined (n + 1) rest
  | n, .backRef tag :: rest => decide (1 ≤ tag) && decide (tag ≤ n) && Emitted.defined n rest

namespace CBinarySerializer

/-- The definitions and backrefs emitted by the statements of `propBody`: those of the
recursive call, when the iteration gets that far. -/
def propBodyLog (env : Env) (handleLog : jsval → Ser → List Emitted) (obj : Nat)
    (idstr : List Nat) (s : Ser) : List Emitted :=
  match env.JS_GetUCPropertyAttributes obj idstr with
  | none => []
  | some (attrs, found) =>
    if !found then []
    else if attrs &&& env.JSPROP_GETTER ≠ 0 then []
    else
      match ScriptString env idstr s with
      | (.ok (), s1) =>
        match env.JS_GetUCProperty obj idstr with
        | none => []
        | some propval => handleLog propval s1
      | _ => []

/-- The definitions and backrefs emitted by one iteration of the property loop. -/
def propStepLog (env : Env) (handleLog : jsval → Ser → List Emitted) (obj i id : Nat)
    (s : Ser) : List Emitted :=
  match env.JS_IdToValue id with
  | none => []
  | some idval =>
    match env.JS_ValueToString idval with
    | none => []
    | some idstr =>
      if env.JS_AddRoot (.idstr obj i) then
        propBodyLog env handleLog obj idstr { s with roots := Root.idstr obj i :: s.roots }
      else []

/-- The definitions and backrefs emitted by the property loop: those of each iteration that
runs, in order; the state of the serializer goes from one iteration to the next as in
`propLoop`. -/
def propLoopLog (env : Env) (handle : jsval → Ser → Outcome Unit × Ser)
    (handleLog : jsval → Ser → List Emitted) (obj : Nat) :
    Nat → List Nat → Ser → List Emitted
  | _, [], _ => []
  | i, id :: ids, s =>
    propStepLog env handleLog obj i id s ++
      match propStep env handle obj i id s with
      | (.ok (), s1) => propLoopLog env handle handleLog obj (i + 1) ids s1
      | _ => []

/-- The definitions and backrefs that `HandleScriptVal` emits, in stream order: a backref
where it writes `SCRIPT_TYPE_BACKREF` and the tag, a definition where it writes the type tag
of an array or object that `GetScriptBackrefTag` reported as new, followed by what the
traversal of the properties emits. -/
def HandleScriptValLog (env : Env) : Nat → jsval → Ser → List Emitted
  | 0, _, _ => []
  | fuel + 1, val, s =>
    match JS_TypeOfValue env val with
    | .JSTYPE_OBJECT =>
      if JSVAL_IS_NULL val then []
      else
        let obj := JSVAL_TO_OBJECT val
        match GetScriptBackrefTag env obj s with
        | (.ok tag, s1) =>
          if tag ≠ 0 then [.backRef tag]
          else
            .definition obj ::
              match env.JS_Enumerate obj with
              | none => []
              | some ida =>
                match IdArrayWrapper_ctor env obj 0 ida.length
                    (ISerializer.NumberU8_Unbounded env (objectTag env obj) s1) with
                | (.ok (), s3) =>
                  propLoopLog env (HandleScriptVal env fuel) (HandleScriptValLog env fuel)
                    obj 0 ida (ISerializer.NumberU32_Unbounded env (toU32 ida.length) s3)
                | _ => []
        | _ => []
    | _ => []

/-- A sequence of `PutScriptVal` calls on one serializer, up to the first call that fails. -/
def PutScriptVal_sequence (env : Env) (fuel : Nat) : List jsval → Ser → Outcome Unit × Ser
  | [], s => (.ok (), s)
  | value :: values, s =>
    match PutScriptVal env fuel value s with
    | (.ok (), s1) => PutScriptVal_sequence env fuel values s1
    | r => r

/-- The definitions and backrefs of the whole output of a sequence of `PutScriptVal`
calls. -/
def PutScriptVal_sequenceLog (env : Env) (fuel : Nat) : List jsval → Ser → List Emitted
  | [], _ => []
  | value :: values, s =>
    HandleScriptValLog env fuel value s ++
      match PutScriptVal env fuel value s with
      | (.ok (), s1) => PutScriptVal_sequenceLog env fuel values s1
      | _ => []

end CBinarySerializer

/-- An engine in which every address holds a plain object without properties, on a
little-endian host. -/
def Env.emptyObjects : Env :=
  { Env.littleEndian with JS_Enumerate := fun _ => some [] }

/-- The stream `log` and the backref table of `s` are consistent: the objects defined in the
stream are distinct, they are the objects of the table, the `k`-th of them holding the tag
`k` (counted from one), they are among `objects`, and every backref of the stream refers to
a definition before it. -/
def Ser.Consistent (objects : List Nat) (log : List Emitted) (s : Ser) : Prop :=
  s.TaggedInOrder (Emitted.definitions log) ∧
  (∀ o ∈ Emitted.definitions log, o ∈ objects) ∧
  Emitted.defined 0 log = true

/-! # Theorems -/

/-! ## Byte strings of machine words -/

theorem leBytes_four (v : Nat) :
    leBytes 4 v = [v % 256, v / 2 ^ 8 % 256, v / 2 ^ 16 % 256, v / 2 ^ 24 % 256] := by
  simp [leBytes, byteAt, List.range_succ]

theorem leBytes_length (width v : Nat) : (leBytes width v).length = width := by
  simp [leBytes]

theorem leBytes_four_toU32 (v : Nat) : leBytes 4 (toU32 v) = leBytes 4 v := by
  simp only [leBytes_four, toU32]
  have h0 : v % 2 ^ 32 % 256 = v % 256 := by omega
  have h1 : v % 2 ^ 32 / 2 ^ 8 % 256 = v / 2 ^ 8 % 256 := by omega
  have h2 : v % 2 ^ 32 / 2 ^ 16 % 256 = v / 2 ^ 16 % 256 := by omega
  have h3 : v % 2 ^ 32 / 2 ^ 24 % 256 = v / 2 ^ 24 % 256 := by omega
  rw [h0, h1, h2, h3]

theorem byteAt_lt (v k : Nat) : byteAt v k < 256 := Nat.mod_lt _ (by norm_num)

theorem leBytes_four_bytes (b0 b1 b2 b3 : Nat) (h0 : b0 < 256) (h1 : b1 < 256) (h2 : b2 < 256)
    (h3 : b3 < 256) :
    leBytes 4 (b0 * 2 ^ 24 + b1 * 2 ^ 16 + b2 * 2 ^ 8 + b3) = [b3, b2, b1, b0] := by
  simp only [leBytes_four]
  norm_num
  refine ⟨?_, ?_, ?_, ?_⟩ <;> omega

theorem leBytes_four_swap32 (v : Nat) : (leBytes 4 (swap32 v)).reverse = leBytes 4 v := by
  unfold swap32
  rw [leBytes_four_bytes _ _ _ _ (byteAt_lt v 0) (byteAt_lt v 1) (byteAt_lt v 2) (byteAt_lt v 3)]
  simp [leBytes_four, byteAt]

theorem i32ToU32_u32ToI32 (n : Nat) : i32ToU32 (u32ToI32 n) = toU32 n := by
  unfold i32ToU32 u32ToI32 toU32
  split <;> omega

theorem toU32_toU32 (n : Nat) : toU32 (toU32 n) = toU32 n := by
  unfold toU32
  omega

theorem toU32_of_lt {n : Nat} (h : n < 2 ^ 32) : toU32 n = n := by
  unfold toU32
  omega

/-- The memory image of `to_le32 v` is the little-endian byte string of `v` on either host. -/
theorem memBytes_to_le32 (host : ByteOrder) (v : Nat) :
    memBytes host 4 (to_le32 host v) = leBytes 4 v := by
  cases host
  · simp only [memBytes, to_le32, leBytes_four_toU32]
  · simp only [memBytes, to_le32, leBytes_four_swap32]

theorem swap32_lt (v : Nat) : swap32 v < 2 ^ 32 := by
  unfold swap32
  have h0 := byteAt_lt v 0
  have h1 := byteAt_lt v 1
  have h2 := byteAt_lt v 2
  have h3 := byteAt_lt v 3
  omega

theorem to_le32_lt (host : ByteOrder) (v : Nat) : to_le32 host v < 2 ^ 32 := by
  cases host
  · simp only [to_le32, toU32]
    omega
  · exact swap32_lt v

namespace CBinarySerializer

theorem PutNumber_u32_eq (env : Env) (v : Nat) (s : Ser) :
    PutNumber_u32 env v s = Put (leBytes 4 v) s := by
  simp only [PutNumber_u32, memBytes_to_le32, leBytes_four_toU32]

theorem PutNumber_i32_eq (env : Env) (i : Int) (s : Ser) :
    PutNumber_i32 env i s = Put (leBytes 4 (i32ToU32 i)) s := by
  simp only [PutNumber_i32, i32ToU32_u32ToI32, toU32_of_lt (to_le32_lt _ _), memBytes_to_le32]

theorem PutNumber_u8_eq (env : Env) (b : Nat) (s : Ser) :
    PutNumber_u8 env b s = Put [b % 256] s := by
  cases h : env.host <;> simp [PutNumber_u8, memBytes, leBytes, byteAt, toU8, h, List.range_succ]

/-- C6: on a host of either byte order `PutNumber(uint32_t)` hands to `Put` exactly the four
bytes `v mod 256, (v / 2^8) mod 256, (v / 2^16) mod 256, (v / 2^24) mod 256`, in this order;
`PutNumber(int32_t)` writes what `PutNumber(uint32_t)` writes for the two's-complement bit
pattern of its argument; `PutNumber(uint8_t)` writes the single byte of its argument. -/
theorem PutNumber_integers_little_endian (env : Env) (s : Ser) :
    (∀ v : Nat, PutNumber_u32 env v s =
      Put [v % 256, v / 2 ^ 8 % 256, v / 2 ^ 16 % 256, v / 2 ^ 24 % 256] s) ∧
    (∀ i : Int, PutNumber_i32 env i s = PutNumber_u32 env (i32ToU32 i) s) ∧
    (∀ b : Nat, PutNumber_u8 env b s = Put [b % 256] s) := by
  refine ⟨fun v => ?_, fun i => ?_, fun b => PutNumber_u8_eq env b s⟩
  · rw [PutNumber_u32_eq, leBytes_four]
  · rw [PutNumber_i32_eq, PutNumber_u32_eq]

/-- C7: the code at the failing input.  For the double `1.0` (bit pattern
`0x3FF0000000000000`) `PutNumber(double)` hands to `Put` the bytes `00 00 00 00 00 00 F0 3F` on
a little-endian host and `3F F0 00 00 00 00 00 00` on a big-endian host, and for the float
`1.0f` (bit pattern `0x3F800000`) `PutNumber(float)` hands `00 00 80 3F` and `3F 80 00 00`:
the bytes written depend on the host, whereas `PutNumber(uint32_t)` of the same 32-bit pattern
writes `00 00 80 3F` on both. -/
theorem PutNumber_double_host_dependent :
    (PutNumber_double Env.littleEndian 0x3FF0000000000000 Ser.fresh).out
      = [0, 0, 0, 0, 0, 0, 0xF0, 0x3F] ∧
    (PutNumber_double Env.bigEndian 0x3FF0000000000000 Ser.fresh).out
      = [0x3F, 0xF0, 0, 0, 0, 0, 0, 0] ∧
    (PutNumber_float Env.littleEndian 0x3F800000 Ser.fresh).out = [0, 0, 0x80, 0x3F] ∧
    (PutNumber_float Env.bigEndian 0x3F800000 Ser.fresh).out = [0x3F, 0x80, 0, 0] ∧
    (PutNumber_u32 Env.littleEndian 0x3F800000 Ser.fresh).out = [0, 0, 0x80, 0x3F] ∧
    (PutNumber_u32 Env.bigEndian 0x3F800000 Ser.fresh).out = [0, 0, 0x80, 0x3F] := by
  decide

theorem Put_Put (a b : List Nat) (s : Ser) : Put b (Put a s) = Put (a ++ b) s := by
  simp [Put]

theorem Put_nil (s : Ser) : Put [] s = s := by
  simp [Put]

theorem Put_out (a : List Nat) (s : Ser) : (Put a s).out = s.out ++ a := rfl

theorem Put_backrefs (a : List Nat) (s : Ser) : (Put a s).backrefs = s.backrefs := rfl

theorem Put_roots (a : List Nat) (s : Ser) : (Put a s).roots = s.roots := rfl

theorem leValue_leBytes_four {n : Nat} (h : n < 2 ^ 32) : leValue (leBytes 4 n) = n := by
  rw [leBytes_four]
  simp only [leValue]
  omega

theorem PutString_eq (env : Env) (value : List Nat) (s : Ser) :
    PutString env value s = Put (leBytes 4 value.length ++ value) s := by
  simp only [PutString, PutNumber_u32_eq, leBytes_four_toU32, Put_Put]

/-- C8, counterexample: for the byte string of `2^32` zero bytes `PutString` writes the
length field `00 00 00 00` followed by the `2^32` bytes of the string, so the value of the
length field, `0`, is not the number of bytes that follow it. -/
theorem PutString_length_field_wraps :
    (PutString Env.littleEndian (List.replicate 4294967296 0) Ser.fresh).out
      = [0, 0, 0, 0] ++ List.replicate 4294967296 0 ∧
    leValue [0, 0, 0, 0] ≠ (List.replicate 4294967296 0).length := by
  have h4 : ([4294967296 % 256, 4294967296 / 2 ^ 8 % 256, 4294967296 / 2 ^ 16 % 256,
      4294967296 / 2 ^ 24 % 256] : List Nat) = [0, 0, 0, 0] := by decide
  constructor
  · rw [PutString_eq, Put_out, leBytes_four, List.length_replicate, h4]
    exact List.nil_append _
  · rw [List.length_replicate]
    decide

/-- C8, amended: for every byte string `value` of fewer than `2^32` bytes `PutString` writes
the four-byte little-endian `u32` length followed by exactly the bytes of `value` (no
terminator, no padding); the value of the length field is the number of bytes that follow it,
the output is `4 + |value|` bytes long and `value` is what follows the first four bytes. -/
theorem PutString_wire (env : Env) (value : List Nat) (s : Ser) (h : value.length < 2 ^ 32) :
    PutString env value s =
      Put ([value.length % 256, value.length / 2 ^ 8 % 256, value.length / 2 ^ 16 % 256,
        value.length / 2 ^ 24 % 256] ++ value) s ∧
    leValue (((PutString env value s).out.drop s.out.length).take 4) = value.length ∧
    ((PutString env value s).out.drop s.out.length).length = 4 + value.length ∧
    ((PutString env value s).out.drop s.out.length).drop 4 = value := by
  have hout : (PutString env value s).out.drop s.out.length = leBytes 4 value.length ++ value := by
    rw [PutString_eq, Put_out, List.drop_left]
  have hlen : (leBytes 4 value.length).length = 4 := leBytes_length 4 _
  refine ⟨?_, ?_, ?_, ?_⟩
  · rw [PutString_eq, leBytes_four]
  · rw [hout, List.take_left' hlen, leValue_leBytes_four h]
  · rw [hout, List.length_append, hlen]
  · rw [hout, List.drop_left' hlen]

/-- Witness of `PutString_wire`: the string "east". -/
theorem PutString_wire_witness :
    ([101, 97, 115, 116] : List Nat).length < 2 ^ 32 ∧
    (PutString Env.bigEndian [101, 97, 115, 116] Ser.fresh =
      Put ([([101, 97, 115, 116] : List Nat).length % 256,
        ([101, 97, 115, 116] : List Nat).length / 2 ^ 8 % 256,
        ([101, 97, 115, 116] : List Nat).length / 2 ^ 16 % 256,
        ([101, 97, 115, 116] : List Nat).length / 2 ^ 24 % 256] ++ [101, 97, 115, 116])
        Ser.fresh ∧
    leValue (((PutString Env.bigEndian [101, 97, 115, 116] Ser.fresh).out.drop
      Ser.fresh.out.length).take 4) = ([101, 97, 115, 116] : List Nat).length ∧
    ((PutString Env.bigEndian [101, 97, 115, 116] Ser.fresh).out.drop
      Ser.fresh.out.length).length = 4 + ([101, 97, 115, 116] : List Nat).length ∧
    ((PutString Env.bigEndian [101, 97, 115, 116] Ser.fresh).out.drop
      Ser.fresh.out.length).drop 4 = [101, 97, 115, 116]) :=
  ⟨by decide, PutString_wire Env.bigEndian [101, 97, 115, 116] Ser.fresh (by decide)⟩

theorem toI32_of_range {i : Int} (h1 : -(2 ^ 31) ≤ i) (h2 : i < 2 ^ 31) : toI32 i = i := by
  unfold toI32 u32ToI32 i32ToU32
  split <;> omega

theorem NumberU8_Unbounded_eq (env : Env) (b : Nat) (s : Ser) :
    ISerializer.NumberU8_Unbounded env b s = Put [toU8 b] s := by
  simp only [ISerializer.NumberU8_Unbounded, PutNumber_u8_eq, toU8]
  norm_num

theorem NumberU32_Unbounded_eq (env : Env) (v : Nat) (s : Ser) :
    ISerializer.NumberU32_Unbounded env v s = Put (leBytes 4 v) s := by
  simp only [ISerializer.NumberU32_Unbounded, PutNumber_u32_eq]

/-- C9: for a numeric script value `HandleScriptVal` writes the Int tag and the value as a
32-bit integer exactly when the value is one of the engine's small integers, and otherwise the
Double tag and the eight bytes of the double.  A small integer lies in
`[JSVAL_INT_MIN, JSVAL_INT_MAX]`, and it still does after the conversion of value and bounds to
`int32_t`, so the argument handed to the bounded encoder `NumberI32` is within the bounds
handed to it and the call never ends in `OutOfBounds`. -/
theorem HandleScriptVal_number (env : Env) (fuel : Nat) (val : jsval) (s : Ser)
    (hnum : JS_TypeOfValue env val = .JSTYPE_NUMBER) (hrange : SmallIntRangeIsInt32 env) :
    HandleScriptVal env (fuel + 1) val s =
      (if JSVAL_IS_INT env val then
        (.ok (), Put ([toU8 env.SCRIPT_TYPE_INT] ++ leBytes 4 (i32ToU32 (JSVAL_TO_INT val))) s)
      else
        (.ok (), Put ([toU8 env.SCRIPT_TYPE_DOUBLE]
          ++ memBytes env.host 8 (JSVAL_TO_DOUBLE val)) s)) ∧
    (JSVAL_IS_INT env val = true →
      env.JSVAL_INT_MIN ≤ JSVAL_TO_INT val ∧ JSVAL_TO_INT val ≤ env.JSVAL_INT_MAX ∧
      toI32 env.JSVAL_INT_MIN ≤ toI32 (JSVAL_TO_INT val) ∧
      toI32 (JSVAL_TO_INT val) ≤ toI32 env.JSVAL_INT_MAX) ∧
    (HandleScriptVal env (fuel + 1) val s).1 ≠ .throw .Serialize_OutOfBounds := by
  have hfit : JSVAL_IS_INT env val = true →
      env.JSVAL_INT_MIN ≤ JSVAL_TO_INT val ∧ JSVAL_TO_INT val ≤ env.JSVAL_INT_MAX := by
    intro hint
    cases val with
    | int i => simpa [JSVAL_IS_INT, JSVAL_TO_INT] using hint
    | void => simp [JSVAL_IS_INT] at hint
    | null => simp [JSVAL_IS_INT] at hint
    | object b => simp [JSVAL_IS_INT] at hint
    | string c => simp [JSVAL_IS_INT] at hint
    | double d => simp [JSVAL_IS_INT] at hint
    | boolean b => simp [JSVAL_IS_INT] at hint
  have hbounds : JSVAL_IS_INT env val = true →
      toI32 env.JSVAL_INT_MIN ≤ toI32 (JSVAL_TO_INT val) ∧
      toI32 (JSVAL_TO_INT val) ≤ toI32 env.JSVAL_INT_MAX ∧
      toI32 (JSVAL_TO_INT val) = JSVAL_TO_INT val := by
    intro hint
    obtain ⟨hlo, hhi⟩ := hfit hint
    obtain ⟨rlo, rhi⟩ := hrange
    have hmin : toI32 env.JSVAL_INT_MIN = env.JSVAL_INT_MIN :=
      toI32_of_range rlo (by omega)
    have hmax : toI32 env.JSVAL_INT_MAX = env.JSVAL_INT_MAX :=
      toI32_of_range (by omega) rhi
    have hval : toI32 (JSVAL_TO_INT val) = JSVAL_TO_INT val :=
      toI32_of_range (by omega) (by omega)
    rw [hmin, hmax, hval]
    exact ⟨hlo, hhi, rfl⟩
  have heq : HandleScriptVal env (fuel + 1) val s =
      (if JSVAL_IS_INT env val then
        (.ok (), Put ([toU8 env.SCRIPT_TYPE_INT] ++ leBytes 4 (i32ToU32 (JSVAL_TO_INT val))) s)
      else
        (.ok (), Put ([toU8 env.SCRIPT_TYPE_DOUBLE]
          ++ memBytes env.host 8 (JSVAL_TO_DOUBLE val)) s)) := by
    simp only [HandleScriptVal, hnum]
    by_cases hint : JSVAL_IS_INT env val = true
    · obtain ⟨h1, h2, h3⟩ := hbounds hint
      rw [h3] at h1 h2
      simp only [hint, if_true, ISerializer.NumberI32, h3, h1, h2, and_self, PutNumber_i32_eq,
        NumberU8_Unbounded_eq, Put_Put]
    · simp only [hint, ISerializer.NumberDouble_Unbounded, PutNumber_double,
        NumberU8_Unbounded_eq, Put_Put]
      rfl
  refine ⟨heq, fun hint => ⟨(hfit hint).1, (hfit hint).2, (hbounds hint).1, (hbounds hint).2.1⟩,
    ?_⟩
  rw [heq]
  split <;> simp

/-- Witness of `HandleScriptVal_number`: the small integer `-2` on a big-endian host is
written as the Int tag and four bytes; the integer `2^30`, one above `JSVAL_INT_MAX`, is not a
small integer and takes the Double path. -/
theorem HandleScriptVal_number_witness :
    (JS_TypeOfValue Env.bigEndian (.int (-2)) = .JSTYPE_NUMBER ∧
      SmallIntRangeIsInt32 Env.bigEndian) ∧
    HandleScriptVal Env.bigEndian 1 (.int (-2)) Ser.fresh
      = (.ok (), Put [5, 254, 255, 255, 255] Ser.fresh) ∧
    JSVAL_IS_INT Env.bigEndian (.int (2 ^ 30)) = false ∧
    (HandleScriptVal Env.bigEndian 1 (.int (2 ^ 30)) Ser.fresh).1 = .ok () ∧
    (HandleScriptVal Env.bigEndian 1 (.int (2 ^ 30)) Ser.fresh).2.out.head? = some 6 :=
  have hrange : SmallIntRangeIsInt32 Env.bigEndian := by
    unfold SmallIntRangeIsInt32
    decide
  ⟨⟨rfl, hrange⟩,
    (HandleScriptVal_number Env.bigEndian 0 (.int (-2)) Ser.fresh rfl hrange).1.trans
      (by decide),
    by decide, by decide, by decide⟩

end CBinarySerializer

/-! ## Output is only appended, backref entries are kept -/

theorem StdMap.find_insert_of_ne {V : Type} (k k1 : Nat) (v : V) (m : List (Nat × V))
    (h : k ≠ k1) : StdMap.find k (StdMap.insert k1 v m) = StdMap.find k m := by
  induction m with
  | nil => simp [StdMap.insert, StdMap.find, h]
  | cons p rest ih =>
    obtain ⟨k2, v2⟩ := p
    unfold StdMap.insert
    split
    · simp [StdMap.find, h]
    · split
      · rfl
      · simp only [StdMap.find, ih]

theorem StdMap.find_insert_self {V : Type} (k : Nat) (v : V) (m : List (Nat × V))
    (h : StdMap.find k m = none) : StdMap.find k (StdMap.insert k v m) = some v := by
  induction m with
  | nil => simp [StdMap.insert, StdMap.find]
  | cons p rest ih =>
    obtain ⟨k2, v2⟩ := p
    unfold StdMap.find at h
    split at h
    · exact absurd h (by simp)
    · rename_i hne
      unfold StdMap.insert
      split
      · simp [StdMap.find]
      · simp only [hne, if_false, StdMap.find, ih h]

theorem Ser.Extends.refl (s : Ser) : s.Extends s :=
  ⟨⟨[], by simp⟩, fun _ _ h => h⟩

theorem Ser.Extends.trans {s s1 s2 : Ser} (h1 : s.Extends s1) (h2 : s1.Extends s2) :
    s.Extends s2 := by
  obtain ⟨⟨b1, hb1⟩, hk1⟩ := h1
  obtain ⟨⟨b2, hb2⟩, hk2⟩ := h2
  exact ⟨⟨b1 ++ b2, by rw [hb2, hb1, List.append_assoc]⟩, fun k t h => hk2 k t (hk1 k t h)⟩

theorem Ser.Extends.of_eq {s s1 s2 : Ser} (h : s.Extends s1) (hout : s2.out = s1.out)
    (hback : s2.backrefs = s1.backrefs) : s.Extends s2 := by
  obtain ⟨⟨b, hb⟩, hk⟩ := h
  exact ⟨⟨b, by rw [hout, hb]⟩, fun k t hf => by rw [hback]; exact hk k t hf⟩

theorem Ser.Extends.put (s : Ser) (a : List Nat) : s.Extends (Put a s) :=
  ⟨⟨a, rfl⟩, fun _ _ h => h⟩

namespace CBinarySerializer

theorem PutString_extends (env : Env) (value : List Nat) (s : Ser) :
    s.Extends (PutString env value s) := by
  rw [PutString_eq]
  exact Ser.Extends.put s _

theorem NumberU8_Unbounded_extends (env : Env) (b : Nat) (s : Ser) :
    s.Extends (ISerializer.NumberU8_Unbounded env b s) := by
  rw [NumberU8_Unbounded_eq]
  exact Ser.Extends.put s _

theorem NumberU32_Unbounded_extends (env : Env) (v : Nat) (s : Ser) :
    s.Extends (ISerializer.NumberU32_Unbounded env v s) := by
  rw [NumberU32_Unbounded_eq]
  exact Ser.Extends.put s _

theorem ScriptString_extends (env : Env) (string : List Nat) (s : Ser) :
    s.Extends (ScriptString env string s).2 := by
  unfold ScriptString
  split
  · exact Ser.Extends.refl s
  · exact PutString_extends env _ s

theorem GetScriptBackrefTag_extends (env : Env) (obj : Nat) (s : Ser) :
    s.Extends (GetScriptBackrefTag env obj s).2 := by
  unfold GetScriptBackrefTag
  split
  · exact Ser.Extends.refl s
  · rename_i hnone
    have key : ∀ k t, StdMap.find k s.backrefs = some t →
        StdMap.find k (StdMap.insert obj (toU32 (toU32 s.backrefs.length + 1)) s.backrefs)
          = some t := by
      intro k t hk
      by_cases hko : k = obj
      · subst hko
        rw [hnone] at hk
        exact absurd hk (by simp)
      · rw [StdMap.find_insert_of_ne k obj _ _ hko]
        exact hk
    split
    · exact ⟨⟨[], by simp⟩, key⟩
    · exact ⟨⟨[], by simp⟩, key⟩

theorem IdArrayWrapper_ctor_extends (env : Env) (obj : Nat) (i n : Nat) (s : Ser) :
    s.Extends (IdArrayWrapper_ctor env obj i n s).2 := by
  induction n generalizing i s with
  | zero => exact Ser.Extends.refl s
  | succ n ih =>
    unfold IdArrayWrapper_ctor
    split
    · exact Ser.Extends.trans ⟨⟨[], by simp⟩, fun _ _ h => h⟩ (ih (i + 1) _)
    · exact Ser.Extends.refl s

theorem IdArrayWrapper_dtor_extends (obj length : Nat) (s : Ser) :
    s.Extends (IdArrayWrapper_dtor obj length s) :=
  ⟨⟨[], by simp [IdArrayWrapper_dtor]⟩, fun _ _ h => h⟩

theorem propBody_extends (env : Env) (handle : jsval → Ser → Outcome Unit × Ser)
    (hh : ∀ (v : jsval) (s : Ser), s.Extends (handle v s).2) (obj : Nat) (idstr : List Nat) (s : Ser) :
    s.Extends (propBody env handle obj idstr s).2 := by
  unfold propBody
  split
  · exact Ser.Extends.refl s
  · split
    · exact Ser.Extends.refl s
    · split
      · exact Ser.Extends.refl s
      · have hs := ScriptString_extends env idstr s
        split
        · rename_i s1 heq
          rw [heq] at hs
          split
          · exact hs
          · exact Ser.Extends.trans hs (hh _ _)
        · exact hs

theorem propStep_extends (env : Env) (handle : jsval → Ser → Outcome Unit × Ser)
    (hh : ∀ (v : jsval) (s : Ser), s.Extends (handle v s).2) (obj i id : Nat) (s : Ser) :
    s.Extends (propStep env handle obj i id s).2 := by
  unfold propStep
  split
  · exact Ser.Extends.refl s
  · split
    · exact Ser.Extends.refl s
    · split
      · have h1 : s.Extends { s with roots := Root.idstr obj i :: s.roots } :=
          ⟨⟨[], by simp⟩, fun _ _ h => h⟩
        exact (Ser.Extends.trans h1 (propBody_extends env handle hh obj _ _)).of_eq rfl rfl
      · exact Ser.Extends.refl s

theorem propLoop_extends (env : Env) (handle : jsval → Ser → Outcome Unit × Ser)
    (hh : ∀ (v : jsval) (s : Ser), s.Extends (handle v s).2) (obj i : Nat) (ids : List Nat) (s : Ser) :
    s.Extends (propLoop env handle obj i ids s).2 := by
  induction ids generalizing i s with
  | nil => exact Ser.Extends.refl s
  | cons id ids ih =>
    unfold propLoop
    have hs := propStep_extends env handle hh obj i id s
    split
    · rename_i s1 heq
      rw [heq] at hs
      exact Ser.Extends.trans hs (ih (i + 1) s1)
    · exact hs

theorem HandleScriptVal_extends (env : Env) (fuel : Nat) (val : jsval) (s : Ser) :
    s.Extends (HandleScriptVal env fuel val s).2 := by
  induction fuel generalizing val s with
  | zero => exact Ser.Extends.refl s
  | succ fuel ih =>
    unfold HandleScriptVal
    split
    · exact NumberU8_Unbounded_extends env _ s
    · exact NumberU8_Unbounded_extends env _ s
    · split
      · exact NumberU8_Unbounded_extends env _ s
      · have hg := GetScriptBackrefTag_extends env (JSVAL_TO_OBJECT val) s
        dsimp only
        split
        · rename_i tag s1 heq
          rw [heq] at hg
          split
          · exact hg.trans ((NumberU8_Unbounded_extends env _ s1).trans
              (NumberU32_Unbounded_extends env _ _))
          · have h2 : s.Extends (if JS_IsArrayObject env (JSVAL_TO_OBJECT val) = true then
                ISerializer.NumberU8_Unbounded env env.SCRIPT_TYPE_ARRAY s1
                else ISerializer.NumberU8_Unbounded env env.SCRIPT_TYPE_OBJECT s1) := by
              split
              · exact hg.trans (NumberU8_Unbounded_extends env _ s1)
              · exact hg.trans (NumberU8_Unbounded_extends env _ s1)
            split
            · exact h2
            · rename_i ida hen
              have hc := IdArrayWrapper_ctor_extends env (JSVAL_TO_OBJECT val) 0 ida.length
                (if JS_IsArrayObject env (JSVAL_TO_OBJECT val) = true then
                  ISerializer.NumberU8_Unbounded env env.SCRIPT_TYPE_ARRAY s1
                  else ISerializer.NumberU8_Unbounded env env.SCRIPT_TYPE_OBJECT s1)
              split
              · rename_i s3 hctor
                rw [hctor] at hc
                exact (h2.trans hc).trans ((NumberU32_Unbounded_extends env _ s3).trans
                  ((propLoop_extends env _ ih _ _ _ _).trans
                    (IdArrayWrapper_dtor_extends _ _ _)))
              · rename_i e s3 hctor
                rw [hctor] at hc
                exact h2.trans hc
              · rename_i s3 hctor
                rw [hctor] at hc
                exact h2.trans hc
        · rename_i e s1 heq
          rw [heq] at hg
          exact hg
        · rename_i s1 heq
          rw [heq] at hg
          exact hg
    · exact Ser.Extends.refl s
    · exact (NumberU8_Unbounded_extends env _ s).trans (ScriptString_extends env _ _)
    · split
      · unfold ISerializer.NumberI32
        split
        · rw [PutNumber_i32_eq]
          exact (NumberU8_Unbounded_extends env _ s).trans (Ser.Extends.put _ _)
        · exact NumberU8_Unbounded_extends env _ s
      · exact (NumberU8_Unbounded_extends env _ s).trans (Ser.Extends.put _ _)
    · exact (NumberU8_Unbounded_extends env _ s).trans (NumberU8_Unbounded_extends env _ _)
    · exact Ser.Extends.refl s
    · exact Ser.Extends.refl s

/-! ## `HandleScriptVal` on heap objects -/

/-- The object case of `HandleScriptVal`, for a value that is a heap object of type
`JSTYPE_OBJECT`. -/
theorem HandleScriptVal_object (env : Env) (fuel obj : Nat) (s : Ser)
    (hT : JS_TypeOfValue env (.object obj) = .JSTYPE_OBJECT) :
    HandleScriptVal env (fuel + 1) (.object obj) s =
      match GetScriptBackrefTag env obj s with
      | (.ok tag, s1) =>
        if tag ≠ 0 then
          (.ok (), ISerializer.NumberU32_Unbounded env tag
            (ISerializer.NumberU8_Unbounded env env.SCRIPT_TYPE_BACKREF s1))
        else
          match env.JS_Enumerate obj with
          | none =>
            (.throw .Serialize_ScriptError,
              ISerializer.NumberU8_Unbounded env (objectTag env obj) s1)
          | some ida =>
            match IdArrayWrapper_ctor env obj 0 ida.length
                (ISerializer.NumberU8_Unbounded env (objectTag env obj) s1) with
            | (.ok (), s3) =>
              ((propLoop env (HandleScriptVal env fuel) obj 0 ida
                  (ISerializer.NumberU32_Unbounded env (toU32 ida.length) s3)).1,
                IdArrayWrapper_dtor obj ida.length
                  (propLoop env (HandleScriptVal env fuel) obj 0 ida
                    (ISerializer.NumberU32_Unbounded env (toU32 ida.length) s3)).2)
            | (.throw e, s3) => (.throw e, s3)
            | (.outOfFuel, s3) => (.outOfFuel, s3)
      | (.throw e, s1) => (.throw e, s1)
      | (.outOfFuel, s1) => (.outOfFuel, s1) := by
  have htag : ∀ s1 : Ser,
      (if JS_IsArrayObject env obj = true then
        ISerializer.NumberU8_Unbounded env env.SCRIPT_TYPE_ARRAY s1
        else ISerializer.NumberU8_Unbounded env env.SCRIPT_TYPE_OBJECT s1)
        = ISerializer.NumberU8_Unbounded env (objectTag env obj) s1 := by
    intro s1
    unfold objectTag
    split <;> rfl
  simp only [HandleScriptVal, hT, JSVAL_IS_NULL, JSVAL_TO_OBJECT, htag]
  rfl

theorem propLoop_append (env : Env) (handle : jsval → Ser → Outcome Unit × Ser) (obj i : Nat)
    (pre rest : List Nat) (s sk : Ser)
    (hpre : propLoop env handle obj i pre s = (.ok (), sk)) :
    propLoop env handle obj i (pre ++ rest) s
      = propLoop env handle obj (i + pre.length) rest sk := by
  induction pre generalizing i s with
  | nil =>
    simp only [propLoop, Prod.mk.injEq, true_and] at hpre
    subst hpre
    rfl
  | cons id pre ih =>
    cases hst : propStep env handle obj i id s with
    | mk o s1 =>
      cases o with
      | ok u =>
        have h1 : propLoop env handle obj i (id :: pre) s
            = propLoop env handle obj (i + 1) pre s1 := by
          simp only [propLoop, hst]
        have h2 : propLoop env handle obj i (id :: (pre ++ rest)) s
            = propLoop env handle obj (i + 1) (pre ++ rest) s1 := by
          simp only [propLoop, hst]
        rw [h1] at hpre
        rw [List.cons_append, h2, ih (i + 1) s1 hpre, List.length_cons]
        congr 1
        omega
      | throw e =>
        simp only [propLoop, hst, Prod.mk.injEq, reduceCtorEq, false_and] at hpre
      | outOfFuel =>
        simp only [propLoop, hst, Prod.mk.injEq, reduceCtorEq, false_and] at hpre

/-- C4, amended: for a heap object (plain object or array) that the serializer has already
encountered and holds in its backref table under a tag `tag ≠ 0`, `HandleScriptVal` writes
exactly the BackRef tag byte followed by `tag` as an unbounded `u32` (five bytes) and changes
nothing else: the backref table and the root set are as before, no property is enumerated or
visited.  The table entry, and with it the tag written at any later occurrence, is never
changed by further encoding, so the tag written is the one assigned at the first sighting;
and that tag is non-zero (the size of the table plus one) for every object first seen while the
table holds fewer than `2^32 - 1` objects. -/
theorem HandleScriptVal_backref (env : Env) (fuel obj : Nat) (s : Ser) (tag : Nat)
    (hkind : JS_TypeOfValue env (.object obj) = .JSTYPE_OBJECT)
    (hseen : StdMap.find obj s.backrefs = some tag) (htag : tag ≠ 0) :
    HandleScriptVal env (fuel + 1) (.object obj) s =
      (.ok (), Put ([toU8 env.SCRIPT_TYPE_BACKREF] ++
        [tag % 256, tag / 2 ^ 8 % 256, tag / 2 ^ 16 % 256, tag / 2 ^ 24 % 256]) s) ∧
    (HandleScriptVal env (fuel + 1) (.object obj) s).2.out.length = s.out.length + 5 ∧
    (∀ (fuel1 : Nat) (val1 : jsval),
      StdMap.find obj (HandleScriptVal env fuel1 val1 s).2.backrefs = some tag) ∧
    (∀ (new : Nat) (s0 : Ser), StdMap.find new s0.backrefs = none →
      s0.backrefs.length < 2 ^ 32 - 1 →
      StdMap.find new (GetScriptBackrefTag env new s0).2.backrefs
        = some (s0.backrefs.length + 1) ∧ s0.backrefs.length + 1 ≠ 0) := by
  have hget : GetScriptBackrefTag env obj s = (.ok tag, s) := by
    simp only [GetScriptBackrefTag, hseen]
  have heq : HandleScriptVal env (fuel + 1) (.object obj) s =
      (.ok (), Put ([toU8 env.SCRIPT_TYPE_BACKREF] ++
        [tag % 256, tag / 2 ^ 8 % 256, tag / 2 ^ 16 % 256, tag / 2 ^ 24 % 256]) s) := by
    rw [HandleScriptVal_object env fuel obj s hkind, hget]
    simp only [htag, ne_eq, not_false_eq_true, if_true, NumberU8_Unbounded_eq,
      NumberU32_Unbounded_eq, Put_Put, leBytes_four]
  refine ⟨heq, ?_,
    fun fuel1 val1 => (HandleScriptVal_extends env fuel1 val1 s).2 obj tag hseen, ?_⟩
  · rw [heq]
    simp [Put_out]
  · intro new s0 hnone hlen
    refine ⟨?_, Nat.succ_ne_zero _⟩
    have htag0 : toU32 (toU32 s0.backrefs.length + 1) = s0.backrefs.length + 1 := by
      unfold toU32
      omega
    unfold GetScriptBackrefTag
    rw [hnone]
    dsimp only
    split
    · show StdMap.find new (StdMap.insert new _ s0.backrefs) = _
      rw [StdMap.find_insert_self new _ _ hnone, htag0]
    · show StdMap.find new (StdMap.insert new _ s0.backrefs) = _
      rw [StdMap.find_insert_self new _ _ hnone, htag0]

/-- Witness of `HandleScriptVal_backref`, on `var x = []; var y = [x, x];`: encoding `y`
writes the Array tag, two properties, and for the second element the BackRef tag with tag `2`;
in the state this leaves, `x` is encoded as `{BackRef, 2}`. -/
theorem HandleScriptVal_backref_witness :
    (JS_TypeOfValue Env.sharedArray (.object 1) = .JSTYPE_OBJECT ∧
      StdMap.find 1 (HandleScriptVal Env.sharedArray 2 (.object 0) Ser.fresh).2.backrefs
        = some 2 ∧ 2 ≠ 0) ∧
    (HandleScriptVal Env.sharedArray 2 (.object 0) Ser.fresh).2.out =
      [2, 2, 0, 0, 0,
        1, 0, 0, 0, 48, 2, 0, 0, 0, 0,
        1, 0, 0, 0, 49, 8, 2, 0, 0, 0] ∧
    HandleScriptVal Env.sharedArray 1 (.object 1)
        (HandleScriptVal Env.sharedArray 2 (.object 0) Ser.fresh).2 =
      (.ok (), Put [8, 2, 0, 0, 0] (HandleScriptVal Env.sharedArray 2 (.object 0) Ser.fresh).2) :=
  ⟨⟨rfl, by decide, by decide⟩, by decide,
    (HandleScriptVal_backref Env.sharedArray 0 1
      (HandleScriptVal Env.sharedArray 2 (.object 0) Ser.fresh).2 2 rfl (by decide)
      (by decide)).1⟩

/-! ## Values that cannot be serialized -/

theorem HandleScriptVal_function_xml (env : Env) (fuel : Nat) (val : jsval) (s : Ser)
    (hkind : JS_TypeOfValue env val = .JSTYPE_FUNCTION ∨
      JS_TypeOfValue env val = .JSTYPE_XML) :
    HandleScriptVal env (fuel + 1) val s = (.throw .Serialize_InvalidScriptValue, s) := by
  rcases hkind with h | h <;> simp only [HandleScriptVal, h]

/-- An exception of the recursive call of an iteration leaves the property loop with the
output as it was when the exception was raised. -/
theorem propStep_throw (env : Env) (handle : jsval → Ser → Outcome Unit × Ser)
    (obj i id : Nat) (sk : Ser) (idval : jsval) (idstr : List Nat) (attrs : Nat) (t t1 : Ser)
    (propval : jsval) (e : PSERROR)
    (h1 : env.JS_IdToValue id = some idval) (h2 : env.JS_ValueToString idval = some idstr)
    (h3 : env.JS_AddRoot (.idstr obj i) = true)
    (h4 : env.JS_GetUCPropertyAttributes obj idstr = some (attrs, true))
    (h5 : attrs &&& env.JSPROP_GETTER = 0)
    (h6 : ScriptString env idstr { sk with roots := Root.idstr obj i :: sk.roots } = (.ok (), t))
    (h7 : env.JS_GetUCProperty obj idstr = some propval)
    (h8 : handle propval t = (.throw e, t1)) :
    propStep env handle obj i id sk
      = (.throw e, { t1 with roots := t1.roots.erase (Root.idstr obj i) }) := by
  simp only [propStep, h1, h2, h3, if_true, propBody, h4, h5, h6, h7, h8, Bool.not_true,
    Bool.false_eq_true, if_false, ne_eq, not_true_eq_false]

/-- C5: whenever the traversal started by `HandleScriptVal(val)` (hence by `PutScriptVal`)
reaches a value of type function or XML, at the top level or at any property depth, the call
ends with `PSERROR_Serialize_InvalidScriptValue`, and nothing has been written since that value
was reached: no type tag is emitted for it. -/
theorem HandleScriptVal_rejects_function_and_xml (env : Env) (fuel : Nat) (val : jsval)
    (s : Ser) (v : jsval) (t : Ser) (hreach : Reaches env fuel val s v t)
    (hkind : JS_TypeOfValue env v = .JSTYPE_FUNCTION ∨ JS_TypeOfValue env v = .JSTYPE_XML) :
    (HandleScriptVal env fuel val s).1 = .throw .Serialize_InvalidScriptValue ∧
    (HandleScriptVal env fuel val s).2.out = t.out ∧
    PutScriptVal env fuel val s = HandleScriptVal env fuel val s := by
  have key : (HandleScriptVal env fuel val s).1 = .throw .Serialize_InvalidScriptValue ∧
      (HandleScriptVal env fuel val s).2.out = t.out := by
    induction hreach with
    | self fuel val s =>
      rw [HandleScriptVal_function_xml env fuel val s hkind]
      exact ⟨rfl, rfl⟩
    | property fuel obj s s1 s3 ida pre id post sk idval idstr attrs t propval v t1 hT hget hen
        hctor hida hpre h1 h2 h3 h4 h5 h6 h7 _ ih =>
      obtain ⟨ih1, ih2⟩ := ih hkind
      cases hcall : HandleScriptVal env fuel propval t with
      | mk o t2 =>
        rw [hcall] at ih1 ih2
        simp only at ih1 ih2
        subst ih1
        have hstep := propStep_throw env (HandleScriptVal env fuel) obj pre.length id sk idval
          idstr attrs t t2 propval _ h1 h2 h3 h4 h5 h6 h7 hcall
        have hloop : propLoop env (HandleScriptVal env fuel) obj 0 ida
            (ISerializer.NumberU32_Unbounded env (toU32 ida.length) s3)
            = (.throw .Serialize_InvalidScriptValue,
                { t2 with roots := t2.roots.erase (Root.idstr obj pre.length) }) := by
          rw [hida, propLoop_append env _ obj 0 pre (id :: post) _ sk (by rw [← hida]; exact hpre)]
          simp only [Nat.zero_add, propLoop, hstep]
        rw [HandleScriptVal_object env fuel obj s hT, hget]
        simp only [ne_eq, not_true_eq_false, if_false, hen, hctor, hloop]
        exact ⟨trivial, ih2⟩
  exact ⟨key.1, key.2, rfl⟩

/-- Witness of `HandleScriptVal_rejects_function_and_xml`, on
`var o = { a: 1, f: function () {} };`: the traversal of `o` reaches the function after the
tag of `o`, the property count, the property `a` and the name `f` have been written, and ends
with `InvalidScriptValue` without writing anything more. -/
theorem HandleScriptVal_rejects_function_and_xml_witness :
    (Reaches Env.objectWithFunction 2 (.object 0) Ser.fresh (.object 1)
        ⟨[3, 2, 0, 0, 0, 1, 0, 0, 0, 97, 5, 1, 0, 0, 0, 1, 0, 0, 0, 102], [(0, 1)],
          [.idstr 0 1, .idSlot 0 1, .idSlot 0 0, .backref 0]⟩ ∧
      (JS_TypeOfValue Env.objectWithFunction (.object 1) = .JSTYPE_FUNCTION ∨
        JS_TypeOfValue Env.objectWithFunction (.object 1) = .JSTYPE_XML)) ∧
    (HandleScriptVal Env.objectWithFunction 2 (.object 0) Ser.fresh).1
      = .throw .Serialize_InvalidScriptValue ∧
    (HandleScriptVal Env.objectWithFunction 2 (.object 0) Ser.fresh).2.out
      = [3, 2, 0, 0, 0, 1, 0, 0, 0, 97, 5, 1, 0, 0, 0, 1, 0, 0, 0, 102] :=
  have hreach : Reaches Env.objectWithFunction 2 (.object 0) Ser.fresh (.object 1)
      ⟨[3, 2, 0, 0, 0, 1, 0, 0, 0, 97, 5, 1, 0, 0, 0, 1, 0, 0, 0, 102], [(0, 1)],
        [.idstr 0 1, .idSlot 0 1, .idSlot 0 0, .backref 0]⟩ :=
    Reaches.property 1 0 Ser.fresh ⟨[], [(0, 1)], [.backref 0]⟩
      ⟨[3], [(0, 1)], [.idSlot 0 1, .idSlot 0 0, .backref 0]⟩ [0, 1] [0] 1 []
      ⟨[3, 2, 0, 0, 0, 1, 0, 0, 0, 97, 5, 1, 0, 0, 0], [(0, 1)],
        [.idSlot 0 1, .idSlot 0 0, .backref 0]⟩
      (.string [102]) [102] 1 _ (.object 1) (.object 1) _
      (by decide) (by decide) (by decide) (by decide) (by decide) (by decide) (by decide)
      (by decide) (by decide) (by decide) (by decide) (by decide) (by decide)
      (Reaches.self 0 _ _)
  have hkind : JS_TypeOfValue Env.objectWithFunction (.object 1) = .JSTYPE_FUNCTION ∨
      JS_TypeOfValue Env.objectWithFunction (.object 1) = .JSTYPE_XML := Or.inl (by decide)
  have h := HandleScriptVal_rejects_function_and_xml Env.objectWithFunction 2 (.object 0)
    Ser.fresh (.object 1) _ hreach hkind
  ⟨⟨hreach, hkind⟩, h.1, h.2.1⟩

/-! ## The encoding of an object seen for the first time -/

/-- What a successful iteration of the property loop has done. -/
theorem propStep_ok (env : Env) (handle : jsval → Ser → Outcome Unit × Ser)
    (obj i id : Nat) (s s1 : Ser) (h : propStep env handle obj i id s = (.ok (), s1)) :
    ∃ (idval : jsval) (idstr str8 : List Nat) (propval : jsval) (t1 : Ser),
      env.JS_IdToValue id = some idval ∧ env.JS_ValueToString idval = some idstr ∧
      env.utf8_from_wstring idstr = some str8 ∧ env.JS_GetUCProperty obj idstr = some propval ∧
      handle propval (PutString env str8 { s with roots := Root.idstr obj i :: s.roots })
        = (.ok (), t1) ∧
      s1 = { t1 with roots := t1.roots.erase (Root.idstr obj i) } := by
  unfold propStep at h
  cases h1 : env.JS_IdToValue id with
  | none => simp [h1] at h
  | some idval =>
    cases h2 : env.JS_ValueToString idval with
    | none => simp [h1, h2] at h
    | some idstr =>
      cases h3 : env.JS_AddRoot (.idstr obj i) with
      | false => simp [h1, h2, h3] at h
      | true =>
        simp only [h1, h2, h3, if_true, Prod.mk.injEq] at h
        obtain ⟨hres, hs1⟩ := h
        unfold propBody at hres hs1
        cases h4 : env.JS_GetUCPropertyAttributes obj idstr with
        | none => simp [h4] at hres
        | some af =>
          obtain ⟨attrs, found⟩ := af
          cases found with
          | false => simp [h4] at hres
          | true =>
            by_cases h5 : attrs &&& env.JSPROP_GETTER = 0
            · cases h6 : env.utf8_from_wstring idstr with
              | none => simp [h4, h5, ScriptString, h6] at hres
              | some str8 =>
                cases h7 : env.JS_GetUCProperty obj idstr with
                | none => simp [h4, h5, ScriptString, h6, h7] at hres
                | some propval =>
                  simp only [h4, h5, ScriptString, h6, h7, Bool.not_true, Bool.false_eq_true,
                    if_false, ne_eq, not_true_eq_false] at hres hs1
                  cases hcall : handle propval
                      (PutString env str8 { s with roots := Root.idstr obj i :: s.roots }) with
                  | mk o t1 =>
                    rw [hcall] at hres hs1
                    simp only at hres hs1
                    subst hres
                    exact ⟨idval, idstr, str8, propval, t1, rfl, h2, h6, h7, hcall, hs1.symm⟩
            · simp [h4, h5] at hres

/-- A property loop that ends normally has written the encoding of its properties. -/
theorem propLoop_ok (env : Env) (fuel obj i : Nat) (ids : List Nat) (s s2 : Ser)
    (h : propLoop env (HandleScriptVal env fuel) obj i ids s = (.ok (), s2)) :
    ∃ body, PropsEncoded env fuel obj i ids s body s2 ∧ s2.out = s.out ++ body := by
  induction ids generalizing i s with
  | nil =>
    simp only [propLoop, Prod.mk.injEq, true_and] at h
    subst h
    exact ⟨[], PropsEncoded.nil i s, by simp⟩
  | cons id ids ih =>
    cases hst : propStep env (HandleScriptVal env fuel) obj i id s with
    | mk o s1 =>
      cases o with
      | ok u =>
        have h1 : propLoop env (HandleScriptVal env fuel) obj i (id :: ids) s
            = propLoop env (HandleScriptVal env fuel) obj (i + 1) ids s1 := by
          simp only [propLoop, hst]
        rw [h1] at h
        obtain ⟨rest, hrest, hout⟩ := ih (i + 1) s1 h
        obtain ⟨idval, idstr, str8, propval, t1, e1, e2, e3, e4, e5, e6⟩ :=
          propStep_ok env _ obj i id s s1 hst
        have hext := HandleScriptVal_extends env fuel propval
          (PutString env str8 { s with roots := Root.idstr obj i :: s.roots })
        rw [e5] at hext
        obtain ⟨⟨valueBytes, hvb⟩, _⟩ := hext
        have hvb1 : t1.out = s.out ++ (leBytes 4 str8.length ++ str8) ++ valueBytes := by
          rw [hvb, PutString_eq, Put_out]
        subst e6
        refine ⟨leBytes 4 str8.length ++ str8 ++ valueBytes ++ rest,
          PropsEncoded.cons i id ids s idval idstr str8 propval t1 valueBytes rest s2
            e1 e2 e3 e4 e5 hvb1 hrest, ?_⟩
        rw [hout]
        simp only [hvb1, List.append_assoc]
      | throw e =>
        simp only [propLoop, hst, Prod.mk.injEq, reduceCtorEq, false_and] at h
      | outOfFuel =>
        simp only [propLoop, hst, Prod.mk.injEq, reduceCtorEq, false_and] at h

theorem IdArrayWrapper_ctor_out (env : Env) (obj : Nat) (i n : Nat) (s : Ser) :
    (IdArrayWrapper_ctor env obj i n s).2.out = s.out ∧
    (IdArrayWrapper_ctor env obj i n s).2.backrefs = s.backrefs := by
  induction n generalizing i s with
  | zero => exact ⟨rfl, rfl⟩
  | succ n ih =>
    unfold IdArrayWrapper_ctor
    split
    · exact ih (i + 1) _
    · exact ⟨rfl, rfl⟩

theorem GetScriptBackrefTag_first (env : Env) (obj : Nat) (s : Ser)
    (hnew : StdMap.find obj s.backrefs = none) :
    (GetScriptBackrefTag env obj s).1
      = (if env.JS_AddRoot (.backref obj) then .ok 0 else .throw .Serialize_ScriptError) ∧
    (GetScriptBackrefTag env obj s).2.out = s.out ∧
    StdMap.find obj (GetScriptBackrefTag env obj s).2.backrefs
      = some (toU32 (toU32 s.backrefs.length + 1)) := by
  simp only [GetScriptBackrefTag, hnew]
  split
  · exact ⟨rfl, rfl, StdMap.find_insert_self obj _ _ hnew⟩
  · exact ⟨rfl, rfl, StdMap.find_insert_self obj _ _ hnew⟩

/-- C3: when `HandleScriptVal` is called on a heap object (plain object or array) that is not
yet in the backref table and returns normally, it has written, in this order: one tag byte
(Array for an array, Object otherwise), the number of enumerated properties as an unbounded
little-endian `u32`, and then for each property in the order of `JS_Enumerate` its name as a
codec string followed by the bytes of the recursive encoding of its value (`PropsEncoded`).
The object has been entered into the backref table under the next tag, `size + 1`, and that tag
is not written.  Nothing in this depends on the object being an array except the tag byte. -/
theorem HandleScriptVal_first_sighting (env : Env) (fuel obj : Nat) (s s1 : Ser)
    (hnew : StdMap.find obj s.backrefs = none)
    (hrun : HandleScriptVal env (fuel + 1) (.object obj) s = (.ok (), s1)) :
    ∃ (ida body : List Nat) (s0 s2 : Ser),
      env.JS_Enumerate obj = some ida ∧
      s0.out = s.out ++ [toU8 (objectTag env obj)] ++ leBytes 4 ida.length ∧
      StdMap.find obj s0.backrefs = some (toU32 (toU32 s.backrefs.length + 1)) ∧
      PropsEncoded env fuel obj 0 ida s0 body s2 ∧
      s1.out = s.out ++ [toU8 (objectTag env obj)] ++ leBytes 4 ida.length ++ body ∧
      s1.backrefs = s2.backrefs ∧
      StdMap.find obj s1.backrefs = some (toU32 (toU32 s.backrefs.length + 1)) := by
  have hT : JS_TypeOfValue env (.object obj) = .JSTYPE_OBJECT := by
    cases hk : env.kindOf obj with
    | plain => simp only [JS_TypeOfValue, hk]
    | array => simp only [JS_TypeOfValue, hk]
    | function =>
      rw [HandleScriptVal_function_xml env fuel _ s
        (Or.inl (by simp only [JS_TypeOfValue, hk]))] at hrun
      simp at hrun
    | xml =>
      rw [HandleScriptVal_function_xml env fuel _ s
        (Or.inr (by simp only [JS_TypeOfValue, hk]))] at hrun
      simp at hrun
  rw [HandleScriptVal_object env fuel obj s hT] at hrun
  obtain ⟨hg1, hsa_out, hsa_find⟩ := GetScriptBackrefTag_first env obj s hnew
  cases hget : GetScriptBackrefTag env obj s with
  | mk og sa =>
  rw [hget] at hrun hg1 hsa_out hsa_find
  simp only at hg1 hsa_out hsa_find
  cases hroot : env.JS_AddRoot (.backref obj) with
  | false =>
    rw [hroot] at hg1
    simp only [Bool.false_eq_true, if_false] at hg1
    subst hg1
    simp at hrun
  | true =>
    rw [hroot] at hg1
    simp only [if_true] at hg1
    subst hg1
    simp only [ne_eq, not_true_eq_false, if_false] at hrun
    cases hen : env.JS_Enumerate obj with
    | none => simp [hen] at hrun
    | some ida =>
      simp only [hen] at hrun
      have hco := IdArrayWrapper_ctor_out env obj 0 ida.length
        (ISerializer.NumberU8_Unbounded env (objectTag env obj) sa)
      cases hctor : IdArrayWrapper_ctor env obj 0 ida.length
          (ISerializer.NumberU8_Unbounded env (objectTag env obj) sa) with
      | mk o s3 =>
        rw [hctor] at hrun hco
        cases o with
        | throw e => simp at hrun
        | outOfFuel => simp at hrun
        | ok u =>
          simp only [Prod.mk.injEq] at hrun hco
          obtain ⟨hres, hs1⟩ := hrun
          obtain ⟨hco1, hco2⟩ := hco
          cases hloop : propLoop env (HandleScriptVal env fuel) obj 0 ida
              (ISerializer.NumberU32_Unbounded env (toU32 ida.length) s3) with
          | mk o2 s4 =>
            rw [hloop] at hres hs1
            simp only at hres hs1
            subst hres
            obtain ⟨body, hbody, hout⟩ := propLoop_ok env fuel obj 0 ida _ s4 hloop
            have hs0_out : (ISerializer.NumberU32_Unbounded env (toU32 ida.length) s3).out
                = s.out ++ [toU8 (objectTag env obj)] ++ leBytes 4 ida.length := by
              rw [NumberU32_Unbounded_eq, Put_out, hco1, NumberU8_Unbounded_eq, Put_out,
                hsa_out, leBytes_four_toU32]
            have hs0_find : StdMap.find obj
                (ISerializer.NumberU32_Unbounded env (toU32 ida.length) s3).backrefs
                = some (toU32 (toU32 s.backrefs.length + 1)) := by
              rw [NumberU32_Unbounded_eq, Put_backrefs, hco2, NumberU8_Unbounded_eq,
                Put_backrefs]
              exact hsa_find
            have hext := propLoop_extends env (HandleScriptVal env fuel)
              (HandleScriptVal_extends env fuel) obj 0 ida
              (ISerializer.NumberU32_Unbounded env (toU32 ida.length) s3)
            rw [hloop] at hext
            refine ⟨ida, body, _, s4, rfl, hs0_out, hs0_find, hbody, ?_, ?_, ?_⟩
            · rw [← hs1]
              simp only [IdArrayWrapper_dtor]
              rw [hout, hs0_out]
            · rw [← hs1]
              rfl
            · rw [← hs1]
              exact hext.2 obj _ hs0_find

/-- Witness of `HandleScriptVal_first_sighting`, on `var x = []; var y = [x, x];`: the array
`y`, seen for the first time by a fresh serializer. -/
theorem HandleScriptVal_first_sighting_witness :
    (StdMap.find 0 Ser.fresh.backrefs = none ∧
      HandleScriptVal Env.sharedArray 2 (.object 0) Ser.fresh =
        (.ok (), ⟨[2, 2, 0, 0, 0, 1, 0, 0, 0, 48, 2, 0, 0, 0, 0, 1, 0, 0, 0, 49, 8, 2, 0, 0, 0],
          [(0, 1), (1, 2)], [.backref 1, .backref 0]⟩)) ∧
    ∃ (ida body : List Nat) (s0 s2 : Ser),
      Env.sharedArray.JS_Enumerate 0 = some ida ∧
      s0.out = Ser.fresh.out ++ [toU8 (objectTag Env.sharedArray 0)] ++ leBytes 4 ida.length ∧
      StdMap.find 0 s0.backrefs = some (toU32 (toU32 Ser.fresh.backrefs.length + 1)) ∧
      PropsEncoded Env.sharedArray 1 0 0 ida s0 body s2 ∧
      [2, 2, 0, 0, 0, 1, 0, 0, 0, 48, 2, 0, 0, 0, 0, 1, 0, 0, 0, 49, 8, 2, 0, 0, 0] =
        Ser.fresh.out ++ [toU8 (objectTag Env.sharedArray 0)] ++ leBytes 4 ida.length ++ body ∧
      [(0, 1), (1, 2)] = s2.backrefs ∧
      StdMap.find 0 [(0, 1), (1, 2)] = some (toU32 (toU32 Ser.fresh.backrefs.length + 1)) :=
  ⟨⟨rfl, by decide⟩,
    HandleScriptVal_first_sighting Env.sharedArray 1 0 Ser.fresh
      ⟨[2, 2, 0, 0, 0, 1, 0, 0, 0, 48, 2, 0, 0, 0, 0, 1, 0, 0, 0, 49, 8, 2, 0, 0, 0],
        [(0, 1), (1, 2)], [.backref 1, .backref 0]⟩ rfl (by decide)⟩

end CBinarySerializer

/-! ## `SerializeState` and `ComputeStateHash` write the specified records -/

namespace CComponentManager

variable {C P : Type}

theorem componentSerialize_ok (w : Sim C P) (c : C) (s : Ser)
    (h : (w.Serialize c).2 = none) :
    componentSerialize w c s = (.ok (), Put (w.Serialize c).1 s) := by
  simp only [componentSerialize, h]

theorem serializeEntities_ok (w : Sim C P) (ents : List (Nat × C)) (s : Ser)
    (hser : ∀ q ∈ ents, (w.Serialize q.2).2 = none) :
    serializeEntities w ents s = (.ok (), Put (entityRecords w ents) s) := by
  induction ents generalizing s with
  | nil => simp [serializeEntities, entityRecords, CBinarySerializer.Put_nil]
  | cons q rest ih =>
    obtain ⟨ent, c⟩ := q
    have hc : (w.Serialize c).2 = none := hser (ent, c) (List.mem_cons_self _ _)
    have hrest : ∀ q ∈ rest, (w.Serialize q.2).2 = none :=
      fun q hq => hser q (List.mem_cons_of_mem _ hq)
    simp only [serializeEntities, componentSerialize_ok w c _ hc, ih _ hrest,
      CBinarySerializer.NumberU32_Unbounded_eq, CBinarySerializer.Put_Put, entityRecords,
      List.flatMap_cons, List.append_assoc]

theorem StringASCII_ok (env : Env) (name : List Nat) (s : Ser) (h : ValidTypeName name) :
    ISerializer.StringASCII env name 0 255 s
      = (.ok (), Put (leBytes 4 name.length ++ name) s) := by
  obtain ⟨hlen, hchars⟩ := h
  have hall : name.all (fun c => decide (c ≠ 0 ∧ c < 128)) = true := by
    rw [List.all_eq_true]
    intro c hc
    exact decide_eq_true (hchars c hc)
  simp only [ISerializer.StringASCII, Nat.zero_le, hlen, and_self, if_true, hall,
    CBinarySerializer.PutString_eq]

theorem liveComponents_cons_empty (cid : Int) (ents : List (Nat × C)) (t : ComponentTable C)
    (h : ents.isEmpty = true) : liveComponents ((cid, ents) :: t) = liveComponents t := by
  simp [liveComponents, List.filter_cons, h]

theorem liveComponents_cons_live (cid : Int) (ents : List (Nat × C)) (t : ComponentTable C)
    (h : ¬ ents.isEmpty = true) :
    liveComponents ((cid, ents) :: t) = (cid, ents) :: liveComponents t := by
  simp [liveComponents, List.filter_cons, h]

theorem countComponentTypes_eq (t : ComponentTable C) (n : Nat) :
    toU32 (countComponentTypes t n) = toU32 (n + (liveComponents t).length) := by
  induction t generalizing n with
  | nil => simp [countComponentTypes, liveComponents]
  | cons p rest ih =>
    obtain ⟨cid, ents⟩ := p
    unfold countComponentTypes
    split
    · rename_i h
      rw [ih, liveComponents_cons_empty cid ents rest h]
    · rename_i h
      rw [ih, liveComponents_cons_live cid ents rest h, List.length_cons]
      unfold toU32
      omega

theorem serializeTypes_ok (w : Sim C P) (types : List (Int × ComponentType))
    (t : ComponentTable C) (s : Ser)
    (hreg : ∀ p ∈ t, p.2 ≠ [] →
      ∃ ct, StdMap.find p.1 types = some ct ∧ ValidTypeName ct.name)
    (hser : ∀ p ∈ t, ∀ q ∈ p.2, (w.Serialize q.2).2 = none) :
    serializeTypes w types t s = (.ok true, Put ((liveComponents t).flatMap fun p =>
      (match StdMap.find p.1 types with
        | some ct => leBytes 4 ct.name.length ++ ct.name
        | none => []) ++
      leBytes 4 p.2.length ++ entityRecords w p.2) s) := by
  induction t generalizing s with
  | nil => simp [serializeTypes, liveComponents, CBinarySerializer.Put_nil]
  | cons p rest ih =>
    obtain ⟨cid, ents⟩ := p
    have hreg1 : ∀ p ∈ rest, p.2 ≠ [] →
        ∃ ct, StdMap.find p.1 types = some ct ∧ ValidTypeName ct.name :=
      fun p hp => hreg p (List.mem_cons_of_mem _ hp)
    have hser1 : ∀ p ∈ rest, ∀ q ∈ p.2, (w.Serialize q.2).2 = none :=
      fun p hp => hser p (List.mem_cons_of_mem _ hp)
    unfold serializeTypes
    split
    · rename_i h
      rw [ih _ hreg1 hser1, liveComponents_cons_empty cid ents rest h]
    · rename_i h
      have hne : ents ≠ [] := by
        intro h0
        exact h (by rw [h0]; rfl)
      obtain ⟨ct, hct, hname⟩ := hreg (cid, ents) (List.mem_cons_self _ _) hne
      have hents := hser (cid, ents) (List.mem_cons_self _ _)
      simp only [hct, StringASCII_ok w.env ct.name s hname, serializeEntities_ok w ents _ hents,
        ih _ hreg1 hser1, liveComponents_cons_live cid ents rest h, List.flatMap_cons,
        CBinarySerializer.NumberU32_Unbounded_eq, CBinarySerializer.Put_Put,
        leBytes_four_toU32, List.append_assoc]

theorem SerializeState_ok (w : Sim C P) (m : CComponentManager C) (s : Ser)
    (hreg : ∀ p ∈ m.m_ComponentsByTypeId, p.2 ≠ [] →
      ∃ ct, StdMap.find p.1 m.m_ComponentTypesById = some ct ∧ ValidTypeName ct.name)
    (hser : ∀ p ∈ m.m_ComponentsByTypeId, ∀ q ∈ p.2, (w.Serialize q.2).2 = none) :
    SerializeState w m s = (.ok true, Put (wireRecord w m) s) := by
  have hcount : leBytes 4 (countComponentTypes m.m_ComponentsByTypeId 0)
      = leBytes 4 (liveComponents m.m_ComponentsByTypeId).length := by
    rw [← leBytes_four_toU32, countComponentTypes_eq, leBytes_four_toU32, Nat.zero_add]
  simp only [SerializeState, serializeTypes_ok w _ _ _ hreg hser,
    CBinarySerializer.NumberU32_Unbounded_eq, CBinarySerializer.Put_Put, hcount, wireRecord]

theorem liveComponents_ordered (t : ComponentTable C) (h : ComponentTable.WF t) :
    StdMap.Ordered (liveComponents t) ∧
    ∀ p ∈ liveComponents t, p.2 ≠ [] ∧ StdMap.Ordered p.2 := by
  obtain ⟨hord, hin⟩ := h
  constructor
  · unfold StdMap.Ordered liveComponents at *
    exact hord.sublist ((List.filter_sublist _).map Prod.fst)
  · intro p hp
    unfold liveComponents at hp
    rw [List.mem_filter] at hp
    obtain ⟨hmem, hne⟩ := hp
    refine ⟨?_, (hin p hmem).2.1⟩
    intro h0
    rw [h0] at hne
    simp at hne

/-- C1: for every component table whose non-empty component types are all registered (under
a bounded ASCII name) and whose components serialize without raising, `SerializeState` returns
`true` and writes exactly the `WireRecord`: the `u32` count of non-empty types; then for each
non-empty type, in ascending `ComponentTypeId` order, its registered name as a length-prefixed
ASCII string, the `u32` number of its components and, for each entity in ascending `EntityId`
order, the `u32` entity id followed by the component's own `Serialize` output; nothing else. -/
theorem SerializeState_writes_wire_record (w : Sim C P) (m : CComponentManager C) (s : Ser)
    (hwf : ComponentTable.WF m.m_ComponentsByTypeId)
    (hreg : ∀ p ∈ m.m_ComponentsByTypeId, p.2 ≠ [] →
      ∃ ct, StdMap.find p.1 m.m_ComponentTypesById = some ct ∧ ValidTypeName ct.name)
    (hser : ∀ p ∈ m.m_ComponentsByTypeId, ∀ q ∈ p.2, (w.Serialize q.2).2 = none) :
    SerializeState w m s = (.ok true, Put (wireRecord w m) s) ∧
    StdMap.Ordered (liveComponents m.m_ComponentsByTypeId) ∧
    ∀ p ∈ liveComponents m.m_ComponentsByTypeId, p.2 ≠ [] ∧ StdMap.Ordered p.2 :=
  ⟨SerializeState_ok w m s hreg hser, liveComponents_ordered _ hwf⟩

theorem positionManager_wf : ComponentTable.WF Sim.positionManager.m_ComponentsByTypeId := by
  unfold ComponentTable.WF StdMap.Ordered
  decide

theorem positionManager_registered :
    ∀ p ∈ Sim.positionManager.m_ComponentsByTypeId, p.2 ≠ [] →
      ∃ ct, StdMap.find p.1 Sim.positionManager.m_ComponentTypesById = some ct ∧
        ValidTypeName ct.name := by
  intro p hp hne
  simp only [Sim.positionManager, List.mem_cons, List.mem_singleton, List.not_mem_nil,
    or_false] at hp
  rcases hp with rfl | rfl
  · refine ⟨⟨[80, 111, 115, 105, 116, 105, 111, 110]⟩, rfl, ?_⟩
    unfold ValidTypeName
    decide
  · exact absurd rfl hne

theorem blobs_serialize_total (t : ComponentTable (List Nat)) :
    ∀ p ∈ t, ∀ q ∈ p.2, (Sim.blobs.Serialize q.2).2 = none :=
  fun _ _ _ _ => rfl

/-- Witness of `SerializeState_writes_wire_record`: the scenario of the specification, one
type "Position" with the single entity `2`: count `1`, name "Position", component count `1`,
entity id `2`, then the component's bytes. -/
theorem SerializeState_writes_wire_record_witness :
    (ComponentTable.WF Sim.positionManager.m_ComponentsByTypeId ∧
      (∀ p ∈ Sim.positionManager.m_ComponentsByTypeId, p.2 ≠ [] →
        ∃ ct, StdMap.find p.1 Sim.positionManager.m_ComponentTypesById = some ct ∧
          ValidTypeName ct.name) ∧
      ∀ p ∈ Sim.positionManager.m_ComponentsByTypeId, ∀ q ∈ p.2,
        (Sim.blobs.Serialize q.2).2 = none) ∧
    SerializeState Sim.blobs Sim.positionManager Ser.fresh =
      (.ok true, Put
        [1, 0, 0, 0,
          8, 0, 0, 0, 80, 111, 115, 105, 116, 105, 111, 110,
          1, 0, 0, 0,
          2, 0, 0, 0,
          0, 0, 0, 0, 0, 0, 12, 64, 4, 0, 0, 0, 101, 97, 115, 116] Ser.fresh) :=
  ⟨⟨positionManager_wf, positionManager_registered, blobs_serialize_total _⟩,
    (SerializeState_writes_wire_record Sim.blobs Sim.positionManager Ser.fresh
      positionManager_wf positionManager_registered (blobs_serialize_total _)).1.trans
      (by decide)⟩

theorem hashTypes_live (w : Sim C P) (t : ComponentTable C) (s : Ser) :
    hashTypes w t s = hashTypes w (liveComponents t) s := by
  induction t generalizing s with
  | nil => rfl
  | cons p rest ih =>
    obtain ⟨cid, ents⟩ := p
    by_cases h : ents.isEmpty = true
    · rw [liveComponents_cons_empty cid ents rest h, ← ih]
      simp only [hashTypes, h, if_true]
    · rw [liveComponents_cons_live cid ents rest h]
      simp only [hashTypes, h, if_false, Bool.false_eq_true]
      cases hse : serializeEntities w ents (ISerializer.NumberI32_Unbounded w.env cid s) with
      | mk o s1 =>
        cases o with
        | ok u => exact ih s1
        | throw e => rfl
        | outOfFuel => rfl

theorem hashTypes_ok (w : Sim C P) (t : ComponentTable C) (s : Ser)
    (hser : ∀ p ∈ t, ∀ q ∈ p.2, (w.Serialize q.2).2 = none) :
    hashTypes w t s = (.ok (), Put (hashRecord w t) s) := by
  induction t generalizing s with
  | nil => simp [hashTypes, hashRecord, liveComponents, CBinarySerializer.Put_nil]
  | cons p rest ih =>
    obtain ⟨cid, ents⟩ := p
    have hser1 : ∀ p ∈ rest, ∀ q ∈ p.2, (w.Serialize q.2).2 = none :=
      fun p hp => hser p (List.mem_cons_of_mem _ hp)
    unfold hashTypes
    split
    · rename_i h
      rw [ih _ hser1]
      simp only [hashRecord, liveComponents_cons_empty cid ents rest h]
    · rename_i h
      have hents := hser (cid, ents) (List.mem_cons_self _ _)
      simp only [serializeEntities_ok w ents _ hents, ih _ hser1, hashRecord,
        liveComponents_cons_live cid ents rest h, List.flatMap_cons,
        ISerializer.NumberI32_Unbounded, CBinarySerializer.PutNumber_i32_eq,
        CBinarySerializer.Put_Put, List.append_assoc]

theorem ComputeStateHash_live (w : Sim C P) (m m1 : CComponentManager C) (outHash : List Nat)
    (h : liveComponents m1.m_ComponentsByTypeId = liveComponents m.m_ComponentsByTypeId) :
    hashFeed w m1 = hashFeed w m ∧
    ComputeStateHash w m1 outHash = ComputeStateHash w m outHash := by
  have h2 : hashTypes w m1.m_ComponentsByTypeId Ser.fresh
      = hashTypes w m.m_ComponentsByTypeId Ser.fresh := by
    rw [hashTypes_live w m1.m_ComponentsByTypeId, h, ← hashTypes_live]
  constructor
  · unfold hashFeed
    rw [h2]
  · unfold ComputeStateHash
    rw [h2]

/-- C10: `ComputeStateHash` is a function of the live components.  Whenever the components
serialize without raising, it feeds to the hash sink, for each non-empty component type in
ascending `ComponentTypeId` order, the type id as an `i32` followed by, for each entity in
ascending `EntityId` order, the entity id as a `u32` and the component's `Serialize` output, and
the digest is the hash of this sequence.  In every case a manager with the same live
components, whatever component types without an instance it has in addition, feeds the same
sequence and ends with the same outcome and digest. -/
theorem ComputeStateHash_deterministic (w : Sim C P) (m : CComponentManager C)
    (outHash : List Nat) (hwf : ComponentTable.WF m.m_ComponentsByTypeId) :
    ((∀ p ∈ m.m_ComponentsByTypeId, ∀ q ∈ p.2, (w.Serialize q.2).2 = none) →
      hashFeed w m = hashRecord w m.m_ComponentsByTypeId ∧
      ComputeStateHash w m outHash
        = (.ok true, w.ComputeHash (hashRecord w m.m_ComponentsByTypeId))) ∧
    (StdMap.Ordered (liveComponents m.m_ComponentsByTypeId) ∧
      ∀ p ∈ liveComponents m.m_ComponentsByTypeId, p.2 ≠ [] ∧ StdMap.Ordered p.2) ∧
    ∀ m1 : CComponentManager C,
      liveComponents m1.m_ComponentsByTypeId = liveComponents m.m_ComponentsByTypeId →
        hashFeed w m1 = hashFeed w m ∧
        ComputeStateHash w m1 outHash = ComputeStateHash w m outHash := by
  refine ⟨fun hser => ?_, liveComponents_ordered _ hwf,
    fun m1 hlive => ComputeStateHash_live w m m1 outHash hlive⟩
  have h1 : hashTypes w m.m_ComponentsByTypeId Ser.fresh
      = (.ok (), Put (hashRecord w m.m_ComponentsByTypeId) Ser.fresh) :=
    hashTypes_ok w _ _ hser
  have hout : (Put (hashRecord w m.m_ComponentsByTypeId) Ser.fresh).out
      = hashRecord w m.m_ComponentsByTypeId := by
    rw [CBinarySerializer.Put_out]
    exact List.nil_append _
  constructor
  · unfold hashFeed
    rw [h1, hout]
  · unfold ComputeStateHash
    rw [h1]
    simp only [hout]

/-- Witness of `ComputeStateHash_deterministic`: the "Position" scenario; the type id `7` and
the entity id `2` are fed before the component's bytes, and the type `9` without an instance
feeds nothing. -/
theorem ComputeStateHash_deterministic_witness :
    (ComponentTable.WF Sim.positionManager.m_ComponentsByTypeId ∧
      ∀ p ∈ Sim.positionManager.m_ComponentsByTypeId, ∀ q ∈ p.2,
        (Sim.blobs.Serialize q.2).2 = none) ∧
    hashFeed Sim.blobs Sim.positionManager =
      [7, 0, 0, 0, 2, 0, 0, 0,
        0, 0, 0, 0, 0, 0, 12, 64, 4, 0, 0, 0, 101, 97, 115, 116] :=
  ⟨⟨positionManager_wf, blobs_serialize_total _⟩,
    ((ComputeStateHash_deterministic Sim.blobs Sim.positionManager []
      positionManager_wf).1 (blobs_serialize_total _)).1.trans (by decide)⟩

/-! ## Reading back what was written -/

theorem NumberU32_Unbounded_read (n : Nat) (rest : List Nat) (h : n < 2 ^ 32) :
    IDeserializer.NumberU32_Unbounded (leBytes 4 n ++ rest) = (.ok n, rest) := by
  have hlen : (leBytes 4 n).length = 4 := leBytes_length 4 n
  have h4 : 4 ≤ (leBytes 4 n ++ rest).length := by
    rw [List.length_append, hlen]
    omega
  simp only [IDeserializer.NumberU32_Unbounded, h4, if_true, List.take_left' hlen,
    List.drop_left' hlen, CBinarySerializer.leValue_leBytes_four h]

theorem StringASCII_read (name rest : List Nat) (h : ValidTypeName name) :
    IDeserializer.StringASCII 0 255 (leBytes 4 name.length ++ (name ++ rest))
      = (.ok name, rest) := by
  obtain ⟨hlen, hchars⟩ := h
  have hall : name.all (fun c => decide (c ≠ 0 ∧ c < 128)) = true := by
    rw [List.all_eq_true]
    intro c hc
    exact decide_eq_true (hchars c hc)
  have hle : name.length ≤ (name ++ rest).length := by
    rw [List.length_append]
    omega
  simp only [IDeserializer.StringASCII, NumberU32_Unbounded_read name.length _ (by omega),
    Nat.zero_le, hlen, and_self, if_true, hle, List.take_left, List.drop_left, hall]

/-! ## Rebuilding the table in ascending order -/

theorem StdMap.find_none_of_ne {K V : Type} [DecidableEq K] (k : K) (m : List (K × V))
    (h : ∀ p ∈ m, p.1 ≠ k) : StdMap.find k m = none := by
  induction m with
  | nil => rfl
  | cons p rest ih =>
    obtain ⟨k1, v1⟩ := p
    have hk : k ≠ k1 := fun e => h (k1, v1) (List.mem_cons_self _ _) e.symm
    simp only [StdMap.find, hk, if_false]
    exact ih fun p hp => h p (List.mem_cons_of_mem _ hp)

theorem StdMap.find_append_last {K V : Type} [DecidableEq K] (k : K) (v : V)
    (m : List (K × V)) (h : ∀ p ∈ m, p.1 ≠ k) : StdMap.find k (m ++ [(k, v)]) = some v := by
  induction m with
  | nil => simp [StdMap.find]
  | cons p rest ih =>
    obtain ⟨k1, v1⟩ := p
    have hk : k ≠ k1 := fun e => h (k1, v1) (List.mem_cons_self _ _) e.symm
    simp only [List.cons_append, StdMap.find, hk, if_false]
    exact ih fun p hp => h p (List.mem_cons_of_mem _ hp)

theorem StdMap.insert_last (k : Nat) (v : C) (m : List (Nat × C)) (h : ∀ p ∈ m, p.1 < k) :
    StdMap.insert k v m = m ++ [(k, v)] := by
  induction m with
  | nil => rfl
  | cons p rest ih =>
    obtain ⟨k1, v1⟩ := p
    have hk : k1 < k := h (k1, v1) (List.mem_cons_self _ _)
    have h1 : ¬ k < k1 := by omega
    have h2 : ¬ k = k1 := by omega
    simp only [StdMap.insert, h1, h2, if_false, List.cons_append]
    rw [ih fun p hp => h p (List.mem_cons_of_mem _ hp)]

theorem tableFind_new_type (cid : Int) (ent : Nat) (t : ComponentTable C)
    (h : ∀ p ∈ t, p.1 < cid) : tableFind cid ent t = none := by
  unfold tableFind
  rw [StdMap.find_none_of_ne cid t fun p hp => by have := h p hp; omega]

theorem tableFind_new_entity (cid : Int) (ent : Nat) (t : ComponentTable C)
    (done : List (Nat × C)) (h : ∀ p ∈ t, p.1 < cid) (hd : ∀ q ∈ done, q.1 < ent) :
    tableFind cid ent (t ++ [(cid, done)]) = none := by
  unfold tableFind
  rw [StdMap.find_append_last cid done t fun p hp => by have := h p hp; omega]
  exact StdMap.find_none_of_ne ent done fun q hq => by have := hd q hq; omega

theorem tableInsert_new_type (cid : Int) (ent : Nat) (c : C) (t : ComponentTable C)
    (h : ∀ p ∈ t, p.1 < cid) : tableInsert cid ent c t = t ++ [(cid, [(ent, c)])] := by
  induction t with
  | nil => rfl
  | cons p rest ih =>
    obtain ⟨k1, v1⟩ := p
    have hk : k1 < cid := h (k1, v1) (List.mem_cons_self _ _)
    have h1 : ¬ cid < k1 := by omega
    have h2 : ¬ cid = k1 := by omega
    simp only [tableInsert, h1, h2, if_false, List.cons_append]
    rw [ih fun p hp => h p (List.mem_cons_of_mem _ hp)]

theorem tableInsert_new_entity (cid : Int) (ent : Nat) (c : C) (t : ComponentTable C)
    (done : List (Nat × C)) (h : ∀ p ∈ t, p.1 < cid) (hd : ∀ q ∈ done, q.1 < ent) :
    tableInsert cid ent c (t ++ [(cid, done)]) = t ++ [(cid, done ++ [(ent, c)])] := by
  induction t with
  | nil =>
    simp only [List.nil_append, tableInsert, lt_self_iff_false, if_false, if_true]
    rw [StdMap.insert_last ent c done hd]
  | cons p rest ih =>
    obtain ⟨k1, v1⟩ := p
    have hk : k1 < cid := h (k1, v1) (List.mem_cons_self _ _)
    have h1 : ¬ cid < k1 := by omega
    have h2 : ¬ cid = k1 := by omega
    simp only [List.cons_append, tableInsert, h1, h2, if_false]
    exact congrArg (fun l => (k1, v1) :: l) (ih fun p hp => h p (List.mem_cons_of_mem _ hp))

theorem tableAssign_last (cid : Int) (ent : Nat) (c0 c1 : C) (t : ComponentTable C)
    (done : List (Nat × C)) (h : ∀ p ∈ t, p.1 < cid) (hd : ∀ q ∈ done, q.1 < ent) :
    tableAssign cid ent c1 (t ++ [(cid, done ++ [(ent, c0)])])
      = t ++ [(cid, done ++ [(ent, c1)])] := by
  have hdone : done.map (fun q => if q.1 = ent then (q.1, c1) else q) = done := by
    rw [List.map_congr_left (g := id)]
    · exact List.map_id _
    · intro q hq
      have := hd q hq
      have hne : ¬ q.1 = ent := by omega
      simp only [hne, if_false, id]
  have ht : t.map (fun p =>
      if p.1 = cid then (p.1, p.2.map fun q => if q.1 = ent then (q.1, c1) else q) else p)
      = t := by
    rw [List.map_congr_left (g := id)]
    · exact List.map_id _
    · intro p hp
      have := h p hp
      have hne : ¬ p.1 = cid := by omega
      simp only [hne, if_false, id]
  simp only [tableAssign, List.map_append, ht, List.map_cons, List.map_nil, if_true, hdone]

/-- One iteration of the entity loop on the record of a component that round-trips. -/
theorem deserializeEntities_step (w : Sim C P) (ctname : List Nat) (ctid : Int) (n ent : Nat)
    (c c0 : C) (T : ComponentTable C) (rest : List Nat) (tm : Option C)
    (hent : ent < 2 ^ 32) (hfind : tableFind ctid ent T = none)
    (halloc : w.alloc ctid ent = some c0)
    (hde : ∀ (params : P) (rest : List Nat),
      w.Deserialize c0 params ((w.Serialize c).1 ++ rest) = (.ok (), c, rest)) :
    ∃ tm1, deserializeEntities w ctname ctid (n + 1)
        ⟨T, leBytes 4 ent ++ ((w.Serialize c).1 ++ rest), tm⟩
      = deserializeEntities w ctname ctid n
        ⟨tableAssign ctid ent c (tableInsert ctid ent c0 T), rest, tm1⟩ := by
  refine ⟨if ent = w.SYSTEM_ENTITY ∧ ctid = w.CID_TemplateManager then some c else tm, ?_⟩
  simp only [deserializeEntities, NumberU32_Unbounded_read ent _ hent, ConstructComponent,
    hfind, halloc, hde]

theorem entityRecords_cons (w : Sim C P) (ent : Nat) (c : C) (ents : List (Nat × C)) :
    entityRecords w ((ent, c) :: ents)
      = leBytes 4 ent ++ ((w.Serialize c).1 ++ entityRecords w ents) := by
  simp only [entityRecords, List.flatMap_cons, List.append_assoc]

theorem deserializeEntities_rebuild (w : Sim C P) (ctname : List Nat) (ctid : Int)
    (t : ComponentTable C) (hT : ∀ p ∈ t, p.1 < ctid) (ents : List (Nat × C)) :
    ∀ (done : List (Nat × C)) (rest : List Nat) (tm : Option C),
      StdMap.Ordered (done ++ ents) →
      (∀ q ∈ ents, q.1 < 2 ^ 32 ∧ ∃ c0, w.alloc ctid q.1 = some c0 ∧
        ∀ (params : P) (rest : List Nat),
          w.Deserialize c0 params ((w.Serialize q.2).1 ++ rest) = (.ok (), q.2, rest)) →
      ∃ tm1, deserializeEntities w ctname ctid ents.length
          ⟨t ++ [(ctid, done)], entityRecords w ents ++ rest, tm⟩
        = (.ok true, ⟨t ++ [(ctid, done ++ ents)], rest, tm1⟩) := by
  induction ents with
  | nil =>
    intro done rest tm _ _
    exact ⟨tm, by simp [deserializeEntities, entityRecords]⟩
  | cons q ents ih =>
    intro done rest tm hord hq
    obtain ⟨ent, c⟩ := q
    obtain ⟨hent, c0, halloc, hde⟩ := hq (ent, c) (List.mem_cons_self _ _)
    have hd : ∀ q ∈ done, q.1 < ent := by
      intro q hq1
      unfold StdMap.Ordered at hord
      rw [List.map_append, List.pairwise_append] at hord
      exact hord.2.2 q.1 (List.mem_map_of_mem _ hq1) ent (by simp)
    obtain ⟨tm1, hstep⟩ := deserializeEntities_step w ctname ctid ents.length ent c c0
      (t ++ [(ctid, done)]) (entityRecords w ents ++ rest) tm hent
      (tableFind_new_entity ctid ent t done hT hd) halloc hde
    have hord1 : StdMap.Ordered ((done ++ [(ent, c)]) ++ ents) := by
      rw [List.append_assoc]
      exact hord
    obtain ⟨tm2, hrest⟩ := ih (done ++ [(ent, c)]) rest tm1 hord1
      fun q hq1 => hq q (List.mem_cons_of_mem _ hq1)
    refine ⟨tm2, ?_⟩
    rw [List.length_cons, entityRecords_cons, List.append_assoc, List.append_assoc, hstep,
      tableInsert_new_entity ctid ent c0 t done hT hd,
      tableAssign_last ctid ent c0 c t done hT hd, hrest, List.append_assoc]
    rfl

theorem deserializeTypes_rebuild (w : Sim C P) (types : List (Int × ComponentType))
    (gs : ComponentTable C) :
    ∀ (t : ComponentTable C) (rest : List Nat) (tm : Option C),
      StdMap.Ordered (t ++ gs) →
      (∀ p ∈ gs, p.2 ≠ [] ∧ p.2.length < 2 ^ 32 ∧ StdMap.Ordered p.2 ∧
        p.1 ≠ w.CID__Invalid ∧
        (∃ ct, StdMap.find p.1 types = some ct ∧ ValidTypeName ct.name ∧
          w.LookupCID ct.name = p.1) ∧
        ∀ q ∈ p.2, q.1 < 2 ^ 32 ∧ ∃ c0, w.alloc p.1 q.1 = some c0 ∧
          ∀ (params : P) (rest : List Nat),
            w.Deserialize c0 params ((w.Serialize q.2).1 ++ rest) = (.ok (), q.2, rest)) →
      ∃ tm1, deserializeTypes w gs.length
          ⟨t, (gs.flatMap fun p =>
            (match StdMap.find p.1 types with
              | some ct => leBytes 4 ct.name.length ++ ct.name
              | none => []) ++
            leBytes 4 p.2.length ++ entityRecords w p.2) ++ rest, tm⟩
        = (.ok true, ⟨t ++ gs, rest, tm1⟩) := by
  induction gs with
  | nil =>
    intro t rest tm _ _
    exact ⟨tm, by simp [deserializeTypes]⟩
  | cons p gs ih =>
    intro t rest tm hord hp
    obtain ⟨cid, ents⟩ := p
    obtain ⟨hne, hlen, hordE, hvalid, ⟨ct, hct, hname, hlookup⟩, hq⟩ :=
      hp (cid, ents) (List.mem_cons_self _ _)
    have hT : ∀ p ∈ t, p.1 < cid := by
      intro p hp1
      unfold StdMap.Ordered at hord
      rw [List.map_append, List.pairwise_append] at hord
      exact hord.2.2 p.1 (List.mem_map_of_mem _ hp1) cid (by simp)
    cases ents with
    | nil => exact absurd rfl hne
    | cons q ents =>
      obtain ⟨ent, c⟩ := q
      obtain ⟨hent, c0, halloc, hde⟩ := hq (ent, c) (List.mem_cons_self _ _)
      have hord1 : StdMap.Ordered ((t ++ [(cid, (ent, c) :: ents)]) ++ gs) := by
        rw [List.append_assoc]
        exact hord
      obtain ⟨tm3, hrest⟩ := ih (t ++ [(cid, (ent, c) :: ents)]) rest
        (if ent = w.SYSTEM_ENTITY ∧ cid = w.CID_TemplateManager then some c else tm)
        hord1 fun p hp1 => hp p (List.mem_cons_of_mem _ hp1)
      obtain ⟨tm1, hstep⟩ := deserializeEntities_step w ct.name cid ents.length ent c c0 t
        (entityRecords w ents ++ ((gs.flatMap fun p =>
            (match StdMap.find p.1 types with
              | some ct => leBytes 4 ct.name.length ++ ct.name
              | none => []) ++
            leBytes 4 p.2.length ++ entityRecords w p.2) ++ rest)) tm hent
        (tableFind_new_type cid ent t hT) halloc hde
      obtain ⟨tm2, hents⟩ := deserializeEntities_rebuild w ct.name cid t hT ents [(ent, c)]
        ((gs.flatMap fun p =>
            (match StdMap.find p.1 types with
              | some ct => leBytes 4 ct.name.length ++ ct.name
              | none => []) ++
            leBytes 4 p.2.length ++ entityRecords w p.2) ++ rest) tm1 hordE
        fun q hq1 => hq q (List.mem_cons_of_mem _ hq1)
      have hassign : tableAssign cid ent c (t ++ [(cid, [(ent, c0)])])
          = t ++ [(cid, [(ent, c)])] := tableAssign_last cid ent c0 c t [] hT (by simp)
      rw [tableInsert_new_type cid ent c0 t hT, hassign] at hstep
      obtain ⟨tm4, hrest1⟩ := ih (t ++ [(cid, (ent, c) :: ents)]) rest tm2
        hord1 fun p hp1 => hp p (List.mem_cons_of_mem _ hp1)
      refine ⟨tm4, ?_⟩
      have hlen1 : ents.length + 1 < 2 ^ 32 := by
        simpa only [List.length_cons] using hlen
      simp only [List.flatMap_cons, hct, List.append_assoc, List.length_cons, deserializeTypes,
        StringASCII_read ct.name _ hname, hlookup, hvalid, if_false, entityRecords_cons]
      simp only [List.length_cons, List.append_assoc, List.nil_append, List.cons_append,
        List.singleton_append] at hstep hents hrest1 ⊢
      rw [NumberU32_Unbounded_read _ _ hlen1]
      simp only [hstep, hents, hrest1]

theorem liveComponents_idem (t : ComponentTable C) :
    liveComponents (liveComponents t) = liveComponents t := by
  simp [liveComponents, List.filter_filter]

theorem tableFind_liveComponents (cid : Int) (ent : Nat) (t : ComponentTable C)
    (h : StdMap.Ordered t) : tableFind cid ent (liveComponents t) = tableFind cid ent t := by
  induction t with
  | nil => rfl
  | cons p rest ih =>
    obtain ⟨k, es⟩ := p
    unfold StdMap.Ordered at h
    rw [List.map_cons, List.pairwise_cons] at h
    have ih1 := ih h.2
    by_cases he : es.isEmpty = true
    · rw [liveComponents_cons_empty k es rest he, ih1]
      by_cases hk : cid = k
      · have hes : es = [] := List.isEmpty_iff.mp he
        have hnone : StdMap.find cid rest = none :=
          StdMap.find_none_of_ne cid rest fun p hp => by
            have := h.1 p.1 (List.mem_map_of_mem _ hp)
            omega
        simp only [tableFind, hnone, StdMap.find, hk, if_true, hes]
        rw [← hk, hnone]
      · simp only [tableFind, StdMap.find, hk, if_false]
    · rw [liveComponents_cons_live k es rest he]
      by_cases hk : cid = k
      · simp only [tableFind, StdMap.find, hk, if_true]
      · have := ih1
        simp only [tableFind, StdMap.find, hk, if_false] at this ⊢
        exact this

theorem serializedBytes_eq (w : Sim C P) (m : CComponentManager C)
    (hreg : ∀ p ∈ m.m_ComponentsByTypeId, p.2 ≠ [] →
      ∃ ct, StdMap.find p.1 m.m_ComponentTypesById = some ct ∧ ValidTypeName ct.name)
    (hser : ∀ p ∈ m.m_ComponentsByTypeId, ∀ q ∈ p.2, (w.Serialize q.2).2 = none) :
    serializedBytes w m = wireRecord w m := by
  unfold serializedBytes
  rw [SerializeState_ok w m Ser.fresh hreg hser, CBinarySerializer.Put_out]
  exact List.nil_append _

theorem ordered_length_le (l : List Int) (hi : Int) :
    ∀ lo : Int, lo ≤ hi → l.Pairwise (fun a b => a < b) → (∀ x ∈ l, lo ≤ x ∧ x < hi) →
      (l.length : Int) ≤ hi - lo := by
  induction l with
  | nil =>
    intro lo hlo _ _
    simp only [List.length_nil, Nat.cast_zero]
    omega
  | cons x xs ih =>
    intro lo _ hord hmem
    rw [List.pairwise_cons] at hord
    obtain ⟨hx1, hx2⟩ := hmem x (List.mem_cons_self _ _)
    have hxs := ih (x + 1) (by omega) hord.2 fun y hy =>
      ⟨by have := hord.1 y hy; omega, (hmem y (List.mem_cons_of_mem _ hy)).2⟩
    simp only [List.length_cons, Nat.cast_add, Nat.cast_one]
    omega

theorem ordered_length_lt (l : List Int) (hi c : Int) :
    ∀ lo : Int, lo ≤ c → c < hi → l.Pairwise (fun a b => a < b) →
      (∀ x ∈ l, lo ≤ x ∧ x < hi) → c ∉ l → (l.length : Int) < hi - lo := by
  induction l with
  | nil =>
    intro lo hlo hc _ _ _
    simp only [List.length_nil, Nat.cast_zero]
    omega
  | cons x xs ih =>
    intro lo hlo hc hord hmem hnot
    rw [List.pairwise_cons] at hord
    obtain ⟨hx1, hx2⟩ := hmem x (List.mem_cons_self _ _)
    have hxc : x ≠ c := fun e => hnot (by rw [e]; exact List.mem_cons_self _ _)
    have hmem1 : ∀ y ∈ xs, x + 1 ≤ y ∧ y < hi := fun y hy =>
      ⟨by have := hord.1 y hy; omega, (hmem y (List.mem_cons_of_mem _ hy)).2⟩
    simp only [List.length_cons, Nat.cast_add, Nat.cast_one]
    by_cases hlt : x < c
    · have := ih (x + 1) (by omega) hc hord.2 hmem1 fun h => hnot (List.mem_cons_of_mem _ h)
      omega
    · have := ordered_length_le xs hi (x + 1) (by omega) hord.2 hmem1
      omega

/-- A well-formed table has fewer than `2^32` non-empty types when no non-empty type has the
id `CID__Invalid`: the ids are distinct `int`s other than that one. -/
theorem liveComponents_length_lt (t : ComponentTable C) (invalid : Int)
    (hwf : ComponentTable.WF t) (hinv : -(2 ^ 31) ≤ invalid ∧ invalid < 2 ^ 31)
    (hne : ∀ p ∈ t, p.2 ≠ [] → p.1 ≠ invalid) : (liveComponents t).length < 2 ^ 32 := by
  have hord := (liveComponents_ordered t hwf).1
  have hlive := (liveComponents_ordered t hwf).2
  have hsub : ∀ p ∈ liveComponents t, p ∈ t := by
    intro p hp
    unfold liveComponents at hp
    exact (List.mem_filter.mp hp).1
  have h := ordered_length_lt ((liveComponents t).map Prod.fst) (2 ^ 31) invalid (-(2 ^ 31))
    hinv.1 hinv.2 hord
    (by
      intro x hx
      obtain ⟨p, hp, rfl⟩ := List.exists_of_mem_map hx
      exact (hwf.2 p (hsub p hp)).1)
    (by
      intro hx
      obtain ⟨p, hp, hpe⟩ := List.exists_of_mem_map hx
      exact hne p (hsub p hp) (hlive p hp).1 hpe)
  rw [List.length_map] at h
  omega

/-- The round trip of `SerializeState` and `DeserializeState` for tables whose counts fit the
`u32` count fields. -/
theorem DeserializeState_SerializeState (w : Sim C P) (m m0 : CComponentManager C)
    (hwf : ComponentTable.WF m.m_ComponentsByTypeId)
    (hsize : (liveComponents m.m_ComponentsByTypeId).length < 2 ^ 32 ∧
      ∀ p ∈ m.m_ComponentsByTypeId, p.2.length < 2 ^ 32)
    (hreg : ∀ p ∈ m.m_ComponentsByTypeId, p.2 ≠ [] → p.1 ≠ w.CID__Invalid ∧
      ∃ ct, StdMap.find p.1 m.m_ComponentTypesById = some ct ∧ ValidTypeName ct.name ∧
        w.LookupCID ct.name = p.1)
    (hcomp : ∀ p ∈ m.m_ComponentsByTypeId, ∀ q ∈ p.2, (w.Serialize q.2).2 = none ∧
      ∃ c0, w.alloc p.1 q.1 = some c0 ∧ ∀ (params : P) (rest : List Nat),
        w.Deserialize c0 params ((w.Serialize q.2).1 ++ rest) = (.ok (), q.2, rest)) :
    DeserializeState w m0 (serializedBytes w m)
      = (.ok true,
          { m0 with m_ComponentsByTypeId := liveComponents m.m_ComponentsByTypeId }) := by
  have hreg1 : ∀ p ∈ m.m_ComponentsByTypeId, p.2 ≠ [] →
      ∃ ct, StdMap.find p.1 m.m_ComponentTypesById = some ct ∧ ValidTypeName ct.name := by
    intro p hp hne
    obtain ⟨_, ct, h1, h2, _⟩ := hreg p hp hne
    exact ⟨ct, h1, h2⟩
  have hser : ∀ p ∈ m.m_ComponentsByTypeId, ∀ q ∈ p.2, (w.Serialize q.2).2 = none :=
    fun p hp q hq => (hcomp p hp q hq).1
  obtain ⟨hordL, hliveL⟩ := liveComponents_ordered _ hwf
  have hgs : ∀ p ∈ liveComponents m.m_ComponentsByTypeId,
      p.2 ≠ [] ∧ p.2.length < 2 ^ 32 ∧ StdMap.Ordered p.2 ∧ p.1 ≠ w.CID__Invalid ∧
      (∃ ct, StdMap.find p.1 m.m_ComponentTypesById = some ct ∧ ValidTypeName ct.name ∧
        w.LookupCID ct.name = p.1) ∧
      ∀ q ∈ p.2, q.1 < 2 ^ 32 ∧ ∃ c0, w.alloc p.1 q.1 = some c0 ∧
        ∀ (params : P) (rest : List Nat),
          w.Deserialize c0 params ((w.Serialize q.2).1 ++ rest) = (.ok (), q.2, rest) := by
    intro p hp
    have hmem : p ∈ m.m_ComponentsByTypeId := by
      unfold liveComponents at hp
      exact (List.mem_filter.mp hp).1
    obtain ⟨hne, hordp⟩ := hliveL p hp
    obtain ⟨hinv, hct⟩ := hreg p hmem hne
    refine ⟨hne, hsize.2 p hmem, hordp, hinv, hct, fun q hq => ?_⟩
    exact ⟨(hwf.2 p hmem).2.2 q hq, (hcomp p hmem q hq).2⟩
  obtain ⟨tm1, hrebuild⟩ := deserializeTypes_rebuild w m.m_ComponentTypesById
    (liveComponents m.m_ComponentsByTypeId) [] [] none
    (by rw [List.nil_append]; exact hordL) hgs
  rw [serializedBytes_eq w m hreg1 hser]
  unfold DeserializeState wireRecord
  rw [NumberU32_Unbounded_read _ _ hsize.1]
  simp only [DestroyAllComponents]
  rw [List.append_nil] at hrebuild
  rw [hrebuild]
  simp

/-! ## The round trip and the width of the count fields -/

theorem fullManager_entities_length :
    ((List.range 4294967296).map fun ent => (ent, List.replicate 16 (0 : Nat))).length
      = 4294967296 := by
  rw [List.length_map, List.length_range]

theorem fullManager_entities_cons :
    ((List.range 4294967296).map fun ent => (ent, List.replicate 16 (0 : Nat)))
      = (0, List.replicate 16 0) ::
        ((List.range 4294967295).map Nat.succ).map fun ent => (ent, List.replicate 16 (0 : Nat)) := by
  have h : List.range 4294967296 = 0 :: (List.range 4294967295).map Nat.succ :=
    List.range_succ_eq_map 4294967295
  rw [h, List.map_cons]

theorem fullManager_live :
    liveComponents Sim.fullManager.m_ComponentsByTypeId
      = Sim.fullManager.m_ComponentsByTypeId := by
  unfold Sim.fullManager liveComponents
  simp only [List.filter_cons, List.filter_nil, fullManager_entities_cons, List.isEmpty_cons,
    Bool.not_false, if_true]

theorem fullManager_wf : ComponentTable.WF Sim.fullManager.m_ComponentsByTypeId := by
  unfold ComponentTable.WF StdMap.Ordered Sim.fullManager
  refine ⟨by simp, ?_⟩
  intro p hp
  rw [List.mem_singleton] at hp
  rw [hp]
  refine ⟨by decide, ?_, ?_⟩
  · dsimp only
    rw [List.map_map]
    have hfun : (Prod.fst ∘ fun ent : Nat => (ent, List.replicate 16 (0 : Nat))) = id := rfl
    rw [hfun, List.map_id]
    exact List.pairwise_lt_range 4294967296
  · intro q hq
    dsimp only at hq
    obtain ⟨ent, hent, hq1⟩ := List.exists_of_mem_map hq
    rw [← hq1]
    exact List.mem_range.mp hent

theorem fullManager_components :
    ∀ p ∈ Sim.fullManager.m_ComponentsByTypeId, ∀ q ∈ p.2,
      (Sim.blobs.Serialize q.2).2 = none ∧
      ∃ c0, Sim.blobs.alloc p.1 q.1 = some c0 ∧ ∀ (params : Unit) (rest : List Nat),
        Sim.blobs.Deserialize c0 params ((Sim.blobs.Serialize q.2).1 ++ rest)
          = (.ok (), q.2, rest) := by
  intro p hp q hq
  unfold Sim.fullManager at hp
  rw [List.mem_singleton] at hp
  rw [hp] at hq ⊢
  dsimp only at hq ⊢
  obtain ⟨ent, _, hq1⟩ := List.exists_of_mem_map hq
  rw [← hq1]
  refine ⟨rfl, List.replicate 16 0, rfl, fun params rest => ?_⟩
  have hlen : (List.replicate 16 (0 : Nat)).length = 16 := List.length_replicate 16 0
  have hle : (List.replicate 16 (0 : Nat)).length
      ≤ (List.replicate 16 (0 : Nat) ++ rest).length := by
    rw [List.length_append]
    omega
  simp only [Sim.blobs, hle, if_true, List.take_left, List.drop_left]

theorem fullManager_registered :
    ∀ p ∈ Sim.fullManager.m_ComponentsByTypeId, p.2 ≠ [] → p.1 ≠ Sim.blobs.CID__Invalid ∧
      ∃ ct, StdMap.find p.1 Sim.fullManager.m_ComponentTypesById = some ct ∧
        ValidTypeName ct.name ∧ Sim.blobs.LookupCID ct.name = p.1 := by
  intro p hp _
  unfold Sim.fullManager at hp
  rw [List.mem_singleton] at hp
  rw [hp]
  refine ⟨by decide, ⟨[80, 111, 115, 105, 116, 105, 111, 110]⟩, rfl, ?_, rfl⟩
  unfold ValidTypeName
  decide

/-- A stream whose single type record announces no component but is followed by more bytes
is rejected: the input is not exhausted. -/
theorem DeserializeState_zero_count (w : Sim C P) (m0 : CComponentManager C)
    (name X : List Nat) (hname : ValidTypeName name)
    (hne : w.LookupCID name ≠ w.CID__Invalid) (hX : X ≠ []) :
    (DeserializeState w m0
      (leBytes 4 1 ++ (leBytes 4 name.length ++ (name ++ (leBytes 4 0 ++ X))))).1
      = .ok false := by
  unfold DeserializeState
  rw [NumberU32_Unbounded_read 1 _ (by norm_num)]
  simp only [deserializeTypes, StringASCII_read name _ hname, hne, if_false,
    NumberU32_Unbounded_read 0 _ (by norm_num), deserializeEntities, ne_eq, hX,
    not_false_eq_true, if_true]

theorem fullManager_wireRecord :
    ∃ X : List Nat, X ≠ [] ∧
      wireRecord Sim.blobs Sim.fullManager
        = leBytes 4 1 ++ (leBytes 4 ([80, 111, 115, 105, 116, 105, 111, 110] : List Nat).length
          ++ ([80, 111, 115, 105, 116, 105, 111, 110] ++ (leBytes 4 0 ++ X))) := by
  have hcount : leBytes 4 4294967296 = leBytes 4 0 := by
    rw [leBytes_four, leBytes_four]
    decide
  refine ⟨entityRecords Sim.blobs
    ((List.range 4294967296).map fun ent => (ent, List.replicate 16 (0 : Nat))), ?_, ?_⟩
  · rw [fullManager_entities_cons, entityRecords_cons, leBytes_four]
    exact List.cons_ne_nil _ _
  · unfold wireRecord
    rw [fullManager_live]
    unfold Sim.fullManager
    simp only [List.length_cons, List.length_nil, List.flatMap_cons, List.flatMap_nil,
      List.append_nil, StdMap.find, if_true, fullManager_entities_length, hcount,
      List.append_assoc, Nat.zero_add]

/-- C2, counterexample: a table in which one type has a component for each of the `2^32`
entity ids, in a world where the registry maps the name back to the id, the factory succeeds and
every component's `Deserialize` consumes exactly what its `Serialize` wrote and restores the
state.  `SerializeState` writes the component count `2^32` into a `u32`, i.e. as `0`, so
`DeserializeState` of the bytes written reads no component, finds the input not exhausted and
returns `false`. -/
theorem DeserializeState_component_count_wraps :
    ComponentTable.WF Sim.fullManager.m_ComponentsByTypeId ∧
    (-(2 ^ 31) ≤ Sim.blobs.CID__Invalid ∧ Sim.blobs.CID__Invalid < 2 ^ 31) ∧
    (∀ p ∈ Sim.fullManager.m_ComponentsByTypeId, p.2 ≠ [] → p.1 ≠ Sim.blobs.CID__Invalid ∧
      ∃ ct, StdMap.find p.1 Sim.fullManager.m_ComponentTypesById = some ct ∧
        ValidTypeName ct.name ∧ Sim.blobs.LookupCID ct.name = p.1) ∧
    (∀ p ∈ Sim.fullManager.m_ComponentsByTypeId, ∀ q ∈ p.2,
      (Sim.blobs.Serialize q.2).2 = none ∧
      ∃ c0, Sim.blobs.alloc p.1 q.1 = some c0 ∧ ∀ (params : Unit) (rest : List Nat),
        Sim.blobs.Deserialize c0 params ((Sim.blobs.Serialize q.2).1 ++ rest)
          = (.ok (), q.2, rest)) ∧
    (DeserializeState Sim.blobs Sim.fullManager
      (serializedBytes Sim.blobs Sim.fullManager)).1 = .ok false := by
  refine ⟨fullManager_wf, by decide, fullManager_registered, fullManager_components, ?_⟩
  have hreg1 : ∀ p ∈ Sim.fullManager.m_ComponentsByTypeId, p.2 ≠ [] →
      ∃ ct, StdMap.find p.1 Sim.fullManager.m_ComponentTypesById = some ct ∧
        ValidTypeName ct.name := by
    intro p hp hne
    obtain ⟨_, ct, h1, h2, _⟩ := fullManager_registered p hp hne
    exact ⟨ct, h1, h2⟩
  rw [serializedBytes_eq Sim.blobs Sim.fullManager hreg1
    fun p hp q hq => (fullManager_components p hp q hq).1]
  obtain ⟨X, hX, hwire⟩ := fullManager_wireRecord
  rw [hwire]
  exact DeserializeState_zero_count Sim.blobs Sim.fullManager _ X
    (by unfold ValidTypeName; decide) (by decide) hX

/-- C2, amended: assume the name registry maps each registered type's name back to its id, the
component factory succeeds, and every component's `Deserialize` consumes exactly the bytes its
`Serialize` wrote and restores the same state.  Then for every component table with fewer than
`2^32` components of each type, and for every pre-existing content of the manager,
`DeserializeState` applied to the bytes written by `SerializeState` returns `true` and leaves
the table of the live components: the same `(type, entity)` keys with the same component
states, so that `ComputeStateHash` is fed the same sequence and yields the same digest as
before serializing. -/
theorem SerializeState_DeserializeState_round_trip (w : Sim C P) (m m0 : CComponentManager C)
    (outHash : List Nat)
    (hwf : ComponentTable.WF m.m_ComponentsByTypeId)
    (hinv : -(2 ^ 31) ≤ w.CID__Invalid ∧ w.CID__Invalid < 2 ^ 31)
    (hsize : ∀ p ∈ m.m_ComponentsByTypeId, p.2.length < 2 ^ 32)
    (hreg : ∀ p ∈ m.m_ComponentsByTypeId, p.2 ≠ [] → p.1 ≠ w.CID__Invalid ∧
      ∃ ct, StdMap.find p.1 m.m_ComponentTypesById = some ct ∧ ValidTypeName ct.name ∧
        w.LookupCID ct.name = p.1)
    (hcomp : ∀ p ∈ m.m_ComponentsByTypeId, ∀ q ∈ p.2, (w.Serialize q.2).2 = none ∧
      ∃ c0, w.alloc p.1 q.1 = some c0 ∧ ∀ (params : P) (rest : List Nat),
        w.Deserialize c0 params ((w.Serialize q.2).1 ++ rest) = (.ok (), q.2, rest)) :
    DeserializeState w m0 (serializedBytes w m)
      = (.ok true,
          { m0 with m_ComponentsByTypeId := liveComponents m.m_ComponentsByTypeId }) ∧
    (∀ (cid : Int) (ent : Nat),
      tableFind cid ent (DeserializeState w m0 (serializedBytes w m)).2.m_ComponentsByTypeId
        = tableFind cid ent m.m_ComponentsByTypeId) ∧
    hashFeed w (DeserializeState w m0 (serializedBytes w m)).2 = hashFeed w m ∧
    ComputeStateHash w (DeserializeState w m0 (serializedBytes w m)).2 outHash
      = ComputeStateHash w m outHash := by
  have hcount : (liveComponents m.m_ComponentsByTypeId).length < 2 ^ 32 :=
    liveComponents_length_lt _ w.CID__Invalid hwf hinv fun p hp hne => (hreg p hp hne).1
  have h := DeserializeState_SerializeState w m m0 hwf ⟨hcount, hsize⟩ hreg hcomp
  rw [h]
  have hlive : liveComponents
      ({ m0 with m_ComponentsByTypeId := liveComponents m.m_ComponentsByTypeId } :
        CComponentManager C).m_ComponentsByTypeId
      = liveComponents m.m_ComponentsByTypeId := liveComponents_idem _
  have hh := ComputeStateHash_live w m
    { m0 with m_ComponentsByTypeId := liveComponents m.m_ComponentsByTypeId } outHash hlive
  exact ⟨rfl, fun cid ent => tableFind_liveComponents cid ent _ hwf.1, hh.1, hh.2⟩

theorem positionManager_round_trips :
    ∀ p ∈ Sim.positionManager.m_ComponentsByTypeId, ∀ q ∈ p.2,
      (Sim.blobs.Serialize q.2).2 = none ∧
      ∃ c0, Sim.blobs.alloc p.1 q.1 = some c0 ∧ ∀ (params : Unit) (rest : List Nat),
        Sim.blobs.Deserialize c0 params ((Sim.blobs.Serialize q.2).1 ++ rest)
          = (.ok (), q.2, rest) := by
  intro p hp q hq
  simp only [Sim.positionManager, List.mem_cons, List.mem_singleton, List.not_mem_nil,
    or_false] at hp
  rcases hp with rfl | rfl
  · simp only [List.mem_singleton] at hq
    subst hq
    refine ⟨rfl, List.replicate 16 0, rfl, fun params rest => ?_⟩
    have hle : 16 ≤ (([0, 0, 0, 0, 0, 0, 12, 64, 4, 0, 0, 0, 101, 97, 115, 116] : List Nat)
          ++ rest).length := by
      rw [List.length_append]
      simp
    simp only [Sim.blobs, List.length_replicate, hle, if_true]
    rfl
  · simp at hq

theorem positionManager_registry :
    ∀ p ∈ Sim.positionManager.m_ComponentsByTypeId, p.2 ≠ [] →
      p.1 ≠ Sim.blobs.CID__Invalid ∧
      ∃ ct, StdMap.find p.1 Sim.positionManager.m_ComponentTypesById = some ct ∧
        ValidTypeName ct.name ∧ Sim.blobs.LookupCID ct.name = p.1 := by
  intro p hp hne
  simp only [Sim.positionManager, List.mem_cons, List.mem_singleton, List.not_mem_nil,
    or_false] at hp
  rcases hp with rfl | rfl
  · refine ⟨by decide, ⟨[80, 111, 115, 105, 116, 105, 111, 110]⟩, rfl, ?_, rfl⟩
    unfold ValidTypeName
    decide
  · exact absurd rfl hne

/-- Witness of `SerializeState_DeserializeState_round_trip`: the "Position" scenario, read back
into a manager that held another component before. -/
theorem SerializeState_DeserializeState_round_trip_witness :
    (ComponentTable.WF Sim.positionManager.m_ComponentsByTypeId ∧
      (-(2 ^ 31) ≤ Sim.blobs.CID__Invalid ∧ Sim.blobs.CID__Invalid < 2 ^ 31) ∧
      (∀ p ∈ Sim.positionManager.m_ComponentsByTypeId, p.2.length < 2 ^ 32) ∧
      (∀ p ∈ Sim.positionManager.m_ComponentsByTypeId, p.2 ≠ [] →
        p.1 ≠ Sim.blobs.CID__Invalid ∧
        ∃ ct, StdMap.find p.1 Sim.positionManager.m_ComponentTypesById = some ct ∧
          ValidTypeName ct.name ∧ Sim.blobs.LookupCID ct.name = p.1) ∧
      ∀ p ∈ Sim.positionManager.m_ComponentsByTypeId, ∀ q ∈ p.2,
        (Sim.blobs.Serialize q.2).2 = none ∧
        ∃ c0, Sim.blobs.alloc p.1 q.1 = some c0 ∧ ∀ (params : Unit) (rest : List Nat),
          Sim.blobs.Deserialize c0 params ((Sim.blobs.Serialize q.2).1 ++ rest)
            = (.ok (), q.2, rest)) ∧
    DeserializeState Sim.blobs ⟨[], [(3, [(5, [1, 2, 3])])]⟩
        (serializedBytes Sim.blobs Sim.positionManager)
      = (.ok true,
          ⟨[], [(7, [(2, [0, 0, 0, 0, 0, 0, 12, 64, 4, 0, 0, 0, 101, 97, 115, 116])])]⟩) :=
  have hinv : -(2 ^ 31) ≤ Sim.blobs.CID__Invalid ∧ Sim.blobs.CID__Invalid < 2 ^ 31 := by
    decide
  have hsize : ∀ p ∈ Sim.positionManager.m_ComponentsByTypeId, p.2.length < 2 ^ 32 := by
    decide
  ⟨⟨positionManager_wf, hinv, hsize, positionManager_registry, positionManager_round_trips⟩,
    (SerializeState_DeserializeState_round_trip Sim.blobs Sim.positionManager
      ⟨[], [(3, [(5, [1, 2, 3])])]⟩ [] positionManager_wf hinv hsize positionManager_registry
      positionManager_round_trips).1⟩

/-! ## What the hash sink is fed when a table differs in one place -/

theorem hashFeed_ok (w : Sim C P) (m : CComponentManager C)
    (hser : ∀ p ∈ m.m_ComponentsByTypeId, ∀ q ∈ p.2, (w.Serialize q.2).2 = none) :
    hashFeed w m = hashRecord w m.m_ComponentsByTypeId := by
  unfold hashFeed
  rw [hashTypes_ok w _ _ hser, CBinarySerializer.Put_out]
  exact List.nil_append _

theorem leBytes_four_injective {a b : Nat} (ha : a < 2 ^ 32) (hb : b < 2 ^ 32)
    (h : leBytes 4 a = leBytes 4 b) : a = b := by
  rw [← CBinarySerializer.leValue_leBytes_four ha, ← CBinarySerializer.leValue_leBytes_four hb,
    h]

theorem i32ToU32_lt (i : Int) : i32ToU32 i < 2 ^ 32 := by
  unfold i32ToU32
  omega

theorem i32ToU32_injective {a b : Int} (ha : -(2 ^ 31) ≤ a ∧ a < 2 ^ 31)
    (hb : -(2 ^ 31) ≤ b ∧ b < 2 ^ 31) (h : i32ToU32 a = i32ToU32 b) : a = b := by
  unfold i32ToU32 at h
  omega

/-- Records that start with a four-byte key: when one record is replaced by a record with
another key, put anywhere among the others, the concatenation changes. -/
theorem flatMap_moved_ne {α : Type} (key body : α → List Nat)
    (hkey : ∀ a, (key a).length = 4) (x y : α) (hxy : key x ≠ key y) :
    ∀ (pre post u v : List α), pre ++ post = u ++ v →
      (∀ z ∈ pre ++ post, key z ≠ key x ∧ key z ≠ key y) →
      (pre ++ x :: post).flatMap (fun a => key a ++ body a)
        ≠ (u ++ y :: v).flatMap (fun a => key a ++ body a) := by
  have hhead : ∀ (a b : α) (A B : List Nat), key a ≠ key b →
      (key a ++ body a) ++ A ≠ (key b ++ body b) ++ B := by
    intro a b A B hab heq
    rw [List.append_assoc, List.append_assoc] at heq
    exact hab (List.append_inj_left heq (by rw [hkey, hkey]))
  intro pre
  induction pre with
  | nil =>
    intro post u v hrest hkeys
    cases u with
    | nil =>
      simp only [List.nil_append, List.flatMap_cons]
      exact hhead x y _ _ hxy
    | cons z u1 =>
      simp only [List.nil_append, List.cons_append, List.flatMap_cons]
      have hz : z ∈ [] ++ post := by
        rw [hrest]
        exact List.mem_cons_self _ _
      exact hhead x z _ _ (fun h => (hkeys z hz).1 h.symm)
  | cons z pre1 ih =>
    intro post u v hrest hkeys
    cases u with
    | nil =>
      simp only [List.nil_append, List.cons_append, List.flatMap_cons]
      exact hhead z y _ _ (hkeys z (List.mem_cons_self _ _)).2
    | cons z1 u1 =>
      rw [List.cons_append, List.cons_append] at hrest
      obtain ⟨hz, hrest1⟩ := List.cons.inj hrest
      subst hz
      simp only [List.cons_append, List.flatMap_cons]
      intro heq
      exact ih post u1 v hrest1
        (fun z1 hz1 => hkeys z1 (List.mem_cons_of_mem _ hz1))
        (List.append_cancel_left heq)

theorem StdMap.Ordered.key_ne {K V : Type} [Preorder K] (a b : List (K × V)) (x : K × V)
    (h : (List.map Prod.fst (a ++ x :: b)).Pairwise (fun p q => p < q)) :
    ∀ z ∈ a ++ b, z.1 ≠ x.1 := by
  rw [List.map_append, List.map_cons, List.pairwise_append, List.pairwise_cons] at h
  obtain ⟨_, ⟨hxb, _⟩, hab⟩ := h
  intro z hz heq
  rcases List.mem_append.mp hz with hza | hzb
  · have := hab z.1 (List.mem_map_of_mem _ hza) x.1 (List.mem_cons_self _ _)
    rw [heq] at this
    exact lt_irrefl _ this
  · have := hxb z.1 (List.mem_map_of_mem _ hzb)
    rw [heq] at this
    exact lt_irrefl _ this

theorem hashRecord_append (w : Sim C P) (t1 t2 : ComponentTable C) :
    hashRecord w (t1 ++ t2) = hashRecord w t1 ++ hashRecord w t2 := by
  unfold hashRecord liveComponents
  rw [List.filter_append, List.flatMap_append]

theorem hashRecord_cons_live (w : Sim C P) (cid : Int) (ents : List (Nat × C))
    (t : ComponentTable C) (h : ents ≠ []) :
    hashRecord w ((cid, ents) :: t)
      = (leBytes 4 (i32ToU32 cid) ++ entityRecords w ents) ++ hashRecord w t := by
  have h1 : ¬ ents.isEmpty = true := by
    cases ents with
    | nil => exact absurd rfl h
    | cons q r => simp
  unfold hashRecord
  rw [liveComponents_cons_live cid ents t h1, List.flatMap_cons]

/-- The records of a type change when one component's state is replaced by a state with
another encoding. -/
theorem entityRecords_state_ne (w : Sim C P) (a b : List (Nat × C)) (ent : Nat) (c c1 : C)
    (h : (w.Serialize c).1 ≠ (w.Serialize c1).1) :
    entityRecords w (a ++ (ent, c) :: b) ≠ entityRecords w (a ++ (ent, c1) :: b) := by
  unfold entityRecords
  rw [List.flatMap_append, List.flatMap_append, List.flatMap_cons, List.flatMap_cons]
  intro heq
  have h1 := List.append_cancel_left heq
  rw [List.append_assoc, List.append_assoc] at h1
  have h2 := List.append_cancel_left h1
  exact h (List.append_cancel_right h2)

/-- The records of a type change when one entity id is replaced by another. -/
theorem entityRecords_entity_ne (w : Sim C P) (a b u v : List (Nat × C)) (ent ent1 : Nat)
    (c : C) (hne : ent ≠ ent1) (hrest : a ++ b = u ++ v)
    (hord : StdMap.Ordered (a ++ (ent, c) :: b)) (hord1 : StdMap.Ordered (u ++ (ent1, c) :: v))
    (hlt : ∀ q ∈ a ++ (ent, c) :: b, q.1 < 2 ^ 32)
    (hlt1 : ∀ q ∈ u ++ (ent1, c) :: v, q.1 < 2 ^ 32) :
    entityRecords w (a ++ (ent, c) :: b) ≠ entityRecords w (u ++ (ent1, c) :: v) := by
  have hent : ent < 2 ^ 32 := hlt (ent, c) (by simp)
  have hent1 : ent1 < 2 ^ 32 := hlt1 (ent1, c) (by simp)
  have hmem : ∀ z ∈ a ++ b, z ∈ a ++ (ent, c) :: b := by
    intro z hz
    rcases List.mem_append.mp hz with h | h
    · exact List.mem_append_left _ h
    · exact List.mem_append_right _ (List.mem_cons_of_mem _ h)
  unfold entityRecords
  refine flatMap_moved_ne (fun q : Nat × C => leBytes 4 q.1) (fun q => (w.Serialize q.2).1)
    (fun q => leBytes_length 4 q.1) (ent, c) (ent1, c) ?_ a b u v hrest ?_
  · exact fun h => hne (leBytes_four_injective hent hent1 h)
  · intro z hz
    have hz32 : z.1 < 2 ^ 32 := hlt z (hmem z hz)
    constructor
    · exact fun h => StdMap.Ordered.key_ne a b (ent, c) hord z hz
        (leBytes_four_injective hz32 hent h)
    · exact fun h => StdMap.Ordered.key_ne u v (ent1, c) hord1 z (hrest ▸ hz)
        (leBytes_four_injective hz32 hent1 h)

theorem liveComponents_append (t1 t2 : ComponentTable C) :
    liveComponents (t1 ++ t2) = liveComponents t1 ++ liveComponents t2 := by
  unfold liveComponents
  rw [List.filter_append]

theorem mem_of_mem_liveComponents (t : ComponentTable C) (p : Int × List (Nat × C))
    (h : p ∈ liveComponents t) : p ∈ t := by
  unfold liveComponents at h
  exact (List.mem_filter.mp h).1

/-- The sequence of the specification for two tables that differ in a single place. -/
theorem hashRecord_single_difference (w : Sim C P) (t t1 : ComponentTable C)
    (hwf : ComponentTable.WF t) (hwf1 : ComponentTable.WF t1)
    (hinj : ∀ c c1 : C, (w.Serialize c).1 = (w.Serialize c1).1 → c = c1)
    (hdiff : SingleDifference t t1) : hashRecord w t ≠ hashRecord w t1 := by
  cases hdiff with
  | state pre post cid a b ent c c1 h =>
    rw [hashRecord_append, hashRecord_append, hashRecord_cons_live w _ _ _ (by simp),
      hashRecord_cons_live w _ _ _ (by simp)]
    intro heq
    have h1 := List.append_cancel_right (List.append_cancel_left heq)
    exact entityRecords_state_ne w a b ent c c1 (fun h2 => h (hinj c c1 h2))
      (List.append_cancel_left h1)
  | entityId pre post cid a b u v ent ent1 c h hrest =>
    rw [hashRecord_append, hashRecord_append, hashRecord_cons_live w _ _ _ (by simp),
      hashRecord_cons_live w _ _ _ (by simp)]
    intro heq
    have h1 := List.append_cancel_right (List.append_cancel_left heq)
    have hp := hwf.2 (cid, a ++ (ent, c) :: b) (by simp)
    have hp1 := hwf1.2 (cid, u ++ (ent1, c) :: v) (by simp)
    exact entityRecords_entity_ne w a b u v ent ent1 c h hrest hp.2.1 hp1.2.1 hp.2.2 hp1.2.2
      (List.append_cancel_left h1)
  | typeId pre post u v cid cid1 ents h hents hrest =>
    have hlive : ¬ ents.isEmpty = true := by
      cases ents with
      | nil => exact absurd rfl hents
      | cons q r => simp
    have hrest1 : liveComponents pre ++ liveComponents post
        = liveComponents u ++ liveComponents v := by
      rw [← liveComponents_append, ← liveComponents_append, hrest]
    have hcid := (hwf.2 (cid, ents) (by simp)).1
    have hcid1 := (hwf1.2 (cid1, ents) (by simp)).1
    have hkey : ∀ {x y : Int}, (-(2 ^ 31) ≤ x ∧ x < 2 ^ 31) →
        (-(2 ^ 31) ≤ y ∧ y < 2 ^ 31) →
        leBytes 4 (i32ToU32 x) = leBytes 4 (i32ToU32 y) → x = y :=
      fun hx hy hxy => i32ToU32_injective hx hy
        (leBytes_four_injective (i32ToU32_lt _) (i32ToU32_lt _) hxy)
    unfold hashRecord
    rw [liveComponents_append, liveComponents_append, liveComponents_cons_live cid ents post hlive,
      liveComponents_cons_live cid1 ents v hlive]
    refine flatMap_moved_ne (fun p : Int × List (Nat × C) => leBytes 4 (i32ToU32 p.1))
      (fun p => entityRecords w p.2) (fun p => leBytes_length 4 _) (cid, ents) (cid1, ents)
      (fun h2 => h (hkey hcid hcid1 h2)) _ _ _ _ hrest1 ?_
    intro z hz
    rw [← liveComponents_append] at hz
    have hz1 : z ∈ pre ++ post := mem_of_mem_liveComponents _ z hz
    have hzt : z ∈ pre ++ (cid, ents) :: post := by
      rcases List.mem_append.mp hz1 with h3 | h3
      · exact List.mem_append_left _ h3
      · exact List.mem_append_right _ (List.mem_cons_of_mem _ h3)
    have hrange := (hwf.2 z hzt).1
    constructor
    · exact fun h2 => StdMap.Ordered.key_ne pre post (cid, ents) hwf.1 z hz1
        (hkey hrange hcid h2)
    · exact fun h2 => StdMap.Ordered.key_ne u v (cid1, ents) hwf1.1 z (hrest ▸ hz1)
        (hkey hrange hcid1 h2)

/-- C11, counterexample: with components that serialize to their own bytes (an injective
encoding), the well-formed tables of `Sim.entityNineOfTypeOne` and `Sim.entityNineOfTypeNine`
differ only in the component type of the component of entity `9` (type `1` in the one, type `9`
in the other), yet `ComputeStateHash` is fed the same sequence for both and yields the same
digest: the fed sequence has no counts, so the entity id `9` followed by the state `2 0 0 0` and
the type id `9` reads the same as the type id `9` followed by the entity id `2` with an empty
state and the entity id `9`. -/
theorem ComputeStateHash_moved_component_collides :
    (∀ c c1 : List Nat, (Sim.blobs.Serialize c).1 = (Sim.blobs.Serialize c1).1 → c = c1) ∧
    ComponentTable.WF Sim.entityNineOfTypeOne.m_ComponentsByTypeId ∧
    ComponentTable.WF Sim.entityNineOfTypeNine.m_ComponentsByTypeId ∧
    Sim.entityNineOfTypeOne.m_ComponentsByTypeId
      = [(1, [(5, [7]), (9, [2, 0, 0, 0])]), (9, [(2, [])])] ∧
    Sim.entityNineOfTypeNine.m_ComponentsByTypeId
      = [(1, [(5, [7])]), (9, [(2, []), (9, [2, 0, 0, 0])])] ∧
    hashFeed Sim.blobs Sim.entityNineOfTypeOne
      = [1, 0, 0, 0, 5, 0, 0, 0, 7, 9, 0, 0, 0, 2, 0, 0, 0, 9, 0, 0, 0, 2, 0, 0, 0] ∧
    hashFeed Sim.blobs Sim.entityNineOfTypeNine
      = [1, 0, 0, 0, 5, 0, 0, 0, 7, 9, 0, 0, 0, 2, 0, 0, 0, 9, 0, 0, 0, 2, 0, 0, 0] ∧
    ComputeStateHash Sim.blobs Sim.entityNineOfTypeOne []
      = ComputeStateHash Sim.blobs Sim.entityNineOfTypeNine [] := by
  refine ⟨fun c c1 h => h, ?_, ?_, rfl, rfl, ?_, ?_, ?_⟩
  · unfold ComponentTable.WF StdMap.Ordered
    decide
  · unfold ComponentTable.WF StdMap.Ordered
    decide
  · decide
  · decide
  · decide

/-- C11, amended: for every two well-formed component tables that differ in exactly one place
of the nested map (the serialized state of one component, the entity id of one component
within its type, or the type id of one whole non-empty component type), with components whose
`Serialize` does not raise and is an injective encoding, the sequences `ComputeStateHash` feeds
to the hash sink are different. -/
theorem ComputeStateHash_single_difference (w : Sim C P) (m m1 : CComponentManager C)
    (hwf : ComponentTable.WF m.m_ComponentsByTypeId)
    (hwf1 : ComponentTable.WF m1.m_ComponentsByTypeId)
    (hser : ∀ p ∈ m.m_ComponentsByTypeId, ∀ q ∈ p.2, (w.Serialize q.2).2 = none)
    (hser1 : ∀ p ∈ m1.m_ComponentsByTypeId, ∀ q ∈ p.2, (w.Serialize q.2).2 = none)
    (hinj : ∀ c c1 : C, (w.Serialize c).1 = (w.Serialize c1).1 → c = c1)
    (hdiff : SingleDifference m.m_ComponentsByTypeId m1.m_ComponentsByTypeId) :
    hashFeed w m ≠ hashFeed w m1 := by
  rw [hashFeed_ok w m hser, hashFeed_ok w m1 hser1]
  exact hashRecord_single_difference w _ _ hwf hwf1 hinj hdiff

theorem renamedEntity_wf :
    ComponentTable.WF ([(7, [(2, [1]), (5, [3])])] : ComponentTable (List Nat)) ∧
    ComponentTable.WF ([(7, [(5, [3]), (9, [1])])] : ComponentTable (List Nat)) := by
  unfold ComponentTable.WF StdMap.Ordered
  decide

/-- Witness of `ComputeStateHash_single_difference`: entity `2` of type `7` becomes entity
`9`, which moves its record behind that of entity `5`. -/
theorem ComputeStateHash_single_difference_witness :
    (ComponentTable.WF ([(7, [(2, [1]), (5, [3])])] : ComponentTable (List Nat)) ∧
      ComponentTable.WF ([(7, [(5, [3]), (9, [1])])] : ComponentTable (List Nat)) ∧
      (∀ p ∈ ([(7, [(2, [1]), (5, [3])])] : ComponentTable (List Nat)), ∀ q ∈ p.2,
        (Sim.blobs.Serialize q.2).2 = none) ∧
      (∀ p ∈ ([(7, [(5, [3]), (9, [1])])] : ComponentTable (List Nat)), ∀ q ∈ p.2,
        (Sim.blobs.Serialize q.2).2 = none) ∧
      (∀ c c1 : List Nat, (Sim.blobs.Serialize c).1 = (Sim.blobs.Serialize c1).1 → c = c1) ∧
      SingleDifference ([(7, [(2, [1]), (5, [3])])] : ComponentTable (List Nat))
        [(7, [(5, [3]), (9, [1])])]) ∧
    hashFeed Sim.blobs ⟨[], [(7, [(2, [1]), (5, [3])])]⟩
      ≠ hashFeed Sim.blobs ⟨[], [(7, [(5, [3]), (9, [1])])]⟩ :=
  ⟨⟨renamedEntity_wf.1, renamedEntity_wf.2, blobs_serialize_total _, blobs_serialize_total _,
      fun _ _ h => h, SingleDifference.entityId [] [] 7 [] [(5, [3])] [(5, [3])] [] 2 9 [1]
        (by decide) rfl⟩,
    ComputeStateHash_single_difference Sim.blobs ⟨[], [(7, [(2, [1]), (5, [3])])]⟩
      ⟨[], [(7, [(5, [3]), (9, [1])])]⟩ renamedEntity_wf.1 renamedEntity_wf.2
      (blobs_serialize_total _) (blobs_serialize_total _) (fun _ _ h => h)
      (SingleDifference.entityId [] [] 7 [] [(5, [3])] [(5, [3])] [] 2 9 [1] (by decide) rfl)⟩

/-! ## The persisted stream and the numbering of the component types -/

theorem StdMap.find_map_key {V : Type} (f : Int → Int) (cid : Int) (types : List (Int × V))
    (hinj : ∀ p ∈ types, f cid = f p.1 → cid = p.1) :
    StdMap.find (f cid) (types.map fun p => (f p.1, p.2)) = StdMap.find cid types := by
  induction types with
  | nil => rfl
  | cons p rest ih =>
    obtain ⟨k, v⟩ := p
    have ih1 := ih (fun p hp => hinj p (List.mem_cons_of_mem _ hp))
    have hk := hinj (k, v) (List.mem_cons_self _ _)
    simp only [List.map_cons, StdMap.find]
    by_cases h : cid = k
    · simp only [h, if_true]
    · have h1 : ¬ f cid = f k := fun h2 => h (hk h2)
      simp only [h, h1, if_false]
      exact ih1

theorem countComponentTypes_map_key (f : Int → Int) (t : ComponentTable C) (n : Nat) :
    countComponentTypes (t.map fun p => (f p.1, p.2)) n = countComponentTypes t n := by
  induction t generalizing n with
  | nil => rfl
  | cons p rest ih =>
    obtain ⟨cid, ents⟩ := p
    simp only [List.map_cons, countComponentTypes]
    split
    · exact ih n
    · exact ih _

theorem serializeTypes_map_key (w : Sim C P) (f : Int → Int) (types : List (Int × ComponentType))
    (t : ComponentTable C) (s : Ser)
    (hinj : ∀ q ∈ t, ∀ p ∈ types, f q.1 = f p.1 → q.1 = p.1) :
    serializeTypes w (types.map fun p => (f p.1, p.2)) (t.map fun p => (f p.1, p.2)) s
      = serializeTypes w types t s := by
  induction t generalizing s with
  | nil => rfl
  | cons q rest ih =>
    obtain ⟨cid, ents⟩ := q
    have ih1 := fun s => ih s (fun q hq => hinj q (List.mem_cons_of_mem _ hq))
    have hfind := StdMap.find_map_key f cid types (hinj (cid, ents) (List.mem_cons_self _ _))
    simp only [List.map_cons, serializeTypes, hfind]
    split
    · exact ih1 s
    · cases StdMap.find cid types with
      | none => rfl
      | some ct =>
        dsimp only
        cases ISerializer.StringASCII w.env ct.name 0 255 s with
        | mk o s1 =>
          cases o with
          | ok u =>
            dsimp only
            cases serializeEntities w ents
                (ISerializer.NumberU32_Unbounded w.env (toU32 ents.length) s1) with
            | mk o2 s2 =>
              cases o2 with
              | ok u2 => exact ih1 s2
              | throw e => rfl
              | outOfFuel => rfl
          | throw e => rfl
          | outOfFuel => rfl

/-- C12: the bytes written by `SerializeState` depend on the numeric `ComponentTypeId`s only
through their relative order.  For every manager and every renumbering `f` of its component
type ids that preserves their order, the renumbered manager (same names, same entities, same
component states) has its component table again in ascending key order, with the groups in the
same sequence, and `SerializeState` ends with the same outcome and writes identical bytes. -/
theorem SerializeState_renumbered (w : Sim C P) (m : CComponentManager C) (s : Ser)
    (f : Int → Int) (hf : ∀ a ∈ m.typeIds, ∀ b ∈ m.typeIds, a < b → f a < f b) :
    SerializeState w (m.renumberTypes f) s = SerializeState w m s ∧
    (StdMap.Ordered m.m_ComponentsByTypeId →
      StdMap.Ordered (m.renumberTypes f).m_ComponentsByTypeId) ∧
    (m.renumberTypes f).m_ComponentsByTypeId.map Prod.snd
      = m.m_ComponentsByTypeId.map Prod.snd := by
  have hinj : ∀ a ∈ m.typeIds, ∀ b ∈ m.typeIds, f a = f b → a = b := by
    intro a ha b hb hab
    rcases lt_trichotomy a b with h | h | h
    · exact absurd hab (ne_of_lt (hf a ha b hb h))
    · exact h
    · exact absurd hab.symm (ne_of_lt (hf b hb a ha h))
  refine ⟨?_, ?_, ?_⟩
  · unfold SerializeState CComponentManager.renumberTypes
    dsimp only
    rw [countComponentTypes_map_key, serializeTypes_map_key]
    intro q hq p hp
    refine hinj q.1 ?_ p.1 ?_
    · exact List.mem_append_right _ (List.mem_map_of_mem _ hq)
    · exact List.mem_append_left _ (List.mem_map_of_mem _ hp)
  · intro hord
    unfold StdMap.Ordered CComponentManager.renumberTypes at *
    dsimp only
    rw [List.map_map, List.pairwise_map]
    rw [List.pairwise_map] at hord
    refine hord.imp_of_mem ?_
    intro a b ha hb hab
    exact hf a.1 (List.mem_append_right _ (List.mem_map_of_mem _ ha)) b.1
      (List.mem_append_right _ (List.mem_map_of_mem _ hb)) hab
  · unfold CComponentManager.renumberTypes
    dsimp only
    rw [List.map_map]
    rfl

/-- Witness of `SerializeState_renumbered`: the "Position" scenario with the type ids `7` and
`9` renumbered to `3` and `40`. -/
theorem SerializeState_renumbered_witness :
    (∀ a ∈ Sim.positionManager.typeIds, ∀ b ∈ Sim.positionManager.typeIds,
      a < b → (fun i : Int => if i = 7 then 3 else 40) a
        < (fun i : Int => if i = 7 then 3 else 40) b) ∧
    SerializeState Sim.blobs
        (Sim.positionManager.renumberTypes fun i => if i = 7 then 3 else 40) Ser.fresh
      = SerializeState Sim.blobs Sim.positionManager Ser.fresh :=
  ⟨by decide,
    (SerializeState_renumbered Sim.blobs Sim.positionManager Ser.fresh
      (fun i => if i = 7 then 3 else 40) (by decide)).1⟩

/-! ## Failure results of `DeserializeState` -/

/-- The loop over the type records, cut after the first `k` records. -/
theorem deserializeTypes_add (w : Sim C P) (n : Nat) :
    ∀ (k : Nat) (d dk : DeserState C), deserializeTypes w k d = (.ok true, dk) →
      deserializeTypes w (k + n) d = deserializeTypes w n dk := by
  intro k
  induction k with
  | zero =>
    intro d dk h
    simp only [deserializeTypes] at h
    rw [Nat.zero_add, (Prod.mk.inj h).2]
  | succ k ih =>
    intro d dk h
    rw [Nat.add_right_comm]
    simp only [deserializeTypes] at h ⊢
    cases hs : IDeserializer.StringASCII 0 255 d.input with
    | mk o rest =>
      rw [hs] at h
      cases o with
      | ok ctname =>
        dsimp only at h ⊢
        by_cases hinv : w.LookupCID ctname = w.CID__Invalid
        · simp only [hinv, if_true] at h
          cases h
        · simp only [hinv, if_false] at h ⊢
          cases hn : IDeserializer.NumberU32_Unbounded rest with
          | mk o1 rest1 =>
            rw [hn] at h
            cases o1 with
            | ok numComponents =>
              dsimp only at h ⊢
              cases he : deserializeEntities w ctname (w.LookupCID ctname) numComponents
                  { d with input := rest1 } with
              | mk o2 d1 =>
                rw [he] at h
                cases o2 with
                | ok b =>
                  cases b with
                  | true => exact ih d1 dk h
                  | false => cases h
                | throw e => cases h
                | outOfFuel => cases h
            | throw e => cases h
            | outOfFuel => cases h
      | throw e => cases h
      | outOfFuel => cases h

/-- C13: when the stream declares `k + (n + 1)` component type records, the first `k` of them
are read successfully and the next record carries a name for which `LookupCID` returns
`CID__Invalid`, then `DeserializeState` returns `false` as an ordinary result (it does not
throw), the loop stops right behind that name, and the component table is the one built from the
`k` records before it: no component is constructed for that record or for any record after
it. -/
theorem DeserializeState_unrecognised_name (w : Sim C P) (m : CComponentManager C)
    (stream rest0 rest ctname : List Nat) (k n : Nat) (dk : DeserState C)
    (hcount : IDeserializer.NumberU32_Unbounded stream = (.ok (k + (n + 1)), rest0))
    (hbefore : deserializeTypes w k ⟨[], rest0, none⟩ = (.ok true, dk))
    (hname : IDeserializer.StringASCII 0 255 dk.input = (.ok ctname, rest))
    (hinvalid : w.LookupCID ctname = w.CID__Invalid) :
    DeserializeState w m stream = (.ok false, { m with m_ComponentsByTypeId := dk.table }) ∧
    deserializeTypes w (k + (n + 1)) ⟨[], rest0, none⟩
      = (.ok false, { dk with input := rest }) := by
  have hloop : deserializeTypes w (k + (n + 1)) ⟨[], rest0, none⟩
      = (.ok false, { dk with input := rest }) := by
    rw [deserializeTypes_add w (n + 1) k _ dk hbefore]
    simp only [deserializeTypes, hname, hinvalid, if_true]
  refine ⟨?_, hloop⟩
  unfold DeserializeState
  simp only [hcount, DestroyAllComponents, hloop]

/-- Witness of `DeserializeState_unrecognised_name`: two type records are declared; the first,
"Position" with the component of entity `2`, is read; the second carries the name "Vision",
which the registry of `Sim.blobs` does not know. -/
theorem DeserializeState_unrecognised_name_witness :
    (IDeserializer.NumberU32_Unbounded ([2, 0, 0, 0] ++ (Sim.positionRecord ++ Sim.visionRecord))
        = (.ok (1 + (0 + 1)), Sim.positionRecord ++ Sim.visionRecord) ∧
      deserializeTypes Sim.blobs 1 ⟨[], Sim.positionRecord ++ Sim.visionRecord, none⟩
        = (.ok true,
          ⟨[(7, [(2, [0, 0, 0, 0, 0, 0, 12, 64, 4, 0, 0, 0, 101, 97, 115, 116])])],
            Sim.visionRecord, none⟩) ∧
      IDeserializer.StringASCII 0 255 Sim.visionRecord
        = (.ok [86, 105, 115, 105, 111, 110], [1, 0, 0, 0, 3, 0, 0, 0, 1, 2]) ∧
      Sim.blobs.LookupCID [86, 105, 115, 105, 111, 110] = Sim.blobs.CID__Invalid) ∧
    DeserializeState Sim.blobs Sim.positionManager
        ([2, 0, 0, 0] ++ (Sim.positionRecord ++ Sim.visionRecord))
      = (.ok false,
        { Sim.positionManager with
          m_ComponentsByTypeId :=
            [(7, [(2, [0, 0, 0, 0, 0, 0, 12, 64, 4, 0, 0, 0, 101, 97, 115, 116])])] }) :=
  ⟨⟨rfl, rfl, rfl, rfl⟩,
    (DeserializeState_unrecognised_name Sim.blobs Sim.positionManager
      ([2, 0, 0, 0] ++ (Sim.positionRecord ++ Sim.visionRecord))
      (Sim.positionRecord ++ Sim.visionRecord)
      [1, 0, 0, 0, 3, 0, 0, 0, 1, 2] [86, 105, 115, 105, 111, 110] 1 0
      ⟨[(7, [(2, [0, 0, 0, 0, 0, 0, 12, 64, 4, 0, 0, 0, 101, 97, 115, 116])])],
        Sim.visionRecord, none⟩
      (by decide) (by rfl) (by decide) (by decide)).1⟩

/-! ## The input must be exhausted -/

/-- The end of `DeserializeState` once the loop over the type records has run to its end. -/
theorem DeserializeState_after_loop (w : Sim C P) (m : CComponentManager C)
    (stream rest : List Nat) (N : Nat) (d : DeserState C)
    (hcount : IDeserializer.NumberU32_Unbounded stream = (.ok N, rest))
    (hloop : deserializeTypes w N ⟨[], rest, none⟩ = (.ok true, d)) :
    DeserializeState w m stream
      = (.ok (decide (d.input = [])), { m with m_ComponentsByTypeId := d.table }) := by
  unfold DeserializeState
  simp only [hcount, DestroyAllComponents, hloop]
  by_cases h : d.input = []
  · simp [h]
  · simp [h]

/-- A `true` result of `DeserializeState` comes from a loop that ran to its end and left no
input. -/
theorem DeserializeState_true (w : Sim C P) (m m1 : CComponentManager C) (stream : List Nat)
    (h : DeserializeState w m stream = (.ok true, m1)) :
    ∃ (N : Nat) (rest : List Nat) (d : DeserState C),
      IDeserializer.NumberU32_Unbounded stream = (.ok N, rest) ∧
      deserializeTypes w N ⟨[], rest, none⟩ = (.ok true, d) ∧ d.input = [] ∧
      m1 = { m with m_ComponentsByTypeId := d.table } := by
  unfold DeserializeState at h
  simp only [DestroyAllComponents] at h
  cases hcount : IDeserializer.NumberU32_Unbounded stream with
  | mk o rest =>
    rw [hcount] at h
    cases o with
    | ok N =>
      dsimp only at h
      cases hloop : deserializeTypes w N ⟨[], rest, none⟩ with
      | mk o1 d =>
        rw [hloop] at h
        cases o1 with
        | ok b =>
          cases b with
          | true =>
            dsimp only at h
            by_cases hin : d.input = []
            · simp only [hin, ne_eq, not_true_eq_false, if_false] at h
              exact ⟨N, rest, d, rfl, hloop, hin, ((Prod.mk.inj h).2).symm⟩
            · simp only [hin, ne_eq, not_false_eq_true, if_true] at h
              cases h
          | false => cases h
        | throw e => cases h
        | outOfFuel => cases h
    | throw e => cases h
    | outOfFuel => cases h

/-- The stream written by `SerializeState`, followed by further bytes. -/
theorem DeserializeState_SerializeState_extra (w : Sim C P) (m m0 : CComponentManager C)
    (extra : List Nat)
    (hwf : ComponentTable.WF m.m_ComponentsByTypeId)
    (hsize : (liveComponents m.m_ComponentsByTypeId).length < 2 ^ 32 ∧
      ∀ p ∈ m.m_ComponentsByTypeId, p.2.length < 2 ^ 32)
    (hreg : ∀ p ∈ m.m_ComponentsByTypeId, p.2 ≠ [] → p.1 ≠ w.CID__Invalid ∧
      ∃ ct, StdMap.find p.1 m.m_ComponentTypesById = some ct ∧ ValidTypeName ct.name ∧
        w.LookupCID ct.name = p.1)
    (hcomp : ∀ p ∈ m.m_ComponentsByTypeId, ∀ q ∈ p.2, (w.Serialize q.2).2 = none ∧
      ∃ c0, w.alloc p.1 q.1 = some c0 ∧ ∀ (params : P) (rest : List Nat),
        w.Deserialize c0 params ((w.Serialize q.2).1 ++ rest) = (.ok (), q.2, rest)) :
    DeserializeState w m0 (serializedBytes w m ++ extra)
      = (.ok (decide (extra = [])),
          { m0 with m_ComponentsByTypeId := liveComponents m.m_ComponentsByTypeId }) := by
  have hreg1 : ∀ p ∈ m.m_ComponentsByTypeId, p.2 ≠ [] →
      ∃ ct, StdMap.find p.1 m.m_ComponentTypesById = some ct ∧ ValidTypeName ct.name := by
    intro p hp hne
    obtain ⟨_, ct, h1, h2, _⟩ := hreg p hp hne
    exact ⟨ct, h1, h2⟩
  have hser : ∀ p ∈ m.m_ComponentsByTypeId, ∀ q ∈ p.2, (w.Serialize q.2).2 = none :=
    fun p hp q hq => (hcomp p hp q hq).1
  obtain ⟨hordL, hliveL⟩ := liveComponents_ordered _ hwf
  have hgs : ∀ p ∈ liveComponents m.m_ComponentsByTypeId,
      p.2 ≠ [] ∧ p.2.length < 2 ^ 32 ∧ StdMap.Ordered p.2 ∧ p.1 ≠ w.CID__Invalid ∧
      (∃ ct, StdMap.find p.1 m.m_ComponentTypesById = some ct ∧ ValidTypeName ct.name ∧
        w.LookupCID ct.name = p.1) ∧
      ∀ q ∈ p.2, q.1 < 2 ^ 32 ∧ ∃ c0, w.alloc p.1 q.1 = some c0 ∧
        ∀ (params : P) (rest : List Nat),
          w.Deserialize c0 params ((w.Serialize q.2).1 ++ rest) = (.ok (), q.2, rest) := by
    intro p hp
    have hmem : p ∈ m.m_ComponentsByTypeId := mem_of_mem_liveComponents _ p hp
    obtain ⟨hne, hordp⟩ := hliveL p hp
    obtain ⟨hinv, hct⟩ := hreg p hmem hne
    refine ⟨hne, hsize.2 p hmem, hordp, hinv, hct, fun q hq => ?_⟩
    exact ⟨(hwf.2 p hmem).2.2 q hq, (hcomp p hmem q hq).2⟩
  obtain ⟨tm1, hrebuild⟩ := deserializeTypes_rebuild w m.m_ComponentTypesById
    (liveComponents m.m_ComponentsByTypeId) [] extra none
    (by rw [List.nil_append]; exact hordL) hgs
  rw [List.nil_append] at hrebuild
  have hstream : IDeserializer.NumberU32_Unbounded (serializedBytes w m ++ extra)
      = (.ok (liveComponents m.m_ComponentsByTypeId).length,
        ((liveComponents m.m_ComponentsByTypeId).flatMap fun p =>
          (match StdMap.find p.1 m.m_ComponentTypesById with
            | some ct => leBytes 4 ct.name.length ++ ct.name
            | none => []) ++
          leBytes 4 p.2.length ++ entityRecords w p.2) ++ extra) := by
    rw [serializedBytes_eq w m hreg1 hser]
    unfold wireRecord
    rw [List.append_assoc, NumberU32_Unbounded_read _ _ hsize.1]
  exact DeserializeState_after_loop w m0 _ _ _ _ hstream hrebuild

/-- C14: `DeserializeState` requires the input to be exactly exhausted.  It returns `true` only
if the declared number of type records has been read and no byte remains; whenever the declared
records have been read, it returns `true` if no byte remains and `false` otherwise.  The stream
of the empty table (a single `u32` zero) succeeds and the same stream with any bytes appended
fails; and the stream `SerializeState` writes for a table, which is read back successfully,
fails with `false` as soon as at least one extra byte follows it. -/
theorem DeserializeState_exhausts_input (w : Sim C P) (m : CComponentManager C) :
    (∀ (stream : List Nat) (m1 : CComponentManager C),
      DeserializeState w m stream = (.ok true, m1) →
        ∃ (N : Nat) (rest : List Nat) (d : DeserState C),
          IDeserializer.NumberU32_Unbounded stream = (.ok N, rest) ∧
          deserializeTypes w N ⟨[], rest, none⟩ = (.ok true, d) ∧ d.input = [] ∧
          m1 = { m with m_ComponentsByTypeId := d.table }) ∧
    (∀ (stream rest : List Nat) (N : Nat) (d : DeserState C),
      IDeserializer.NumberU32_Unbounded stream = (.ok N, rest) →
      deserializeTypes w N ⟨[], rest, none⟩ = (.ok true, d) →
        DeserializeState w m stream
          = (.ok (decide (d.input = [])), { m with m_ComponentsByTypeId := d.table })) ∧
    DeserializeState w m [0, 0, 0, 0] = (.ok true, { m with m_ComponentsByTypeId := [] }) ∧
    (∀ (b : Nat) (extra : List Nat),
      DeserializeState w m ([0, 0, 0, 0] ++ b :: extra)
        = (.ok false, { m with m_ComponentsByTypeId := [] })) ∧
    (∀ (m2 : CComponentManager C) (extra : List Nat),
      ComponentTable.WF m2.m_ComponentsByTypeId →
      (-(2 ^ 31) ≤ w.CID__Invalid ∧ w.CID__Invalid < 2 ^ 31) →
      (∀ p ∈ m2.m_ComponentsByTypeId, p.2.length < 2 ^ 32) →
      (∀ p ∈ m2.m_ComponentsByTypeId, p.2 ≠ [] → p.1 ≠ w.CID__Invalid ∧
        ∃ ct, StdMap.find p.1 m2.m_ComponentTypesById = some ct ∧ ValidTypeName ct.name ∧
          w.LookupCID ct.name = p.1) →
      (∀ p ∈ m2.m_ComponentsByTypeId, ∀ q ∈ p.2, (w.Serialize q.2).2 = none ∧
        ∃ c0, w.alloc p.1 q.1 = some c0 ∧ ∀ (params : P) (rest : List Nat),
          w.Deserialize c0 params ((w.Serialize q.2).1 ++ rest) = (.ok (), q.2, rest)) →
      (DeserializeState w m (serializedBytes w m2)).1 = .ok true ∧
      (extra ≠ [] → (DeserializeState w m (serializedBytes w m2 ++ extra)).1 = .ok false)) := by
  refine ⟨fun stream m1 h => DeserializeState_true w m m1 stream h,
    fun stream rest N d h1 h2 => DeserializeState_after_loop w m stream rest N d h1 h2,
    ?_, ?_, ?_⟩
  · exact DeserializeState_after_loop w m [0, 0, 0, 0] [] 0 ⟨[], [], none⟩ (by decide) rfl
  · intro b extra
    exact DeserializeState_after_loop w m _ (b :: extra) 0 ⟨[], b :: extra, none⟩
      (by simp [IDeserializer.NumberU32_Unbounded, leValue]) rfl
  · intro m2 extra hwf hinv hsize hreg hcomp
    have hlen := liveComponents_length_lt m2.m_ComponentsByTypeId w.CID__Invalid hwf hinv
      (fun p hp hne => (hreg p hp hne).1)
    constructor
    · rw [DeserializeState_SerializeState w m2 m hwf ⟨hlen, hsize⟩ hreg hcomp]
    · intro hextra
      rw [DeserializeState_SerializeState_extra w m2 m extra hwf ⟨hlen, hsize⟩ hreg hcomp]
      simp [hextra]

/-! ## What a failed `DeserializeState` leaves in the table -/

theorem StdMap.mem_insert {V : Type} (k : Nat) (v : V) (m : List (Nat × V)) (q : Nat × V)
    (h : q ∈ StdMap.insert k v m) : q = (k, v) ∨ q ∈ m := by
  induction m with
  | nil =>
    simp only [StdMap.insert, List.mem_singleton] at h
    exact Or.inl h
  | cons p rest ih =>
    obtain ⟨k1, v1⟩ := p
    simp only [StdMap.insert] at h
    split at h
    · rcases List.mem_cons.mp h with h1 | h1
      · exact Or.inl h1
      · exact Or.inr h1
    · split at h
      · exact Or.inr h
      · rcases List.mem_cons.mp h with h1 | h1
        · exact Or.inr (h1 ▸ List.mem_cons_self _ _)
        · rcases ih h1 with h2 | h2
          · exact Or.inl h2
          · exact Or.inr (List.mem_cons_of_mem _ h2)

/-- Every entry of the table has a key pair with the property `good`. -/
theorem tableInsert_keys (good : Int → Nat → Prop) (cid : Int) (ent : Nat) (c : C)
    (t : ComponentTable C) (hnew : good cid ent)
    (ht : ∀ p ∈ t, ∀ q ∈ p.2, good p.1 q.1) :
    ∀ p ∈ tableInsert cid ent c t, ∀ q ∈ p.2, good p.1 q.1 := by
  induction t with
  | nil =>
    intro p hp q hq
    simp only [tableInsert, List.mem_singleton] at hp
    subst hp
    simp only [List.mem_singleton] at hq
    subst hq
    exact hnew
  | cons p0 rest ih =>
    obtain ⟨k, ents⟩ := p0
    have hrest : ∀ p ∈ rest, ∀ q ∈ p.2, good p.1 q.1 :=
      fun p hp => ht p (List.mem_cons_of_mem _ hp)
    intro p hp q hq
    simp only [tableInsert] at hp
    split at hp
    · rcases List.mem_cons.mp hp with h1 | h1
      · subst h1
        simp only [List.mem_singleton] at hq
        subst hq
        exact hnew
      · exact ht p h1 q hq
    · split at hp
      · rename_i hk
        rcases List.mem_cons.mp hp with h1 | h1
        · subst h1
          rcases StdMap.mem_insert ent c ents q hq with h2 | h2
          · subst h2
            rw [← hk]
            exact hnew
          · exact ht (k, ents) (List.mem_cons_self _ _) q h2
        · exact hrest p h1 q hq
      · rcases List.mem_cons.mp hp with h1 | h1
        · subst h1
          exact ht (k, ents) (List.mem_cons_self _ _) q hq
        · exact ih hrest p h1 q hq

theorem tableAssign_keys (good : Int → Nat → Prop) (cid : Int) (ent : Nat) (c : C)
    (t : ComponentTable C) (ht : ∀ p ∈ t, ∀ q ∈ p.2, good p.1 q.1) :
    ∀ p ∈ tableAssign cid ent c t, ∀ q ∈ p.2, good p.1 q.1 := by
  intro p hp q hq
  unfold tableAssign at hp
  obtain ⟨p0, hp0, rfl⟩ := List.exists_of_mem_map hp
  by_cases h : p0.1 = cid
  · simp only [h, if_true] at hq ⊢
    obtain ⟨q0, hq0, rfl⟩ := List.exists_of_mem_map hq
    have := ht p0 hp0 q0 hq0
    rw [h] at this
    by_cases h1 : q0.1 = ent
    · simp only [h1, if_true]
      rw [← h1]
      exact this
    · simp only [h1, if_false]
      exact this
  · simp only [h, if_false] at hq ⊢
    exact ht p0 hp0 q hq

theorem ConstructComponent_keys (w : Sim C P) (t : ComponentTable C) (ent : Nat) (cid : Int)
    (ht : ∀ p ∈ t, ∀ q ∈ p.2, (w.alloc p.1 q.1).isSome = true) :
    ∀ p ∈ (ConstructComponent w t ent cid).2, ∀ q ∈ p.2,
      (w.alloc p.1 q.1).isSome = true := by
  unfold ConstructComponent
  cases tableFind cid ent t with
  | some c => exact ht
  | none =>
    dsimp only
    cases h : w.alloc cid ent with
    | none => exact ht
    | some c =>
      exact tableInsert_keys (fun cid ent => (w.alloc cid ent).isSome = true) cid ent c t
        (by simp [h]) ht

theorem deserializeEntities_keys (w : Sim C P) (ctname : List Nat) (ctid : Int) (n : Nat) :
    ∀ d : DeserState C, (∀ p ∈ d.table, ∀ q ∈ p.2, (w.alloc p.1 q.1).isSome = true) →
      ∀ p ∈ (deserializeEntities w ctname ctid n d).2.table, ∀ q ∈ p.2,
        (w.alloc p.1 q.1).isSome = true := by
  induction n with
  | zero => exact fun d hd => hd
  | succ n ih =>
    intro d hd
    simp only [deserializeEntities]
    cases IDeserializer.NumberU32_Unbounded d.input with
    | mk o rest =>
      cases o with
      | ok ent =>
        dsimp only
        have hcc := ConstructComponent_keys w d.table ent ctid hd
        cases hc : ConstructComponent w d.table ent ctid with
        | mk oc table1 =>
          rw [hc] at hcc
          cases oc with
          | none => exact hcc
          | some component =>
            dsimp only
            cases w.Deserialize component (paramNodeFor w d.templateManager ent ctname) rest with
            | mk o1 r1 =>
              obtain ⟨component1, rest1⟩ := r1
              have hassign := tableAssign_keys (fun cid ent => (w.alloc cid ent).isSome = true)
                ctid ent component1 table1 hcc
              cases o1 with
              | ok u => exact ih _ hassign
              | throw e => exact hassign
              | outOfFuel => exact hassign
      | throw e => exact hd
      | outOfFuel => exact hd

theorem deserializeTypes_keys (w : Sim C P) (n : Nat) :
    ∀ d : DeserState C, (∀ p ∈ d.table, ∀ q ∈ p.2, (w.alloc p.1 q.1).isSome = true) →
      ∀ p ∈ (deserializeTypes w n d).2.table, ∀ q ∈ p.2,
        (w.alloc p.1 q.1).isSome = true := by
  induction n with
  | zero => exact fun d hd => hd
  | succ n ih =>
    intro d hd
    simp only [deserializeTypes]
    cases IDeserializer.StringASCII 0 255 d.input with
    | mk o rest =>
      cases o with
      | ok ctname =>
        dsimp only
        split
        · exact hd
        · cases IDeserializer.NumberU32_Unbounded rest with
          | mk o1 rest1 =>
            cases o1 with
            | ok numComponents =>
              dsimp only
              have he := deserializeEntities_keys w ctname (w.LookupCID ctname) numComponents
                { d with input := rest1 } hd
              cases hde : deserializeEntities w ctname (w.LookupCID ctname) numComponents
                  { d with input := rest1 } with
              | mk o2 d1 =>
                rw [hde] at he
                cases o2 with
                | ok b =>
                  cases b with
                  | true => exact ih d1 he
                  | false => exact he
                | throw e => exact he
                | outOfFuel => exact he
            | throw e => exact hd
            | outOfFuel => exact hd
      | throw e => exact hd
      | outOfFuel => exact hd

/-- Every component in the table after `DeserializeState` was made by the factory for its
type and entity. -/
theorem DeserializeState_keys (w : Sim C P) (m : CComponentManager C) (stream : List Nat) :
    ∀ p ∈ (DeserializeState w m stream).2.m_ComponentsByTypeId, ∀ q ∈ p.2,
      (w.alloc p.1 q.1).isSome = true := by
  unfold DeserializeState
  simp only [DestroyAllComponents]
  cases IDeserializer.NumberU32_Unbounded stream with
  | mk o rest =>
    cases o with
    | ok N =>
      dsimp only
      have hl := deserializeTypes_keys w N ⟨[], rest, none⟩
        (fun p hp => absurd hp (List.not_mem_nil _))
      cases hloop : deserializeTypes w N ⟨[], rest, none⟩ with
      | mk o1 d =>
        rw [hloop] at hl
        cases o1 with
        | ok b =>
          cases b with
          | true =>
            dsimp only
            split
            · exact hl
            · exact hl
          | false => exact hl
        | throw e => exact hl
        | outOfFuel => exact hl
    | throw e => exact fun p hp => absurd hp (List.not_mem_nil _)
    | outOfFuel => exact fun p hp => absurd hp (List.not_mem_nil _)

/-- The table `DeserializeState` leaves is the table the loop over the type records has
built, however the call ends. -/
theorem DeserializeState_table (w : Sim C P) (m : CComponentManager C)
    (stream rest : List Nat) (N : Nat) (r : Outcome Bool) (d : DeserState C)
    (hcount : IDeserializer.NumberU32_Unbounded stream = (.ok N, rest))
    (hloop : deserializeTypes w N ⟨[], rest, none⟩ = (r, d)) :
    (DeserializeState w m stream).2.m_ComponentsByTypeId = d.table := by
  unfold DeserializeState
  simp only [hcount, DestroyAllComponents, hloop]
  cases r with
  | ok b =>
    cases b with
    | true =>
      dsimp only
      split <;> rfl
    | false => rfl
  | throw e => rfl
  | outOfFuel => rfl

/-- C15, counterexample: with the components of `Sim.blobs` and an empty table to start
from, the stream of one valid "Position" record followed by one extra byte makes
`DeserializeState` return `false` (trailing bytes), and so does the stream that declares two
records of which the second carries an unregistered name; in both cases the table afterwards
holds the component of entity `2` that the stream describes. -/
theorem DeserializeState_failure_keeps_components :
    DeserializeState Sim.blobs ⟨[], []⟩ ([1, 0, 0, 0] ++ (Sim.positionRecord ++ [0]))
      = (.ok false,
        ⟨[], [(7, [(2, [0, 0, 0, 0, 0, 0, 12, 64, 4, 0, 0, 0, 101, 97, 115, 116])])]⟩) ∧
    DeserializeState Sim.blobs ⟨[], []⟩
        ([2, 0, 0, 0] ++ (Sim.positionRecord ++ Sim.visionRecord))
      = (.ok false,
        ⟨[], [(7, [(2, [0, 0, 0, 0, 0, 0, 12, 64, 4, 0, 0, 0, 101, 97, 115, 116])])]⟩) ∧
    tableFind 7 2
        (DeserializeState Sim.blobs ⟨[], []⟩
          ([1, 0, 0, 0] ++ (Sim.positionRecord ++ [0]))).2.m_ComponentsByTypeId
      = some [0, 0, 0, 0, 0, 0, 12, 64, 4, 0, 0, 0, 101, 97, 115, 116] :=
  ⟨rfl, rfl, rfl⟩

/-- C15, amended: whenever `DeserializeState` returns failure (and in fact however it ends),
the table holds none of the pre-existing components: the outcome and the manager afterwards
are those of the same call on the manager with an empty table, every component left in the
table was made by the factory during the call, and the table is the one the loop over the type
records had built when the call ended, so the components constructed before the failure was
detected stay in it; it is empty when the stream ends before the count of type records. -/
theorem DeserializeState_rebuilds_from_empty (w : Sim C P) (m : CComponentManager C)
    (stream : List Nat) :
    DeserializeState w m stream
      = DeserializeState w { m with m_ComponentsByTypeId := [] } stream ∧
    (∀ p ∈ (DeserializeState w m stream).2.m_ComponentsByTypeId, ∀ q ∈ p.2,
      (w.alloc p.1 q.1).isSome = true) ∧
    (∀ (N : Nat) (rest : List Nat) (r : Outcome Bool) (d : DeserState C),
      IDeserializer.NumberU32_Unbounded stream = (.ok N, rest) →
      deserializeTypes w N ⟨[], rest, none⟩ = (r, d) →
        (DeserializeState w m stream).2.m_ComponentsByTypeId = d.table) ∧
    (stream.length < 4 →
      DeserializeState w m stream
        = (.throw .Deserialize_ReadFailed, { m with m_ComponentsByTypeId := [] })) := by
  refine ⟨rfl, DeserializeState_keys w m stream,
    fun N rest r d h1 h2 => DeserializeState_table w m stream rest N r d h1 h2, ?_⟩
  intro hlen
  have h4 : ¬ 4 ≤ stream.length := by omega
  simp only [DeserializeState, IDeserializer.NumberU32_Unbounded, h4, if_false,
    DestroyAllComponents]

/-- Witness of `DeserializeState_rebuilds_from_empty`: on a manager that holds the "Position"
component of entity `2`, a stream of three bytes ends the call in the primitive read and leaves
the table empty; a valid record followed by one extra byte leaves the table with the component
of the stream, made by the factory. -/
theorem DeserializeState_rebuilds_from_empty_witness :
    DeserializeState Sim.blobs Sim.positionManager [1, 0, 0]
      = (.throw .Deserialize_ReadFailed,
        { Sim.positionManager with m_ComponentsByTypeId := [] }) ∧
    (DeserializeState Sim.blobs Sim.positionManager
        ([1, 0, 0, 0] ++ (Sim.positionRecord ++ [0]))).2.m_ComponentsByTypeId
      = [(7, [(2, [0, 0, 0, 0, 0, 0, 12, 64, 4, 0, 0, 0, 101, 97, 115, 116])])] :=
  ⟨(DeserializeState_rebuilds_from_empty Sim.blobs Sim.positionManager [1, 0, 0]).2.2.2
      (by decide),
    (DeserializeState_rebuilds_from_empty Sim.blobs Sim.positionManager
      ([1, 0, 0, 0] ++ (Sim.positionRecord ++ [0]))).2.2.1 1
      (Sim.positionRecord ++ [0]) (.ok true)
      ⟨[(7, [(2, [0, 0, 0, 0, 0, 0, 12, 64, 4, 0, 0, 0, 101, 97, 115, 116])])], [0], none⟩
      (by decide) (by rfl)⟩

/-! ## Exceptions at the entry points -/

theorem serializeEntities_throws (w : Sim C P) (ents : List (Nat × C))
    (h : ∃ q ∈ ents, (w.Serialize q.2).2 ≠ none) :
    ∀ s : Ser, ∃ e s1, serializeEntities w ents s = (.throw e, s1) := by
  induction ents with
  | nil =>
    obtain ⟨q, hq, _⟩ := h
    exact absurd hq (List.not_mem_nil _)
  | cons q0 rest ih =>
    obtain ⟨ent, c⟩ := q0
    intro s
    simp only [serializeEntities, componentSerialize]
    cases hc : (w.Serialize c).2 with
    | some e => exact ⟨e, _, rfl⟩
    | none =>
      dsimp only
      apply ih
      obtain ⟨q, hq, hne⟩ := h
      rcases List.mem_cons.mp hq with h1 | h1
      · rw [h1] at hne
        exact absurd hc hne
      · exact ⟨q, h1, hne⟩

theorem hashTypes_throws (w : Sim C P) (t : ComponentTable C)
    (h : ∃ p ∈ t, ∃ q ∈ p.2, (w.Serialize q.2).2 ≠ none) :
    ∀ s : Ser, ∃ e s1, hashTypes w t s = (.throw e, s1) := by
  induction t with
  | nil =>
    obtain ⟨p, hp, _⟩ := h
    exact absurd hp (List.not_mem_nil _)
  | cons p0 rest ih =>
    obtain ⟨cid, ents⟩ := p0
    intro s
    by_cases hhead : ∃ q ∈ ents, (w.Serialize q.2).2 ≠ none
    · have hne : ¬ ents.isEmpty = true := by
        obtain ⟨q, hq, _⟩ := hhead
        cases ents with
        | nil => exact absurd hq (List.not_mem_nil _)
        | cons a b => simp
      obtain ⟨e, s1, hs⟩ := serializeEntities_throws w ents hhead
        (ISerializer.NumberI32_Unbounded w.env cid s)
      simp only [hashTypes, hne, if_false, hs]
      exact ⟨e, s1, rfl⟩
    · have hrest : ∃ p ∈ rest, ∃ q ∈ p.2, (w.Serialize q.2).2 ≠ none := by
        obtain ⟨p, hp, hq⟩ := h
        rcases List.mem_cons.mp hp with h1 | h1
        · rw [h1] at hq
          exact absurd hq hhead
        · exact ⟨p, h1, hq⟩
      have hok : ∀ q ∈ ents, (w.Serialize q.2).2 = none := by
        intro q hq
        by_contra hc
        exact hhead ⟨q, hq, hc⟩
      simp only [hashTypes, serializeEntities_ok w ents _ hok]
      split
      · exact ih hrest s
      · exact ih hrest _

theorem serializeTypes_throws (w : Sim C P) (types : List (Int × ComponentType))
    (t : ComponentTable C)
    (hreg : ∀ p ∈ t, p.2 ≠ [] →
      ∃ ct, StdMap.find p.1 types = some ct ∧ ValidTypeName ct.name)
    (h : ∃ p ∈ t, ∃ q ∈ p.2, (w.Serialize q.2).2 ≠ none) :
    ∀ s : Ser, ∃ e s1, serializeTypes w types t s = (.throw e, s1) := by
  induction t with
  | nil =>
    obtain ⟨p, hp, _⟩ := h
    exact absurd hp (List.not_mem_nil _)
  | cons p0 rest ih =>
    obtain ⟨cid, ents⟩ := p0
    intro s
    have hreg1 : ∀ p ∈ rest, p.2 ≠ [] →
        ∃ ct, StdMap.find p.1 types = some ct ∧ ValidTypeName ct.name :=
      fun p hp => hreg p (List.mem_cons_of_mem _ hp)
    by_cases hempty : ents.isEmpty = true
    · have hrest : ∃ p ∈ rest, ∃ q ∈ p.2, (w.Serialize q.2).2 ≠ none := by
        obtain ⟨p, hp, q, hq, hne⟩ := h
        rcases List.mem_cons.mp hp with h1 | h1
        · rw [h1] at hq
          rw [List.isEmpty_iff.mp hempty] at hq
          exact absurd hq (List.not_mem_nil _)
        · exact ⟨p, h1, q, hq, hne⟩
      simp only [serializeTypes, hempty, if_true]
      exact ih hreg1 hrest s
    · have hne : ents ≠ [] := fun h0 => hempty (List.isEmpty_iff.mpr h0)
      obtain ⟨ct, hfind, hname⟩ := hreg (cid, ents) (List.mem_cons_self _ _) hne
      simp only [serializeTypes, hempty, if_false, hfind, StringASCII_ok w.env ct.name s hname]
      by_cases hhead : ∃ q ∈ ents, (w.Serialize q.2).2 ≠ none
      · obtain ⟨e, s1, hs⟩ := serializeEntities_throws w ents hhead
          (ISerializer.NumberU32_Unbounded w.env (toU32 ents.length)
            (Put (leBytes 4 ct.name.length ++ ct.name) s))
        rw [hs]
        exact ⟨e, s1, rfl⟩
      · have hrest : ∃ p ∈ rest, ∃ q ∈ p.2, (w.Serialize q.2).2 ≠ none := by
          obtain ⟨p, hp, hq⟩ := h
          rcases List.mem_cons.mp hp with h1 | h1
          · rw [h1] at hq
            exact absurd hq hhead
          · exact ⟨p, h1, hq⟩
        have hok : ∀ q ∈ ents, (w.Serialize q.2).2 = none := by
          intro q hq
          by_contra hc
          exact hhead ⟨q, hq, hc⟩
        rw [serializeEntities_ok w ents _ hok]
        exact ih hreg1 hrest _

/-- C16: the entry points let exceptions escape.  For every table in which some component's
`Serialize` raises, `ComputeStateHash` ends with an exception, and so does `SerializeState`
when the non-empty types are registered under valid names: neither returns `false`; and
`DeserializeState` ends with the exception `PSERROR_Deserialize_ReadFailed` of the primitive read
when the stream is shorter than the count of type records.  (The three methods end on the
comment "TODO: catch exceptions".) -/
theorem entry_points_propagate_exceptions (w : Sim C P) (m : CComponentManager C) (s : Ser)
    (outHash : List Nat)
    (hreg : ∀ p ∈ m.m_ComponentsByTypeId, p.2 ≠ [] →
      ∃ ct, StdMap.find p.1 m.m_ComponentTypesById = some ct ∧ ValidTypeName ct.name)
    (hraise : ∃ p ∈ m.m_ComponentsByTypeId, ∃ q ∈ p.2, (w.Serialize q.2).2 ≠ none) :
    (∃ e, (SerializeState w m s).1 = .throw e) ∧
    (∃ e, (ComputeStateHash w m outHash).1 = .throw e) ∧
    ∀ stream : List Nat, stream.length < 4 →
      (DeserializeState w m stream).1 = .throw .Deserialize_ReadFailed := by
  refine ⟨?_, ?_, ?_⟩
  · obtain ⟨e, s1, h⟩ := serializeTypes_throws w m.m_ComponentTypesById
      m.m_ComponentsByTypeId hreg hraise
      (ISerializer.NumberU32_Unbounded w.env (countComponentTypes m.m_ComponentsByTypeId 0) s)
    refine ⟨e, ?_⟩
    unfold SerializeState
    dsimp only
    rw [h]
  · obtain ⟨e, s1, h⟩ := hashTypes_throws w m.m_ComponentsByTypeId hraise Ser.fresh
    refine ⟨e, ?_⟩
    unfold ComputeStateHash
    rw [h]
  · intro stream hlen
    have h4 : ¬ 4 ≤ stream.length := by omega
    simp only [DeserializeState, IDeserializer.NumberU32_Unbounded, h4, if_false]

theorem raisingManager_registered :
    ∀ p ∈ Sim.raisingManager.m_ComponentsByTypeId, p.2 ≠ [] →
      ∃ ct, StdMap.find p.1 Sim.raisingManager.m_ComponentTypesById = some ct ∧
        ValidTypeName ct.name := by
  intro p hp hne
  simp only [Sim.raisingManager, List.mem_singleton] at hp
  subst hp
  refine ⟨⟨[80, 111, 115, 105, 116, 105, 111, 110]⟩, rfl, ?_⟩
  unfold ValidTypeName
  decide

/-- Witness of `entry_points_propagate_exceptions`: in `Sim.raisingManager` the component of
entity `3` raises `PSERROR_Serialize_InvalidScriptValue`; `SerializeState` and
`ComputeStateHash` end with that exception, after the record of entity `2` has gone out. -/
theorem entry_points_propagate_exceptions_witness :
    ((∀ p ∈ Sim.raisingManager.m_ComponentsByTypeId, p.2 ≠ [] →
        ∃ ct, StdMap.find p.1 Sim.raisingManager.m_ComponentTypesById = some ct ∧
          ValidTypeName ct.name) ∧
      ∃ p ∈ Sim.raisingManager.m_ComponentsByTypeId, ∃ q ∈ p.2,
        (Sim.raising.Serialize q.2).2 ≠ none) ∧
    ((∃ e, (SerializeState Sim.raising Sim.raisingManager Ser.fresh).1 = .throw e) ∧
      (∃ e, (ComputeStateHash Sim.raising Sim.raisingManager []).1 = .throw e)) ∧
    (SerializeState Sim.raising Sim.raisingManager Ser.fresh).1
      = .throw .Serialize_InvalidScriptValue ∧
    ComputeStateHash Sim.raising Sim.raisingManager []
      = (.throw .Serialize_InvalidScriptValue, []) ∧
    (DeserializeState Sim.blobs Sim.raisingManager [1, 0, 0]).1
      = .throw .Deserialize_ReadFailed ∧
    (DeserializeState Sim.blobs Sim.raisingManager
      ([1, 0, 0, 0] ++ Sim.positionRecord.take 24)).1 = .throw .Deserialize_ReadFailed :=
  ⟨⟨raisingManager_registered, (7, [(2, [1, 2]), (3, [])]), by decide, (3, []), by decide,
      by decide⟩,
    ⟨(entry_points_propagate_exceptions Sim.raising Sim.raisingManager Ser.fresh []
        raisingManager_registered
        ⟨(7, [(2, [1, 2]), (3, [])]), by decide, (3, []), by decide, by decide⟩).1,
      (entry_points_propagate_exceptions Sim.raising Sim.raisingManager Ser.fresh []
        raisingManager_registered
        ⟨(7, [(2, [1, 2]), (3, [])]), by decide, (3, []), by decide, by decide⟩).2.1⟩,
    by decide, by decide, by decide, by decide⟩

end CComponentManager

namespace CBinarySerializer

/-! ## The steps of `HandleScriptVal` -/

theorem ScriptString_steps (env : Env) (string : List Nat) (s : Ser) :
    Ser.Steps env s (ScriptString env string s).2 := by
  unfold ScriptString
  split
  · exact Ser.Steps.refl s
  · rw [PutString_eq]
    exact Ser.Steps.put _ s

theorem NumberU8_Unbounded_steps (env : Env) (b : Nat) (s : Ser) :
    Ser.Steps env s (ISerializer.NumberU8_Unbounded env b s) := by
  rw [NumberU8_Unbounded_eq]
  exact Ser.Steps.put _ s

theorem NumberU32_Unbounded_steps (env : Env) (v : Nat) (s : Ser) :
    Ser.Steps env s (ISerializer.NumberU32_Unbounded env v s) := by
  rw [NumberU32_Unbounded_eq]
  exact Ser.Steps.put _ s

theorem IdArrayWrapper_ctor_steps (env : Env) (obj : Nat) (i n : Nat) (s : Ser) :
    Ser.Steps env s (IdArrayWrapper_ctor env obj i n s).2 := by
  induction n generalizing i s with
  | zero => exact Ser.Steps.refl s
  | succ n ih =>
    unfold IdArrayWrapper_ctor
    split
    · exact (Ser.Steps.addRoot (.idSlot obj i) s (fun _ h => by cases h)).trans (ih (i + 1) _)
    · exact Ser.Steps.refl s

theorem unrootSlots_steps (env : Env) (obj : Nat) (slots : List Nat) (s : Ser) :
    Ser.Steps env s
      { s with roots := slots.foldl (fun r i => r.erase (Root.idSlot obj i)) s.roots } := by
  induction slots generalizing s with
  | nil => exact Ser.Steps.refl s
  | cons i rest ih =>
    exact (Ser.Steps.removeRoot (.idSlot obj i) s (fun _ h => by cases h)).trans
      (ih { s with roots := s.roots.erase (Root.idSlot obj i) })

theorem IdArrayWrapper_dtor_steps (env : Env) (obj length : Nat) (s : Ser) :
    Ser.Steps env s (IdArrayWrapper_dtor obj length s) :=
  unrootSlots_steps env obj (List.range length) s

theorem propBody_steps (env : Env) (handle : jsval → Ser → Outcome Unit × Ser)
    (hh : ∀ (v : jsval) (s : Ser), Ser.Steps env s (handle v s).2) (obj : Nat)
    (idstr : List Nat) (s : Ser) : Ser.Steps env s (propBody env handle obj idstr s).2 := by
  unfold propBody
  split
  · exact Ser.Steps.refl s
  · split
    · exact Ser.Steps.refl s
    · split
      · exact Ser.Steps.refl s
      · have hs := ScriptString_steps env idstr s
        split
        · rename_i s1 heq
          rw [heq] at hs
          split
          · exact hs
          · exact hs.trans (hh _ _)
        · exact hs

theorem propStep_steps (env : Env) (handle : jsval → Ser → Outcome Unit × Ser)
    (hh : ∀ (v : jsval) (s : Ser), Ser.Steps env s (handle v s).2) (obj i id : Nat) (s : Ser) :
    Ser.Steps env s (propStep env handle obj i id s).2 := by
  unfold propStep
  split
  · exact Ser.Steps.refl s
  · split
    · exact Ser.Steps.refl s
    · split
      · exact ((Ser.Steps.addRoot (.idstr obj i) s (fun _ h => by cases h)).trans
          (propBody_steps env handle hh obj _ _)).trans
          (Ser.Steps.removeRoot (.idstr obj i) _ (fun _ h => by cases h))
      · exact Ser.Steps.refl s

theorem propLoop_steps (env : Env) (handle : jsval → Ser → Outcome Unit × Ser)
    (hh : ∀ (v : jsval) (s : Ser), Ser.Steps env s (handle v s).2) (obj i : Nat)
    (ids : List Nat) (s : Ser) : Ser.Steps env s (propLoop env handle obj i ids s).2 := by
  induction ids generalizing i s with
  | nil => exact Ser.Steps.refl s
  | cons id ids ih =>
    unfold propLoop
    have hs := propStep_steps env handle hh obj i id s
    split
    · rename_i s1 heq
      rw [heq] at hs
      exact hs.trans (ih (i + 1) s1)
    · exact hs

/-- A call of `HandleScriptVal` is a sequence of elementary steps, however it ends. -/
theorem HandleScriptVal_steps (env : Env) (fuel : Nat) (val : jsval) (s : Ser) :
    Ser.Steps env s (HandleScriptVal env fuel val s).2 := by
  induction fuel generalizing val s with
  | zero => exact Ser.Steps.refl s
  | succ fuel ih =>
    unfold HandleScriptVal
    split
    · exact NumberU8_Unbounded_steps env _ s
    · exact NumberU8_Unbounded_steps env _ s
    · split
      · exact NumberU8_Unbounded_steps env _ s
      · have hg : Ser.Steps env s (GetScriptBackrefTag env (JSVAL_TO_OBJECT val) s).2 :=
          Ser.Steps.backrefTag _ s
        dsimp only
        split
        · rename_i tag s1 heq
          rw [heq] at hg
          split
          · exact hg.trans ((NumberU8_Unbounded_steps env _ s1).trans
              (NumberU32_Unbounded_steps env _ _))
          · have h2 : Ser.Steps env s (if JS_IsArrayObject env (JSVAL_TO_OBJECT val) = true then
                ISerializer.NumberU8_Unbounded env env.SCRIPT_TYPE_ARRAY s1
                else ISerializer.NumberU8_Unbounded env env.SCRIPT_TYPE_OBJECT s1) := by
              split
              · exact hg.trans (NumberU8_Unbounded_steps env _ s1)
              · exact hg.trans (NumberU8_Unbounded_steps env _ s1)
            split
            · exact h2
            · rename_i ida hen
              have hc := IdArrayWrapper_ctor_steps env (JSVAL_TO_OBJECT val) 0 ida.length
                (if JS_IsArrayObject env (JSVAL_TO_OBJECT val) = true then
                  ISerializer.NumberU8_Unbounded env env.SCRIPT_TYPE_ARRAY s1
                  else ISerializer.NumberU8_Unbounded env env.SCRIPT_TYPE_OBJECT s1)
              split
              · rename_i s3 hctor
                rw [hctor] at hc
                exact (h2.trans hc).trans ((NumberU32_Unbounded_steps env _ s3).trans
                  ((propLoop_steps env _ ih _ _ _ _).trans
                    (IdArrayWrapper_dtor_steps env _ _ _)))
              · rename_i e s3 hctor
                rw [hctor] at hc
                exact h2.trans hc
              · rename_i s3 hctor
                rw [hctor] at hc
                exact h2.trans hc
        · rename_i e s1 heq
          rw [heq] at hg
          exact hg
        · rename_i s1 heq
          rw [heq] at hg
          exact hg
    · exact Ser.Steps.refl s
    · exact (NumberU8_Unbounded_steps env _ s).trans (ScriptString_steps env _ _)
    · split
      · unfold ISerializer.NumberI32
        split
        · rw [PutNumber_i32_eq]
          exact (NumberU8_Unbounded_steps env _ s).trans (Ser.Steps.put _ _)
        · exact NumberU8_Unbounded_steps env _ s
      · exact (NumberU8_Unbounded_steps env _ s).trans (Ser.Steps.put _ _)
    · exact (NumberU8_Unbounded_steps env _ s).trans (NumberU8_Unbounded_steps env _ _)
    · exact Ser.Steps.refl s
    · exact Ser.Steps.refl s

/-! ## The life of the backref table -/

theorem StdMap.mem_of_find {V : Type} (k : Nat) (v : V) (m : List (Nat × V))
    (h : StdMap.find k m = some v) : ∃ e ∈ m, e.1 = k := by
  induction m with
  | nil => cases h
  | cons p rest ih =>
    obtain ⟨k1, v1⟩ := p
    simp only [StdMap.find] at h
    split at h
    · rename_i hk
      exact ⟨(k1, v1), List.mem_cons_self _ _, hk.symm⟩
    · obtain ⟨e, he, hk⟩ := ih h
      exact ⟨e, List.mem_cons_of_mem _ he, hk⟩

/-- Unrooting the entries of a list one by one: a root that belongs to one of the entries
loses one occurrence at least. -/
theorem count_foldl_erase {α : Type} (g : α → Root) (a : Root) (es : List α) :
    ∀ roots : List Root,
      (es.foldl (fun r e => r.erase (g e)) roots).count a
        ≤ roots.count a - if a ∈ es.map g then 1 else 0 := by
  induction es with
  | nil =>
    intro roots
    simp
  | cons e rest ih =>
    intro roots
    simp only [List.foldl_cons, List.map_cons, List.mem_cons]
    have h1 := ih (roots.erase (g e))
    by_cases hge : a = g e
    · subst hge
      rw [List.count_erase_self] at h1
      simp only [true_or, if_true]
      omega
    · rw [List.count_erase_of_ne hge] at h1
      simp only [hge, false_or]
      exact h1

theorem Ser.Steps.backrefRootsMatch {env : Env} {s s1 : Ser} (h : Ser.Steps env s s1)
    (hinv : s.BackrefRootsMatch) : s1.BackrefRootsMatch := by
  induction h with
  | refl s => exact hinv
  | trans _ _ ih1 ih2 => exact ih2 (ih1 hinv)
  | put a s => exact hinv
  | addRoot r s hr =>
    intro obj
    have := hinv obj
    simp only [List.count_cons_of_ne (fun h => hr obj h.symm)]
    exact this
  | removeRoot r s hr =>
    intro obj
    have := hinv obj
    simp only [List.count_erase_of_ne (fun h => hr obj h.symm)]
    exact this
  | backrefTag obj s =>
    unfold GetScriptBackrefTag
    split
    · exact hinv
    · rename_i hnone
      have hcount : s.roots.count (Root.backref obj) = 0 := by
        have := hinv obj
        rw [hnone] at this
        simpa using this
      have hother : ∀ o : Nat, o ≠ obj →
          (StdMap.find o (StdMap.insert obj (toU32 (toU32 s.backrefs.length + 1)) s.backrefs))
            = StdMap.find o s.backrefs :=
        fun o ho => StdMap.find_insert_of_ne o obj _ _ ho
      have hself := StdMap.find_insert_self obj (toU32 (toU32 s.backrefs.length + 1))
        s.backrefs hnone
      dsimp only
      split
      · intro o
        by_cases ho : o = obj
        · subst ho
          simp only [hself, Option.isSome_some, if_true, List.count_cons_self, hcount]
          omega
        · have hne : Root.backref o ≠ Root.backref obj := fun h => ho (Root.backref.inj h)
          simp only [hother o ho, List.count_cons_of_ne hne]
          exact hinv o
      · intro o
        by_cases ho : o = obj
        · subst ho
          simp only [hself, Option.isSome_some, if_true, hcount]
          omega
        · simp only [hother o ho]
          exact hinv o

/-- After `FreeScriptBackrefs` no backref entry is rooted any more. -/
theorem FreeScriptBackrefs_unroots (s : Ser) (hinv : s.BackrefRootsMatch) (obj : Nat) :
    Root.backref obj ∉ (FreeScriptBackrefs s).roots := by
  have h1 := count_foldl_erase (fun e : Nat × Nat => Root.backref e.1) (Root.backref obj)
    s.backrefs s.roots
  have h2 := hinv obj
  have h0 : (s.backrefs.foldl (fun r e => r.erase (Root.backref e.1)) s.roots).count
      (Root.backref obj) = 0 := by
    cases hf : StdMap.find obj s.backrefs with
    | none =>
      rw [hf] at h2
      simp only [Option.isSome_none, Bool.false_eq_true, if_false] at h2
      omega
    | some tag =>
      rw [hf] at h2
      simp only [Option.isSome_some, if_true] at h2
      obtain ⟨e, he, hk⟩ := StdMap.mem_of_find obj tag s.backrefs hf
      have hmem : Root.backref obj ∈ s.backrefs.map (fun e : Nat × Nat => Root.backref e.1) := by
        rw [← hk]
        exact List.mem_map_of_mem _ he
      simp only [hmem, if_true] at h1
      omega
  exact List.count_eq_zero.mp h0

/-- C17, counterexample: on one serializer, `PutScriptVal` of the array `y = [x, x]` returns
normally and leaves the backref table with the entries of `y` (tag `1`) and `x` (tag `2`), both
still rooted; the next value encoded, `x`, is therefore written as a back-reference to tag `2`,
whereas a fresh serializer writes it as a new array.  And after the call that fails with
`PSERROR_Serialize_InvalidScriptValue` on the function-valued property of `o`, the table still
holds the rooted entry of `o`. -/
theorem PutScriptVal_leaves_backrefs :
    PutScriptVal Env.sharedArray 2 (.object 0) Ser.fresh
      = (.ok (),
        ⟨[2, 2, 0, 0, 0, 1, 0, 0, 0, 48, 2, 0, 0, 0, 0, 1, 0, 0, 0, 49, 8, 2, 0, 0, 0],
          [(0, 1), (1, 2)], [Root.backref 1, Root.backref 0]⟩) ∧
    (PutScriptVal Env.sharedArray 2 (.object 1)
        (PutScriptVal Env.sharedArray 2 (.object 0) Ser.fresh).2).2.out
      = (PutScriptVal Env.sharedArray 2 (.object 0) Ser.fresh).2.out ++ [8, 2, 0, 0, 0] ∧
    (PutScriptVal Env.sharedArray 2 (.object 1) Ser.fresh).2.out = [2, 0, 0, 0, 0] ∧
    PutScriptVal Env.objectWithFunction 2 (.object 0) Ser.fresh
      = (.throw .Serialize_InvalidScriptValue,
        ⟨[3, 2, 0, 0, 0, 1, 0, 0, 0, 97, 5, 1, 0, 0, 0, 1, 0, 0, 0, 102],
          [(0, 1)], [Root.backref 0]⟩) := by
  decide

/-- C17, amended: the backref table lives as long as the serializer.  A `PutScriptVal` /
`HandleScriptVal` call, whether it returns or fails, removes no entry: every entry keeps its tag
(and the output is only appended to), so the next encoded value continues the numbering.  The
table is cleared by `FreeScriptBackrefs`, which the destructor runs: after it the table is empty
and no backref entry is rooted. -/
theorem PutScriptVal_keeps_backrefs (env : Env) (fuel : Nat) (value : jsval) (s : Ser)
    (hinv : s.BackrefRootsMatch) :
    s.Extends (PutScriptVal env fuel value s).2 ∧
    (PutScriptVal env fuel value s).2.BackrefRootsMatch ∧
    (FreeScriptBackrefs (PutScriptVal env fuel value s).2).backrefs = [] ∧
    ∀ obj : Nat,
      Root.backref obj ∉ (FreeScriptBackrefs (PutScriptVal env fuel value s).2).roots := by
  have h1 : (PutScriptVal env fuel value s).2.BackrefRootsMatch :=
    Ser.Steps.backrefRootsMatch (HandleScriptVal_steps env fuel value s) hinv
  exact ⟨HandleScriptVal_extends env fuel value s, h1, rfl,
    fun obj => FreeScriptBackrefs_unroots _ h1 obj⟩

/-- Witness of `PutScriptVal_keeps_backrefs`: the array `y = [x, x]` on a fresh serializer;
the two entries are there after the call and gone, with their roots, after
`FreeScriptBackrefs`. -/
theorem PutScriptVal_keeps_backrefs_witness :
    Ser.fresh.BackrefRootsMatch ∧
    (PutScriptVal Env.sharedArray 2 (.object 0) Ser.fresh).2.backrefs = [(0, 1), (1, 2)] ∧
    FreeScriptBackrefs (PutScriptVal Env.sharedArray 2 (.object 0) Ser.fresh).2
      = ⟨[2, 2, 0, 0, 0, 1, 0, 0, 0, 48, 2, 0, 0, 0, 0, 1, 0, 0, 0, 49, 8, 2, 0, 0, 0],
        [], []⟩ ∧
    ∀ obj : Nat, Root.backref obj ∉
      (FreeScriptBackrefs (PutScriptVal Env.sharedArray 2 (.object 0) Ser.fresh).2).roots :=
  ⟨fun _ => Nat.le_refl 0, by decide, by decide,
    (PutScriptVal_keeps_backrefs Env.sharedArray 2 (.object 0) Ser.fresh
      (fun _ => Nat.le_refl 0)).2.2.2⟩

end CBinarySerializer

/-! ## Scoped roots -/

theorem sameScopedRoots_refl (s : Ser) : s.SameScopedRoots s := fun _ _ => rfl

theorem sameScopedRoots_trans {s s1 s2 : Ser} (h1 : s.SameScopedRoots s1)
    (h2 : s1.SameScopedRoots s2) : s.SameScopedRoots s2 :=
  fun r hr => (h2 r hr).trans (h1 r hr)

theorem sameScopedRoots_of_roots {s s1 : Ser} (h : s1.roots = s.roots) :
    s.SameScopedRoots s1 := fun r _ => by rw [h]

namespace CBinarySerializer

/-! ## The scoped roots of `HandleScriptVal` -/

theorem ScriptString_roots (env : Env) (string : List Nat) (s : Ser) :
    (ScriptString env string s).2.roots = s.roots := by
  unfold ScriptString
  split <;> rfl

theorem GetScriptBackrefTag_scoped (env : Env) (obj : Nat) (s : Ser) :
    s.SameScopedRoots (GetScriptBackrefTag env obj s).2 := by
  unfold GetScriptBackrefTag
  split
  · exact sameScopedRoots_refl s
  · dsimp only
    split
    · intro r hr
      exact List.count_cons_of_ne (hr obj) _
    · exact sameScopedRoots_of_roots rfl

/-- Unrooting the entries of a list one by one takes one occurrence of each away. -/
theorem count_foldl_erase_eq {α : Type} (g : α → Root) (a : Root) (es : List α) :
    ∀ roots : List Root,
      (es.foldl (fun r e => r.erase (g e)) roots).count a
        = roots.count a - (es.map g).count a := by
  induction es with
  | nil =>
    intro roots
    simp
  | cons e rest ih =>
    intro roots
    simp only [List.foldl_cons, List.map_cons]
    rw [ih (roots.erase (g e))]
    by_cases hge : a = g e
    · subst hge
      rw [List.count_erase_self, List.count_cons_self]
      omega
    · rw [List.count_erase_of_ne hge, List.count_cons_of_ne hge]

/-- When rooting an id slot never fails, the constructor of `IdArrayWrapper` succeeds and roots
each of the slots once. -/
theorem IdArrayWrapper_ctor_roots (env : Env) (obj : Nat)
    (hslot : ∀ i : Nat, env.JS_AddRoot (.idSlot obj i) = true) (n : Nat) :
    ∀ (i : Nat) (s : Ser),
      (IdArrayWrapper_ctor env obj i n s).1 = .ok () ∧
      ∀ r : Root, (IdArrayWrapper_ctor env obj i n s).2.roots.count r
        = s.roots.count r + ((List.range' i n).map (Root.idSlot obj)).count r := by
  induction n with
  | zero =>
    intro i s
    exact ⟨rfl, fun r => by simp [IdArrayWrapper_ctor]⟩
  | succ n ih =>
    intro i s
    simp only [IdArrayWrapper_ctor, hslot i, if_true]
    refine ⟨(ih (i + 1) _).1, fun r => ?_⟩
    rw [(ih (i + 1) _).2 r, List.range'_succ, List.map_cons]
    simp only [List.count_cons]
    omega

theorem propBody_scoped (env : Env) (handle : jsval → Ser → Outcome Unit × Ser)
    (hh : ∀ (v : jsval) (s : Ser), s.SameScopedRoots (handle v s).2) (obj : Nat)
    (idstr : List Nat) (s : Ser) : s.SameScopedRoots (propBody env handle obj idstr s).2 := by
  unfold propBody
  split
  · exact sameScopedRoots_refl s
  · split
    · exact sameScopedRoots_refl s
    · split
      · exact sameScopedRoots_refl s
      · have hs : s.SameScopedRoots (ScriptString env idstr s).2 :=
          sameScopedRoots_of_roots (ScriptString_roots env idstr s)
        split
        · rename_i s1 heq
          rw [heq] at hs
          split
          · exact hs
          · exact sameScopedRoots_trans hs (hh _ _)
        · exact hs

theorem propStep_scoped (env : Env) (handle : jsval → Ser → Outcome Unit × Ser)
    (hh : ∀ (v : jsval) (s : Ser), s.SameScopedRoots (handle v s).2) (obj i id : Nat)
    (s : Ser) : s.SameScopedRoots (propStep env handle obj i id s).2 := by
  unfold propStep
  split
  · exact sameScopedRoots_refl s
  · split
    · exact sameScopedRoots_refl s
    · split
      · rename_i idstr _ _
        intro r hr
        have hb := propBody_scoped env handle hh obj idstr
          { s with roots := Root.idstr obj i :: s.roots } r hr
        dsimp only at hb ⊢
        by_cases hri : r = Root.idstr obj i
        · subst hri
          rw [List.count_erase_self, hb, List.count_cons_self]
          omega
        · rw [List.count_erase_of_ne hri, hb, List.count_cons_of_ne hri]
      · exact sameScopedRoots_refl s

theorem propLoop_scoped (env : Env) (handle : jsval → Ser → Outcome Unit × Ser)
    (hh : ∀ (v : jsval) (s : Ser), s.SameScopedRoots (handle v s).2) (obj i : Nat)
    (ids : List Nat) (s : Ser) : s.SameScopedRoots (propLoop env handle obj i ids s).2 := by
  induction ids generalizing i s with
  | nil => exact sameScopedRoots_refl s
  | cons id ids ih =>
    unfold propLoop
    have hs := propStep_scoped env handle hh obj i id s
    split
    · rename_i s1 heq
      rw [heq] at hs
      exact sameScopedRoots_trans hs (ih (i + 1) s1)
    · exact hs

/-- When rooting an id slot never fails, a call of `HandleScriptVal` leaves the scoped
roots as it found them, however it ends. -/
theorem HandleScriptVal_scoped (env : Env)
    (hslot : ∀ obj i : Nat, env.JS_AddRoot (.idSlot obj i) = true) (fuel : Nat) (val : jsval)
    (s : Ser) : s.SameScopedRoots (HandleScriptVal env fuel val s).2 := by
  induction fuel generalizing val s with
  | zero => exact sameScopedRoots_refl s
  | succ fuel ih =>
    unfold HandleScriptVal
    split
    · exact sameScopedRoots_of_roots rfl
    · exact sameScopedRoots_of_roots rfl
    · split
      · exact sameScopedRoots_of_roots rfl
      · have hg := GetScriptBackrefTag_scoped env (JSVAL_TO_OBJECT val) s
        dsimp only
        split
        · rename_i tag s1 heq
          rw [heq] at hg
          split
          · exact sameScopedRoots_trans hg (sameScopedRoots_of_roots rfl)
          · have h2 : s.SameScopedRoots (if JS_IsArrayObject env (JSVAL_TO_OBJECT val) = true then
                ISerializer.NumberU8_Unbounded env env.SCRIPT_TYPE_ARRAY s1
                else ISerializer.NumberU8_Unbounded env env.SCRIPT_TYPE_OBJECT s1) := by
              split
              · exact sameScopedRoots_trans hg (sameScopedRoots_of_roots rfl)
              · exact sameScopedRoots_trans hg (sameScopedRoots_of_roots rfl)
            split
            · exact h2
            · rename_i ida hen
              have hc := IdArrayWrapper_ctor_roots env (JSVAL_TO_OBJECT val)
                (hslot (JSVAL_TO_OBJECT val)) ida.length 0
                (if JS_IsArrayObject env (JSVAL_TO_OBJECT val) = true then
                  ISerializer.NumberU8_Unbounded env env.SCRIPT_TYPE_ARRAY s1
                  else ISerializer.NumberU8_Unbounded env env.SCRIPT_TYPE_OBJECT s1)
              split
              · rename_i s3 hctor
                rw [hctor] at hc
                refine sameScopedRoots_trans h2 ?_
                intro r hr
                have hloop := propLoop_scoped env (HandleScriptVal env fuel) ih
                  (JSVAL_TO_OBJECT val) 0 ida
                  (ISerializer.NumberU32_Unbounded env (toU32 ida.length) s3) r hr
                have hput : (ISerializer.NumberU32_Unbounded env (toU32 ida.length) s3).roots
                    = s3.roots := rfl
                rw [hput, hc.2 r] at hloop
                simp only [IdArrayWrapper_dtor]
                rw [count_foldl_erase_eq (Root.idSlot (JSVAL_TO_OBJECT val)) r, hloop,
                  List.range_eq_range']
                omega
              · rename_i e s3 hctor
                rw [hctor] at hc
                exact absurd hc.1 (by simp)
              · rename_i s3 hctor
                rw [hctor] at hc
                exact absurd hc.1 (by simp)
        · rename_i e s1 heq
          rw [heq] at hg
          exact hg
        · rename_i s1 heq
          rw [heq] at hg
          exact hg
    · exact sameScopedRoots_refl s
    · exact sameScopedRoots_of_roots (ScriptString_roots env _ _)
    · split
      · unfold ISerializer.NumberI32
        split
        · exact sameScopedRoots_of_roots rfl
        · exact sameScopedRoots_of_roots rfl
      · exact sameScopedRoots_of_roots rfl
    · exact sameScopedRoots_of_roots rfl
    · exact sameScopedRoots_refl s
    · exact sameScopedRoots_refl s

/-- C18: the scoped roots are not balanced on every exit path.  In the engine
`Env.rootFailure`, where `JS_AddRoot` succeeds for the first id slot of the array `y` and fails
for the second, `HandleScriptVal` of `y` ends with `PSERROR_Serialize_ScriptError` thrown out of
the constructor of `IdArrayWrapper`, and the root of the first id slot is still registered when
the call exits.  This is the only path that leaves a scoped root behind: whenever rooting an id
slot does not fail, every call of `HandleScriptVal`, however it ends (normally, or with a
failure while a property is encoded, a failing root of a property name included), leaves every
root other than those of backref entries registered exactly as often as before the call. -/
theorem HandleScriptVal_leaks_id_roots :
    HandleScriptVal Env.rootFailure 2 (.object 0) Ser.fresh
      = (.throw .Serialize_ScriptError,
        ⟨[2], [(0, 1)], [Root.idSlot 0 0, Root.backref 0]⟩) ∧
    ∀ (env : Env) (fuel : Nat) (val : jsval) (s : Ser),
      (∀ obj i : Nat, env.JS_AddRoot (.idSlot obj i) = true) →
        s.SameScopedRoots (HandleScriptVal env fuel val s).2 :=
  ⟨by decide, fun env fuel val s hslot => HandleScriptVal_scoped env hslot fuel val s⟩

end CBinarySerializer

namespace CComponentManager

/-! ## The parameters handed to `Deserialize` -/

variable {C P : Type}

theorem paramNodeFor_eq (w : Sim C P) (templateManager : Option C) (ent : Nat)
    (ctname : List Nat) :
    paramNodeFor w templateManager ent ctname = templateParams w templateManager ent ctname := by
  unfold paramNodeFor templateParams
  cases templateManager with
  | none => rfl
  | some tm =>
    dsimp only
    by_cases h : ent = w.SYSTEM_ENTITY
    · simp only [h, ne_eq, not_true_eq_false, if_false, if_true]
    · simp only [h, ne_eq, not_false_eq_true, if_true, if_false]
      cases w.LoadLatestTemplate tm ent with
      | none => rfl
      | some entTemplate =>
        dsimp only
        cases w.GetChild entTemplate ctname <;> rfl

/-- C19, counterexample: in the world `Sim.templated` the stream with the record of type "P"
(entity `2`) before the record of the template manager "T" is deserialized successfully, and the
component of the non-system entity `2` is given the empty parameter set, although the template
manager of that stream has a template for entity `2` with a child named "P"; when the record of
the template manager comes first, the same component is given that child. -/
theorem DeserializeState_params_before_template_manager :
    DeserializeState Sim.templated ⟨[], []⟩ ([2, 0, 0, 0] ++ (Sim.recordP ++ Sim.recordT))
      = (.ok true, ⟨[], [(7, [(2, [])]), (9, [(1, [])])]⟩) ∧
    Sim.templated.noParam = [] ∧
    (2 : Nat) ≠ Sim.templated.SYSTEM_ENTITY ∧
    Sim.templated.LoadLatestTemplate [] 2 = some [2] ∧
    Sim.templated.GetChild [2] [80] = some [2, 80] ∧
    DeserializeState Sim.templated ⟨[], []⟩ ([2, 0, 0, 0] ++ (Sim.recordT ++ Sim.recordP))
      = (.ok true, ⟨[], [(7, [(2, [2, 80])]), (9, [(1, [])])]⟩) :=
  ⟨rfl, rfl, by decide, rfl, rfl, rfl⟩

/-- C19, amended: in the loop of `DeserializeState`, when the entity id `ent` has been read
and the component constructed, the call made is `Deserialize` of that component with the
parameter set `templateParams`: for the system entity, and for every component deserialized
before the template manager (the component of type `CID_TemplateManager` of the system entity),
no template is looked up and the empty parameter set is passed; for a non-system entity
deserialized after the template manager, the child named by the component type name of the
entity's latest template is passed, or the empty parameter set if the entity has no template or
the template has no such child.  The loop then goes on with the template manager it had, or
with this component if it is the template manager. -/
theorem DeserializeState_template_params (w : Sim C P) (ctname : List Nat) (ctid : Int)
    (n : Nat) (d : DeserState C) (ent : Nat) (rest : List Nat) (component : C)
    (table1 : ComponentTable C)
    (hent : IDeserializer.NumberU32_Unbounded d.input = (.ok ent, rest))
    (hnew : ConstructComponent w d.table ent ctid = (some component, table1)) :
    deserializeEntities w ctname ctid (n + 1) d
      = (match w.Deserialize component (templateParams w d.templateManager ent ctname) rest with
        | (.ok (), component1, rest1) =>
          deserializeEntities w ctname ctid n
            { table := tableAssign ctid ent component1 table1
              input := rest1
              templateManager :=
                if ent = w.SYSTEM_ENTITY ∧ ctid = w.CID_TemplateManager then some component1
                else d.templateManager }
        | (.throw e, component1, rest1) =>
          (.throw e, { d with table := tableAssign ctid ent component1 table1, input := rest1 })
        | (.outOfFuel, component1, rest1) =>
          (.outOfFuel,
            { d with table := tableAssign ctid ent component1 table1, input := rest1 })) ∧
    (d.templateManager = none ∨ ent = w.SYSTEM_ENTITY →
      templateParams w d.templateManager ent ctname = w.noParam) ∧
    (∀ tm : C, d.templateManager = some tm → ent ≠ w.SYSTEM_ENTITY →
      templateParams w d.templateManager ent ctname
        = match w.LoadLatestTemplate tm ent with
          | none => w.noParam
          | some entTemplate =>
            match w.GetChild entTemplate ctname with
            | none => w.noParam
            | some cmpTemplate => cmpTemplate) := by
  refine ⟨?_, ?_, ?_⟩
  · simp only [deserializeEntities, hent, hnew, paramNodeFor_eq]
  · intro h
    unfold templateParams
    rcases h with h | h
    · rw [h]
    · cases d.templateManager with
      | none => rfl
      | some tm => simp only [h, if_true]
  · intro tm htm hne
    unfold templateParams
    rw [htm]
    simp only [hne, if_false]
    cases w.LoadLatestTemplate tm ent with
    | none => rfl
    | some entTemplate =>
      dsimp only
      cases w.GetChild entTemplate ctname <;> rfl

/-- Witness of `DeserializeState_template_params`: with the template manager already
deserialized, the component of type "P" of entity `2` is given the child `[2, 80]` of the
template of entity `2`. -/
theorem DeserializeState_template_params_witness :
    (IDeserializer.NumberU32_Unbounded
        (⟨[(9, [(1, [])])], [2, 0, 0, 0], some []⟩ : DeserState (List Nat)).input
        = (.ok 2, []) ∧
      ConstructComponent Sim.templated
          (⟨[(9, [(1, [])])], [2, 0, 0, 0], some []⟩ : DeserState (List Nat)).table 2 7
        = (some [], [(7, [(2, [])]), (9, [(1, [])])])) ∧
    templateParams Sim.templated (some []) 2 [80] = [2, 80] ∧
    (deserializeEntities Sim.templated [80] 7 (0 + 1)
        ⟨[(9, [(1, [])])], [2, 0, 0, 0], some []⟩).2.table
      = [(7, [(2, [2, 80])]), (9, [(1, [])])] :=
  ⟨⟨by decide, by decide⟩, by decide,
    (congrArg (fun r => r.2.table)
      (DeserializeState_template_params Sim.templated [80] 7 0
        ⟨[(9, [(1, [])])], [2, 0, 0, 0], some []⟩ 2 [] [] [(7, [(2, [])]), (9, [(1, [])])]
        (by decide) (by decide)).1).trans (by decide)⟩

/-! ## The inversion of the component table -/

theorem StdMap.find_assign (k k0 : Int) (v : C) (m : List (Int × C)) :
    StdMap.find k (StdMap.assign k0 v m) = if k = k0 then some v else StdMap.find k m := by
  induction m with
  | nil =>
    simp only [StdMap.assign, StdMap.find]
  | cons p rest ih =>
    obtain ⟨k1, v1⟩ := p
    simp only [StdMap.assign]
    by_cases h1 : k0 < k1
    · simp only [h1, if_true, StdMap.find]
    · simp only [h1, if_false]
      by_cases h2 : k0 = k1
      · subst h2
        simp only [if_true, StdMap.find]
        by_cases h3 : k = k0
        · simp only [h3, if_true]
        · simp only [h3, if_false]
      · simp only [h2, if_false, StdMap.find, ih]
        by_cases h3 : k = k1
        · have h4 : ¬ k = k0 := fun h => h2 (h.symm.trans h3)
          simp only [h3, if_true]
          rw [if_neg (fun h => h2 h.symm)]
        · simp only [h3, if_false]

theorem StdMap.mem_assign (k : Int) (v : C) (m : List (Int × C)) (p : Int × C)
    (h : p ∈ StdMap.assign k v m) : p.1 = k ∨ p ∈ m := by
  induction m with
  | nil =>
    simp only [StdMap.assign, List.mem_singleton] at h
    exact Or.inl (by rw [h])
  | cons p0 rest ih =>
    obtain ⟨k1, v1⟩ := p0
    simp only [StdMap.assign] at h
    split at h
    · rcases List.mem_cons.mp h with h1 | h1
      · exact Or.inl (by rw [h1])
      · exact Or.inr h1
    · split at h
      · rename_i hk
        rcases List.mem_cons.mp h with h1 | h1
        · exact Or.inl (by rw [h1, hk])
        · exact Or.inr (List.mem_cons_of_mem _ h1)
      · rcases List.mem_cons.mp h with h1 | h1
        · exact Or.inr (h1 ▸ List.mem_cons_self _ _)
        · rcases ih h1 with h2 | h2
          · exact Or.inl h2
          · exact Or.inr (List.mem_cons_of_mem _ h2)

theorem StdMap.assign_ne_nil (k : Int) (v : C) (m : List (Int × C)) :
    StdMap.assign k v m ≠ [] := by
  cases m with
  | nil => simp [StdMap.assign]
  | cons p rest =>
    obtain ⟨k1, v1⟩ := p
    simp only [StdMap.assign]
    split
    · simp
    · split <;> simp

theorem StdMap.assign_ordered (k : Int) (v : C) (m : List (Int × C))
    (h : StdMap.Ordered m) : StdMap.Ordered (StdMap.assign k v m) := by
  induction m with
  | nil =>
    simp [StdMap.assign, StdMap.Ordered]
  | cons p rest ih =>
    obtain ⟨k1, v1⟩ := p
    unfold StdMap.Ordered at h ih ⊢
    rw [List.map_cons, List.pairwise_cons] at h
    obtain ⟨hhead, htail⟩ := h
    simp only [StdMap.assign]
    split
    · rename_i hlt
      rw [List.map_cons, List.pairwise_cons]
      refine ⟨?_, ?_⟩
      · intro b hb
        rw [List.map_cons] at hb
        rcases List.mem_cons.mp hb with h1 | h1
        · rw [h1]
          exact hlt
        · exact lt_trans hlt (hhead b h1)
      · rw [List.map_cons, List.pairwise_cons]
        exact ⟨hhead, htail⟩
    · split
      · rw [List.map_cons, List.pairwise_cons]
        exact ⟨hhead, htail⟩
      · rename_i hnlt hne
        rw [List.map_cons, List.pairwise_cons]
        refine ⟨?_, ih htail⟩
        intro b hb
        obtain ⟨q, hq, rfl⟩ := List.exists_of_mem_map hb
        rcases StdMap.mem_assign k v rest q hq with h1 | h1
        · rw [h1]
          omega
        · exact hhead q.1 (List.mem_map_of_mem _ h1)

theorem mem_invertAssign (ent : Nat) (cid : Int) (c : C) (components : EntityTable C)
    (p : Nat × List (Int × C)) (h : p ∈ invertAssign ent cid c components) :
    (p.1 = ent ∧ (p.2 = StdMap.assign cid c [] ∨
      ∃ m0, (ent, m0) ∈ components ∧ p.2 = StdMap.assign cid c m0)) ∨ p ∈ components := by
  induction components with
  | nil =>
    simp only [invertAssign, List.mem_singleton] at h
    exact Or.inl ⟨by rw [h], Or.inl (by rw [h])⟩
  | cons p0 rest ih =>
    obtain ⟨e1, m1⟩ := p0
    simp only [invertAssign] at h
    split at h
    · rcases List.mem_cons.mp h with h1 | h1
      · exact Or.inl ⟨by rw [h1], Or.inl (by rw [h1])⟩
      · exact Or.inr h1
    · split at h
      · rename_i hk
        rcases List.mem_cons.mp h with h1 | h1
        · refine Or.inl ⟨by rw [h1, hk], Or.inr ⟨m1, ?_, by rw [h1]⟩⟩
          rw [hk]
          exact List.mem_cons_self _ _
        · exact Or.inr (List.mem_cons_of_mem _ h1)
      · rcases List.mem_cons.mp h with h1 | h1
        · exact Or.inr (h1 ▸ List.mem_cons_self _ _)
        · rcases ih h1 with ⟨h2, h3⟩ | h2
          · refine Or.inl ⟨h2, ?_⟩
            rcases h3 with h3 | ⟨m0, hm0, h3⟩
            · exact Or.inl h3
            · exact Or.inr ⟨m0, List.mem_cons_of_mem _ hm0, h3⟩
          · exact Or.inr (List.mem_cons_of_mem _ h2)

theorem invertAssign_ordered (ent : Nat) (cid : Int) (c : C) (components : EntityTable C)
    (hord : StdMap.Ordered components) :
    StdMap.Ordered (invertAssign ent cid c components) := by
  induction components with
  | nil => simp [invertAssign, StdMap.Ordered]
  | cons p rest ih =>
    obtain ⟨e1, m1⟩ := p
    unfold StdMap.Ordered at hord ih ⊢
    rw [List.map_cons, List.pairwise_cons] at hord
    obtain ⟨hhead, htail⟩ := hord
    simp only [invertAssign]
    split
    · rename_i hlt
      rw [List.map_cons, List.pairwise_cons]
      refine ⟨?_, ?_⟩
      · intro b hb
        rw [List.map_cons] at hb
        rcases List.mem_cons.mp hb with h1 | h1
        · rw [h1]
          exact hlt
        · exact lt_trans hlt (hhead b h1)
      · rw [List.map_cons, List.pairwise_cons]
        exact ⟨hhead, htail⟩
    · split
      · rw [List.map_cons, List.pairwise_cons]
        exact ⟨hhead, htail⟩
      · rename_i hnlt hne
        rw [List.map_cons, List.pairwise_cons]
        refine ⟨?_, ih htail⟩
        intro b hb
        obtain ⟨q, hq, rfl⟩ := List.exists_of_mem_map hb
        rcases mem_invertAssign ent cid c rest q hq with ⟨h1, _⟩ | h1
        · rw [h1]
          omega
        · exact hhead q.1 (List.mem_map_of_mem _ h1)

theorem invertAssign_wf (ent : Nat) (cid : Int) (c : C) (components : EntityTable C)
    (h : EntityTable.WF components) : EntityTable.WF (invertAssign ent cid c components) := by
  refine ⟨invertAssign_ordered ent cid c components h.1, ?_⟩
  intro p hp
  rcases mem_invertAssign ent cid c components p hp with ⟨_, h1 | ⟨m0, hm0, h1⟩⟩ | h1
  · rw [h1]
    exact ⟨StdMap.assign_ne_nil cid c [],
      StdMap.assign_ordered cid c [] (by simp [StdMap.Ordered])⟩
  · rw [h1]
    exact ⟨StdMap.assign_ne_nil cid c m0, StdMap.assign_ordered cid c m0 (h.2 _ hm0).2⟩
  · exact h.2 p h1

theorem entityFind_invertAssign (ent0 : Nat) (cid0 : Int) (c : C) (components : EntityTable C)
    (h : StdMap.Ordered components) (ent : Nat) (cid : Int) :
    entityFind ent cid (invertAssign ent0 cid0 c components)
      = if ent = ent0 ∧ cid = cid0 then some c else entityFind ent cid components := by
  induction components with
  | nil =>
    simp only [invertAssign, entityFind, StdMap.find]
    by_cases h1 : ent = ent0
    · simp only [h1, if_true, true_and, StdMap.find_assign, StdMap.find]
    · simp only [h1, if_false, false_and]
  | cons p rest ih =>
    obtain ⟨e1, m1⟩ := p
    unfold StdMap.Ordered at h ih
    rw [List.map_cons, List.pairwise_cons] at h
    obtain ⟨hhead, htail⟩ := h
    simp only [invertAssign]
    by_cases hlt : ent0 < e1
    · simp only [hlt, if_true, entityFind, StdMap.find]
      by_cases h1 : ent = ent0
      · have hne : ¬ ent0 = e1 := by omega
        have hnone : StdMap.find ent0 rest = none := by
          apply CComponentManager.StdMap.find_none_of_ne
          intro q hq hq0
          have := hhead q.1 (List.mem_map_of_mem _ hq)
          omega
        simp only [h1, if_true, true_and, StdMap.find_assign, StdMap.find, hne, if_false, hnone]
      · simp only [h1, if_false, false_and]
    · simp only [hlt, if_false]
      by_cases heq : ent0 = e1
      · subst heq
        simp only [if_true, entityFind, StdMap.find]
        by_cases h1 : ent = ent0
        · simp only [h1, if_true, true_and, StdMap.find_assign]
        · simp only [h1, if_false, false_and]
      · simp only [heq, if_false, entityFind, StdMap.find]
        by_cases h1 : ent = e1
        · have h2 : ¬ ent = ent0 := fun h => heq (h.symm.trans h1)
          simp only [h1, if_true]
          rw [if_neg (fun h => heq h.1.symm)]
        · simp only [h1, if_false]
          have := ih htail
          simp only [entityFind] at this
          exact this

theorem invertEntities_wf (cid : Int) (ents : List (Nat × C)) :
    ∀ components : EntityTable C, EntityTable.WF components →
      EntityTable.WF (invertEntities cid ents components) := by
  induction ents with
  | nil => exact fun _ h => h
  | cons q rest ih =>
    obtain ⟨ent, c⟩ := q
    intro components h
    exact ih _ (invertAssign_wf ent cid c components h)

theorem invertTypes_wf (t : ComponentTable C) :
    ∀ components : EntityTable C, EntityTable.WF components →
      EntityTable.WF (invertTypes t components) := by
  induction t with
  | nil => exact fun _ h => h
  | cons p rest ih =>
    obtain ⟨cid, ents⟩ := p
    intro components h
    exact ih _ (invertEntities_wf cid ents components h)

theorem StdMap.find_none_of_ordered_cons {K V : Type} [DecidableEq K] [Preorder K] (k : K)
    (v : V) (rest : List (K × V))
    (h : (List.map Prod.fst ((k, v) :: rest)).Pairwise (fun a b => a < b)) :
    StdMap.find k rest = none := by
  apply CComponentManager.StdMap.find_none_of_ne
  intro q hq hq0
  rw [List.map_cons, List.pairwise_cons] at h
  have := h.1 q.1 (List.mem_map_of_mem _ hq)
  rw [hq0] at this
  exact lt_irrefl _ this

theorem entityFind_invertEntities (cid0 : Int) (ents : List (Nat × C))
    (hord : StdMap.Ordered ents) :
    ∀ components : EntityTable C, EntityTable.WF components → ∀ (ent : Nat) (cid : Int),
      entityFind ent cid (invertEntities cid0 ents components)
        = if cid = cid0 then
            (match StdMap.find ent ents with
              | some c => some c
              | none => entityFind ent cid components)
          else entityFind ent cid components := by
  induction ents with
  | nil =>
    intro components _ ent cid
    simp only [invertEntities, StdMap.find]
    split <;> rfl
  | cons q rest ih =>
    obtain ⟨ent0, c0⟩ := q
    intro components h ent cid
    have hnone : StdMap.find ent0 rest = none :=
      StdMap.find_none_of_ordered_cons ent0 c0 rest hord
    have hrest : StdMap.Ordered rest := by
      unfold StdMap.Ordered at hord ⊢
      rw [List.map_cons, List.pairwise_cons] at hord
      exact hord.2
    simp only [invertEntities]
    rw [ih hrest _ (invertAssign_wf ent0 cid0 c0 components h) ent cid,
      entityFind_invertAssign ent0 cid0 c0 components h.1 ent cid]
    by_cases h1 : cid = cid0
    · simp only [h1, if_true, and_true, StdMap.find]
      by_cases h2 : ent = ent0
      · simp only [h2, if_true, hnone]
      · simp only [h2, if_false]
    · simp only [h1, if_false, and_false]

theorem entityFind_invertTypes (t : ComponentTable C) (hord : StdMap.Ordered t)
    (hin : ∀ p ∈ t, StdMap.Ordered p.2) :
    ∀ components : EntityTable C, EntityTable.WF components → ∀ (ent : Nat) (cid : Int),
      entityFind ent cid (invertTypes t components)
        = match tableFind cid ent t with
          | some c => some c
          | none => entityFind ent cid components := by
  induction t with
  | nil =>
    intro components _ ent cid
    rfl
  | cons p rest ih =>
    obtain ⟨cid0, ents⟩ := p
    intro components h ent cid
    have hnone : StdMap.find cid0 rest = none :=
      StdMap.find_none_of_ordered_cons cid0 ents rest hord
    have hrest : StdMap.Ordered rest := by
      unfold StdMap.Ordered at hord ⊢
      rw [List.map_cons, List.pairwise_cons] at hord
      exact hord.2
    simp only [invertTypes]
    rw [ih hrest (fun p hp => hin p (List.mem_cons_of_mem _ hp)) _
        (invertEntities_wf cid0 ents components h) ent cid,
      entityFind_invertEntities cid0 ents (hin _ (List.mem_cons_self _ _)) components h ent cid]
    by_cases h1 : cid = cid0
    · subst h1
      simp only [tableFind, StdMap.find, hnone, if_true]
    · simp only [tableFind, StdMap.find, h1, if_false]

theorem StdMap.find_of_mem {K V : Type} [DecidableEq K] [Preorder K] (m : List (K × V))
    (h : (List.map Prod.fst m).Pairwise (fun a b => a < b)) (p : K × V) (hp : p ∈ m) :
    StdMap.find p.1 m = some p.2 := by
  induction m with
  | nil => exact absurd hp (List.not_mem_nil _)
  | cons q rest ih =>
    obtain ⟨k1, v1⟩ := q
    rw [List.map_cons, List.pairwise_cons] at h
    rcases List.mem_cons.mp hp with h1 | h1
    · rw [h1]
      simp only [StdMap.find, if_true]
    · have hlt := h.1 p.1 (List.mem_map_of_mem _ h1)
      have hne : ¬ p.1 = k1 := fun h2 => by
        rw [h2] at hlt
        exact lt_irrefl _ hlt
      simp only [StdMap.find, hne, if_false]
      exact ih h.2 h1

theorem StdMap.mem_of_find_eq {K V : Type} [DecidableEq K] (k : K) (v : V) (m : List (K × V))
    (h : StdMap.find k m = some v) : (k, v) ∈ m := by
  induction m with
  | nil => cases h
  | cons p rest ih =>
    obtain ⟨k1, v1⟩ := p
    simp only [StdMap.find] at h
    split at h
    · rename_i hk
      cases h
      rw [hk]
      exact List.mem_cons_self _ _
    · exact List.mem_cons_of_mem _ (ih h)

/-- Every component of the inverted map is a component of the table. -/
theorem mem_table_of_mem_invertTypes (t : ComponentTable C) (hwf : ComponentTable.WF t)
    (e : Nat × List (Int × C)) (he : e ∈ invertTypes t []) (p : Int × C) (hp : p ∈ e.2) :
    ∃ g ∈ t, ∃ q ∈ g.2, q.2 = p.2 := by
  have hnil : EntityTable.WF ([] : EntityTable C) :=
    ⟨by simp [StdMap.Ordered], fun _ h => absurd h (List.not_mem_nil _)⟩
  have hI : EntityTable.WF (invertTypes t ([] : EntityTable C)) := invertTypes_wf t [] hnil
  have h1 : entityFind e.1 p.1 (invertTypes t []) = some p.2 := by
    unfold entityFind
    rw [StdMap.find_of_mem _ hI.1 e he]
    exact StdMap.find_of_mem _ (hI.2 e he).2 p hp
  rw [entityFind_invertTypes t hwf.1 (fun g hg => (hwf.2 g hg).2.1) [] hnil e.1 p.1] at h1
  cases hf : tableFind p.1 e.1 t with
  | none =>
    rw [hf] at h1
    cases h1
  | some c =>
    rw [hf] at h1
    cases h1
    unfold tableFind at hf
    cases hg : StdMap.find p.1 t with
    | none =>
      rw [hg] at hf
      cases hf
    | some ents =>
      rw [hg] at hf
      exact ⟨(p.1, ents), StdMap.mem_of_find_eq _ _ _ hg, (e.1, p.2),
        StdMap.mem_of_find_eq _ _ _ hf, rfl⟩

/-! ## The calls `DumpDebugState` makes on the debug sink -/

theorem dumpComponents_ok (debugSerialize : C → Option PSERROR) (m : CComponentManager C)
    (comps : List (Int × C)) (hsink : ∀ p ∈ comps, debugSerialize p.2 = none) :
    ∀ stream : List (DebugCall C),
      dumpComponents debugSerialize m comps stream
        = (.ok (), stream ++ comps.flatMap fun p =>
            [.TextLine ("  " ++ textOf (LookupComponentTypeName m p.1) ++ ":"), .Indent 4,
              .Serialize p.2, .Dedent 4]) := by
  induction comps with
  | nil =>
    intro stream
    simp [dumpComponents]
  | cons p rest ih =>
    obtain ⟨cid, c⟩ := p
    intro stream
    have hc : debugSerialize c = none := hsink (cid, c) (List.mem_cons_self _ _)
    simp only [dumpComponents, hc]
    rw [ih (fun p hp => hsink p (List.mem_cons_of_mem _ hp))]
    simp only [List.flatMap_cons, List.append_assoc, List.cons_append, List.nil_append]

theorem dumpEntities_ok (debugSerialize : C → Option PSERROR) (m : CComponentManager C)
    (components : EntityTable C)
    (hsink : ∀ e ∈ components, ∀ p ∈ e.2, debugSerialize p.2 = none) :
    ∀ stream : List (DebugCall C),
      dumpEntities debugSerialize m components stream
        = (.ok (), stream ++ debugRecord m components) := by
  induction components with
  | nil =>
    intro stream
    simp [dumpEntities, debugRecord]
  | cons e rest ih =>
    obtain ⟨ent, comps⟩ := e
    intro stream
    simp only [dumpEntities]
    rw [dumpComponents_ok debugSerialize m comps (hsink (ent, comps) (List.mem_cons_self _ _))]
    dsimp only
    rw [ih (fun e he => hsink e (List.mem_cons_of_mem _ he))]
    simp only [debugRecord, List.flatMap_cons, List.append_assoc, List.cons_append,
      List.nil_append]

/-- C20: `DumpDebugState` groups by entity by exactly transposing the type-major table.  For
every well-formed table whose components dump without raising, the inverted map holds
component `c` at (entity `e`, type `t`) if and only if the table holds `c` at (type `t`, entity
`e`); it is a map in ascending entity id of non-empty maps in ascending `ComponentTypeId`, so it
has an entry exactly for the entities with at least one component; and `DumpDebugState` returns
`true` after these calls on the sink: for each entity of the inverted map in order the line
"- id: <e>", then for each of its components in order the line with the type name, `Indent(4)`,
the component's own dump, once, and `Dedent(4)`, and an empty line after the last component. -/
theorem DumpDebugState_transposes (debugSerialize : C → Option PSERROR)
    (m : CComponentManager C) (stream : List (DebugCall C))
    (hwf : ComponentTable.WF m.m_ComponentsByTypeId)
    (hsink : ∀ p ∈ m.m_ComponentsByTypeId, ∀ q ∈ p.2, debugSerialize q.2 = none) :
    (∀ (ent : Nat) (cid : Int) (c : C),
      entityFind ent cid (invertTypes m.m_ComponentsByTypeId []) = some c ↔
        tableFind cid ent m.m_ComponentsByTypeId = some c) ∧
    EntityTable.WF (invertTypes m.m_ComponentsByTypeId []) ∧
    (∀ ent : Nat, (∃ comps, (ent, comps) ∈ invertTypes m.m_ComponentsByTypeId []) ↔
      ∃ (cid : Int) (c : C), tableFind cid ent m.m_ComponentsByTypeId = some c) ∧
    DumpDebugState debugSerialize m stream
      = (.ok true, stream ++ debugRecord m (invertTypes m.m_ComponentsByTypeId [])) := by
  have hnil : EntityTable.WF ([] : EntityTable C) :=
    ⟨by simp [StdMap.Ordered], fun _ h => absurd h (List.not_mem_nil _)⟩
  have hI := invertTypes_wf m.m_ComponentsByTypeId [] hnil
  have hfind : ∀ (ent : Nat) (cid : Int),
      entityFind ent cid (invertTypes m.m_ComponentsByTypeId [])
        = tableFind cid ent m.m_ComponentsByTypeId := by
    intro ent cid
    rw [entityFind_invertTypes _ hwf.1 (fun g hg => (hwf.2 g hg).2.1) [] hnil ent cid]
    cases tableFind cid ent m.m_ComponentsByTypeId <;> rfl
  refine ⟨fun ent cid c => by rw [hfind], hI, ?_, ?_⟩
  · intro ent
    constructor
    · rintro ⟨comps, hmem⟩
      obtain ⟨hne, hord⟩ := hI.2 _ hmem
      cases comps with
      | nil => exact absurd rfl hne
      | cons p rest =>
        refine ⟨p.1, p.2, ?_⟩
        rw [← hfind]
        unfold entityFind
        rw [StdMap.find_of_mem _ hI.1 _ hmem]
        exact StdMap.find_of_mem _ hord p (List.mem_cons_self _ _)
    · rintro ⟨cid, c, hc⟩
      rw [← hfind] at hc
      unfold entityFind at hc
      cases hf : StdMap.find ent (invertTypes m.m_ComponentsByTypeId []) with
      | none =>
        rw [hf] at hc
        cases hc
      | some comps => exact ⟨comps, StdMap.mem_of_find_eq _ _ _ hf⟩
  · have hs : ∀ e ∈ invertTypes m.m_ComponentsByTypeId [], ∀ p ∈ e.2,
        debugSerialize p.2 = none := by
      intro e he p hp
      obtain ⟨g, hg, q, hq, hqp⟩ := mem_table_of_mem_invertTypes _ hwf e he p hp
      rw [← hqp]
      exact hsink g hg q hq
    unfold DumpDebugState
    simp only [dumpEntities_ok debugSerialize m _ hs]

theorem twoTypesManager_wf : ComponentTable.WF Sim.twoTypesManager.m_ComponentsByTypeId := by
  unfold ComponentTable.WF StdMap.Ordered
  decide

/-- Witness of `DumpDebugState_transposes`: entity `2` has a "Position" and a "Vision"
component, entity `5` a "Position" component; the dump lists entity `2` with its two components
in type order, then entity `5`. -/
theorem DumpDebugState_transposes_witness :
    (ComponentTable.WF Sim.twoTypesManager.m_ComponentsByTypeId ∧
      ∀ p ∈ Sim.twoTypesManager.m_ComponentsByTypeId, ∀ q ∈ p.2,
        (fun _ : List Nat => (none : Option PSERROR)) q.2 = none) ∧
    invertTypes Sim.twoTypesManager.m_ComponentsByTypeId []
      = [(2, [(7, [1]), (9, [3])]), (5, [(7, [2])])] ∧
    DumpDebugState (fun _ => none) Sim.twoTypesManager []
      = (.ok true,
        [.TextLine "- id: 2",
          .TextLine "  Position:", .Indent 4, .Serialize [1], .Dedent 4,
          .TextLine "  Vision:", .Indent 4, .Serialize [3], .Dedent 4,
          .TextLine "",
          .TextLine "- id: 5",
          .TextLine "  Position:", .Indent 4, .Serialize [2], .Dedent 4,
          .TextLine ""]) :=
  ⟨⟨twoTypesManager_wf, fun _ _ _ _ => rfl⟩, by decide,
    (DumpDebugState_transposes (fun _ => none) Sim.twoTypesManager [] twoTypesManager_wf
      (fun _ _ _ _ => rfl)).2.2.2.trans (by decide)⟩

/-- Witness of `DeserializeState_exhausts_input`: the stream `SerializeState` writes for the
"Position" scenario is read back with `true`; followed by one zero byte it is refused. -/
theorem DeserializeState_exhausts_input_witness :
    (DeserializeState Sim.blobs Sim.positionManager
      (serializedBytes Sim.blobs Sim.positionManager)).1 = .ok true ∧
    (DeserializeState Sim.blobs Sim.positionManager
      (serializedBytes Sim.blobs Sim.positionManager ++ [0])).1 = .ok false ∧
    DeserializeState Sim.blobs Sim.positionManager [0, 0, 0, 0]
      = (.ok true, { Sim.positionManager with m_ComponentsByTypeId := [] }) ∧
    DeserializeState Sim.blobs Sim.positionManager ([0, 0, 0, 0] ++ 7 :: [])
      = (.ok false, { Sim.positionManager with m_ComponentsByTypeId := [] }) :=
  ⟨((DeserializeState_exhausts_input Sim.blobs Sim.positionManager).2.2.2.2
      Sim.positionManager [0] positionManager_wf (by decide) (by decide)
      positionManager_registry positionManager_round_trips).1,
    ((DeserializeState_exhausts_input Sim.blobs Sim.positionManager).2.2.2.2
      Sim.positionManager [0] positionManager_wf (by decide) (by decide)
      positionManager_registry positionManager_round_trips).2 (by decide),
    (DeserializeState_exhausts_input Sim.blobs Sim.positionManager).2.2.1,
    (DeserializeState_exhausts_input Sim.blobs Sim.positionManager).2.2.2.1 7 []⟩

end CComponentManager

namespace CBinarySerializer

/-! ## A property defined with a getter -/

/-- The iteration of the property loop for a property that has a getter: it throws before the
name is written and before the value is read, and the root of the name is released. -/
theorem propStep_getter (env : Env) (handle : jsval → Ser → Outcome Unit × Ser)
    (obj i id : Nat) (sk : Ser) (idval : jsval) (idstr : List Nat) (attrs : Nat)
    (h1 : env.JS_IdToValue id = some idval) (h2 : env.JS_ValueToString idval = some idstr)
    (h3 : env.JS_AddRoot (.idstr obj i) = true)
    (h4 : env.JS_GetUCPropertyAttributes obj idstr = some (attrs, true))
    (h5 : attrs &&& env.JSPROP_GETTER ≠ 0) :
    propStep env handle obj i id sk = (.throw .Serialize_ScriptError, sk) := by
  simp only [propStep, h1, h2, h3, if_true, propBody, h4, h5, Bool.not_true,
    Bool.false_eq_true, if_false, ne_eq, not_false_eq_true, List.erase_cons_head]

/-- C26: when `HandleScriptVal` is called on an object that is not yet in the backref table and,
the properties before it having been encoded, reaches an enumerable property whose attributes
carry `JSPROP_GETTER`, the call ends with `PSERROR_Serialize_ScriptError` (not
`InvalidScriptValue`).  What has been written is the object's type tag, its property count and
the encodings of the earlier properties, and nothing for the property itself: its name is not
written and its value is not read (the iteration throws whatever `JS_GetUCProperty` would
return, without a recursive call).  The object stays in the backref table under its tag. -/
theorem HandleScriptVal_getter_property (env : Env) (fuel obj : Nat) (s s1 s3 sk : Ser)
    (ida pre : List Nat) (id : Nat) (post : List Nat) (idval : jsval) (idstr : List Nat)
    (attrs : Nat)
    (hT : JS_TypeOfValue env (.object obj) = .JSTYPE_OBJECT)
    (hnew : StdMap.find obj s.backrefs = none)
    (hget : GetScriptBackrefTag env obj s = (.ok 0, s1))
    (hen : env.JS_Enumerate obj = some ida)
    (hctor : IdArrayWrapper_ctor env obj 0 ida.length
      (ISerializer.NumberU8_Unbounded env (objectTag env obj) s1) = (.ok (), s3))
    (hida : ida = pre ++ id :: post)
    (hpre : propLoop env (HandleScriptVal env fuel) obj 0 pre
      (ISerializer.NumberU32_Unbounded env (toU32 ida.length) s3) = (.ok (), sk))
    (h1 : env.JS_IdToValue id = some idval) (h2 : env.JS_ValueToString idval = some idstr)
    (h3 : env.JS_AddRoot (.idstr obj pre.length) = true)
    (h4 : env.JS_GetUCPropertyAttributes obj idstr = some (attrs, true))
    (h5 : attrs &&& env.JSPROP_GETTER ≠ 0) :
    HandleScriptVal env (fuel + 1) (.object obj) s
      = (.throw .Serialize_ScriptError, IdArrayWrapper_dtor obj ida.length sk) ∧
    (∃ body, PropsEncoded env fuel obj 0 pre
        (ISerializer.NumberU32_Unbounded env (toU32 ida.length) s3) body sk ∧
      (HandleScriptVal env (fuel + 1) (.object obj) s).2.out
        = s.out ++ [toU8 (objectTag env obj)] ++ leBytes 4 ida.length ++ body) ∧
    StdMap.find obj (HandleScriptVal env (fuel + 1) (.object obj) s).2.backrefs
      = some (toU32 (toU32 s.backrefs.length + 1)) ∧
    ∀ (g : Nat → List Nat → Option jsval) (handle : jsval → Ser → Outcome Unit × Ser) (t : Ser),
      propBody { env with JS_GetUCProperty := g } handle obj idstr t
        = (.throw .Serialize_ScriptError, t) := by
  have hstep := propStep_getter env (HandleScriptVal env fuel) obj pre.length id sk idval idstr
    attrs h1 h2 h3 h4 h5
  have hloop : propLoop env (HandleScriptVal env fuel) obj 0 ida
      (ISerializer.NumberU32_Unbounded env (toU32 ida.length) s3)
      = (.throw .Serialize_ScriptError, sk) := by
    rw [hida, propLoop_append env _ obj 0 pre (id :: post) _ sk (by rw [← hida]; exact hpre)]
    simp only [Nat.zero_add, propLoop, hstep]
  have hrun : HandleScriptVal env (fuel + 1) (.object obj) s
      = (.throw .Serialize_ScriptError, IdArrayWrapper_dtor obj ida.length sk) := by
    rw [HandleScriptVal_object env fuel obj s hT, hget]
    simp only [ne_eq, not_true_eq_false, if_false, hen, hctor, hloop]
  obtain ⟨_, hsa_out, hsa_find⟩ := GetScriptBackrefTag_first env obj s hnew
  rw [hget] at hsa_out hsa_find
  simp only at hsa_out hsa_find
  have hco := IdArrayWrapper_ctor_out env obj 0 ida.length
    (ISerializer.NumberU8_Unbounded env (objectTag env obj) s1)
  rw [hctor] at hco
  obtain ⟨hco1, hco2⟩ := hco
  simp only at hco1 hco2
  have hs0_out : (ISerializer.NumberU32_Unbounded env (toU32 ida.length) s3).out
      = s.out ++ [toU8 (objectTag env obj)] ++ leBytes 4 ida.length := by
    rw [NumberU32_Unbounded_eq, Put_out, hco1, NumberU8_Unbounded_eq, Put_out, hsa_out,
      leBytes_four_toU32]
  have hs0_find : StdMap.find obj
      (ISerializer.NumberU32_Unbounded env (toU32 ida.length) s3).backrefs
      = some (toU32 (toU32 s.backrefs.length + 1)) := by
    rw [NumberU32_Unbounded_eq, Put_backrefs, hco2, NumberU8_Unbounded_eq, Put_backrefs]
    exact hsa_find
  obtain ⟨body, hbody, hout⟩ := propLoop_ok env fuel obj 0 pre _ sk hpre
  have hext := propLoop_extends env (HandleScriptVal env fuel)
    (HandleScriptVal_extends env fuel) obj 0 pre
    (ISerializer.NumberU32_Unbounded env (toU32 ida.length) s3)
  rw [hpre] at hext
  refine ⟨hrun, ⟨body, hbody, ?_⟩, ?_, ?_⟩
  · rw [hrun]
    simp only [IdArrayWrapper_dtor]
    rw [hout, hs0_out]
  · rw [hrun]
    exact hext.2 obj _ hs0_find
  · intro g handle t
    simp only [propBody, h4, h5, Bool.not_true, Bool.false_eq_true, if_false, ne_eq,
      not_false_eq_true, if_true]

/-- Witness of `HandleScriptVal_getter_property`, on `var o = { a: 1, get g() { return 2; } };`:
the call ends with `ScriptError` after the tag of `o`, the property count and the property `a`
have been written; the name `g` is not written and `o` keeps tag `1`. -/
theorem HandleScriptVal_getter_property_witness :
    (JS_TypeOfValue Env.objectWithGetter (.object 0) = .JSTYPE_OBJECT ∧
      StdMap.find 0 Ser.fresh.backrefs = none ∧
      GetScriptBackrefTag Env.objectWithGetter 0 Ser.fresh
        = (.ok 0, ⟨[], [(0, 1)], [.backref 0]⟩) ∧
      Env.objectWithGetter.JS_Enumerate 0 = some [0, 1] ∧
      Env.objectWithGetter.JS_IdToValue 1 = some (.string [103]) ∧
      Env.objectWithGetter.JS_GetUCPropertyAttributes 0 [103] = some (17, true) ∧
      17 &&& Env.objectWithGetter.JSPROP_GETTER ≠ 0) ∧
    HandleScriptVal Env.objectWithGetter 2 (.object 0) Ser.fresh
      = (.throw .Serialize_ScriptError,
        ⟨[3, 2, 0, 0, 0, 1, 0, 0, 0, 97, 5, 1, 0, 0, 0], [(0, 1)], [.backref 0]⟩) :=
  ⟨⟨by decide, rfl, by decide, by decide, by decide, by decide, by decide⟩,
    (HandleScriptVal_getter_property Env.objectWithGetter 1 0 Ser.fresh
      ⟨[], [(0, 1)], [.backref 0]⟩ ⟨[3], [(0, 1)], [.idSlot 0 1, .idSlot 0 0, .backref 0]⟩
      ⟨[3, 2, 0, 0, 0, 1, 0, 0, 0, 97, 5, 1, 0, 0, 0], [(0, 1)],
        [.idSlot 0 1, .idSlot 0 0, .backref 0]⟩
      [0, 1] [0] 1 [] (.string [103]) [103] 17
      (by decide) rfl (by decide) (by decide) (by decide) rfl (by decide) (by decide)
      (by decide) (by decide) (by decide) (by decide)).1.trans (by decide)⟩

/-! ## The backref table after a sequence of sightings -/

theorem StdMap.length_insert {V : Type} (k : Nat) (v : V) (m : List (Nat × V))
    (h : StdMap.find k m = none) : (StdMap.insert k v m).length = m.length + 1 := by
  induction m with
  | nil => rfl
  | cons p rest ih =>
    obtain ⟨k1, v1⟩ := p
    simp only [StdMap.find] at h
    split at h
    · cases h
    · rename_i hne
      simp only [StdMap.insert, hne, if_false]
      split
      · rfl
      · simp only [List.length_cons, ih h]

theorem addSighting_length_le (seen : List Nat) (obj : Nat) :
    seen.length ≤ (addSighting seen obj).length := by
  unfold addSighting
  split
  · exact Nat.le_refl _
  · simp

theorem foldl_addSighting_length_le (objs : List Nat) :
    ∀ seen : List Nat, seen.length ≤ (objs.foldl addSighting seen).length := by
  induction objs with
  | nil => exact fun _ => Nat.le_refl _
  | cons obj rest ih =>
    intro seen
    exact Nat.le_trans (addSighting_length_le seen obj) (ih _)

theorem mem_foldl_addSighting (objs : List Nat) :
    ∀ (seen : List Nat) (x : Nat),
      x ∈ objs.foldl addSighting seen ↔ x ∈ seen ∨ x ∈ objs := by
  induction objs with
  | nil => simp
  | cons obj rest ih =>
    intro seen x
    rw [List.foldl_cons, ih]
    unfold addSighting
    split
    · rename_i hmem
      constructor
      · rintro (h | h)
        · exact Or.inl h
        · exact Or.inr (List.mem_cons_of_mem _ h)
      · rintro (h | h)
        · exact Or.inl h
        · rcases List.mem_cons.mp h with h1 | h1
          · exact Or.inl (h1 ▸ hmem)
          · exact Or.inr h1
    · simp only [List.mem_append, List.mem_singleton, List.mem_cons]
      tauto

/-- One call of `GetScriptBackrefTag` keeps the table tagged in the order of sighting. -/
theorem GetScriptBackrefTag_tagged (env : Env) (obj : Nat) (seen : List Nat) (s : Ser)
    (h : s.TaggedInOrder seen) (hn : seen.length < 2 ^ 32 - 1) :
    (GetScriptBackrefTag env obj s).2.TaggedInOrder (addSighting seen obj) := by
  obtain ⟨hnodup, hlen, hfind⟩ := h
  by_cases hmem : obj ∈ seen
  · have hf := hfind obj
    simp only [hmem, if_true] at hf
    simp only [GetScriptBackrefTag, hf, addSighting, hmem, if_true]
    exact ⟨hnodup, hlen, hfind⟩
  · have hf := hfind obj
    simp only [hmem, if_false] at hf
    have htag : toU32 (toU32 s.backrefs.length + 1) = seen.length + 1 := by
      rw [hlen]
      unfold toU32
      omega
    have hback : (GetScriptBackrefTag env obj s).2.backrefs
        = StdMap.insert obj (seen.length + 1) s.backrefs := by
      simp only [GetScriptBackrefTag, hf, htag]
      split <;> rfl
    simp only [addSighting, hmem, if_false]
    refine ⟨?_, ?_, ?_⟩
    · rw [List.nodup_append]
      refine ⟨hnodup, List.nodup_singleton _, ?_⟩
      intro a ha hb
      rw [List.mem_singleton] at hb
      exact hmem (hb ▸ ha)
    · rw [hback, StdMap.length_insert obj _ _ hf, hlen, List.length_append]
      rfl
    · intro k
      rw [hback]
      by_cases hk : k = obj
      · subst hk
        rw [StdMap.find_insert_self k _ _ hf]
        simp only [List.mem_append, List.mem_singleton, or_true, if_true,
          List.indexOf_append_of_not_mem hmem, List.indexOf_cons_self, Nat.add_zero]
      · rw [StdMap.find_insert_of_ne k obj _ _ hk, hfind k]
        by_cases hks : k ∈ seen
        · simp only [hks, if_true, List.mem_append, true_or, List.indexOf_append_of_mem hks]
        · simp only [hks, if_false, List.mem_append, List.mem_singleton, hk, or_self]

theorem presentObjects_tagged (env : Env) (objs : List Nat) :
    ∀ (seen : List Nat) (s : Ser), s.TaggedInOrder seen →
      (objs.foldl addSighting seen).length < 2 ^ 32 - 1 →
      (presentObjects env objs s).TaggedInOrder (objs.foldl addSighting seen) := by
  induction objs with
  | nil => exact fun _ _ h _ => h
  | cons obj rest ih =>
    intro seen s h hn
    have h1 : seen.length < 2 ^ 32 - 1 :=
      Nat.lt_of_le_of_lt (foldl_addSighting_length_le (obj :: rest) seen) hn
    exact ih _ _ (GetScriptBackrefTag_tagged env obj seen s h h1) hn

/-- What `GetScriptBackrefTag` returns on a table that is tagged in the order of sighting. -/
theorem GetScriptBackrefTag_returns (env : Env) (obj : Nat) (seen : List Nat) (s : Ser)
    (h : s.TaggedInOrder seen) :
    (obj ∈ seen →
      GetScriptBackrefTag env obj s = (.ok (seen.indexOf obj + 1), s)) ∧
    (obj ∉ seen →
      (GetScriptBackrefTag env obj s).1
        = if env.JS_AddRoot (.backref obj) then .ok 0 else .throw .Serialize_ScriptError) := by
  have hf := h.2.2 obj
  constructor
  · intro hmem
    simp only [hmem, if_true] at hf
    simp only [GetScriptBackrefTag, hf]
  · intro hmem
    simp only [hmem, if_false] at hf
    exact (GetScriptBackrefTag_first env obj s hf).1

theorem fresh_tagged : Ser.fresh.TaggedInOrder [] :=
  ⟨List.nodup_nil, rfl, fun _ => rfl⟩

/-- C22: after any sequence of `GetScriptBackrefTag` calls on a freshly constructed serializer
in which `n < 2^32 - 1` distinct objects have been presented, the table has `n` entries, one for
each object presented and for no other, and the `i`-th distinct object in first-sighting order
has tag `i` (counted from one), so the objects are mapped bijectively onto the tags `1..n`.  On
this table `GetScriptBackrefTag` returns, for an object in the table, its tag, which is not
zero, and leaves the state unchanged; for an object not in the table it returns `0` (or throws
because `JS_AddRoot` failed); so it returns `0` only for an object that was not yet in the
table. -/
theorem GetScriptBackrefTag_table_invariant (env : Env) (objs : List Nat)
    (hn : (firstSightings objs).length < 2 ^ 32 - 1) :
    (firstSightings objs).Nodup ∧
    (∀ obj : Nat, obj ∈ firstSightings objs ↔ obj ∈ objs) ∧
    (presentObjects env objs Ser.fresh).backrefs.length = (firstSightings objs).length ∧
    (∀ (i : Nat) (h : i < (firstSightings objs).length),
      StdMap.find ((firstSightings objs).get ⟨i, h⟩)
        (presentObjects env objs Ser.fresh).backrefs = some (i + 1)) ∧
    (∀ obj tag : Nat,
      StdMap.find obj (presentObjects env objs Ser.fresh).backrefs = some tag →
        obj ∈ objs ∧ tag = (firstSightings objs).indexOf obj + 1 ∧
        1 ≤ tag ∧ tag ≤ (firstSightings objs).length ∧
        GetScriptBackrefTag env obj (presentObjects env objs Ser.fresh)
          = (.ok tag, presentObjects env objs Ser.fresh)) ∧
    (∀ obj : Nat, obj ∉ objs →
      StdMap.find obj (presentObjects env objs Ser.fresh).backrefs = none ∧
      (GetScriptBackrefTag env obj (presentObjects env objs Ser.fresh)).1
        = if env.JS_AddRoot (.backref obj) then .ok 0 else .throw .Serialize_ScriptError) ∧
    (∀ obj : Nat,
      (GetScriptBackrefTag env obj (presentObjects env objs Ser.fresh)).1 = .ok 0 →
        obj ∉ objs) := by
  have hinv1 : (presentObjects env objs Ser.fresh).TaggedInOrder (firstSightings objs) :=
    presentObjects_tagged env objs [] Ser.fresh fresh_tagged hn
  have hmem : ∀ obj : Nat, obj ∈ firstSightings objs ↔ obj ∈ objs := by
    intro obj
    unfold firstSightings
    rw [mem_foldl_addSighting]
    simp
  obtain ⟨hnodup, hlen, hfind⟩ := id hinv1
  refine ⟨hnodup, hmem, hlen, ?_, ?_, ?_, ?_⟩
  · intro i h
    have hm : (firstSightings objs).get ⟨i, h⟩ ∈ firstSightings objs := List.get_mem _ _ _
    have hidx := List.indexOf_getElem hnodup i h
    rw [hfind, if_pos hm, List.get_eq_getElem, hidx]
  · intro obj tag hf
    rw [hfind] at hf
    by_cases hm : obj ∈ firstSightings objs
    · rw [if_pos hm] at hf
      have hf := Option.some.inj hf
      have hlt := List.indexOf_lt_length.mpr hm
      refine ⟨(hmem obj).mp hm, hf.symm, by omega, by omega, ?_⟩
      rw [← hf]
      exact (GetScriptBackrefTag_returns env obj _ _ hinv1).1 hm
    · rw [if_neg hm] at hf
      cases hf
  · intro obj hobj
    have hm : obj ∉ firstSightings objs := fun h => hobj ((hmem obj).mp h)
    refine ⟨?_, (GetScriptBackrefTag_returns env obj _ _ hinv1).2 hm⟩
    rw [hfind, if_neg hm]
  · intro obj hret hobj
    have hm : obj ∈ firstSightings objs := (hmem obj).mpr hobj
    rw [(GetScriptBackrefTag_returns env obj _ _ hinv1).1 hm] at hret
    simp at hret

/-- Witness of `GetScriptBackrefTag_table_invariant`: the objects at the addresses `5, 3, 5, 9,
3` are presented; the table, kept in address order, gives `5` the tag `1`, `3` the tag `2` and
`9` the tag `3`. -/
theorem GetScriptBackrefTag_table_invariant_witness :
    (firstSightings [5, 3, 5, 9, 3]).length < 2 ^ 32 - 1 ∧
    firstSightings [5, 3, 5, 9, 3] = [5, 3, 9] ∧
    (presentObjects Env.littleEndian [5, 3, 5, 9, 3] Ser.fresh).backrefs
      = [(3, 2), (5, 1), (9, 3)] ∧
    (presentObjects Env.littleEndian [5, 3, 5, 9, 3] Ser.fresh).backrefs.length
      = (firstSightings [5, 3, 5, 9, 3]).length :=
  ⟨by decide, by decide, by decide,
    (GetScriptBackrefTag_table_invariant Env.littleEndian [5, 3, 5, 9, 3] (by decide)).2.2.1⟩

/-! ## Termination of the traversal on cyclic value graphs -/

/-- C23, counterexample: the object `o` of `var o = {}; o.self = o;` directly contains itself,
and `HandleScriptVal` returns on it, at recursion depth two: `o` is entered in the backref
table before its properties are traversed, so the value of `o.self` is written as
`{BackRef, 1}`. -/
theorem HandleScriptVal_self_reference_returns :
    Env.selfReference.JS_GetUCProperty 0 [115, 101, 108, 102] = some (.object 0) ∧
    HandleScriptVal Env.selfReference 2 (.object 0) Ser.fresh
      = (.ok (), ⟨[3, 1, 0, 0, 0, 4, 0, 0, 0, 115, 101, 108, 102, 8, 1, 0, 0, 0],
          [(0, 1)], [.backref 0]⟩) := by
  decide

theorem unseen_of_backrefs (objects : List Nat) (s t : Ser) (h : t.backrefs = s.backrefs) :
    t.unseen objects = s.unseen objects := by
  unfold Ser.unseen
  rw [h]

theorem tagsUsable_of_backrefs (objects : List Nat) (s t : Ser) (h : t.backrefs = s.backrefs)
    (hs : s.TagsUsable objects) : t.TagsUsable objects := by
  unfold Ser.TagsUsable
  rw [unseen_of_backrefs objects s t h, h]
  exact hs

theorem settles_of_backrefs (objects : List Nat) (s t : Ser) (o : Outcome Unit)
    (h : t.backrefs = s.backrefs) (hs : s.TagsUsable objects) (ho : o ≠ .outOfFuel) :
    s.Settles objects (o, t) :=
  ⟨ho, tagsUsable_of_backrefs objects s t h hs,
    le_of_eq (congrArg List.length (unseen_of_backrefs objects s t h))⟩

theorem settles_trans (objects : List Nat) (s t : Ser) (r : Outcome Unit × Ser)
    (h1 : (t.unseen objects).length ≤ (s.unseen objects).length)
    (h2 : t.Settles objects r) : s.Settles objects r :=
  ⟨h2.1, h2.2.1, le_trans h2.2.2 h1⟩

theorem settles_with_roots (objects : List Nat) (s : Ser) (r : Outcome Unit × Ser)
    (roots : List Root) (h : s.Settles objects r) :
    s.Settles objects (r.1, { r.2 with roots := roots }) :=
  ⟨h.1, tagsUsable_of_backrefs objects r.2 _ rfl h.2.1, h.2.2⟩

theorem ScriptString_backrefs (env : Env) (string : List Nat) (s : Ser) :
    (ScriptString env string s).2.backrefs = s.backrefs := by
  unfold ScriptString
  split
  · rfl
  · rw [PutString_eq, Put_backrefs]

theorem ScriptString_answers (env : Env) (string : List Nat) (s : Ser) :
    (ScriptString env string s).1 ≠ .outOfFuel := by
  unfold ScriptString
  split <;> simp

theorem IdArrayWrapper_ctor_backrefs (env : Env) (obj : Nat) (i n : Nat) (s : Ser) :
    (IdArrayWrapper_ctor env obj i n s).2.backrefs = s.backrefs := by
  induction n generalizing i s with
  | zero => rfl
  | succ n ih =>
    unfold IdArrayWrapper_ctor
    split
    · rw [ih]
    · rfl

theorem IdArrayWrapper_ctor_answers (env : Env) (obj : Nat) (i n : Nat) (s : Ser) :
    (IdArrayWrapper_ctor env obj i n s).1 ≠ .outOfFuel := by
  induction n generalizing i s with
  | zero => simp [IdArrayWrapper_ctor]
  | succ n ih =>
    unfold IdArrayWrapper_ctor
    split
    · exact ih _ _
    · simp

theorem propBody_settles (env : Env) (objects : List Nat) (n : Nat)
    (handle : jsval → Ser → Outcome Unit × Ser)
    (hh : ∀ (v : jsval) (t : Ser), (∀ b, v = .object b → b ∈ objects) →
      t.TagsUsable objects → (t.unseen objects).length < n → t.Settles objects (handle v t))
    (hw : env.ValuesWithin objects) (obj : Nat) (idstr : List Nat) (s : Ser)
    (hs : s.TagsUsable objects) (hn : (s.unseen objects).length < n) :
    s.Settles objects (propBody env handle obj idstr s) := by
  unfold propBody
  split
  · exact settles_of_backrefs objects s s _ rfl hs (by simp)
  · split
    · exact settles_of_backrefs objects s s _ rfl hs (by simp)
    · split
      · exact settles_of_backrefs objects s s _ rfl hs (by simp)
      · have hb := ScriptString_backrefs env idstr s
        have ha := ScriptString_answers env idstr s
        split
        · rename_i s1 heq
          rw [heq] at hb
          split
          · exact settles_of_backrefs objects s s1 _ hb hs (by simp)
          · rename_i propval hval
            have hu := unseen_of_backrefs objects s s1 hb
            refine settles_trans objects s s1 _ (le_of_eq (congrArg List.length hu)) ?_
            refine hh propval s1 ?_ (tagsUsable_of_backrefs objects s s1 hb hs) ?_
            · intro b hb1
              rw [hb1] at hval
              exact hw obj idstr b hval
            · rw [hu]
              exact hn
        · exact settles_of_backrefs objects s _ _ hb hs ha

theorem propStep_settles (env : Env) (objects : List Nat) (n : Nat)
    (handle : jsval → Ser → Outcome Unit × Ser)
    (hh : ∀ (v : jsval) (t : Ser), (∀ b, v = .object b → b ∈ objects) →
      t.TagsUsable objects → (t.unseen objects).length < n → t.Settles objects (handle v t))
    (hw : env.ValuesWithin objects) (obj i id : Nat) (s : Ser)
    (hs : s.TagsUsable objects) (hn : (s.unseen objects).length < n) :
    s.Settles objects (propStep env handle obj i id s) := by
  unfold propStep
  split
  · exact settles_of_backrefs objects s s _ rfl hs (by simp)
  · split
    · exact settles_of_backrefs objects s s _ rfl hs (by simp)
    · split
      · have h1 := propBody_settles env objects n handle hh hw obj ‹List Nat›
          { s with roots := Root.idstr obj i :: s.roots }
          (tagsUsable_of_backrefs objects s _ rfl hs) hn
        exact settles_with_roots objects s _ _ h1
      · exact settles_of_backrefs objects s s _ rfl hs (by simp)

theorem propLoop_settles (env : Env) (objects : List Nat) (n : Nat)
    (handle : jsval → Ser → Outcome Unit × Ser)
    (hh : ∀ (v : jsval) (t : Ser), (∀ b, v = .object b → b ∈ objects) →
      t.TagsUsable objects → (t.unseen objects).length < n → t.Settles objects (handle v t))
    (hw : env.ValuesWithin objects) (obj : Nat) (ids : List Nat) :
    ∀ (i : Nat) (s : Ser), s.TagsUsable objects → (s.unseen objects).length < n →
      s.Settles objects (propLoop env handle obj i ids s) := by
  induction ids with
  | nil =>
    intro i s hs _
    exact settles_of_backrefs objects s s _ rfl hs (by simp)
  | cons id ids ih =>
    intro i s hs hn
    unfold propLoop
    have h1 := propStep_settles env objects n handle hh hw obj i id s hs hn
    split
    · rename_i s1 heq
      rw [heq] at h1
      exact settles_trans objects s s1 _ h1.2.2
        (ih (i + 1) s1 h1.2.1 (lt_of_le_of_lt h1.2.2 hn))
    · exact h1

theorem filter_length_lt_of_flip (p q : Nat → Bool) (x : Nat) (hqx : q x = false)
    (hpx : p x = true) (hpq : ∀ o, o ≠ x → q o = p o) (l : List Nat) :
    (l.filter q).length ≤ (l.filter p).length ∧
    (x ∈ l → (l.filter q).length < (l.filter p).length) := by
  induction l with
  | nil => simp
  | cons a l ih =>
    by_cases ha : a = x
    · subst ha
      rw [List.filter_cons_of_neg (by simp [hqx]), List.filter_cons_of_pos hpx]
      simp only [List.length_cons]
      exact ⟨by omega, fun _ => by omega⟩
    · have hqa := hpq a ha
      cases hpa : p a
      · rw [hpa] at hqa
        rw [List.filter_cons_of_neg (by simp [hqa]), List.filter_cons_of_neg (by simp [hpa])]
        refine ⟨ih.1, fun hm => ih.2 ?_⟩
        rcases List.mem_cons.mp hm with h | h
        · exact absurd h.symm ha
        · exact h
      · rw [hpa] at hqa
        rw [List.filter_cons_of_pos hqa, List.filter_cons_of_pos hpa]
        simp only [List.length_cons]
        refine ⟨by omega, fun hm => ?_⟩
        rcases List.mem_cons.mp hm with h | h
        · exact absurd h.symm ha
        · have := ih.2 h
          omega

theorem GetScriptBackrefTag_new_backrefs (env : Env) (obj : Nat) (s : Ser)
    (h : StdMap.find obj s.backrefs = none) :
    (GetScriptBackrefTag env obj s).2.backrefs
      = StdMap.insert obj (toU32 (toU32 s.backrefs.length + 1)) s.backrefs ∧
    ((GetScriptBackrefTag env obj s).1 = .ok 0 ∨
      (GetScriptBackrefTag env obj s).1 = .throw .Serialize_ScriptError) := by
  unfold GetScriptBackrefTag
  rw [h]
  dsimp only
  split
  · exact ⟨rfl, Or.inl rfl⟩
  · exact ⟨rfl, Or.inr rfl⟩

theorem GetScriptBackrefTag_enters (env : Env) (objects : List Nat) (obj : Nat) (s : Ser)
    (h : StdMap.find obj s.backrefs = none) (hobj : obj ∈ objects)
    (hs : s.TagsUsable objects) :
    (GetScriptBackrefTag env obj s).2.TagsUsable objects ∧
    ((GetScriptBackrefTag env obj s).2.unseen objects).length < (s.unseen objects).length := by
  have hb := (GetScriptBackrefTag_new_backrefs env obj s h).1
  have hflip := filter_length_lt_of_flip
    (fun o => (StdMap.find o s.backrefs).isNone)
    (fun o => (StdMap.find o (GetScriptBackrefTag env obj s).2.backrefs).isNone) obj
    (by
      show (StdMap.find obj (GetScriptBackrefTag env obj s).2.backrefs).isNone = false
      rw [hb, StdMap.find_insert_self obj _ _ h]
      rfl)
    (by
      show (StdMap.find obj s.backrefs).isNone = true
      rw [h]
      rfl)
    (by
      intro o ho
      show (StdMap.find o (GetScriptBackrefTag env obj s).2.backrefs).isNone
        = (StdMap.find o s.backrefs).isNone
      rw [hb, StdMap.find_insert_of_ne o obj _ _ ho])
    objects
  have hlt : ((GetScriptBackrefTag env obj s).2.unseen objects).length
      < (s.unseen objects).length := hflip.2 hobj
  have hpos : 0 < (s.unseen objects).length := by omega
  have hroom := hs.2
  refine ⟨⟨?_, ?_⟩, hlt⟩
  · intro k t hk
    rw [hb] at hk
    by_cases hko : k = obj
    · subst hko
      rw [StdMap.find_insert_self k _ _ h] at hk
      cases hk
      unfold toU32
      omega
    · rw [StdMap.find_insert_of_ne k obj _ _ hko] at hk
      exact hs.1 k t hk
  · rw [hb, StdMap.length_insert obj _ _ h]
    omega

theorem HandleScriptVal_no_object (env : Env) (fuel : Nat) (val : jsval) (s : Ser)
    (h : ∀ b, val = .object b → JS_TypeOfValue env (.object b) ≠ .JSTYPE_OBJECT) :
    (HandleScriptVal env (fuel + 1) val s).1 ≠ .outOfFuel ∧
    (HandleScriptVal env (fuel + 1) val s).2.backrefs = s.backrefs := by
  unfold HandleScriptVal
  split
  · exact ⟨by simp, rfl⟩
  · exact ⟨by simp, rfl⟩
  · rename_i hT
    split
    · exact ⟨by simp, rfl⟩
    · rename_i hnull
      exfalso
      cases val with
      | object b => exact h b rfl hT
      | null => exact hnull rfl
      | void => simp [JS_TypeOfValue] at hT
      | string c => simp [JS_TypeOfValue] at hT
      | int i => simp [JS_TypeOfValue] at hT
      | double d => simp [JS_TypeOfValue] at hT
      | boolean b => simp [JS_TypeOfValue] at hT
  · exact ⟨by simp, rfl⟩
  · exact ⟨ScriptString_answers env _ _, by rw [ScriptString_backrefs]; rfl⟩
  · split
    · unfold ISerializer.NumberI32
      split
      · exact ⟨by simp, rfl⟩
      · exact ⟨by simp, rfl⟩
    · exact ⟨by simp, rfl⟩
  · exact ⟨by simp, rfl⟩
  · exact ⟨by simp, rfl⟩
  · exact ⟨by simp, rfl⟩

theorem HandleScriptVal_settles (env : Env) (objects : List Nat)
    (hw : env.ValuesWithin objects) (fuel : Nat) :
    ∀ (val : jsval) (s : Ser), (∀ b, val = .object b → b ∈ objects) →
      s.TagsUsable objects → (s.unseen objects).length < fuel →
      s.Settles objects (HandleScriptVal env fuel val s) := by
  induction fuel with
  | zero =>
    intro val s _ _ hn
    exact absurd hn (Nat.not_lt_zero _)
  | succ fuel ih =>
    intro val s hv hs hn
    by_cases hobj : ∀ b, val = .object b → JS_TypeOfValue env (.object b) ≠ .JSTYPE_OBJECT
    · have h := HandleScriptVal_no_object env fuel val s hobj
      exact settles_of_backrefs objects s _ _ h.2 hs h.1
    · push_neg at hobj
      obtain ⟨obj, hval, hT⟩ := hobj
      subst hval
      rw [HandleScriptVal_object env fuel obj s hT]
      cases hfind : StdMap.find obj s.backrefs with
      | some tag =>
        have hg : GetScriptBackrefTag env obj s = (.ok tag, s) := by
          unfold GetScriptBackrefTag
          rw [hfind]
        rw [hg]
        dsimp only
        rw [if_pos (hs.1 obj tag hfind)]
        exact settles_of_backrefs objects s _ _ rfl hs (by simp)
      | none =>
        have hnew := GetScriptBackrefTag_new_backrefs env obj s hfind
        have hent := GetScriptBackrefTag_enters env objects obj s hfind (hv obj rfl) hs
        rcases hg : GetScriptBackrefTag env obj s with ⟨o, s1⟩
        rw [hg] at hnew hent
        dsimp only at hnew hent
        rcases hnew.2 with ho | ho
        · subst ho
          dsimp only
          rw [if_neg (by simp)]
          refine settles_trans objects s s1 _ (le_of_lt hent.2) ?_
          split
          · exact settles_of_backrefs objects s1 _ _ rfl hent.1 (by simp)
          · rename_i ida hen
            have hcb := IdArrayWrapper_ctor_backrefs env obj 0 ida.length
              (ISerializer.NumberU8_Unbounded env (objectTag env obj) s1)
            have hca := IdArrayWrapper_ctor_answers env obj 0 ida.length
              (ISerializer.NumberU8_Unbounded env (objectTag env obj) s1)
            split
            · rename_i s3 hctor
              rw [hctor] at hcb
              have hb3 : (ISerializer.NumberU32_Unbounded env (toU32 ida.length) s3).backrefs
                  = s1.backrefs := hcb
              have hu := unseen_of_backrefs objects s1 _ hb3
              have hloop := propLoop_settles env objects fuel (HandleScriptVal env fuel) ih hw
                obj ida 0 (ISerializer.NumberU32_Unbounded env (toU32 ida.length) s3)
                (tagsUsable_of_backrefs objects s1 _ hb3 hent.1)
                (by rw [hu]; omega)
              refine settles_trans objects s1 _ _ (le_of_eq (congrArg List.length hu)) ?_
              exact settles_with_roots objects _ _ _ hloop
            · rename_i e s3 hctor
              rw [hctor] at hcb
              exact settles_of_backrefs objects s1 s3 _ hcb hent.1 (by simp)
            · rename_i s3 hctor
              rw [hctor] at hca
              exact absurd rfl hca
        · subst ho
          dsimp only
          exact settles_trans objects s s1 _ (le_of_lt hent.2)
            (settles_of_backrefs objects s1 s1 _ rfl hent.1 (by simp))

/-! ## The result does not depend on the recursion bound -/

theorem propStep_idName (env : Env) (handle : jsval → Ser → Outcome Unit × Ser)
    (obj i id : Nat) (s : Ser) :
    propStep env handle obj i id s =
      match env.idName id with
      | none => (.throw .Serialize_ScriptError, s)
      | some idstr =>
        if env.JS_AddRoot (.idstr obj i) then
          ((propBody env handle obj idstr { s with roots := Root.idstr obj i :: s.roots }).1,
            { (propBody env handle obj idstr
                { s with roots := Root.idstr obj i :: s.roots }).2 with
              roots := (propBody env handle obj idstr
                { s with roots := Root.idstr obj i :: s.roots }).2.roots.erase
                  (Root.idstr obj i) })
        else (.throw .Serialize_ScriptError, s) := by
  unfold propStep Env.idName
  cases env.JS_IdToValue id with
  | none => rfl
  | some idval => rfl

theorem propBody_congr (env : Env) (h1 h2 : jsval → Ser → Outcome Unit × Ser)
    (hh : ∀ v t, (h1 v t).1 ≠ .outOfFuel → h2 v t = h1 v t) (obj : Nat) (idstr : List Nat)
    (s : Ser) (hr : (propBody env h1 obj idstr s).1 ≠ .outOfFuel) :
    propBody env h2 obj idstr s = propBody env h1 obj idstr s := by
  unfold propBody at hr ⊢
  cases ha : env.JS_GetUCPropertyAttributes obj idstr with
  | none => rfl
  | some af =>
    obtain ⟨attrs, found⟩ := af
    rw [ha] at hr
    dsimp only at hr ⊢
    by_cases hfound : (!found) = true
    · rw [if_pos hfound, if_pos hfound]
    · rw [if_neg hfound] at hr
      rw [if_neg hfound, if_neg hfound]
      by_cases hget : attrs &&& env.JSPROP_GETTER ≠ 0
      · rw [if_pos hget, if_pos hget]
      · rw [if_neg hget] at hr
        rw [if_neg hget, if_neg hget]
        rcases e1 : ScriptString env idstr s with ⟨o1, s1⟩
        rw [e1] at hr
        cases o1 with
        | throw e => rfl
        | outOfFuel => rfl
        | ok u =>
          cases u
          dsimp only at hr ⊢
          cases hp : env.JS_GetUCProperty obj idstr with
          | none => rfl
          | some v =>
            rw [hp] at hr
            exact hh v s1 hr

theorem propStep_congr (env : Env) (h1 h2 : jsval → Ser → Outcome Unit × Ser)
    (hh : ∀ v t, (h1 v t).1 ≠ .outOfFuel → h2 v t = h1 v t) (obj i id : Nat) (s : Ser)
    (hr : (propStep env h1 obj i id s).1 ≠ .outOfFuel) :
    propStep env h2 obj i id s = propStep env h1 obj i id s := by
  rw [propStep_idName] at hr
  rw [propStep_idName, propStep_idName]
  cases hid : env.idName id with
  | none => rfl
  | some idstr =>
    rw [hid] at hr
    dsimp only at hr ⊢
    by_cases h3 : env.JS_AddRoot (.idstr obj i) = true
    · rw [if_pos h3] at hr
      rw [if_pos h3, if_pos h3, propBody_congr env h1 h2 hh obj idstr _ hr]
    · rw [if_neg h3, if_neg h3]

theorem propLoop_congr (env : Env) (h1 h2 : jsval → Ser → Outcome Unit × Ser)
    (hh : ∀ v t, (h1 v t).1 ≠ .outOfFuel → h2 v t = h1 v t) (obj : Nat) (ids : List Nat) :
    ∀ (i : Nat) (s : Ser), (propLoop env h1 obj i ids s).1 ≠ .outOfFuel →
      propLoop env h2 obj i ids s = propLoop env h1 obj i ids s := by
  induction ids with
  | nil =>
    intro i s _
    rfl
  | cons id ids ih =>
    intro i s hr
    unfold propLoop at hr ⊢
    have hstep : (propStep env h1 obj i id s).1 ≠ .outOfFuel := by
      intro hc
      rcases e1 : propStep env h1 obj i id s with ⟨o1, s1⟩
      rw [e1] at hr hc
      dsimp only at hc
      subst hc
      exact hr rfl
    rw [propStep_congr env h1 h2 hh obj i id s hstep]
    rcases e1 : propStep env h1 obj i id s with ⟨o1, s1⟩
    rw [e1] at hr
    cases o1 with
    | throw e => rfl
    | outOfFuel => rfl
    | ok u =>
      cases u
      dsimp only at hr ⊢
      exact ih (i + 1) s1 hr

/-- A call that returns at one recursion bound returns the same at the next. -/
theorem HandleScriptVal_fuel_succ (env : Env) (fuel : Nat) :
    ∀ (val : jsval) (s : Ser), (HandleScriptVal env fuel val s).1 ≠ .outOfFuel →
      HandleScriptVal env (fuel + 1) val s = HandleScriptVal env fuel val s := by
  induction fuel with
  | zero =>
    intro val s hr
    exact absurd rfl hr
  | succ fuel ih =>
    intro val s hr
    by_cases hobj : ∃ b, val = .object b ∧ JS_TypeOfValue env (.object b) = .JSTYPE_OBJECT
    · obtain ⟨obj, hval, hT⟩ := hobj
      subst hval
      rw [HandleScriptVal_object env fuel obj s hT] at hr
      rw [HandleScriptVal_object env (fuel + 1) obj s hT,
        HandleScriptVal_object env fuel obj s hT]
      rcases hg : GetScriptBackrefTag env obj s with ⟨o, s1⟩
      rw [hg] at hr
      cases o with
      | throw e => rfl
      | outOfFuel => rfl
      | ok tag =>
        dsimp only at hr ⊢
        by_cases htag : tag ≠ 0
        · rw [if_pos htag, if_pos htag]
        · rw [if_neg htag] at hr
          rw [if_neg htag, if_neg htag]
          cases hen : env.JS_Enumerate obj with
          | none => rfl
          | some ida =>
            rw [hen] at hr
            dsimp only at hr ⊢
            rcases hc : IdArrayWrapper_ctor env obj 0 ida.length
              (ISerializer.NumberU8_Unbounded env (objectTag env obj) s1) with ⟨oc, s3⟩
            rw [hc] at hr
            cases oc with
            | throw e => rfl
            | outOfFuel => rfl
            | ok u =>
              cases u
              dsimp only at hr ⊢
              rw [propLoop_congr env (HandleScriptVal env fuel) (HandleScriptVal env (fuel + 1))
                ih obj ida 0 _ hr]
    · cases hty : JS_TypeOfValue env val with
      | JSTYPE_OBJECT =>
        cases val with
        | object b => exact absurd ⟨b, rfl, hty⟩ hobj
        | null => simp only [HandleScriptVal, hty, JSVAL_IS_NULL, if_true]
        | void => simp [JS_TypeOfValue] at hty
        | string c => simp [JS_TypeOfValue] at hty
        | int i => simp [JS_TypeOfValue] at hty
        | double d => simp [JS_TypeOfValue] at hty
        | boolean b => simp [JS_TypeOfValue] at hty
      | JSTYPE_VOID => simp only [HandleScriptVal, hty]
      | JSTYPE_NULL => simp only [HandleScriptVal, hty]
      | JSTYPE_FUNCTION => simp only [HandleScriptVal, hty]
      | JSTYPE_STRING => simp only [HandleScriptVal, hty]
      | JSTYPE_NUMBER => simp only [HandleScriptVal, hty]
      | JSTYPE_BOOLEAN => simp only [HandleScriptVal, hty]
      | JSTYPE_XML => simp only [HandleScriptVal, hty]
      | JSTYPE_LIMIT => simp only [HandleScriptVal, hty]

theorem HandleScriptVal_fuel_add (env : Env) (fuel : Nat) (val : jsval) (s : Ser)
    (hr : (HandleScriptVal env fuel val s).1 ≠ .outOfFuel) (more : Nat) :
    HandleScriptVal env (fuel + more) val s = HandleScriptVal env fuel val s := by
  induction more with
  | zero => rfl
  | succ more ih =>
    rw [← Nat.add_assoc, HandleScriptVal_fuel_succ env (fuel + more) val s (by rw [ih]; exact hr),
      ih]

theorem Env.ofHeap_valuesWithin (host : ByteOrder) (heap : List JSObject) (objects : List Nat)
    (h : (heap.all fun o => o.props.all fun p =>
      match p.value with
      | .object b => decide (b ∈ objects)
      | _ => true) = true) :
    (Env.ofHeap host heap).ValuesWithin objects := by
  intro a name b hval
  simp only [Env.ofHeap] at hval
  split at hval
  · rename_i o ho
    split at hval
    · rename_i p hp
      have hmo : o ∈ heap := List.get?_mem ho
      have hmp : p ∈ o.props := List.mem_of_find?_eq_some hp
      have h1 := List.all_eq_true.mp h o hmo
      have h2 := List.all_eq_true.mp h1 p hmp
      have hpv : p.value = .object b := Option.some.inj hval
      rw [hpv] at h2
      simpa using h2
    · cases hval
  · cases hval

/-- C23, amended: on every finite value graph, with or without reference cycles, the
`HandleScriptVal` traversal terminates.  Let `objects` list the root object and every object a
property can hold, let all tags in the backref table be non-zero and let the table have room
for the listed objects not yet in it.  Then a recursion depth above the number of those
objects is enough for the call to return (with success or an error), and the result is the
same at every larger depth.  The reason is that an
object is entered in the table, with a non-zero tag, by the `GetScriptBackrefTag` call made
before its properties are traversed, and that a reference to any object in the table, fully
visited or still being visited, is written as `{BackRef, tag}`. -/
theorem HandleScriptVal_terminates (env : Env) (objects : List Nat) (fuel : Nat) (val : jsval)
    (s : Ser) (hw : env.ValuesWithin objects) (hv : ∀ b, val = .object b → b ∈ objects)
    (hs : s.TagsUsable objects) (hn : (s.unseen objects).length < fuel) :
    (HandleScriptVal env fuel val s).1 ≠ .outOfFuel ∧
    (∀ more : Nat, HandleScriptVal env (fuel + more) val s = HandleScriptVal env fuel val s) ∧
    (∀ obj : Nat, obj ∈ objects → StdMap.find obj s.backrefs = none →
      StdMap.find obj (GetScriptBackrefTag env obj s).2.backrefs
        = some (s.backrefs.length + 1)) ∧
    (∀ obj tag : Nat, StdMap.find obj s.backrefs = some tag →
      JS_TypeOfValue env (.object obj) = .JSTYPE_OBJECT →
      HandleScriptVal env fuel (.object obj) s
        = (.ok (), ISerializer.NumberU32_Unbounded env tag
            (ISerializer.NumberU8_Unbounded env env.SCRIPT_TYPE_BACKREF s))) := by
  refine ⟨(HandleScriptVal_settles env objects hw fuel val s hv hs hn).1,
    HandleScriptVal_fuel_add env fuel val s
      (HandleScriptVal_settles env objects hw fuel val s hv hs hn).1, ?_, ?_⟩
  · intro obj hobj hfind
    rw [(GetScriptBackrefTag_new_backrefs env obj s hfind).1,
      StdMap.find_insert_self obj _ _ hfind]
    have hmem : obj ∈ s.unseen objects := by
      unfold Ser.unseen
      rw [List.mem_filter]
      exact ⟨hobj, by rw [hfind]; rfl⟩
    have hpos : 0 < (s.unseen objects).length := List.length_pos_of_mem hmem
    have hroom := hs.2
    congr 1
    unfold toU32
    omega
  · intro obj tag hfind hT
    obtain ⟨fuel, rfl⟩ : ∃ k, fuel = k + 1 := ⟨fuel - 1, by omega⟩
    have hg : GetScriptBackrefTag env obj s = (.ok tag, s) := by
      unfold GetScriptBackrefTag
      rw [hfind]
    rw [HandleScriptVal_object env fuel obj s hT, hg]
    dsimp only
    rw [if_pos (hs.1 obj tag hfind)]

/-- Witness of `HandleScriptVal_terminates`: the objects `a` and `b` of
`var a = {}; var b = { back: a }; a.next = b;` contain each other; the traversal of `a` at
recursion depth three returns, having written `b.back` as `{BackRef, 1}`. -/
theorem HandleScriptVal_terminates_witness :
    Env.mutualReference.ValuesWithin [0, 1] ∧
    (∀ b, jsval.object 0 = .object b → b ∈ [0, 1]) ∧
    Ser.fresh.TagsUsable [0, 1] ∧
    (Ser.fresh.unseen [0, 1]).length < 3 ∧
    (HandleScriptVal Env.mutualReference 3 (.object 0) Ser.fresh).1 ≠ .outOfFuel ∧
    HandleScriptVal Env.mutualReference 3 (.object 0) Ser.fresh
      = (.ok (), ⟨[3, 1, 0, 0, 0, 4, 0, 0, 0, 110, 101, 120, 116,
            3, 1, 0, 0, 0, 4, 0, 0, 0, 98, 97, 99, 107, 8, 1, 0, 0, 0],
          [(0, 1), (1, 2)], [.backref 1, .backref 0]⟩) :=
  ⟨Env.ofHeap_valuesWithin _ _ _ (by decide),
    fun b hb => (by cases hb; decide),
    ⟨fun k t hk => (by cases hk), by decide⟩,
    by decide,
    (HandleScriptVal_terminates Env.mutualReference [0, 1] 3 (.object 0) Ser.fresh
      (Env.ofHeap_valuesWithin _ _ _ (by decide)) (fun b hb => (by cases hb; decide))
      ⟨fun k t hk => (by cases hk), by decide⟩ (by decide)).1,
    by decide⟩

end CBinarySerializer

namespace CCmpTemplateManager

variable {P : Type}

/-! ## The template resolver: failure results and repeated loads -/

theorem find_mem_keys (files : List (List Nat × TemplateFile P)) (name : List Nat)
    (file : TemplateFile P) (h : StdMap.find name files = some file) :
    name ∈ files.map Prod.fst := by
  induction files with
  | nil => cases h
  | cons p rest ih =>
    obtain ⟨k1, v1⟩ := p
    simp only [StdMap.find] at h
    split at h
    · rename_i hk
      rw [hk]
      exact List.mem_cons_self _ _
    · exact List.mem_cons_of_mem _ (ih h)

/-- The resolution returns when the bound exceeds the number of templates not yet visited. -/
theorem resolveTemplate_returns (merge : P → P → P) (files : List (List Nat × TemplateFile P))
    (fuel : Nat) :
    ∀ (visited : List (List Nat)) (name : List Nat), visited.Nodup →
      (∀ v ∈ visited, v ∈ files.map Prod.fst) → files.length < fuel + visited.length →
      resolveTemplate merge files fuel visited name ≠ .outOfFuel := by
  induction fuel with
  | zero =>
    intro visited name hnd hsub hlen
    have h1 := (List.subperm_of_subset hnd hsub).length_le
    rw [List.length_map] at h1
    omega
  | succ fuel ih =>
    intro visited name hnd hsub hlen
    unfold resolveTemplate
    split
    · simp
    · rename_i hnv
      split
      · simp
      · rename_i file hfile
        split
        · simp
        · rename_i parent hparent
          have hrec := ih (name :: visited) parent (List.nodup_cons.mpr ⟨hnv, hnd⟩)
            (by
              intro v hv
              rcases List.mem_cons.mp hv with h | h
              · rw [h]
                exact find_mem_keys files name file hfile
              · exact hsub v h)
            (by simp only [List.length_cons]; omega)
          split
          · simp
          · rename_i r hr
            exact hrec

theorem resolveTemplate_nonexistent (merge : P → P → P)
    (files : List (List Nat × TemplateFile P)) (fuel : Nat) (visited : List (List Nat))
    (name : List Nat) (h : StdMap.find name files = none) (p : P) :
    resolveTemplate merge files fuel visited name ≠ .ok (some p) := by
  cases fuel with
  | zero => simp [resolveTemplate]
  | succ fuel =>
    unfold resolveTemplate
    split
    · simp
    · rw [h]
      simp

/-- A template resolves only if its parent, when it has one, resolves. -/
theorem resolveTemplate_parent (merge : P → P → P) (files : List (List Nat × TemplateFile P))
    (fuel : Nat) (visited : List (List Nat)) (name parent : List Nat)
    (hp : templateParent files name = some parent)
    (hrec : ∀ q, resolveTemplate merge files fuel (name :: visited) parent ≠ .ok (some q))
    (p : P) : resolveTemplate merge files (fuel + 1) visited name ≠ .ok (some p) := by
  unfold templateParent at hp
  unfold resolveTemplate
  split
  · simp
  · split
    · simp
    · rename_i file hfile
      rw [hfile] at hp
      dsimp only at hp
      rw [hp]
      dsimp only
      split
      · rename_i base hbase
        exact absurd hbase (hrec base)
      · rename_i r hr
        intro h
        exact hr p h

theorem resolveTemplate_parentMissing (merge : P → P → P)
    (files : List (List Nat × TemplateFile P)) (k : Nat) :
    ∀ (name a : List Nat) (file : TemplateFile P) (parent : List Nat),
      ancestor files k name = some a → StdMap.find a files = some file →
      file.parent = some parent → StdMap.find parent files = none →
      ∀ (fuel : Nat) (visited : List (List Nat)) (p : P),
        resolveTemplate merge files fuel visited name ≠ .ok (some p) := by
  induction k with
  | zero =>
    intro name a file parent ha hfile hparent hnone fuel visited p
    simp only [ancestor, Option.some.injEq] at ha
    subst ha
    cases fuel with
    | zero => simp [resolveTemplate]
    | succ fuel =>
      refine resolveTemplate_parent merge files fuel visited name parent ?_ ?_ p
      · unfold templateParent
        rw [hfile]
        exact hparent
      · intro q
        exact resolveTemplate_nonexistent merge files fuel _ parent hnone q
  | succ k ih =>
    intro name a file parent ha hfile hparent hnone fuel visited p
    unfold ancestor at ha
    split at ha
    · rename_i par hpar
      cases fuel with
      | zero => simp [resolveTemplate]
      | succ fuel =>
        exact resolveTemplate_parent merge files fuel visited name par hpar
          (fun q => ih par a file parent ha hfile hparent hnone fuel _ q) p
    · cases ha

theorem inheritanceCyclic_parent (files : List (List Nat × TemplateFile P)) (name : List Nat)
    (h : InheritanceCyclic files name) :
    ∃ parent, templateParent files name = some parent ∧ InheritanceCyclic files parent := by
  obtain ⟨k, a, j, hk, hj, hcyc⟩ := h
  cases k with
  | zero =>
    simp only [ancestor, Option.some.injEq] at hk
    subst hk
    obtain ⟨j, rfl⟩ : ∃ i, j = i + 1 := ⟨j - 1, by omega⟩
    have hcyc1 := hcyc
    unfold ancestor at hcyc1
    split at hcyc1
    · rename_i parent hparent
      exact ⟨parent, hparent, j, name, j + 1, hcyc1, by omega, hcyc⟩
    · cases hcyc1
  | succ k =>
    unfold ancestor at hk
    split at hk
    · rename_i parent hparent
      exact ⟨parent, hparent, k, a, j, hk, hj, hcyc⟩
    · cases hk

theorem resolveTemplate_cyclic (merge : P → P → P) (files : List (List Nat × TemplateFile P))
    (fuel : Nat) :
    ∀ (visited : List (List Nat)) (name : List Nat), InheritanceCyclic files name →
      ∀ p : P, resolveTemplate merge files fuel visited name ≠ .ok (some p) := by
  induction fuel with
  | zero =>
    intro visited name _ p
    simp [resolveTemplate]
  | succ fuel ih =>
    intro visited name h p
    obtain ⟨parent, hparent, hcyc⟩ := inheritanceCyclic_parent files name h
    exact resolveTemplate_parent merge files fuel visited name parent hparent
      (fun q => ih (name :: visited) parent hcyc q) p

theorem resolveTemplate_no_throw (merge : P → P → P)
    (files : List (List Nat × TemplateFile P)) (fuel : Nat) :
    ∀ (visited : List (List Nat)) (name : List Nat) (e : PSERROR),
      resolveTemplate merge files fuel visited name ≠ .throw e := by
  induction fuel with
  | zero =>
    intro visited name e
    simp [resolveTemplate]
  | succ fuel ih =>
    intro visited name e
    unfold resolveTemplate
    split
    · simp
    · split
      · simp
      · split
        · simp
        · rename_i parent hparent
          split
          · simp
          · exact ih _ _ e

/-- A resolution that returns, and does not return a parameter tree, returns the failure
result. -/
theorem outcome_none_of_not_some (r : Outcome (Option P)) (h1 : r ≠ .outOfFuel)
    (h2 : ∀ e, r ≠ .throw e) (h3 : ∀ p, r ≠ .ok (some p)) : r = .ok none := by
  cases r with
  | outOfFuel => exact absurd rfl h1
  | throw e => exact absurd rfl (h2 e)
  | ok o =>
    cases o with
    | none => rfl
    | some p => exact absurd rfl (h3 p)

theorem assign_assign (k : Nat) (v : List Nat) (m : List (Nat × List Nat)) :
    StdMap.assign k v (StdMap.assign k v m) = StdMap.assign k v m := by
  induction m with
  | nil => simp [StdMap.assign]
  | cons p rest ih =>
    obtain ⟨k1, v1⟩ := p
    by_cases h1 : k < k1
    · simp [StdMap.assign, h1]
    · by_cases h2 : k = k1
      · subst h2
        simp [StdMap.assign]
      · simp [StdMap.assign, h1, h2, ih]

/-- C21: `LoadTemplate` of the template resolver returns, and it returns the failure result
(`NULL`) for every template name that is not in the store, for every name whose inheritance
chain is cyclic and for every name on whose chain a parent is missing; and it is repeatable:
a second load of the same template for the same entity, made in the state the first load
left, returns the same result (the same parameter tree, or failure again) and leaves the same
state. -/
theorem LoadTemplate_failure_and_repeat (merge : P → P → P) (m : CCmpTemplateManager P)
    (ent : Nat) (templateName : List Nat) :
    (∃ r, (LoadTemplate merge m ent templateName).1 = .ok r) ∧
    (StdMap.find templateName m.files = none →
      (LoadTemplate merge m ent templateName).1 = .ok none) ∧
    (InheritanceCyclic m.files templateName →
      (LoadTemplate merge m ent templateName).1 = .ok none) ∧
    (ParentMissing m.files templateName →
      (LoadTemplate merge m ent templateName).1 = .ok none) ∧
    LoadTemplate merge (LoadTemplate merge m ent templateName).2 ent templateName
      = LoadTemplate merge m ent templateName := by
  have hret : resolveTemplate merge m.files (m.files.length + 1) [] templateName
      ≠ .outOfFuel :=
    resolveTemplate_returns merge m.files _ [] templateName List.nodup_nil
      (fun v hv => absurd hv (List.not_mem_nil v)) (by simp)
  have hthrow := resolveTemplate_no_throw merge m.files (m.files.length + 1) [] templateName
  refine ⟨?_, ?_, ?_, ?_, ?_⟩
  · show ∃ r, resolveTemplate merge m.files (m.files.length + 1) [] templateName = .ok r
    cases hr : resolveTemplate merge m.files (m.files.length + 1) [] templateName with
    | ok r => exact ⟨r, rfl⟩
    | throw e => exact absurd hr (hthrow e)
    | outOfFuel => exact absurd hr hret
  · intro h
    exact outcome_none_of_not_some _ hret hthrow
      (resolveTemplate_nonexistent merge m.files _ [] templateName h)
  · intro h
    exact outcome_none_of_not_some _ hret hthrow
      (resolveTemplate_cyclic merge m.files _ [] templateName h)
  · intro h
    obtain ⟨k, a, file, parent, ha, hfile, hparent, hnone⟩ := h
    exact outcome_none_of_not_some _ hret hthrow
      (resolveTemplate_parentMissing merge m.files k templateName a file parent ha hfile
        hparent hnone _ [])
  · unfold LoadTemplate
    dsimp only
    rw [assign_assign]

/-- Witness of `LoadTemplate_failure_and_repeat`: the loads of the resolver's test.  In the
test store `basic` and `inherit2` load, `inherit2` as its own parameters laid over those of
`inherit1`; `nonexistent`, `inherit-loop` (a cyclic chain) and `inherit-broken` (a missing
parent) fail; and a second load of `inherit2` for entity `2` gives the result of the first. -/
theorem LoadTemplate_failure_and_repeat_witness :
    (LoadTemplate overlay testManager 2 [98, 97, 115, 105, 99]).1
      = .ok (some [(120, 12345)]) ∧
    (LoadTemplate overlay testManager 2 [105, 110, 104, 101, 114, 105, 116, 50]).1
      = .ok (some [(97, 2), (98, 1), (99, 1), (100, 2), (101, 1), (102, 1), (103, 2)]) ∧
    (LoadTemplate overlay testManager 2
      [110, 111, 110, 101, 120, 105, 115, 116, 101, 110, 116]).1 = .ok none ∧
    InheritanceCyclic testStore [105, 110, 104, 101, 114, 105, 116, 45, 108, 111, 111, 112] ∧
    (LoadTemplate overlay testManager 2
      [105, 110, 104, 101, 114, 105, 116, 45, 108, 111, 111, 112]).1 = .ok none ∧
    ParentMissing testStore
      [105, 110, 104, 101, 114, 105, 116, 45, 98, 114, 111, 107, 101, 110] ∧
    (LoadTemplate overlay testManager 2
      [105, 110, 104, 101, 114, 105, 116, 45, 98, 114, 111, 107, 101, 110]).1 = .ok none ∧
    LoadTemplate overlay
        (LoadTemplate overlay testManager 2 [105, 110, 104, 101, 114, 105, 116, 50]).2 2
        [105, 110, 104, 101, 114, 105, 116, 50]
      = LoadTemplate overlay testManager 2 [105, 110, 104, 101, 114, 105, 116, 50] :=
  ⟨by decide, by decide, by decide,
    ⟨0, _, 1, rfl, by decide, by decide⟩, by decide,
    ⟨0, [105, 110, 104, 101, 114, 105, 116, 45, 98, 114, 111, 107, 101, 110],
      { parent := some [110, 111, 110, 101, 120, 105, 115, 116, 101, 110, 116], own := [] },
      [110, 111, 110, 101, 120, 105, 115, 116, 101, 110, 116],
      rfl, by decide, rfl, by decide⟩, by decide,
    (LoadTemplate_failure_and_repeat overlay testManager 2
      [105, 110, 104, 101, 114, 105, 116, 50]).2.2.2.2⟩

end CCmpTemplateManager

namespace CBinarySerializer

/-! ## The bytes do not depend on the addresses of the objects -/

theorem renamed_of_eq (f : Nat → Nat) (s1 s2 t1 t2 : Ser) (h : Ser.Renamed f s1 s2)
    (ho1 : t1.out = s1.out) (hb1 : t1.backrefs = s1.backrefs)
    (ho2 : t2.out = s2.out) (hb2 : t2.backrefs = s2.backrefs) : Ser.Renamed f t1 t2 := by
  unfold Ser.Renamed
  rw [ho1, hb1, ho2, hb2]
  exact h

theorem renamed_put (f : Nat → Nat) (a : List Nat) (s1 s2 : Ser) (h : Ser.Renamed f s1 s2) :
    Ser.Renamed f (Put a s1) (Put a s2) := by
  refine ⟨?_, h.2⟩
  rw [Put_out, Put_out, h.1]

theorem renamed_numberU8 (f : Nat → Nat) (env1 env2 : Env) (b : Nat) (s1 s2 : Ser)
    (h : Ser.Renamed f s1 s2) :
    Ser.Renamed f (ISerializer.NumberU8_Unbounded env1 b s1)
      (ISerializer.NumberU8_Unbounded env2 b s2) := by
  rw [NumberU8_Unbounded_eq, NumberU8_Unbounded_eq]
  exact renamed_put f _ s1 s2 h

theorem renamed_numberU32 (f : Nat → Nat) (env1 env2 : Env) (v : Nat) (s1 s2 : Ser)
    (h : Ser.Renamed f s1 s2) :
    Ser.Renamed f (ISerializer.NumberU32_Unbounded env1 v s1)
      (ISerializer.NumberU32_Unbounded env2 v s2) := by
  rw [NumberU32_Unbounded_eq, NumberU32_Unbounded_eq]
  exact renamed_put f _ s1 s2 h

theorem renamed_ScriptString (f : Nat → Nat) (env1 env2 : Env) (hE : Env.Renamed f env1 env2)
    (string : List Nat) (s1 s2 : Ser) (h : Ser.Renamed f s1 s2) :
    Ser.RenamedResult f (ScriptString env1 string s1) (ScriptString env2 string s2) := by
  unfold ScriptString
  rw [← hE.utf8 string]
  cases env1.utf8_from_wstring string with
  | none => exact ⟨rfl, h⟩
  | some str8 =>
    dsimp only
    rw [PutString_eq, PutString_eq]
    exact ⟨rfl, renamed_put f _ s1 s2 h⟩

theorem renamed_GetScriptBackrefTag (f : Nat → Nat) (hf : Function.Injective f)
    (env1 env2 : Env) (hE : Env.Renamed f env1 env2) (obj : Nat) (s1 s2 : Ser)
    (h : Ser.Renamed f s1 s2) :
    Ser.RenamedResult f (GetScriptBackrefTag env1 obj s1)
      (GetScriptBackrefTag env2 (f obj) s2) := by
  unfold GetScriptBackrefTag
  have hfind := h.2.2 obj
  cases h1 : StdMap.find obj s1.backrefs with
  | some tag =>
    rw [h1] at hfind
    rw [← hfind]
    exact ⟨rfl, h⟩
  | none =>
    rw [h1] at hfind
    rw [← hfind]
    dsimp only
    have hroot := hE.addRoot (.backref obj)
    simp only [Root.rename] at hroot
    rw [← hroot, ← h.2.1]
    have hr : Ser.Renamed f
        { s1 with backrefs :=
            StdMap.insert obj (toU32 (toU32 s1.backrefs.length + 1)) s1.backrefs }
        { s2 with backrefs :=
            StdMap.insert (f obj) (toU32 (toU32 s1.backrefs.length + 1)) s2.backrefs } := by
      refine ⟨h.1, ?_, ?_⟩
      · show (StdMap.insert obj _ s1.backrefs).length = (StdMap.insert (f obj) _ s2.backrefs).length
        rw [StdMap.length_insert obj _ _ h1, StdMap.length_insert (f obj) _ _ hfind.symm, h.2.1]
      · intro a
        show StdMap.find a (StdMap.insert obj _ s1.backrefs)
          = StdMap.find (f a) (StdMap.insert (f obj) _ s2.backrefs)
        by_cases ha : a = obj
        · subst ha
          rw [StdMap.find_insert_self a _ _ h1, StdMap.find_insert_self (f a) _ _ hfind.symm]
        · rw [StdMap.find_insert_of_ne a obj _ _ ha,
            StdMap.find_insert_of_ne (f a) (f obj) _ _ (fun hc => ha (hf hc))]
          exact h.2.2 a
    cases env1.JS_AddRoot (.backref obj) with
    | true => exact ⟨rfl, renamed_of_eq f _ _ _ _ hr rfl rfl rfl rfl⟩
    | false => exact ⟨rfl, hr⟩

theorem renamed_IdArrayWrapper_ctor (f : Nat → Nat) (env1 env2 : Env)
    (hE : Env.Renamed f env1 env2) (obj : Nat) (n : Nat) :
    ∀ (i : Nat) (s1 s2 : Ser), Ser.Renamed f s1 s2 →
      Ser.RenamedResult f (IdArrayWrapper_ctor env1 obj i n s1)
        (IdArrayWrapper_ctor env2 (f obj) i n s2) := by
  induction n with
  | zero =>
    intro i s1 s2 h
    exact ⟨rfl, h⟩
  | succ n ih =>
    intro i s1 s2 h
    unfold IdArrayWrapper_ctor
    have hroot := hE.addRoot (.idSlot obj i)
    simp only [Root.rename] at hroot
    rw [← hroot]
    cases env1.JS_AddRoot (.idSlot obj i) with
    | true => exact ih (i + 1) _ _ (renamed_of_eq f _ _ _ _ h rfl rfl rfl rfl)
    | false => exact ⟨rfl, h⟩

theorem renamed_propBody (f : Nat → Nat) (env1 env2 : Env) (hE : Env.Renamed f env1 env2)
    (handle1 handle2 : jsval → Ser → Outcome Unit × Ser)
    (hh : ∀ (v : jsval) (t1 t2 : Ser), Ser.Renamed f t1 t2 →
      Ser.RenamedResult f (handle1 v t1) (handle2 (v.rename f) t2))
    (obj : Nat) (idstr : List Nat) (s1 s2 : Ser) (h : Ser.Renamed f s1 s2) :
    Ser.RenamedResult f (propBody env1 handle1 obj idstr s1)
      (propBody env2 handle2 (f obj) idstr s2) := by
  unfold propBody
  rw [← hE.attributes obj idstr, ← hE.getter]
  cases env1.JS_GetUCPropertyAttributes obj idstr with
  | none => exact ⟨rfl, h⟩
  | some af =>
    obtain ⟨attrs, found⟩ := af
    dsimp only
    by_cases hfound : (!found) = true
    · rw [if_pos hfound, if_pos hfound]
      exact ⟨rfl, h⟩
    · rw [if_neg hfound, if_neg hfound]
      by_cases hget : attrs &&& env1.JSPROP_GETTER ≠ 0
      · rw [if_pos hget, if_pos hget]
        exact ⟨rfl, h⟩
      · rw [if_neg hget, if_neg hget]
        have hS := renamed_ScriptString f env1 env2 hE idstr s1 s2 h
        rcases e1 : ScriptString env1 idstr s1 with ⟨o1, t1⟩
        rcases e2 : ScriptString env2 idstr s2 with ⟨o2, t2⟩
        rw [e1, e2] at hS
        obtain ⟨ho, ht⟩ := hS
        dsimp only at ho ht
        subst ho
        cases o1 with
        | ok u =>
          cases u
          dsimp only
          have hP := hE.property obj idstr
          cases p1 : env1.JS_GetUCProperty obj idstr with
          | none =>
            rw [p1] at hP
            rw [← hP]
            exact ⟨rfl, ht⟩
          | some v =>
            rw [p1] at hP
            rw [← hP]
            exact hh v t1 t2 ht
        | throw e => exact ⟨rfl, ht⟩
        | outOfFuel => exact ⟨rfl, ht⟩

theorem renamed_propStep (f : Nat → Nat) (env1 env2 : Env) (hE : Env.Renamed f env1 env2)
    (handle1 handle2 : jsval → Ser → Outcome Unit × Ser)
    (hh : ∀ (v : jsval) (t1 t2 : Ser), Ser.Renamed f t1 t2 →
      Ser.RenamedResult f (handle1 v t1) (handle2 (v.rename f) t2))
    (obj i id1 id2 : Nat) (hid : env1.idName id1 = env2.idName id2) (s1 s2 : Ser)
    (h : Ser.Renamed f s1 s2) :
    Ser.RenamedResult f (propStep env1 handle1 obj i id1 s1)
      (propStep env2 handle2 (f obj) i id2 s2) := by
  rw [propStep_idName, propStep_idName, ← hid]
  have hroot := hE.addRoot (.idstr obj i)
  simp only [Root.rename] at hroot
  rw [← hroot]
  cases env1.idName id1 with
  | none => exact ⟨rfl, h⟩
  | some idstr =>
    dsimp only
    cases env1.JS_AddRoot (.idstr obj i) with
    | false => exact ⟨rfl, h⟩
    | true =>
      have hB := renamed_propBody f env1 env2 hE handle1 handle2 hh obj idstr
        { s1 with roots := Root.idstr obj i :: s1.roots }
        { s2 with roots := Root.idstr (f obj) i :: s2.roots }
        (renamed_of_eq f _ _ _ _ h rfl rfl rfl rfl)
      exact ⟨hB.1, renamed_of_eq f _ _ _ _ hB.2 rfl rfl rfl rfl⟩

theorem renamed_propLoop (f : Nat → Nat) (env1 env2 : Env) (hE : Env.Renamed f env1 env2)
    (handle1 handle2 : jsval → Ser → Outcome Unit × Ser)
    (hh : ∀ (v : jsval) (t1 t2 : Ser), Ser.Renamed f t1 t2 →
      Ser.RenamedResult f (handle1 v t1) (handle2 (v.rename f) t2))
    (obj : Nat) (ids1 ids2 : List Nat)
    (hids : List.Forall₂ (fun id1 id2 => env1.idName id1 = env2.idName id2) ids1 ids2) :
    ∀ (i : Nat) (s1 s2 : Ser), Ser.Renamed f s1 s2 →
      Ser.RenamedResult f (propLoop env1 handle1 obj i ids1 s1)
        (propLoop env2 handle2 (f obj) i ids2 s2) := by
  induction hids with
  | nil =>
    intro i s1 s2 h
    exact ⟨rfl, h⟩
  | @cons id1 id2 rest1 rest2 hid _ ih =>
    intro i s1 s2 h
    unfold propLoop
    have hS := renamed_propStep f env1 env2 hE handle1 handle2 hh obj i id1 id2 hid s1 s2 h
    rcases e1 : propStep env1 handle1 obj i id1 s1 with ⟨o1, t1⟩
    rcases e2 : propStep env2 handle2 (f obj) i id2 s2 with ⟨o2, t2⟩
    rw [e1, e2] at hS
    obtain ⟨ho, ht⟩ := hS
    dsimp only at ho ht
    subst ho
    cases o1 with
    | ok u =>
      cases u
      exact ih (i + 1) t1 t2 ht
    | throw e => exact ⟨rfl, ht⟩
    | outOfFuel => exact ⟨rfl, ht⟩

theorem renamed_typeOf (f : Nat → Nat) (env1 env2 : Env) (hE : Env.Renamed f env1 env2)
    (val : jsval) : JS_TypeOfValue env1 val = JS_TypeOfValue env2 (val.rename f) := by
  cases val with
  | object obj =>
    simp only [JS_TypeOfValue, jsval.rename]
    rw [hE.kind obj]
  | void => rfl
  | null => rfl
  | string c => rfl
  | int i => rfl
  | double d => rfl
  | boolean b => rfl

theorem renamed_objectTag (f : Nat → Nat) (env1 env2 : Env) (hE : Env.Renamed f env1 env2)
    (obj : Nat) : objectTag env1 obj = objectTag env2 (f obj) := by
  unfold objectTag JS_IsArrayObject
  rw [← hE.kind obj, hE.tagArray, hE.tagObject]

theorem typeOf_object_cases (env : Env) (obj : Nat) :
    JS_TypeOfValue env (.object obj) = .JSTYPE_OBJECT ∨
    JS_TypeOfValue env (.object obj) = .JSTYPE_FUNCTION ∨
    JS_TypeOfValue env (.object obj) = .JSTYPE_XML := by
  simp only [JS_TypeOfValue]
  cases env.kindOf obj <;> simp

theorem renamed_HandleScriptVal (f : Nat → Nat) (hf : Function.Injective f)
    (env1 env2 : Env) (hE : Env.Renamed f env1 env2) (fuel : Nat) :
    ∀ (val : jsval) (s1 s2 : Ser), Ser.Renamed f s1 s2 →
      Ser.RenamedResult f (HandleScriptVal env1 fuel val s1)
        (HandleScriptVal env2 fuel (val.rename f) s2) := by
  induction fuel with
  | zero =>
    intro val s1 s2 h
    exact ⟨rfl, h⟩
  | succ fuel ih =>
    intro val s1 s2 h
    cases val with
    | object obj =>
      have hT12 := renamed_typeOf f env1 env2 hE (.object obj)
      simp only [jsval.rename] at hT12 ⊢
      rcases typeOf_object_cases env1 obj with hT | hT | hT
      · rw [HandleScriptVal_object env1 fuel obj s1 hT,
          HandleScriptVal_object env2 fuel (f obj) s2 (hT12 ▸ hT)]
        have hG := renamed_GetScriptBackrefTag f hf env1 env2 hE obj s1 s2 h
        rcases e1 : GetScriptBackrefTag env1 obj s1 with ⟨o1, t1⟩
        rcases e2 : GetScriptBackrefTag env2 (f obj) s2 with ⟨o2, t2⟩
        rw [e1, e2] at hG
        obtain ⟨ho, ht⟩ := hG
        dsimp only at ho ht
        subst ho
        cases o1 with
        | throw e => exact ⟨rfl, ht⟩
        | outOfFuel => exact ⟨rfl, ht⟩
        | ok tag =>
          dsimp only
          by_cases htag : tag ≠ 0
          · rw [if_pos htag, if_pos htag, ← hE.tagBackref]
            exact ⟨rfl, renamed_numberU32 f env1 env2 _ _ _
              (renamed_numberU8 f env1 env2 _ _ _ ht)⟩
          · rw [if_neg htag, if_neg htag, ← renamed_objectTag f env1 env2 hE obj]
            have ht2 := renamed_numberU8 f env1 env2 (objectTag env1 obj) t1 t2 ht
            have hen := hE.enumerate obj
            rcases he1 : env1.JS_Enumerate obj with _ | ida1 <;>
              rcases he2 : env2.JS_Enumerate (f obj) with _ | ida2 <;>
              rw [he1, he2] at hen
            · exact ⟨rfl, ht2⟩
            · cases hen
            · cases hen
            · have hids : List.Forall₂ (fun id1 id2 => env1.idName id1 = env2.idName id2)
                  ida1 ida2 := by
                cases hen with
                | some hr => exact hr
              have hlen := hids.length_eq
              dsimp only
              rw [← hlen]
              have hC := renamed_IdArrayWrapper_ctor f env1 env2 hE obj ida1.length 0 _ _ ht2
              rcases c1 : IdArrayWrapper_ctor env1 obj 0 ida1.length
                (ISerializer.NumberU8_Unbounded env1 (objectTag env1 obj) t1) with ⟨oc1, u1⟩
              rcases c2 : IdArrayWrapper_ctor env2 (f obj) 0 ida1.length
                (ISerializer.NumberU8_Unbounded env2 (objectTag env1 obj) t2) with ⟨oc2, u2⟩
              rw [c1, c2] at hC
              obtain ⟨hoc, hu⟩ := hC
              dsimp only at hoc hu
              subst hoc
              cases oc1 with
              | throw e => exact ⟨rfl, hu⟩
              | outOfFuel => exact ⟨rfl, hu⟩
              | ok u =>
                cases u
                dsimp only
                have hL := renamed_propLoop f env1 env2 hE (HandleScriptVal env1 fuel)
                  (HandleScriptVal env2 fuel) ih obj ida1 ida2 hids 0 _ _
                  (renamed_numberU32 f env1 env2 (toU32 ida1.length) u1 u2 hu)
                exact ⟨hL.1, renamed_of_eq f _ _ _ _ hL.2 rfl rfl rfl rfl⟩
      · rw [HandleScriptVal_function_xml env1 fuel _ s1 (Or.inl hT),
          HandleScriptVal_function_xml env2 fuel _ s2 (Or.inl (hT12 ▸ hT))]
        exact ⟨rfl, h⟩
      · rw [HandleScriptVal_function_xml env1 fuel _ s1 (Or.inr hT),
          HandleScriptVal_function_xml env2 fuel _ s2 (Or.inr (hT12 ▸ hT))]
        exact ⟨rfl, h⟩
    | void =>
      simp only [HandleScriptVal, JS_TypeOfValue, jsval.rename]
      rw [← hE.tagVoid]
      exact ⟨rfl, renamed_numberU8 f env1 env2 _ _ _ h⟩
    | null =>
      simp only [HandleScriptVal, JS_TypeOfValue, jsval.rename, JSVAL_IS_NULL, if_true]
      rw [← hE.tagNull]
      exact ⟨rfl, renamed_numberU8 f env1 env2 _ _ _ h⟩
    | string c =>
      simp only [HandleScriptVal, JS_TypeOfValue, jsval.rename]
      rw [← hE.tagString]
      exact renamed_ScriptString f env1 env2 hE _ _ _ (renamed_numberU8 f env1 env2 _ _ _ h)
    | int i =>
      have hi : JSVAL_IS_INT env2 (.int i) = JSVAL_IS_INT env1 (.int i) := by
        simp only [JSVAL_IS_INT, hE.intMin, hE.intMax]
      simp only [HandleScriptVal, JS_TypeOfValue, jsval.rename]
      rw [hi, ← hE.tagInt, ← hE.tagDouble, ← hE.intMin, ← hE.intMax]
      cases JSVAL_IS_INT env1 (.int i) with
      | true =>
        simp only [if_true]
        unfold ISerializer.NumberI32
        have h8 := renamed_numberU8 f env1 env2 env1.SCRIPT_TYPE_INT s1 s2 h
        split
        · rw [PutNumber_i32_eq, PutNumber_i32_eq]
          exact ⟨rfl, renamed_put f _ _ _ h8⟩
        · exact ⟨rfl, h8⟩
      | false =>
        simp only [Bool.false_eq_true, if_false]
        have h8 := renamed_numberU8 f env1 env2 env1.SCRIPT_TYPE_DOUBLE s1 s2 h
        refine ⟨rfl, ?_⟩
        unfold ISerializer.NumberDouble_Unbounded PutNumber_double
        rw [← hE.host]
        exact renamed_put f _ _ _ h8
    | double d =>
      simp only [HandleScriptVal, JS_TypeOfValue, jsval.rename, JSVAL_IS_INT]
      rw [← hE.tagDouble]
      have h8 := renamed_numberU8 f env1 env2 env1.SCRIPT_TYPE_DOUBLE s1 s2 h
      refine ⟨rfl, ?_⟩
      unfold ISerializer.NumberDouble_Unbounded PutNumber_double
      rw [← hE.host]
      exact renamed_put f _ _ _ h8
    | boolean b =>
      simp only [HandleScriptVal, JS_TypeOfValue, jsval.rename]
      rw [← hE.tagBoolean]
      exact ⟨rfl, renamed_numberU8 f env1 env2 _ _ _
        (renamed_numberU8 f env1 env2 _ _ _ h)⟩

theorem swapAddress_injective : Function.Injective swapAddress := by
  intro a b h
  unfold swapAddress at h
  split at h <;> split at h <;> (try split at h) <;> (try split at h) <;> omega

theorem swapAddress_far (a : Nat) : swapAddress (a + 2) = a + 2 := by
  simp [swapAddress]

/-- The value graph of `Env.sharedArraySwapped` is that of `Env.sharedArray` with the two
arrays at exchanged addresses. -/
theorem sharedArray_renamed :
    Env.Renamed swapAddress Env.sharedArray Env.sharedArraySwapped where
  host := rfl
  tagVoid := rfl
  tagNull := rfl
  tagArray := rfl
  tagObject := rfl
  tagString := rfl
  tagInt := rfl
  tagDouble := rfl
  tagBoolean := rfl
  tagBackref := rfl
  intMin := rfl
  intMax := rfl
  getter := rfl
  utf8 := fun _ => rfl
  kind := by
    intro a
    rcases a with _ | _ | a
    · rfl
    · rfl
    · rw [swapAddress_far]
      rfl
  enumerate := by
    intro a
    rcases a with _ | _ | a
    · exact Option.Rel.some (List.Forall₂.cons rfl (List.Forall₂.cons rfl List.Forall₂.nil))
    · exact Option.Rel.some List.Forall₂.nil
    · rw [swapAddress_far]
      exact Option.Rel.none
  attributes := by
    intro a name
    rcases a with _ | _ | a
    · simp [Env.sharedArray, Env.sharedArraySwapped, Env.ofHeap, swapAddress,
        JSObject.lookup, List.find?]
      cases decide ([48] = name) <;> cases decide ([49] = name) <;> rfl
    · rfl
    · rw [swapAddress_far]
      rfl
  property := by
    intro a name
    rcases a with _ | _ | a
    · simp [Env.sharedArray, Env.sharedArraySwapped, Env.ofHeap, swapAddress,
        JSObject.lookup, List.find?]
      cases decide ([48] = name) <;> cases decide ([49] = name) <;> rfl
    · rfl
    · rw [swapAddress_far]
      rfl
  addRoot := fun _ => rfl

/-- C24: wire-byte determinism.  Let the value graph of `env2` be the value graph of `env1`
with the objects moved to other addresses by an injective map `f` that keeps kinds, property
names, enumeration order, attributes and primitive values.  Then `HandleScriptVal` on a value
of the first graph and on its image in the second, each with a fresh serializer, ends with
the same outcome and emits the same bytes; and the same holds for any two serializers that
have written the same bytes and whose backref tables give an object and its image the same
tag, after which the two states agree in this way again.  The order of the entries in the
table, which is the order of the addresses, does not show in the bytes. -/
theorem HandleScriptVal_bytes_ignore_addresses (f : Nat → Nat) (hf : Function.Injective f)
    (env1 env2 : Env) (hE : Env.Renamed f env1 env2) (fuel : Nat) (val : jsval) :
    (HandleScriptVal env1 fuel val Ser.fresh).1
      = (HandleScriptVal env2 fuel (val.rename f) Ser.fresh).1 ∧
    (HandleScriptVal env1 fuel val Ser.fresh).2.out
      = (HandleScriptVal env2 fuel (val.rename f) Ser.fresh).2.out ∧
    ∀ s1 s2 : Ser, Ser.Renamed f s1 s2 →
      (HandleScriptVal env1 fuel val s1).1 = (HandleScriptVal env2 fuel (val.rename f) s2).1 ∧
      (HandleScriptVal env1 fuel val s1).2.out
        = (HandleScriptVal env2 fuel (val.rename f) s2).2.out ∧
      Ser.Renamed f (HandleScriptVal env1 fuel val s1).2
        (HandleScriptVal env2 fuel (val.rename f) s2).2 := by
  have hfresh : Ser.Renamed f Ser.fresh Ser.fresh := ⟨rfl, rfl, fun _ => rfl⟩
  have h0 := renamed_HandleScriptVal f hf env1 env2 hE fuel val Ser.fresh Ser.fresh hfresh
  refine ⟨h0.1, h0.2.1, ?_⟩
  intro s1 s2 h
  have h1 := renamed_HandleScriptVal f hf env1 env2 hE fuel val s1 s2 h
  exact ⟨h1.1, h1.2.1, h1.2⟩

/-- Witness of `HandleScriptVal_bytes_ignore_addresses`: for `var x = []; var y = [x, x];`
with `y` at address `0` and `x` at address `1`, and with the two addresses exchanged, the
backref tables list the two arrays in different orders and the bytes are the same. -/
theorem HandleScriptVal_bytes_ignore_addresses_witness :
    Function.Injective swapAddress ∧
    Env.Renamed swapAddress Env.sharedArray Env.sharedArraySwapped ∧
    (HandleScriptVal Env.sharedArray 2 (.object 0) Ser.fresh).2.backrefs = [(0, 1), (1, 2)] ∧
    (HandleScriptVal Env.sharedArraySwapped 2 (.object 1) Ser.fresh).2.backrefs
      = [(0, 2), (1, 1)] ∧
    (HandleScriptVal Env.sharedArray 2 (.object 0) Ser.fresh).2.out
      = [2, 2, 0, 0, 0, 1, 0, 0, 0, 48, 2, 0, 0, 0, 0, 1, 0, 0, 0, 49, 8, 2, 0, 0, 0] ∧
    (HandleScriptVal Env.sharedArray 2 (.object 0) Ser.fresh).2.out
      = (HandleScriptVal Env.sharedArraySwapped 2 ((jsval.object 0).rename swapAddress)
          Ser.fresh).2.out :=
  ⟨swapAddress_injective, sharedArray_renamed, by decide, by decide, by decide,
    (HandleScriptVal_bytes_ignore_addresses swapAddress swapAddress_injective
      Env.sharedArray Env.sharedArraySwapped sharedArray_renamed 2 (.object 0)).2.1⟩

/-! ## Definitions and backrefs over the whole output of a serializer -/

theorem definitions_append (l1 l2 : List Emitted) :
    Emitted.definitions (l1 ++ l2) = Emitted.definitions l1 ++ Emitted.definitions l2 := by
  induction l1 with
  | nil => rfl
  | cons e rest ih =>
    cases e with
    | definition obj =>
      show obj :: Emitted.definitions (rest ++ l2) = obj :: Emitted.definitions rest ++ _
      rw [ih]
      rfl
    | backRef tag =>
      show Emitted.definitions (rest ++ l2) = Emitted.definitions rest ++ _
      exact ih

theorem definitions_map_definition (objs : List Nat) :
    Emitted.definitions (objs.map Emitted.definition) = objs := by
  induction objs with
  | nil => rfl
  | cons o rest ih => simp only [List.map_cons, Emitted.definitions, ih]

theorem PutScriptVal_sequence_append (env : Env) (fuel : Nat) (values more : List jsval) :
    ∀ (s s1 : Ser), PutScriptVal_sequence env fuel values s = (.ok (), s1) →
      PutScriptVal_sequence env fuel (values ++ more) s
        = PutScriptVal_sequence env fuel more s1 ∧
      PutScriptVal_sequenceLog env fuel (values ++ more) s
        = PutScriptVal_sequenceLog env fuel values s
          ++ PutScriptVal_sequenceLog env fuel more s1 := by
  induction values with
  | nil =>
    intro s s1 h
    simp only [PutScriptVal_sequence, Prod.mk.injEq, true_and] at h
    subst h
    exact ⟨rfl, rfl⟩
  | cons v rest ih =>
    intro s s1 h
    simp only [List.cons_append, PutScriptVal_sequence, PutScriptVal_sequenceLog] at h ⊢
    rcases hv : PutScriptVal env fuel v s with ⟨o, t⟩
    rw [hv] at h
    cases o with
    | ok u =>
      cases u
      dsimp only at h ⊢
      have h2 := ih t s1 h
      refine ⟨h2.1, ?_⟩
      show HandleScriptValLog env fuel v s ++ PutScriptVal_sequenceLog env fuel (rest ++ more) t
        = _
      rw [h2.2, List.append_assoc]
    | throw e =>
      dsimp only at h
      cases h
    | outOfFuel =>
      dsimp only at h
      cases h

/-- In the engine of empty objects, an object that is not in the table is entered in it and
defined. -/
theorem emptyObjects_new (obj : Nat) (s : Ser) (h : StdMap.find obj s.backrefs = none) :
    (PutScriptVal Env.emptyObjects 1 (.object obj) s).1 = .ok () ∧
    (PutScriptVal Env.emptyObjects 1 (.object obj) s).2.backrefs
      = StdMap.insert obj (toU32 (toU32 s.backrefs.length + 1)) s.backrefs ∧
    HandleScriptValLog Env.emptyObjects 1 (.object obj) s = [.definition obj] := by
  have hg : GetScriptBackrefTag Env.emptyObjects obj s
      = (.ok 0, { s with
          backrefs := StdMap.insert obj (toU32 (toU32 s.backrefs.length + 1)) s.backrefs
          roots := Root.backref obj :: s.roots }) := by
    unfold GetScriptBackrefTag
    rw [h]
    rfl
  refine ⟨?_, ?_, ?_⟩
  · unfold PutScriptVal
    rw [HandleScriptVal_object Env.emptyObjects 0 obj s rfl, hg]
    rfl
  · unfold PutScriptVal
    rw [HandleScriptVal_object Env.emptyObjects 0 obj s rfl, hg]
    rfl
  · unfold HandleScriptValLog
    simp only [JS_TypeOfValue, JSVAL_IS_NULL, JSVAL_TO_OBJECT]
    rw [hg]
    rfl

/-- In the engine of empty objects, an object that is in the table with the tag `0` is
defined again. -/
theorem emptyObjects_zero (obj : Nat) (s : Ser) (h : StdMap.find obj s.backrefs = some 0) :
    (PutScriptVal Env.emptyObjects 1 (.object obj) s).1 = .ok () ∧
    HandleScriptValLog Env.emptyObjects 1 (.object obj) s = [.definition obj] := by
  have hg : GetScriptBackrefTag Env.emptyObjects obj s = (.ok 0, s) := by
    unfold GetScriptBackrefTag
    rw [h]
  refine ⟨?_, ?_⟩
  · unfold PutScriptVal
    rw [HandleScriptVal_object Env.emptyObjects 0 obj s rfl, hg]
    rfl
  · unfold HandleScriptValLog
    simp only [JS_TypeOfValue, JSVAL_IS_NULL, JSVAL_TO_OBJECT]
    rw [hg]
    rfl

/-- In the engine of empty objects, a sequence of calls on distinct objects that are not in
the table succeeds and defines each of them. -/
theorem emptyObjects_sequence (objs : List Nat) :
    ∀ s : Ser, objs.Nodup → (∀ o ∈ objs, StdMap.find o s.backrefs = none) →
      ∃ s1, PutScriptVal_sequence Env.emptyObjects 1 (objs.map jsval.object) s = (.ok (), s1) ∧
        s1.backrefs.length = s.backrefs.length + objs.length ∧
        (∀ k, k ∉ objs → StdMap.find k s1.backrefs = StdMap.find k s.backrefs) ∧
        PutScriptVal_sequenceLog Env.emptyObjects 1 (objs.map jsval.object) s
          = objs.map Emitted.definition := by
  induction objs with
  | nil =>
    intro s _ _
    exact ⟨s, rfl, rfl, fun _ _ => rfl, rfl⟩
  | cons o rest ih =>
    intro s hnd hnone
    have ho := hnone o (List.mem_cons_self _ _)
    have hnew := emptyObjects_new o s ho
    rcases hv : PutScriptVal Env.emptyObjects 1 (.object o) s with ⟨out, t⟩
    rw [hv] at hnew
    obtain ⟨hout, htab, hlog⟩ := hnew
    dsimp only at hout htab
    subst hout
    have hnd1 := List.nodup_cons.mp hnd
    have hrest : ∀ o1 ∈ rest, StdMap.find o1 t.backrefs = none := by
      intro o1 h1
      have hne : o1 ≠ o := fun hc => hnd1.1 (hc ▸ h1)
      rw [htab, StdMap.find_insert_of_ne o1 o _ _ hne]
      exact hnone o1 (List.mem_cons_of_mem _ h1)
    obtain ⟨s1, hseq, hlen, hfind, hlogs⟩ := ih t hnd1.2 hrest
    refine ⟨s1, ?_, ?_, ?_, ?_⟩
    · simp only [List.map_cons, PutScriptVal_sequence, hv]
      exact hseq
    · rw [hlen, htab, StdMap.length_insert o _ _ ho, List.length_cons]
      omega
    · intro k hk
      have hk1 : k ∉ rest := fun hc => hk (List.mem_cons_of_mem _ hc)
      have hk2 : k ≠ o := fun hc => hk (hc ▸ List.mem_cons_self _ _)
      rw [hfind k hk1, htab, StdMap.find_insert_of_ne k o _ _ hk2]
    · simp only [List.map_cons, PutScriptVal_sequenceLog, hv, hlog, hlogs]
      rfl

/-- When the tag counter wraps to `0` for the object `n`, presented after the `n` objects
`0 .. n - 1`, a second presentation of `n` defines it again. -/
theorem emptyObjects_redefinition (n : Nat) (h : toU32 (toU32 n + 1) = 0) :
    (PutScriptVal_sequence Env.emptyObjects 1
      ((List.range n).map jsval.object ++ [.object n, .object n]) Ser.fresh).1 = .ok () ∧
    (Emitted.definitions (PutScriptVal_sequenceLog Env.emptyObjects 1
      ((List.range n).map jsval.object ++ [.object n, .object n]) Ser.fresh)).count n
      = 2 := by
  obtain ⟨sA, hseq, hlen, hfind, hlog⟩ :=
    emptyObjects_sequence (List.range n) Ser.fresh (List.nodup_range n) (fun _ _ => rfl)
  have happ := PutScriptVal_sequence_append Env.emptyObjects 1
    ((List.range n).map jsval.object) [.object n, .object n] Ser.fresh sA hseq
  have hnA : StdMap.find n sA.backrefs = none := by
    rw [hfind n (by simp)]
    rfl
  have hlenA : sA.backrefs.length = n := by
    rw [hlen, List.length_range]
    exact Nat.zero_add n
  have hnew := emptyObjects_new n sA hnA
  rcases hv : PutScriptVal Env.emptyObjects 1 (.object n) sA with ⟨out, sB⟩
  rw [hv] at hnew
  obtain ⟨hout, htab, hlogB⟩ := hnew
  dsimp only at hout htab
  subst hout
  have hnB : StdMap.find n sB.backrefs = some 0 := by
    rw [htab, StdMap.find_insert_self n _ _ hnA, hlenA, h]
  have hzero := emptyObjects_zero n sB hnB
  rcases hw : PutScriptVal Env.emptyObjects 1 (.object n) sB with ⟨out2, sC⟩
  rw [hw] at hzero
  obtain ⟨hout2, _⟩ := hzero
  dsimp only at hout2
  subst hout2
  have hlogC := (emptyObjects_zero n sB hnB).2
  rw [happ.1, happ.2, hlog]
  constructor
  · simp only [PutScriptVal_sequence, hv, hw]
  · simp only [PutScriptVal_sequenceLog, hv, hw, hlogB, hlogC, definitions_append,
      definitions_map_definition, List.append_nil]
    rw [List.count_append, List.count_eq_zero_of_not_mem (by simp)]
    simp [Emitted.definitions]

/-- C25, counterexample: in one serializer, `2^32 - 1` objects are presented by successful
`PutScriptVal` calls, then one more object, twice.  The 32-bit tag counter wraps, the last
object is entered with the tag `0`, which is the answer for "not yet in the table", and its
definition is emitted by both calls. -/
theorem PutScriptVal_redefines_after_wrap :
    (PutScriptVal_sequence Env.emptyObjects 1
      ((List.range 4294967295).map jsval.object
        ++ [.object 4294967295, .object 4294967295]) Ser.fresh).1 = .ok () ∧
    (Emitted.definitions (PutScriptVal_sequenceLog Env.emptyObjects 1
      ((List.range 4294967295).map jsval.object
        ++ [.object 4294967295, .object 4294967295]) Ser.fresh)).count 4294967295 = 2 :=
  emptyObjects_redefinition 4294967295 (by norm_num [toU32])

theorem defined_append (l1 l2 : List Emitted) :
    ∀ n, Emitted.defined n (l1 ++ l2)
      = (Emitted.defined n l1 && Emitted.defined (n + (Emitted.definitions l1).length) l2) := by
  induction l1 with
  | nil =>
    intro n
    simp [Emitted.defined, Emitted.definitions]
  | cons e rest ih =>
    intro n
    cases e with
    | definition obj =>
      show Emitted.defined (n + 1) (rest ++ l2) = _
      rw [ih (n + 1)]
      simp only [Emitted.defined, Emitted.definitions, List.length_cons]
      rw [show n + 1 + (Emitted.definitions rest).length
        = n + ((Emitted.definitions rest).length + 1) by omega]
    | backRef tag =>
      show (decide (1 ≤ tag) && decide (tag ≤ n) && Emitted.defined n (rest ++ l2)) = _
      rw [ih n]
      simp only [Emitted.defined, Emitted.definitions, Bool.and_assoc]

theorem consistent_of_backrefs (objects : List Nat) (log : List Emitted) (s t : Ser)
    (hb : t.backrefs = s.backrefs) (h : s.Consistent objects log) :
    t.Consistent objects log := by
  refine ⟨?_, h.2.1, h.2.2⟩
  unfold Ser.TaggedInOrder
  rw [hb]
  exact h.1

theorem consistent_backRef (objects : List Nat) (log : List Emitted) (s : Ser) (tag : Nat)
    (h : s.Consistent objects log) (h1 : 1 ≤ tag)
    (h2 : tag ≤ (Emitted.definitions log).length) :
    s.Consistent objects (log ++ [.backRef tag]) := by
  have hd : Emitted.definitions (log ++ [.backRef tag]) = Emitted.definitions log := by
    rw [definitions_append]
    exact List.append_nil _
  refine ⟨?_, ?_, ?_⟩
  · rw [hd]
    exact h.1
  · rw [hd]
    exact h.2.1
  · rw [defined_append, h.2.2]
    simp [Emitted.defined, h1, h2]

theorem HandleScriptValLog_object (env : Env) (fuel obj : Nat) (s : Ser)
    (hT : JS_TypeOfValue env (.object obj) = .JSTYPE_OBJECT) :
    HandleScriptValLog env (fuel + 1) (.object obj) s =
      match GetScriptBackrefTag env obj s with
      | (.ok tag, s1) =>
        if tag ≠ 0 then [.backRef tag]
        else
          .definition obj ::
            match env.JS_Enumerate obj with
            | none => []
            | some ida =>
              match IdArrayWrapper_ctor env obj 0 ida.length
                  (ISerializer.NumberU8_Unbounded env (objectTag env obj) s1) with
              | (.ok (), s3) =>
                propLoopLog env (HandleScriptVal env fuel) (HandleScriptValLog env fuel)
                  obj 0 ida (ISerializer.NumberU32_Unbounded env (toU32 ida.length) s3)
              | _ => []
      | _ => [] := by
  simp only [HandleScriptValLog, hT, JSVAL_IS_NULL, JSVAL_TO_OBJECT]
  rfl

theorem HandleScriptValLog_no_object (env : Env) (fuel : Nat) (val : jsval) (s : Ser)
    (h : ∀ b, val = .object b → JS_TypeOfValue env (.object b) ≠ .JSTYPE_OBJECT) :
    HandleScriptValLog env fuel val s = [] := by
  cases fuel with
  | zero => rfl
  | succ fuel =>
    cases val with
    | object b =>
      have hb := h b rfl
      rcases typeOf_object_cases env b with hT | hT | hT
      · exact absurd hT hb
      · simp only [HandleScriptValLog, hT]
      · simp only [HandleScriptValLog, hT]
    | void => rfl
    | null => rfl
    | string c => rfl
    | int i => rfl
    | double d => rfl
    | boolean b => rfl

theorem propBody_consistent (env : Env) (objects : List Nat)
    (handle : jsval → Ser → Outcome Unit × Ser) (handleLog : jsval → Ser → List Emitted)
    (hh : ∀ (v : jsval) (t : Ser) (log : List Emitted), t.Consistent objects log →
      (∀ b, v = .object b → b ∈ objects) → (handle v t).1 = .ok () →
      (handle v t).2.Consistent objects (log ++ handleLog v t))
    (hw : env.ValuesWithin objects) (obj : Nat) (idstr : List Nat) (s : Ser)
    (log : List Emitted) (hs : s.Consistent objects log)
    (hok : (propBody env handle obj idstr s).1 = .ok ()) :
    (propBody env handle obj idstr s).2.Consistent objects
      (log ++ propBodyLog env handleLog obj idstr s) := by
  unfold propBody at hok ⊢
  unfold propBodyLog
  cases ha : env.JS_GetUCPropertyAttributes obj idstr with
  | none =>
    rw [ha] at hok
    cases hok
  | some af =>
    obtain ⟨attrs, found⟩ := af
    rw [ha] at hok
    dsimp only at hok ⊢
    by_cases hfound : (!found) = true
    · rw [if_pos hfound] at hok
      cases hok
    · rw [if_neg hfound] at hok
      rw [if_neg hfound, if_neg hfound]
      by_cases hget : attrs &&& env.JSPROP_GETTER ≠ 0
      · rw [if_pos hget] at hok
        cases hok
      · rw [if_neg hget] at hok
        rw [if_neg hget, if_neg hget]
        have hb := ScriptString_backrefs env idstr s
        rcases e1 : ScriptString env idstr s with ⟨o1, s1⟩
        rw [e1] at hok hb
        cases o1 with
        | throw e => cases hok
        | outOfFuel => cases hok
        | ok u =>
          cases u
          dsimp only at hok hb ⊢
          cases hp : env.JS_GetUCProperty obj idstr with
          | none =>
            rw [hp] at hok
            cases hok
          | some v =>
            rw [hp] at hok
            dsimp only at hok ⊢
            refine hh v s1 log (consistent_of_backrefs objects log s s1 hb hs) ?_ hok
            intro b hvb
            rw [hvb] at hp
            exact hw obj idstr b hp

theorem propStep_consistent (env : Env) (objects : List Nat)
    (handle : jsval → Ser → Outcome Unit × Ser) (handleLog : jsval → Ser → List Emitted)
    (hh : ∀ (v : jsval) (t : Ser) (log : List Emitted), t.Consistent objects log →
      (∀ b, v = .object b → b ∈ objects) → (handle v t).1 = .ok () →
      (handle v t).2.Consistent objects (log ++ handleLog v t))
    (hw : env.ValuesWithin objects) (obj i id : Nat) (s : Ser)
    (log : List Emitted) (hs : s.Consistent objects log)
    (hok : (propStep env handle obj i id s).1 = .ok ()) :
    (propStep env handle obj i id s).2.Consistent objects
      (log ++ propStepLog env handleLog obj i id s) := by
  unfold propStep at hok ⊢
  unfold propStepLog
  cases h1 : env.JS_IdToValue id with
  | none =>
    rw [h1] at hok
    cases hok
  | some idval =>
    rw [h1] at hok
    dsimp only at hok ⊢
    cases h2 : env.JS_ValueToString idval with
    | none =>
      rw [h2] at hok
      cases hok
    | some idstr =>
      rw [h2] at hok
      dsimp only at hok ⊢
      by_cases h3 : env.JS_AddRoot (.idstr obj i) = true
      · rw [if_pos h3] at hok ⊢
        rw [if_pos h3]
        have hB := propBody_consistent env objects handle handleLog hh hw obj idstr
          { s with roots := Root.idstr obj i :: s.roots } log
          (consistent_of_backrefs objects log s _ rfl hs) hok
        exact consistent_of_backrefs objects _ _ _ rfl hB
      · rw [if_neg h3] at hok
        cases hok

theorem propLoop_consistent (env : Env) (objects : List Nat)
    (handle : jsval → Ser → Outcome Unit × Ser) (handleLog : jsval → Ser → List Emitted)
    (hh : ∀ (v : jsval) (t : Ser) (log : List Emitted), t.Consistent objects log →
      (∀ b, v = .object b → b ∈ objects) → (handle v t).1 = .ok () →
      (handle v t).2.Consistent objects (log ++ handleLog v t))
    (hw : env.ValuesWithin objects) (obj : Nat) (ids : List Nat) :
    ∀ (i : Nat) (s : Ser) (log : List Emitted), s.Consistent objects log →
      (propLoop env handle obj i ids s).1 = .ok () →
      (propLoop env handle obj i ids s).2.Consistent objects
        (log ++ propLoopLog env handle handleLog obj i ids s) := by
  induction ids with
  | nil =>
    intro i s log hs _
    simp only [propLoop, propLoopLog, List.append_nil]
    exact hs
  | cons id ids ih =>
    intro i s log hs hok
    unfold propLoop at hok ⊢
    unfold propLoopLog
    have hS := propStep_consistent env objects handle handleLog hh hw obj i id s log hs
    rcases e1 : propStep env handle obj i id s with ⟨o1, s1⟩
    rw [e1] at hok hS
    cases o1 with
    | throw e => cases hok
    | outOfFuel => cases hok
    | ok u =>
      cases u
      dsimp only at hok hS ⊢
      rw [← List.append_assoc]
      exact ih (i + 1) s1 _ (hS rfl) hok

theorem consistent_definition (objects : List Nat) (log : List Emitted) (s s1 : Ser)
    (obj : Nat) (h : s.Consistent objects log) (hobj : obj ∈ objects)
    (hmem : obj ∉ Emitted.definitions log)
    (htag : s1.TaggedInOrder (addSighting (Emitted.definitions log) obj)) :
    s1.Consistent objects (log ++ [.definition obj]) := by
  have hd : Emitted.definitions (log ++ [.definition obj])
      = Emitted.definitions log ++ [obj] := by
    rw [definitions_append]
    rfl
  unfold addSighting at htag
  rw [if_neg hmem] at htag
  refine ⟨?_, ?_, ?_⟩
  · rw [hd]
    exact htag
  · rw [hd]
    intro o ho
    rcases List.mem_append.mp ho with h1 | h1
    · exact h.2.1 o h1
    · rw [List.mem_singleton.mp h1]
      exact hobj
  · rw [defined_append, h.2.2]
    rfl

theorem HandleScriptVal_consistent (env : Env) (objects : List Nat)
    (hw : env.ValuesWithin objects) (hN : objects.length ≤ 2 ^ 32 - 1) (fuel : Nat) :
    ∀ (val : jsval) (s : Ser) (log : List Emitted), s.Consistent objects log →
      (∀ b, val = .object b → b ∈ objects) → (HandleScriptVal env fuel val s).1 = .ok () →
      (HandleScriptVal env fuel val s).2.Consistent objects
        (log ++ HandleScriptValLog env fuel val s) := by
  induction fuel with
  | zero =>
    intro val s log _ _ hok
    simp [HandleScriptVal] at hok
  | succ fuel ih =>
    intro val s log hs hv hok
    by_cases hobj : ∀ b, val = .object b → JS_TypeOfValue env (.object b) ≠ .JSTYPE_OBJECT
    · rw [HandleScriptValLog_no_object env _ val s hobj, List.append_nil]
      exact consistent_of_backrefs objects log s _
        (HandleScriptVal_no_object env fuel val s hobj).2 hs
    · push_neg at hobj
      obtain ⟨obj, hval, hT⟩ := hobj
      subst hval
      rw [HandleScriptVal_object env fuel obj s hT] at hok ⊢
      rw [HandleScriptValLog_object env fuel obj s hT]
      by_cases hmem : obj ∈ Emitted.definitions log
      · have hg := (GetScriptBackrefTag_returns env obj _ s hs.1).1 hmem
        rw [hg]
        dsimp only
        rw [if_pos (Nat.succ_ne_zero _), if_pos (Nat.succ_ne_zero _)]
        have hlt := List.indexOf_lt_length.mpr hmem
        exact consistent_of_backrefs objects _ s _ rfl
          (consistent_backRef objects log s _ hs (by omega) (by omega))
      · have hret := (GetScriptBackrefTag_returns env obj _ s hs.1).2 hmem
        have hlen : (Emitted.definitions log).length < 2 ^ 32 - 1 := by
          have hnd : (obj :: Emitted.definitions log).Nodup :=
            List.nodup_cons.mpr ⟨hmem, hs.1.1⟩
          have hsub : (obj :: Emitted.definitions log) ⊆ objects := by
            intro o ho
            rcases List.mem_cons.mp ho with h1 | h1
            · rw [h1]
              exact hv obj rfl
            · exact hs.2.1 o h1
          have hle := (List.subperm_of_subset hnd hsub).length_le
          simp only [List.length_cons] at hle
          omega
        have htag := GetScriptBackrefTag_tagged env obj _ s hs.1 hlen
        rcases hg : GetScriptBackrefTag env obj s with ⟨o, s1⟩
        rw [hg] at hok hret htag
        dsimp only at hret htag
        cases hroot : env.JS_AddRoot (.backref obj) with
        | false =>
          rw [hroot] at hret
          simp only [Bool.false_eq_true, if_false] at hret
          subst hret
          cases hok
        | true =>
          rw [hroot] at hret
          simp only [if_true] at hret
          subst hret
          dsimp only at hok ⊢
          rw [if_neg (by simp)] at hok
          rw [if_neg (by simp), if_neg (by simp)]
          have hL1 := consistent_definition objects log s s1 obj hs (hv obj rfl) hmem htag
          cases hen : env.JS_Enumerate obj with
          | none =>
            rw [hen] at hok
            cases hok
          | some ida =>
            rw [hen] at hok
            dsimp only at hok ⊢
            have hcb := IdArrayWrapper_ctor_backrefs env obj 0 ida.length
              (ISerializer.NumberU8_Unbounded env (objectTag env obj) s1)
            rcases hc : IdArrayWrapper_ctor env obj 0 ida.length
              (ISerializer.NumberU8_Unbounded env (objectTag env obj) s1) with ⟨oc, s3⟩
            rw [hc] at hok hcb
            cases oc with
            | throw e => cases hok
            | outOfFuel => cases hok
            | ok u =>
              cases u
              dsimp only at hok hcb ⊢
              have hb3 : (ISerializer.NumberU32_Unbounded env (toU32 ida.length) s3).backrefs
                  = s1.backrefs := hcb
              have hL := propLoop_consistent env objects (HandleScriptVal env fuel)
                (HandleScriptValLog env fuel) ih hw obj ida 0
                (ISerializer.NumberU32_Unbounded env (toU32 ida.length) s3)
                (log ++ [.definition obj])
                (consistent_of_backrefs objects _ s1 _ hb3 hL1) hok
              rw [List.append_assoc] at hL
              exact consistent_of_backrefs objects _ _ _ rfl hL

theorem PutScriptVal_sequence_keeps_consistent (env : Env) (objects : List Nat)
    (hw : env.ValuesWithin objects) (hN : objects.length ≤ 2 ^ 32 - 1) (fuel : Nat)
    (values : List jsval) :
    ∀ (s : Ser) (log : List Emitted), s.Consistent objects log →
      (∀ b, jsval.object b ∈ values → b ∈ objects) →
      (PutScriptVal_sequence env fuel values s).1 = .ok () →
      (PutScriptVal_sequence env fuel values s).2.Consistent objects
        (log ++ PutScriptVal_sequenceLog env fuel values s) := by
  induction values with
  | nil =>
    intro s log hs _ _
    simp only [PutScriptVal_sequence, PutScriptVal_sequenceLog, List.append_nil]
    exact hs
  | cons v rest ih =>
    intro s log hs hv hok
    unfold PutScriptVal_sequence at hok ⊢
    unfold PutScriptVal_sequenceLog
    have hH := HandleScriptVal_consistent env objects hw hN fuel v s log hs
      (fun b hb => hv b (hb ▸ List.mem_cons_self _ _))
    rcases e1 : PutScriptVal env fuel v s with ⟨o1, s1⟩
    have e2 : HandleScriptVal env fuel v s = (o1, s1) := e1
    rw [e1] at hok
    rw [e2] at hH
    cases o1 with
    | throw e => cases hok
    | outOfFuel => cases hok
    | ok u =>
      cases u
      dsimp only at hok hH ⊢
      rw [← List.append_assoc]
      exact ih s1 _ (hH rfl) (fun b hb => hv b (List.mem_cons_of_mem _ hb)) hok

/-- C25, amended: stream-level backref consistency, for a value graph of at most `2^32 - 1`
objects.  Let `objects` list the objects presented and every object a property can hold, at
most `2^32 - 1` of them.  Over the whole output of one fresh serializer after any number of
successful `PutScriptVal` calls: each object or array has its definition emitted at most
once; the `k`-th definition of the stream (counted from one) belongs to the object holding
the backref tag `k`, and every object of the table is defined in the stream; and every
emitted `{BackRef, t}` has `1 ≤ t ≤` the number of definitions emitted before it, so a decoder
that numbers the definitions in stream order never meets an undefined tag. -/
theorem PutScriptVal_sequence_consistent (env : Env) (objects : List Nat) (fuel : Nat)
    (values : List jsval) (hw : env.ValuesWithin objects)
    (hv : ∀ b, jsval.object b ∈ values → b ∈ objects)
    (hN : objects.length ≤ 2 ^ 32 - 1)
    (hok : (PutScriptVal_sequence env fuel values Ser.fresh).1 = .ok ()) :
    (Emitted.definitions (PutScriptVal_sequenceLog env fuel values Ser.fresh)).Nodup ∧
    (∀ (k : Nat)
      (h : k < (Emitted.definitions
        (PutScriptVal_sequenceLog env fuel values Ser.fresh)).length),
      StdMap.find
        ((Emitted.definitions (PutScriptVal_sequenceLog env fuel values Ser.fresh)).get ⟨k, h⟩)
        (PutScriptVal_sequence env fuel values Ser.fresh).2.backrefs = some (k + 1)) ∧
    (∀ obj tag : Nat,
      StdMap.find obj (PutScriptVal_sequence env fuel values Ser.fresh).2.backrefs = some tag →
      obj ∈ Emitted.definitions (PutScriptVal_sequenceLog env fuel values Ser.fresh) ∧
      tag = (Emitted.definitions
        (PutScriptVal_sequenceLog env fuel values Ser.fresh)).indexOf obj + 1) ∧
    (∀ (pre : List Emitted) (tag : Nat) (post : List Emitted),
      PutScriptVal_sequenceLog env fuel values Ser.fresh = pre ++ .backRef tag :: post →
      1 ≤ tag ∧ tag ≤ (Emitted.definitions pre).length) ∧
    Emitted.defined 0 (PutScriptVal_sequenceLog env fuel values Ser.fresh) = true := by
  have h0 : Ser.fresh.Consistent objects [] :=
    ⟨fresh_tagged, fun o ho => absurd ho (List.not_mem_nil o), rfl⟩
  have hC := PutScriptVal_sequence_keeps_consistent env objects hw hN fuel values
    Ser.fresh [] h0 hv hok
  rw [List.nil_append] at hC
  obtain ⟨⟨hnd, hlen, hfind⟩, _, hdef⟩ := hC
  refine ⟨hnd, ?_, ?_, ?_, hdef⟩
  · intro k h
    have hm := List.get_mem
      (Emitted.definitions (PutScriptVal_sequenceLog env fuel values Ser.fresh)) k h
    rw [hfind, if_pos hm, List.get_eq_getElem, List.indexOf_getElem hnd k h]
  · intro obj tag hf
    rw [hfind] at hf
    by_cases hm : obj ∈ Emitted.definitions
        (PutScriptVal_sequenceLog env fuel values Ser.fresh)
    · rw [if_pos hm] at hf
      exact ⟨hm, (Option.some.inj hf).symm⟩
    · rw [if_neg hm] at hf
      cases hf
  · intro pre tag post hsplit
    rw [hsplit, defined_append] at hdef
    simp only [Emitted.defined, Bool.and_eq_true, decide_eq_true_eq, Nat.zero_add] at hdef
    exact ⟨hdef.2.1.1, hdef.2.1.2⟩

/-- Witness of `PutScriptVal_sequence_consistent`: for `var x = []; var y = [x, x];` the
calls `PutScriptVal(y)`, `PutScriptVal(x)`, `PutScriptVal(y)` on one serializer emit the
definitions of `y` and `x`, then backrefs to the second, the second and the first
definition. -/
theorem PutScriptVal_sequence_consistent_witness :
    Env.sharedArray.ValuesWithin [0, 1] ∧
    (∀ b, jsval.object b ∈ [jsval.object 0, .object 1, .object 0] → b ∈ [0, 1]) ∧
    [0, 1].length ≤ 2 ^ 32 - 1 ∧
    (PutScriptVal_sequence Env.sharedArray 2 [.object 0, .object 1, .object 0]
      Ser.fresh).1 = .ok () ∧
    PutScriptVal_sequenceLog Env.sharedArray 2 [.object 0, .object 1, .object 0] Ser.fresh
      = [.definition 0, .definition 1, .backRef 2, .backRef 2, .backRef 1] ∧
    (PutScriptVal_sequence Env.sharedArray 2 [.object 0, .object 1, .object 0]
      Ser.fresh).2.out
      = [2, 2, 0, 0, 0, 1, 0, 0, 0, 48, 2, 0, 0, 0, 0, 1, 0, 0, 0, 49, 8, 2, 0, 0, 0,
          8, 2, 0, 0, 0, 8, 1, 0, 0, 0] ∧
    (Emitted.definitions (PutScriptVal_sequenceLog Env.sharedArray 2
      [.object 0, .object 1, .object 0] Ser.fresh)).Nodup :=
  ⟨Env.ofHeap_valuesWithin _ _ _ (by decide),
    fun b hb => (by
      simp only [List.mem_cons, jsval.object.injEq, List.mem_singleton, List.not_mem_nil,
        or_false] at hb
      rcases hb with h | h | h <;> rw [h] <;> decide),
    by norm_num, by decide, by decide, by decide,
    (PutScriptVal_sequence_consistent Env.sharedArray [0, 1] 2
      [.object 0, .object 1, .object 0] (Env.ofHeap_valuesWithin _ _ _ (by decide))
      (fun b hb => (by
        simp only [List.mem_cons, jsval.object.injEq, List.mem_singleton, List.not_mem_nil,
          or_false] at hb
        rcases hb with h | h | h <;> rw [h] <;> decide))
      (by norm_num) (by decide)).1⟩

theorem GetScriptBackrefTag_out (env : Env) (obj : Nat) (s : Ser) :
    (GetScriptBackrefTag env obj s).2.out = s.out := by
  unfold GetScriptBackrefTag
  split
  · rfl
  · dsimp only
    split <;> rfl

/-- The log against the bytes: where the log of a call on a heap object has a backref, the
call appends the byte `SCRIPT_TYPE_BACKREF` and the four bytes of the tag; where it has a
definition, the call appends the type tag of the object, followed by the bytes of the
traversal of its properties; and a call in which `GetScriptBackrefTag` throws has an empty log
and writes nothing. -/
theorem HandleScriptValLog_stream (env : Env) (fuel obj : Nat) (s : Ser)
    (hT : JS_TypeOfValue env (.object obj) = .JSTYPE_OBJECT) :
    (∀ tag s1, GetScriptBackrefTag env obj s = (.ok tag, s1) → tag ≠ 0 →
      HandleScriptValLog env (fuel + 1) (.object obj) s = [.backRef tag] ∧
      (HandleScriptVal env (fuel + 1) (.object obj) s).2.out
        = s.out ++ [toU8 env.SCRIPT_TYPE_BACKREF] ++ leBytes 4 tag) ∧
    (∀ s1, GetScriptBackrefTag env obj s = (.ok 0, s1) →
      ∃ rest bytes,
        HandleScriptValLog env (fuel + 1) (.object obj) s = .definition obj :: rest ∧
        (HandleScriptVal env (fuel + 1) (.object obj) s).2.out
          = s.out ++ [toU8 (objectTag env obj)] ++ bytes) ∧
    (∀ e s1, GetScriptBackrefTag env obj s = (.throw e, s1) →
      HandleScriptValLog env (fuel + 1) (.object obj) s = [] ∧
      (HandleScriptVal env (fuel + 1) (.object obj) s).2.out = s.out) := by
  have hout := GetScriptBackrefTag_out env obj s
  rw [HandleScriptVal_object env fuel obj s hT, HandleScriptValLog_object env fuel obj s hT]
  refine ⟨?_, ?_, ?_⟩
  · intro tag s1 hg htag
    rw [hg] at hout ⊢
    dsimp only at hout ⊢
    rw [if_pos htag, if_pos htag, NumberU32_Unbounded_eq, NumberU8_Unbounded_eq, Put_out,
      Put_out, hout]
    exact ⟨rfl, rfl⟩
  · intro s1 hg
    rw [hg] at hout ⊢
    dsimp only at hout ⊢
    rw [if_neg (by simp), if_neg (by simp)]
    have h2 : (ISerializer.NumberU8_Unbounded env (objectTag env obj) s1).out
        = s.out ++ [toU8 (objectTag env obj)] := by
      rw [NumberU8_Unbounded_eq, Put_out, hout]
    suffices hx : (ISerializer.NumberU8_Unbounded env (objectTag env obj) s1).Extends
        (match env.JS_Enumerate obj with
          | none =>
            (Outcome.throw PSERROR.Serialize_ScriptError,
              ISerializer.NumberU8_Unbounded env (objectTag env obj) s1)
          | some ida =>
            match IdArrayWrapper_ctor env obj 0 ida.length
                (ISerializer.NumberU8_Unbounded env (objectTag env obj) s1) with
            | (.ok (), s3) =>
              ((propLoop env (HandleScriptVal env fuel) obj 0 ida
                  (ISerializer.NumberU32_Unbounded env (toU32 ida.length) s3)).1,
                IdArrayWrapper_dtor obj ida.length
                  (propLoop env (HandleScriptVal env fuel) obj 0 ida
                    (ISerializer.NumberU32_Unbounded env (toU32 ida.length) s3)).2)
            | (.throw e, s3) => (.throw e, s3)
            | (.outOfFuel, s3) => (.outOfFuel, s3)).2 by
      obtain ⟨⟨b, hb⟩, _⟩ := hx
      exact ⟨_, b, rfl, by rw [hb, h2]⟩
    split
    · exact Ser.Extends.refl _
    · rename_i ida hen
      have hc := IdArrayWrapper_ctor_extends env obj 0 ida.length
        (ISerializer.NumberU8_Unbounded env (objectTag env obj) s1)
      split
      · rename_i s3 hctor
        rw [hctor] at hc
        exact hc.trans ((NumberU32_Unbounded_extends env _ s3).trans
          ((propLoop_extends env _ (HandleScriptVal_extends env fuel) _ _ _ _).trans
            (IdArrayWrapper_dtor_extends _ _ _)))
      · rename_i e s3 hctor
        rw [hctor] at hc
        exact hc
      · rename_i s3 hctor
        rw [hctor] at hc
        exact hc
  · intro e s1 hg
    rw [hg] at hout ⊢
    exact ⟨rfl, hout⟩

/-! ## An object held under the tag `0` -/

/-- In the engine of empty objects, a call on an object that is in the table with the tag `0`
writes the definition of an object without properties. -/
theorem emptyObjects_zero_out (obj : Nat) (s : Ser)
    (h : StdMap.find obj s.backrefs = some 0) :
    (HandleScriptVal Env.emptyObjects 1 (.object obj) s).1 = .ok () ∧
    (HandleScriptVal Env.emptyObjects 1 (.object obj) s).2.out = s.out ++ [3, 0, 0, 0, 0] := by
  have hg : GetScriptBackrefTag Env.emptyObjects obj s = (.ok 0, s) := by
    unfold GetScriptBackrefTag
    rw [h]
  rw [HandleScriptVal_object Env.emptyObjects 0 obj s rfl, hg]
  refine ⟨rfl, ?_⟩
  show (IdArrayWrapper_dtor obj 0 (ISerializer.NumberU32_Unbounded Env.emptyObjects (toU32 0)
    (ISerializer.NumberU8_Unbounded Env.emptyObjects (objectTag Env.emptyObjects obj) s))).out
    = _
  rw [show (IdArrayWrapper_dtor obj 0 (ISerializer.NumberU32_Unbounded Env.emptyObjects
      (toU32 0) (ISerializer.NumberU8_Unbounded Env.emptyObjects
        (objectTag Env.emptyObjects obj) s))).out
    = (ISerializer.NumberU32_Unbounded Env.emptyObjects (toU32 0)
      (ISerializer.NumberU8_Unbounded Env.emptyObjects
        (objectTag Env.emptyObjects obj) s)).out from rfl,
    NumberU32_Unbounded_eq, NumberU8_Unbounded_eq, Put_out, Put_out, List.append_assoc]
  rfl

/-- When the tag counter wraps to `0` for the object `n`, presented after the `n` objects
`0 .. n - 1`, the object `n` is in the table under the tag `0` and the next call on it writes
its definition, not a backref. -/
theorem emptyObjects_tag_zero (n : Nat) (h : toU32 (toU32 n + 1) = 0) :
    (PutScriptVal_sequence Env.emptyObjects 1
      ((List.range n).map jsval.object ++ [.object n]) Ser.fresh).1 = .ok () ∧
    StdMap.find n (PutScriptVal_sequence Env.emptyObjects 1
      ((List.range n).map jsval.object ++ [.object n]) Ser.fresh).2.backrefs = some 0 ∧
    (HandleScriptVal Env.emptyObjects 1 (.object n)
      (PutScriptVal_sequence Env.emptyObjects 1
        ((List.range n).map jsval.object ++ [.object n]) Ser.fresh).2).1 = .ok () ∧
    (HandleScriptVal Env.emptyObjects 1 (.object n)
      (PutScriptVal_sequence Env.emptyObjects 1
        ((List.range n).map jsval.object ++ [.object n]) Ser.fresh).2).2.out
      = (PutScriptVal_sequence Env.emptyObjects 1
          ((List.range n).map jsval.object ++ [.object n]) Ser.fresh).2.out
        ++ [3, 0, 0, 0, 0] := by
  obtain ⟨sA, hseq, hlen, hfind, _⟩ :=
    emptyObjects_sequence (List.range n) Ser.fresh (List.nodup_range n) (fun _ _ => rfl)
  have happ := (PutScriptVal_sequence_append Env.emptyObjects 1
    ((List.range n).map jsval.object) [.object n] Ser.fresh sA hseq).1
  have hnA : StdMap.find n sA.backrefs = none := by
    rw [hfind n (by simp)]
    rfl
  have hlenA : sA.backrefs.length = n := by
    rw [hlen, List.length_range]
    exact Nat.zero_add n
  have hnew := emptyObjects_new n sA hnA
  rcases hv : PutScriptVal Env.emptyObjects 1 (.object n) sA with ⟨out, sB⟩
  rw [hv] at hnew
  obtain ⟨hout, htab, _⟩ := hnew
  dsimp only at hout htab
  subst hout
  have hnB : StdMap.find n sB.backrefs = some 0 := by
    rw [htab, StdMap.find_insert_self n _ _ hnA, hlenA, h]
  have hres : PutScriptVal_sequence Env.emptyObjects 1
      ((List.range n).map jsval.object ++ [.object n]) Ser.fresh = (.ok (), sB) := by
    rw [happ]
    simp only [PutScriptVal_sequence, hv]
  rw [hres]
  have hz := emptyObjects_zero_out n sB hnB
  exact ⟨rfl, hnB, hz.1, hz.2⟩

/-- C4, counterexample: a serializer that has met `2^32 - 1` objects enters the next object,
at address `4294967295`, in its table under the tag `0`.  The object is then one the
serializer has already encountered, and the next `HandleScriptVal` on it does not write
`{BackRef, tag}` but the Object tag and a property count, the definition of the object. -/
theorem HandleScriptVal_redefines_tag_zero :
    (PutScriptVal_sequence Env.emptyObjects 1
      ((List.range 4294967295).map jsval.object ++ [.object 4294967295]) Ser.fresh).1
      = .ok () ∧
    StdMap.find 4294967295 (PutScriptVal_sequence Env.emptyObjects 1
      ((List.range 4294967295).map jsval.object ++ [.object 4294967295])
        Ser.fresh).2.backrefs = some 0 ∧
    (HandleScriptVal Env.emptyObjects 1 (.object 4294967295)
      (PutScriptVal_sequence Env.emptyObjects 1
        ((List.range 4294967295).map jsval.object ++ [.object 4294967295])
          Ser.fresh).2).1 = .ok () ∧
    (HandleScriptVal Env.emptyObjects 1 (.object 4294967295)
      (PutScriptVal_sequence Env.emptyObjects 1
        ((List.range 4294967295).map jsval.object ++ [.object 4294967295])
          Ser.fresh).2).2.out
      = (PutScriptVal_sequence Env.emptyObjects 1
          ((List.range 4294967295).map jsval.object ++ [.object 4294967295])
            Ser.fresh).2.out
        ++ [3, 0, 0, 0, 0] :=
  emptyObjects_tag_zero 4294967295 (by norm_num [toU32])

end CBinarySerializer

end ZeroAD
